import Mathlib

/-!
# Retention decision engine of the code-intelligence janitor

A shallow embedding of `enterprise/cmd/worker/internal/codeintel/janitor`
(`upload_expirer.go`, `policy_matcher.go`) and theorems about it.

Conventions of the embedding:

* Go `int`, `time.Time` (nanoseconds since the epoch) and `time.Duration` are `Int`;
  `Time.Sub` saturates at the bounds of a 64-bit duration as the Go library does.
* A Go function that returns `(T, error)` returns a `Result T`; a nil-pointer
  dereference or a method call on a nil interface is the failure `Failure.panic`;
  an unbounded `for` loop takes a fuel argument and yields `Failure.outOfFuel`
  when the fuel is used up.
* The database store, the gitserver client and the clocks are collaborators acting on
  an abstract state `σ`; every collaborator call is appended to a trace of `Call`s.
* Go maps that are only read are functions or association lists; the mutable
  repository cache is passed and returned explicitly.

Two further source files are embedded in namespaces of their own:
`internal/search/streaming/http/decoder.go` in `StreamHTTP` and the function
`findWorkspaces` of `enterprise/internal/batches/service/workspace_resolver.go` in
`BatchesService`. The definitions of all three come first, the theorems after them.
-/

namespace Janitor

/-! ## Errors and outcomes -/

/-- A Go `error` value: an opaque error of a collaborator, an error wrapped with a
message (`errors.Wrap`), or a `*multierror.Error` holding a list of errors. -/
inductive Error where
  | msg (text : String)
  | wrap (cause : Error) (text : String)
  | multi (errs : List Error)

/-- The function `multierror.Append(err, e)` for a non-nil `err` and one non-nil `e`:
a multierror is extended in place, any other error starts a new multierror; an appended
multierror is flattened. -/
def multierrorAppend (err e : Error) : Error :=
  let flat : List Error := match e with
    | .multi es => es
    | other => [other]
  match err with
  | .multi errs => .multi (errs ++ flat)
  | other => .multi (other :: flat)

/-- The ways a call of an embedded Go function ends without a result: it returns a
non-nil error, it panics, or the fuel of a loop of the embedding is used up. -/
inductive Failure where
  | err (e : Error)
  | panic
  | outOfFuel

/-- Outcome of a call of an embedded Go function. -/
abbrev Result (α : Type) := Except Failure α

/-! ## Data model -/

/-- The type `dbstore.ConfigurationPolicy`, with the fields the janitor reads. -/
structure ConfigurationPolicy where
  ID : Int
  Type_ : String
  Pattern : String
  RetentionEnabled : Bool
  RetentionDuration : Option Int
  RetainIntermediateCommits : Bool
  deriving DecidableEq, Repr

/-- The type `dbstore.Upload`, with the fields the janitor reads. `FinishedAt` is a
pointer in Go and may be nil. -/
structure Upload where
  ID : Int
  RepositoryID : Int
  Commit : String
  State : String
  FinishedAt : Option Int
  deriving DecidableEq, Repr

/-- The type `gitserver.RefType`. -/
inductive RefType where
  | RefTypeUnknown
  | RefTypeBranch
  | RefTypeTag
  deriving DecidableEq, Repr

/-- The type `gitserver.RefDescription`, with the fields the janitor reads. -/
structure RefDescription where
  Name : String
  Type_ : RefType
  deriving DecidableEq, Repr

/-- A compiled pattern of the glob library: the janitor only calls `Match` on it. -/
structure Glob where
  Match : String → Bool

/-- The type `dbstore.GetUploadsOptions`, with the fields `handleRepository` sets. -/
structure GetUploadsOptions where
  State : String
  RepositoryID : Int
  OldestFirst : Bool
  Limit : Int
  LastRetentionScanBefore : Option Int
  deriving DecidableEq, Repr

/-- The type `dbstore.GetConfigurationPoliciesOptions`, with the fields the janitor sets;
`RepositoryID = 0` is the Go zero value of a call that names no repository. -/
structure GetConfigurationPoliciesOptions where
  RepositoryID : Int
  ForDataRetention : Bool
  deriving DecidableEq, Repr

/-! ## Time -/

/-- Largest `time.Duration`. -/
def maxDuration : Int := 2 ^ 63 - 1

/-- Smallest `time.Duration`. -/
def minDuration : Int := -(2 ^ 63)

/-- The method `Time.Sub` of the Go library: the difference `t - u`, saturated to the
range of a duration. -/
def timeSub (t u : Int) : Int :=
  if t - u < minDuration then minDuration
  else if maxDuration < t - u then maxDuration
  else t - u

/-- Negation of a 64-bit duration, wrapping as Go integer arithmetic does. -/
def negDuration (d : Int) : Int :=
  (-d + 2 ^ 63) % 2 ^ 64 - 2 ^ 63

/-- The method `Time.Add`. -/
def timeAdd (t d : Int) : Int := t + d

/-! ## policy_matcher.go -/

/-- The compiled patterns `map[string]glob.Glob`, as an association list. -/
abbrev Patterns := List (String × Glob)

/-- The call `pattern.Match(value)` on a value read from the patterns map: a missing
entry is a nil interface and the call panics. -/
def globMatch (pattern : Option Glob) (value : String) : Result Bool :=
  match pattern with
  | none => .error .panic
  | some g => .ok (g.Match value)

/-- The function `patternMatchesAnyValue`: true if the pattern matches at least one of
the values. -/
def patternMatchesAnyValue (pattern : Option Glob) : List String → Result Bool
  | [] => .ok false
  | value :: values =>
    match globMatch pattern value with
    | .ok true => .ok true
    | .ok false => patternMatchesAnyValue pattern values
    | other => other

/-- The function `refNamesByType`: the names of the reference descriptions, bucketed
into branches and tags, each in the order of the input. -/
def refNamesByType : List RefDescription → List String × List String
  | [] => ([], [])
  | refDescription :: rest =>
    let (branches, tags) := refNamesByType rest
    if refDescription.Type_ = RefType.RefTypeBranch then
      (refDescription.Name :: branches, tags)
    else if refDescription.Type_ = RefType.RefTypeTag then
      (branches, refDescription.Name :: tags)
    else
      (branches, tags)

/-- The Go expression `a && b`, where `b` is evaluated only when `a` holds. -/
def condAnd (a : Bool) (b : Result Bool) : Result Bool :=
  if a then b else .ok false

/-- The loop of the matcher `newTipPolicyMatcher` returns, over the policies. -/
def tipPolicyMatcherLoop (patterns : Patterns) (commit : String)
    (branches tags : List String) : List ConfigurationPolicy → Result Bool
  | [] => .ok false
  | policy :: rest =>
    match condAnd (policy.Type_ = "GIT_COMMIT")
        (globMatch (patterns.lookup policy.Pattern) commit) with
    | .ok true => .ok true
    | .ok false =>
      match condAnd (policy.Type_ = "GIT_TAG")
          (patternMatchesAnyValue (patterns.lookup policy.Pattern) tags) with
      | .ok true => .ok true
      | .ok false =>
        match condAnd (policy.Type_ = "GIT_TREE")
            (patternMatchesAnyValue (patterns.lookup policy.Pattern) branches) with
        | .ok true => .ok true
        | .ok false => tipPolicyMatcherLoop patterns commit branches tags rest
        | other => other
      | other => other
    | other => other

/-- The function `newTipPolicyMatcher`: a matcher that tests a list of policies against
the commit and the tags and branches of which the commit is the tip. -/
def newTipPolicyMatcher (patterns : Patterns) (commit : String)
    (refDescriptions : List RefDescription) : List ConfigurationPolicy → Result Bool :=
  let names := refNamesByType refDescriptions
  fun policies => tipPolicyMatcherLoop patterns commit names.1 names.2 policies

/-- The loop of the matcher `newContainsPolicyMatcher` returns, over the policies. -/
def containsPolicyMatcherLoop (patterns : Patterns) (branches : List String) :
    List ConfigurationPolicy → Result Bool
  | [] => .ok false
  | policy :: rest =>
    match patternMatchesAnyValue (patterns.lookup policy.Pattern) branches with
    | .ok true => .ok true
    | .ok false => containsPolicyMatcherLoop patterns branches rest
    | other => other

/-- The function `newContainsPolicyMatcher`: a matcher that tests a list of policies
against the branches that contain the commit. The commit itself is not used. -/
def newContainsPolicyMatcher (patterns : Patterns) (_commit : String)
    (branches : List String) : List ConfigurationPolicy → Result Bool :=
  fun policies => containsPolicyMatcherLoop patterns branches policies

/-! ## Collaborators -/

/-- A call the janitor makes to a collaborator, with its arguments. -/
inductive Call where
  | RepositoryIDsForRetentionScan (processDelay : Int) (limit : Int)
  | GetConfigurationPolicies (opts : GetConfigurationPoliciesOptions)
  | GetUploads (opts : GetUploadsOptions)
  | CommitsVisibleToUpload (uploadID : Int) (limit : Int) (offset : Int)
  | UpdateUploadRetention (protectedIDs : List Int) (expiredIDs : List Int)
  | RefDescriptions (repositoryID : Int)
  | BranchesContaining (repositoryID : Int) (commit : String)
  | globCompile (pattern : String)
  deriving DecidableEq, Repr

/-- The state of the collaborators together with the calls made so far, oldest first. -/
structure World (σ : Type) where
  state : σ
  trace : List Call

/-- Makes a collaborator call: runs it on the state and appends it to the trace. -/
def World.call {σ α : Type} (w : World σ) (c : Call) (op : σ → α × σ) : α × World σ :=
  ((op w.state).1, { state := (op w.state).2, trace := w.trace ++ [c] })

/-- The interface `DBStore`, with the methods the upload expirer calls. -/
structure DBStore (σ : Type) where
  RepositoryIDsForRetentionScan : σ → Int → Int → Except Error (List Int) × σ
  GetConfigurationPolicies :
    σ → GetConfigurationPoliciesOptions → Except Error (List ConfigurationPolicy) × σ
  GetUploads : σ → GetUploadsOptions → Except Error (List Upload) × σ
  CommitsVisibleToUpload : σ → Int → Int → Int → Except Error (List String) × σ
  UpdateUploadRetention : σ → List Int → List Int → Except Error Unit × σ

/-- The interface `GitserverClient`, with the methods the upload expirer calls. -/
structure GitserverClient (σ : Type) where
  RefDescriptions : σ → Int → Except Error (String → List RefDescription) × σ
  BranchesContaining : σ → Int → String → Except Error (List String) × σ

/-- The struct `uploadExpirer`, together with the package-level functions its methods
call: `glob.Compile`, `time.Now` and `timeutil.Now`. -/
structure uploadExpirer (σ : Type) where
  dbStore : DBStore σ
  gitserverClient : GitserverClient σ
  repositoryProcessDelay : Int
  repositoryBatchSize : Int
  uploadProcessDelay : Int
  uploadBatchSize : Int
  globCompile : String → Except Error Glob
  timeNow : σ → Int × σ
  timeutilNow : σ → Int × σ

/-! ## The repository cache -/

/-- Modelled from the spec: the fixed-capacity least-recently-used cache
`lru.Cache` of the library `hashicorp/golang-lru`, whose source is not part of the
repository. The entries are kept most recently used first. -/
structure LRU where
  size : Nat
  items : List (String × List String)

/-- Modelled from the spec: `Cache.Get`, which returns the value of the key, if any,
and makes the entry the most recently used. -/
def LRU.Get (c : LRU) (key : String) : Option (List String) × LRU :=
  match c.items.lookup key with
  | some value =>
    (some value, { c with items := (key, value) :: c.items.filter (fun x => x.1 != key) })
  | none => (none, c)

/-- Modelled from the spec: `Cache.Add`, which stores the value as the most recently
used entry and evicts the least recently used entry when the capacity is exceeded. -/
def LRU.Add (c : LRU) (key : String) (value : List String) : LRU :=
  match c.items.lookup key with
  | some _ => { c with items := (key, value) :: c.items.filter (fun x => x.1 != key) }
  | none =>
    if c.size < (c.items.length + 1) then
      { c with items := ((key, value) :: c.items).dropLast }
    else
      { c with items := (key, value) :: c.items }

/-- The constant `repositoryCacheBranchesMaxKeys`. -/
def repositoryCacheBranchesMaxKeys : Nat := 10000

/-- The struct `repositoryCache`: the set of commits shown to be protected, and the
cache from commits to the branches that contain them. -/
structure repositoryCache where
  protectedCommits : List String
  branchesContaining : LRU

/-- The function `newRepositoryCache`. -/
def newRepositoryCache : repositoryCache :=
  { protectedCommits := [],
    branchesContaining := { size := repositoryCacheBranchesMaxKeys, items := [] } }

/-! ## upload_expirer.go: the protection check -/

/-- The function `policyCoversUpload`: true if the policy has no retention duration, or
if the age of the upload at the time read from `timeutil.Now` is at most the duration.
The clock is read only when the policy has a duration, and the upload's completion time
is dereferenced after that. -/
def policyCoversUpload {σ : Type} (timeutilNow : σ → Int × σ)
    (policy : ConfigurationPolicy) (upload : Upload) (w : World σ) :
    Result Bool × World σ :=
  match policy.RetentionDuration with
  | none => (.ok true, w)
  | some duration =>
    let w1 : World σ := { w with state := (timeutilNow w.state).2 }
    match upload.FinishedAt with
    | none => (.error .panic, w1)
    | some finishedAt =>
      (.ok (decide (timeSub (timeutilNow w.state).1 finishedAt ≤ duration)), w1)

/-- The function `filterPolicies`: the policies that pass the filter, in order. -/
def filterPolicies {σ : Type}
    (filter : ConfigurationPolicy → World σ → Result Bool × World σ) :
    List ConfigurationPolicy → World σ → Result (List ConfigurationPolicy) × World σ
  | [], w => (.ok [], w)
  | policy :: rest, w =>
    match filter policy w with
    | (.error f, w1) => (.error f, w1)
    | (.ok keep, w1) =>
      match filterPolicies filter rest w1 with
      | (.error f, w2) => (.error f, w2)
      | (.ok filtered, w2) => (.ok (if keep then policy :: filtered else filtered), w2)

/-- The loop of `isUploadProtectedByPolicyFastPath` over the commits of a page. -/
def fastPathLoop (patterns : Patterns) (refDescriptions : String → List RefDescription)
    (policies : List ConfigurationPolicy) (cache : repositoryCache) :
    List String → Result Bool × repositoryCache
  | [] => (.ok false, cache)
  | commit :: rest =>
    match newTipPolicyMatcher patterns commit (refDescriptions commit) policies with
    | .error f => (.error f, cache)
    | .ok true =>
      (.ok true, { cache with protectedCommits := cache.protectedCommits.insert commit })
    | .ok false => fastPathLoop patterns refDescriptions policies cache rest

/-- The method `isUploadProtectedByPolicyFastPath`: keeps the policies that cover the
age of the upload and matches them against the tips of the commits of the page. -/
def isUploadProtectedByPolicyFastPath {σ : Type} (e : uploadExpirer σ)
    (policies : List ConfigurationPolicy) (patterns : Patterns)
    (refDescriptions : String → List RefDescription) (cache : repositoryCache)
    (upload : Upload) (commits : List String) (w : World σ) :
    Result Bool × repositoryCache × World σ :=
  match filterPolicies (fun policy => policyCoversUpload e.timeutilNow policy upload)
      policies w with
  | (.error f, w1) => (.error f, cache, w1)
  | (.ok policies, w1) =>
    if policies.length = 0 then (.ok false, cache, w1)
    else
      ((fastPathLoop patterns refDescriptions policies cache commits).1,
       (fastPathLoop patterns refDescriptions policies cache commits).2, w1)

/-- The loop of `isUploadProtectedByPolicySlowPath` over the commits of a page. -/
def slowPathLoop {σ : Type} (e : uploadExpirer σ) (patterns : Patterns)
    (policies : List ConfigurationPolicy) (upload : Upload) :
    List String → repositoryCache → World σ → Result Bool × repositoryCache × World σ
  | [], cache, w => (.ok false, cache, w)
  | commit :: rest, cache, w =>
    match cache.branchesContaining.Get commit with
    | (some branches, lru) =>
      match newContainsPolicyMatcher patterns commit branches policies with
      | .error f => (.error f, { cache with branchesContaining := lru }, w)
      | .ok true =>
        (.ok true, { protectedCommits := cache.protectedCommits.insert commit,
                     branchesContaining := lru }, w)
      | .ok false =>
        slowPathLoop e patterns policies upload rest { cache with branchesContaining := lru } w
    | (none, lru) =>
      match w.call (.BranchesContaining upload.RepositoryID commit)
          (fun s => e.gitserverClient.BranchesContaining s upload.RepositoryID commit) with
      | (.error err, w1) => (.error (.err err), { cache with branchesContaining := lru }, w1)
      | (.ok newBranches, w1) =>
        match newContainsPolicyMatcher patterns commit newBranches policies with
        | .error f =>
          (.error f, { cache with branchesContaining := lru.Add commit newBranches }, w1)
        | .ok true =>
          (.ok true, { protectedCommits := cache.protectedCommits.insert commit,
                       branchesContaining := lru.Add commit newBranches }, w1)
        | .ok false =>
          slowPathLoop e patterns policies upload rest
            { cache with branchesContaining := lru.Add commit newBranches } w1

/-- The method `isUploadProtectedByPolicySlowPath`: keeps the policies that retain
intermediate commits and cover the age of the upload, and matches them against the
branches that contain the commits of the page. -/
def isUploadProtectedByPolicySlowPath {σ : Type} (e : uploadExpirer σ)
    (policies : List ConfigurationPolicy) (patterns : Patterns) (cache : repositoryCache)
    (upload : Upload) (commits : List String) (w : World σ) :
    Result Bool × repositoryCache × World σ :=
  match filterPolicies
      (fun policy w =>
        if policy.RetainIntermediateCommits then policyCoversUpload e.timeutilNow policy upload w
        else (.ok false, w))
      policies w with
  | (.error f, w1) => (.error f, cache, w1)
  | (.ok policies, w1) =>
    if policies.length = 0 then (.ok false, cache, w1)
    else slowPathLoop e patterns policies upload commits cache w1

/-- The method `isUploadProtectedByPolicy`, from the page at the given offset on: the
`for` loop over the pages of visible commits, with page size 100. -/
def isUploadProtectedByPolicyFrom {σ : Type} (e : uploadExpirer σ)
    (policies : List ConfigurationPolicy) (patterns : Patterns)
    (refDescriptions : String → List RefDescription) (upload : Upload) :
    Nat → Int → repositoryCache → World σ → Result Bool × repositoryCache × World σ
  | 0, _, cache, w => (.error .outOfFuel, cache, w)
  | fuel + 1, offset, cache, w =>
    match w.call (.CommitsVisibleToUpload upload.ID 100 offset)
        (fun s => e.dbStore.CommitsVisibleToUpload s upload.ID 100 offset) with
    | (.error err, w1) => (.error (.err err), cache, w1)
    | (.ok commits, w1) =>
      if commits.length = 0 then (.ok false, cache, w1)
      else if commits.any (fun commit => decide (commit ∈ cache.protectedCommits)) then
        (.ok true, cache, w1)
      else
        match isUploadProtectedByPolicyFastPath e policies patterns refDescriptions cache
            upload commits w1 with
        | (.ok false, cache2, w2) =>
          match isUploadProtectedByPolicySlowPath e policies patterns cache2 upload commits
              w2 with
          | (.ok false, cache3, w3) =>
            isUploadProtectedByPolicyFrom e policies patterns refDescriptions upload fuel
              (offset + commits.length) cache3 w3
          | other => other
        | other => other

/-- The method `isUploadProtectedByPolicy`. -/
def isUploadProtectedByPolicy {σ : Type} (e : uploadExpirer σ) (fuel : Nat)
    (policies : List ConfigurationPolicy) (patterns : Patterns)
    (refDescriptions : String → List RefDescription) (cache : repositoryCache)
    (upload : Upload) (w : World σ) : Result Bool × repositoryCache × World σ :=
  isUploadProtectedByPolicyFrom e policies patterns refDescriptions upload fuel 0 cache w

/-! ## upload_expirer.go: batches, repositories, the handler -/

/-- The loop of `handleUploads` over the uploads of a batch: evaluates each upload and
appends its ID to the protected or to the expired list. -/
def handleUploadsLoop {σ : Type} (e : uploadExpirer σ) (fuel : Nat)
    (policies : List ConfigurationPolicy) (patterns : Patterns)
    (refDescriptions : String → List RefDescription) :
    List Upload → List Int → List Int → repositoryCache → World σ →
      Result (List Int × List Int) × repositoryCache × World σ
  | [], protectedUploadIDs, expiredUploadIDs, cache, w =>
    (.ok (protectedUploadIDs, expiredUploadIDs), cache, w)
  | upload :: rest, protectedUploadIDs, expiredUploadIDs, cache, w =>
    match isUploadProtectedByPolicy e fuel policies patterns refDescriptions cache upload w with
    | (.error f, cache1, w1) => (.error f, cache1, w1)
    | (.ok true, cache1, w1) =>
      handleUploadsLoop e fuel policies patterns refDescriptions rest
        (protectedUploadIDs ++ [upload.ID]) expiredUploadIDs cache1 w1
    | (.ok false, cache1, w1) =>
      handleUploadsLoop e fuel policies patterns refDescriptions rest
        protectedUploadIDs (expiredUploadIDs ++ [upload.ID]) cache1 w1

/-- The method `handleUploads`: evaluates every upload of the batch, then makes one
`UpdateUploadRetention` call with the protected and the expired IDs. -/
def handleUploads {σ : Type} (e : uploadExpirer σ) (fuel : Nat)
    (policies : List ConfigurationPolicy) (patterns : Patterns)
    (refDescriptions : String → List RefDescription) (cache : repositoryCache)
    (uploads : List Upload) (w : World σ) : Result Unit × repositoryCache × World σ :=
  match handleUploadsLoop e fuel policies patterns refDescriptions uploads [] [] cache w with
  | (.error f, cache1, w1) => (.error f, cache1, w1)
  | (.ok ids, cache1, w1) =>
    match w1.call (.UpdateUploadRetention ids.1 ids.2)
        (fun s => e.dbStore.UpdateUploadRetention s ids.1 ids.2) with
    | (.error err, w2) => (.error (.err err), cache1, w2)
    | (.ok _, w2) => (.ok (), cache1, w2)

/-- The message `handleRepository` wraps a glob compile error with. -/
def compileErrorMessage (policy : ConfigurationPolicy) : String :=
  "failed to compile glob pattern \x60" ++ policy.Pattern ++
    "\x60 in configuration policy " ++ toString policy.ID

/-- The pattern loop of `handleRepository`: compiles the pattern of each policy unless
the map already has it, and stops at the first pattern that fails to compile. -/
def compilePatterns {σ : Type} (e : uploadExpirer σ) :
    List ConfigurationPolicy → Patterns → World σ → Result Patterns × World σ
  | [], patterns, w => (.ok patterns, w)
  | policy :: rest, patterns, w =>
    match patterns.lookup policy.Pattern with
    | some _ => compilePatterns e rest patterns w
    | none =>
      match e.globCompile policy.Pattern with
      | .error err =>
        (.error (.err (.wrap err (compileErrorMessage policy))),
         { w with trace := w.trace ++ [.globCompile policy.Pattern] })
      | .ok pattern =>
        compilePatterns e rest ((policy.Pattern, pattern) :: patterns)
          { w with trace := w.trace ++ [.globCompile policy.Pattern] }

/-- The options of the `GetUploads` calls of `handleRepository`. -/
def getUploadsOptions {σ : Type} (e : uploadExpirer σ) (repositoryID : Int)
    (lastRetentionScanBefore : Int) : GetUploadsOptions :=
  { State := "completed",
    RepositoryID := repositoryID,
    OldestFirst := true,
    Limit := e.uploadBatchSize,
    LastRetentionScanBefore := some lastRetentionScanBefore }

/-- The batch loop of `handleRepository`: fetches batches of uploads and handles them
until a fetch returns no upload. -/
def handleRepositoryLoop {σ : Type} (e : uploadExpirer σ) (pageFuel : Nat)
    (repositoryID : Int) (policies : List ConfigurationPolicy) (patterns : Patterns)
    (refDescriptions : String → List RefDescription) (lastRetentionScanBefore : Int) :
    Nat → repositoryCache → World σ → Result Unit × repositoryCache × World σ
  | 0, cache, w => (.error .outOfFuel, cache, w)
  | fuel + 1, cache, w =>
    match w.call (.GetUploads (getUploadsOptions e repositoryID lastRetentionScanBefore))
        (fun s => e.dbStore.GetUploads s
          (getUploadsOptions e repositoryID lastRetentionScanBefore)) with
    | (.error err, w1) => (.error (.err err), cache, w1)
    | (.ok uploads, w1) =>
      if uploads.length = 0 then (.ok (), cache, w1)
      else
        match handleUploads e pageFuel policies patterns refDescriptions cache uploads w1 with
        | (.error f, cache2, w2) => (.error f, cache2, w2)
        | (.ok _, cache2, w2) =>
          handleRepositoryLoop e pageFuel repositoryID policies patterns refDescriptions
            lastRetentionScanBefore fuel cache2 w2

/-- The method `handleRepository`. The fuel bounds the number of batches and, for each
upload, the number of pages of visible commits. -/
def handleRepository {σ : Type} (e : uploadExpirer σ) (fuel : Nat) (repositoryID : Int)
    (globalPolicies : List ConfigurationPolicy) (w : World σ) : Result Unit × World σ :=
  match w.call (.GetConfigurationPolicies
          { RepositoryID := repositoryID, ForDataRetention := true })
      (fun s => e.dbStore.GetConfigurationPolicies s
          { RepositoryID := repositoryID, ForDataRetention := true }) with
  | (.error err, w1) => (.error (.err err), w1)
  | (.ok repositoryPolicies, w1) =>
    match compilePatterns e (globalPolicies ++ repositoryPolicies) [] w1 with
    | (.error f, w2) => (.error f, w2)
    | (.ok patterns, w2) =>
      match w2.call (.RefDescriptions repositoryID)
          (fun s => e.gitserverClient.RefDescriptions s repositoryID) with
      | (.error err, w3) => (.error (.err err), w3)
      | (.ok refDescriptions, w3) =>
        let w4 : World σ := { w3 with state := (e.timeNow w3.state).2 }
        let lastRetentionScanBefore :=
          timeAdd (e.timeNow w3.state).1 (negDuration e.uploadProcessDelay)
        let r := handleRepositoryLoop e fuel repositoryID (globalPolicies ++ repositoryPolicies)
          patterns refDescriptions lastRetentionScanBefore fuel newRepositoryCache w4
        (r.1, r.2.2)

/-- The loop of `Handle` over the selected repositories, with the error accumulated in
the named result `err`. A returned error does not stop the loop; a panic does. -/
def handleLoop {σ : Type} (e : uploadExpirer σ) (fuel : Nat)
    (globalPolicies : List ConfigurationPolicy) :
    List Int → Option Error → World σ → Result (Option Error) × World σ
  | [], err, w => (.ok err, w)
  | repositoryID :: rest, err, w =>
    match handleRepository e fuel repositoryID globalPolicies w with
    | (.ok _, w1) => handleLoop e fuel globalPolicies rest err w1
    | (.error (.err repositoryErr), w1) =>
      match err with
      | none => handleLoop e fuel globalPolicies rest (some repositoryErr) w1
      | some err0 =>
        handleLoop e fuel globalPolicies rest (some (multierrorAppend err0 repositoryErr)) w1
    | (.error f, w1) => (.error f, w1)

/-- The method `Handle`. After the loop over the repositories the method ends with
`return nil`, whatever error the loop has accumulated. -/
def Handle {σ : Type} (e : uploadExpirer σ) (fuel : Nat) (w : World σ) :
    Result Unit × World σ :=
  match w.call (.RepositoryIDsForRetentionScan e.repositoryProcessDelay e.repositoryBatchSize)
      (fun s => e.dbStore.RepositoryIDsForRetentionScan s e.repositoryProcessDelay
        e.repositoryBatchSize) with
  | (.error err, w1) => (.error (.err err), w1)
  | (.ok repositoryIDs, w1) =>
    if repositoryIDs.length = 0 then (.ok (), w1)
    else
      match w1.call (.GetConfigurationPolicies { RepositoryID := 0, ForDataRetention := true })
          (fun s => e.dbStore.GetConfigurationPolicies s
            { RepositoryID := 0, ForDataRetention := true }) with
      | (.error err, w2) => (.error (.err err), w2)
      | (.ok globalPolicies, w2) =>
        match handleLoop e fuel globalPolicies repositoryIDs none w2 with
        | (.error f, w3) => (.error f, w3)
        | (.ok _, w3) => (.ok (), w3)

/-! ## Pure readings used in the statements -/

/-- What one policy contributes to the tip matcher, given its compiled pattern. -/
def tipMatches (g : Glob) (commit : String) (branches tags : List String)
    (policy : ConfigurationPolicy) : Bool :=
  (decide (policy.Type_ = "GIT_COMMIT") && g.Match commit) ||
  (decide (policy.Type_ = "GIT_TAG") && tags.any g.Match) ||
  (decide (policy.Type_ = "GIT_TREE") && branches.any g.Match)

/-- Every policy of the list has an entry in the patterns map. -/
def AllCompiled (patterns : Patterns) (policies : List ConfigurationPolicy) : Prop :=
  ∀ policy ∈ policies, ∃ g, patterns.lookup policy.Pattern = some g

/-! ## Concrete values used in the examples -/

/-- A compiled pattern that matches every string, as the glob `*` does. -/
def globAny : Glob := { Match := fun _ => true }

/-- A compiled pattern that matches exactly one string. -/
def globExact (name : String) : Glob := { Match := fun value => value == name }

/-- A tag policy with pattern `*` and no retention duration. -/
def tagPolicy : ConfigurationPolicy :=
  { ID := 1, Type_ := "GIT_TAG", Pattern := "*", RetentionEnabled := true,
    RetentionDuration := none, RetainIntermediateCommits := false }

/-- A branch policy with pattern `*`, a duration of 90 and intermediate commits
retained. -/
def treePolicy : ConfigurationPolicy :=
  { ID := 2, Type_ := "GIT_TREE", Pattern := "*", RetentionEnabled := true,
    RetentionDuration := some 90, RetainIntermediateCommits := true }

/-- An upload of repository 50 completed at time 10. -/
def upload1 : Upload :=
  { ID := 1, RepositoryID := 50, Commit := "c1", State := "completed", FinishedAt := some 10 }

/-! ## Reading the trace -/

/-- The call is a `BranchesContaining` query. -/
def Call.isBranchesContaining : Call → Bool
  | .BranchesContaining _ _ => true
  | _ => false

/-- The call is a `CommitsVisibleToUpload` request. -/
def Call.isCommitsVisibleToUpload : Call → Bool
  | .CommitsVisibleToUpload _ _ _ => true
  | _ => false

/-- The call is an `UpdateUploadRetention` call. -/
def Call.isUpdateUploadRetention : Call → Bool
  | .UpdateUploadRetention _ _ => true
  | _ => false

/-- The call is a `RefDescriptions` call. -/
def Call.isRefDescriptions : Call → Bool
  | .RefDescriptions _ => true
  | _ => false

/-- The call is a `GetUploads` call. -/
def Call.isGetUploads : Call → Bool
  | .GetUploads _ => true
  | _ => false

/-- The call is a call of the glob compiler. -/
def Call.isGlobCompile : Call → Bool
  | .globCompile _ => true
  | _ => false

/-- The call is one the evaluation of an upload can make: a `CommitsVisibleToUpload`
request or a `BranchesContaining` query. -/
def Call.isEvaluation (c : Call) : Bool :=
  c.isCommitsVisibleToUpload || c.isBranchesContaining

/-- The world `w2` is the world `w1` after further calls that all satisfy `P`. -/
def TraceExt {σ : Type} (P : Call → Prop) (w1 w2 : World σ) : Prop :=
  ∃ added, w2.trace = w1.trace ++ added ∧ ∀ c ∈ added, P c

/-- The glob compiler rejects the pattern of the policy. -/
def compileFails {σ : Type} (e : uploadExpirer σ) (policy : ConfigurationPolicy) : Bool :=
  match e.globCompile policy.Pattern with
  | .error _ => true
  | .ok _ => false

/-- A store without state: the repositories, the policies of each repository, the
batches of uploads of each repository and the pages of visible commits are given as
functions of the arguments of the calls. -/
def stubStore (repositoryIDs : List Int)
    (policiesOf : Int → Except Error (List ConfigurationPolicy))
    (uploadsOf : Int → Except Error (List Upload))
    (visible : Int → Int → Int → Except Error (List String)) : DBStore Unit :=
  { RepositoryIDsForRetentionScan := fun s _ _ => (.ok repositoryIDs, s),
    GetConfigurationPolicies := fun s opts => (policiesOf opts.RepositoryID, s),
    GetUploads := fun s opts => (uploadsOf opts.RepositoryID, s),
    CommitsVisibleToUpload := fun s uploadID limit offset => (visible uploadID limit offset, s),
    UpdateUploadRetention := fun s _ _ => (.ok (), s) }

/-- A gitserver without state and without tips: the branches that contain a commit are
given as a function of the commit. -/
def stubGitserver (containing : String → Except Error (List String)) : GitserverClient Unit :=
  { RefDescriptions := fun s _ => (.ok (fun _ => []), s),
    BranchesContaining := fun s _ commit => (containing commit, s) }

/-- A glob compiler that accepts every pattern but `[` and compiles it to the pattern
that matches every string. -/
def stubCompile (pattern : String) : Except Error Glob :=
  if pattern = "[" then .error (.msg "unexpected end of input") else .ok globAny

/-- An upload expirer over stub collaborators, with the clock stopped at `now`. -/
def stubExpirer (store : DBStore Unit) (gitserver : GitserverClient Unit) (now : Int) :
    uploadExpirer Unit :=
  { dbStore := store,
    gitserverClient := gitserver,
    repositoryProcessDelay := 0,
    repositoryBatchSize := 100,
    uploadProcessDelay := 0,
    uploadBatchSize := 100,
    globCompile := stubCompile,
    timeNow := fun s => (now, s),
    timeutilNow := fun s => (now, s) }

/-- The world before any call. -/
def world0 : World Unit := { state := (), trace := [] }

/-- An upload of repository 50 completed at time 20. -/
def upload2 : Upload :=
  { ID := 2, RepositoryID := 50, Commit := "c2", State := "completed", FinishedAt := some 20 }

/-- An expirer whose store selects repository 50 and fails to load its policies. -/
def expirerPoliciesFail : uploadExpirer Unit :=
  stubExpirer
    (stubStore [50]
      (fun repositoryID =>
        if repositoryID = 0 then .ok [] else .error (.msg "policies unavailable"))
      (fun _ => .ok []) (fun _ _ _ => .ok []))
    (stubGitserver (fun _ => .ok [])) 100

/-- An expirer whose store serves the commit `c1` for upload 1 and fails to list the
commits of every other upload. -/
def expirerCommitsFail : uploadExpirer Unit :=
  stubExpirer
    (stubStore [50] (fun _ => .ok []) (fun _ => .ok [])
      (fun uploadID _ offset =>
        if uploadID = 1 then (if offset = 0 then .ok ["c1"] else .ok [])
        else .error (.msg "commits unavailable")))
    (stubGitserver (fun _ => .ok [])) 100

/-- A policy whose pattern the stub compiler rejects. -/
def badPolicy : ConfigurationPolicy :=
  { ID := 7, Type_ := "GIT_TREE", Pattern := "[", RetentionEnabled := true,
    RetentionDuration := none, RetainIntermediateCommits := false }

/-- An expirer whose store selects repository 50 and gives it the policy with the
rejected pattern. -/
def expirerBadPattern : uploadExpirer Unit :=
  stubExpirer
    (stubStore [50] (fun repositoryID => if repositoryID = 0 then .ok [] else .ok [badPolicy])
      (fun _ => .ok []) (fun _ _ _ => .ok []))
    (stubGitserver (fun _ => .ok [])) 100

/-! ## Pure readings of the protection check -/

/-- The policy covers an upload completed at `finishedAt` when the clock reads `now`. -/
def covers (now : Int) (finishedAt : Int) (policy : ConfigurationPolicy) : Bool :=
  match policy.RetentionDuration with
  | none => true
  | some duration => decide (timeSub now finishedAt ≤ duration)

/-- Some policy of the list matches the commit hash or a tag or branch tipping it. -/
def tipProtected (patterns : Patterns) (refDescriptions : String → List RefDescription)
    (policies : List ConfigurationPolicy) (commit : String) : Bool :=
  policies.any (fun policy =>
    match patterns.lookup policy.Pattern with
    | some g =>
      tipMatches g commit (refNamesByType (refDescriptions commit)).1
        (refNamesByType (refDescriptions commit)).2 policy
    | none => false)

/-- Some policy of the list matches a branch that contains the commit. -/
def containsProtected (patterns : Patterns) (containing : String → List String)
    (policies : List ConfigurationPolicy) (commit : String) : Bool :=
  policies.any (fun policy =>
    match patterns.lookup policy.Pattern with
    | some g => (containing commit).any g.Match
    | none => false)

/-- The commit protects an upload completed at `finishedAt`: a covering policy matches
one of its tips, or a covering policy that retains intermediate commits matches a branch
that contains it. -/
def commitProtected (patterns : Patterns) (refDescriptions : String → List RefDescription)
    (containing : String → List String) (policies : List ConfigurationPolicy)
    (now finishedAt : Int) (commit : String) : Bool :=
  tipProtected patterns refDescriptions (policies.filter (covers now finishedAt)) commit ||
  containsProtected patterns containing
    (policies.filter (fun policy =>
      policy.RetainIntermediateCommits && covers now finishedAt policy)) commit

/-- Every entry of the branches cache holds the branches `containing` gives for its
commit. -/
def LRUConsistent (containing : String → List String) (c : LRU) : Prop :=
  ∀ key value, (key, value) ∈ c.items → value = containing key

/-- From the given offset on, the function `visible` serves the pages of the list, none
of them empty, and then an empty page. -/
def ServesPages (visible : Int → List String) : Int → List (List String) → Prop
  | offset, [] => visible offset = []
  | offset, page :: rest =>
    page ≠ [] ∧ visible offset = page ∧ ServesPages visible (offset + page.length) rest

/-- A full page of 100 distinct commits, `d00` to `d99`. -/
def fullPage : List String :=
  "0123456789".toList.flatMap (fun x =>
    "0123456789".toList.map (fun y => String.mk ['d', x, y]))

/-- The pages of visible commits of the example uploads: upload 1 is visible from `c1`;
upload 2 is visible from `c2` and `c1`, served one commit a page; upload 3 is visible
from the 100 commits of `fullPage`, which fill the first page, and from `c1`. -/
def examplePages (uploadID : Int) (offset : Int) : List String :=
  if uploadID = 1 then (if offset = 0 then ["c1"] else [])
  else if uploadID = 2 then
    (if offset = 0 then ["c2"] else if offset = 1 then ["c1"] else [])
  else if uploadID = 3 then
    (if offset = 0 then fullPage else if offset = 100 then ["c1"] else [])
  else []

/-- The branches that contain the example commits: `develop` contains `c1`, and
`feature` contains `c2`. -/
def exampleContaining (commit : String) : List String :=
  if commit = "c1" then ["develop"] else if commit = "c2" then ["feature"] else []

/-- An expirer over the example pages and branches, with no tips and the clock stopped at
100. -/
def exampleExpirer : uploadExpirer Unit :=
  stubExpirer
    (stubStore [50] (fun _ => .ok []) (fun _ => .ok [])
      (fun uploadID _ offset => .ok (examplePages uploadID offset)))
    (stubGitserver (fun commit => .ok (exampleContaining commit))) 100

/-- A branch policy with pattern `develop`, no retention duration and intermediate
commits retained. -/
def developPolicy : ConfigurationPolicy :=
  { ID := 3, Type_ := "GIT_TREE", Pattern := "develop", RetentionEnabled := true,
    RetentionDuration := none, RetainIntermediateCommits := true }

/-- An upload of repository 50 completed at time 20, visible from 101 commits. -/
def upload3 : Upload :=
  { ID := 3, RepositoryID := 50, Commit := "d00", State := "completed", FinishedAt := some 20 }

/-- The repository cache after upload 1 has been evaluated under the policy `develop`:
its visible commit `c1` is contained in `develop` and has been recorded as protected. -/
def cacheAfterUpload1 : repositoryCache :=
  (isUploadProtectedByPolicy exampleExpirer 5 [developPolicy]
    [("develop", globExact "develop")] (fun _ => []) newRepositoryCache upload1 world0).2.1

/-! ## Readings used for the batch loop -/

/-- The outcome is the exhaustion of the fuel of a loop of the embedding. -/
def timedOut {α : Type} (r : Result α) : Bool :=
  match r with
  | .error .outOfFuel => true
  | _ => false

/-- One call of a collaborator takes the state `s` to the state `s1`. -/
def StoreStep {σ : Type} (e : uploadExpirer σ) (s s1 : σ) : Prop :=
  s1 = (e.timeutilNow s).2 ∨
  (∃ uploadID limit offset, s1 = (e.dbStore.CommitsVisibleToUpload s uploadID limit offset).2) ∨
  (∃ repositoryID commit,
    s1 = (e.gitserverClient.BranchesContaining s repositoryID commit).2) ∨
  (∃ opts, s1 = (e.dbStore.GetUploads s opts).2) ∨
  (∃ protectedIDs expiredIDs,
    s1 = (e.dbStore.UpdateUploadRetention s protectedIDs expiredIDs).2)

/-- Some sequence of collaborator calls takes the state `s` to the state `s1`. -/
def Reach {σ : Type} (e : uploadExpirer σ) (s s1 : σ) : Prop :=
  Relation.ReflTransGen (StoreStep e) s s1

/-- What a state of the store says about the retention scan of each upload: whether it
is flagged as expired, and when it was last scanned. -/
structure RetentionView (σ : Type) where
  expired : σ → Int → Bool
  lastScan : σ → Int → Option Int

/-- The upload is settled for the scan with the given boundary: it is flagged as
expired, or its last-scan time is not before the boundary. -/
def RetentionView.settled {σ : Type} (v : RetentionView σ) (boundary : Int) (s : σ)
    (uploadID : Int) : Bool :=
  v.expired s uploadID ||
    (match v.lastScan s uploadID with
      | some t => decide (boundary ≤ t)
      | none => false)

/-- The number of requests for the first page of visible commits of the upload among the
calls: every evaluation of an upload starts with one such request. -/
def evaluations (uploadID : Int) (calls : List Call) : Nat :=
  calls.count (Call.CommitsVisibleToUpload uploadID 100 0)

/-- The state of the example store with retention scans: the uploads flagged as expired
and the uploads whose last-scan time has been set, always to the time 100. -/
structure ScanState where
  expired : List Int
  scanned : List Int

/-- A store that holds the uploads 1 and 2 of repository 50: `GetUploads` returns the
uploads of the repository that are neither expired nor scanned at or after the boundary,
and `UpdateUploadRetention` flags the expired IDs and stamps the protected IDs. -/
def scanStore : DBStore ScanState :=
  { RepositoryIDsForRetentionScan := fun s _ _ => (.ok [50], s),
    GetConfigurationPolicies := fun s _ => (.ok [], s),
    GetUploads := fun s opts =>
      (.ok (([upload1, upload2].filter (fun u =>
          decide (u.RepositoryID = opts.RepositoryID) && !decide (u.ID ∈ s.expired) &&
          !(decide (u.ID ∈ s.scanned) &&
            !decide (100 < opts.LastRetentionScanBefore.getD 0)))).take opts.Limit.toNat), s),
    CommitsVisibleToUpload := fun s uploadID _ offset => (.ok (examplePages uploadID offset), s),
    UpdateUploadRetention := fun s protectedIDs expiredIDs =>
      (.ok (), { expired := expiredIDs ++ s.expired, scanned := protectedIDs ++ s.scanned }) }

/-- An expirer over the example store with retention scans, with the clock stopped at 100
and no upload process delay. -/
def scanExpirer : uploadExpirer ScanState :=
  { dbStore := scanStore,
    gitserverClient :=
      { RefDescriptions := fun s _ => (.ok (fun _ => []), s),
        BranchesContaining := fun s _ commit => (.ok (exampleContaining commit), s) },
    repositoryProcessDelay := 0,
    repositoryBatchSize := 100,
    uploadProcessDelay := 0,
    uploadBatchSize := 100,
    globCompile := stubCompile,
    timeNow := fun s => (100, s),
    timeutilNow := fun s => (100, s) }

/-- What a state of the example store says about the retention scan of each upload. -/
def scanView : RetentionView ScanState :=
  { expired := fun s uploadID => decide (uploadID ∈ s.expired),
    lastScan := fun s uploadID => if uploadID ∈ s.scanned then some 100 else none }

/-! ## Readings used for the handler -/

/-- The call is a `GetConfigurationPolicies` call. -/
def Call.isGetConfigurationPolicies : Call → Bool
  | .GetConfigurationPolicies _ => true
  | _ => false

/-- The call returned: its outcome is a result or a returned error, not a panic and not
the exhaustion of the fuel. -/
def returned {α : Type} (r : Result α) : Bool :=
  match r with
  | .ok _ => true
  | .error (.err _) => true
  | _ => false

/-- An expirer whose store selects the repositories 50 and 51, fails to load the policies
of repository 50 and has no policy and no upload for repository 51. -/
def expirerTwoRepositories : uploadExpirer Unit :=
  stubExpirer
    (stubStore [50, 51]
      (fun repositoryID =>
        if repositoryID = 50 then .error (.msg "policies unavailable") else .ok [])
      (fun _ => .ok []) (fun _ _ _ => .ok []))
    (stubGitserver (fun _ => .ok [])) 100

/-- An expirer whose store selects no repository. -/
def expirerNoRepository : uploadExpirer Unit :=
  stubExpirer (stubStore [] (fun _ => .ok []) (fun _ => .ok []) (fun _ _ _ => .ok []))
    (stubGitserver (fun _ => .ok [])) 100

/-! ## Readings used for the partition of a batch -/

/-- The outcomes of the evaluations that the loop of `handleUploads` makes on a batch,
each on the cache and the world the evaluation before it left; the loop stops at the
first evaluation that fails. -/
def batchOutcomes {σ : Type} (e : uploadExpirer σ) (fuel : Nat)
    (policies : List ConfigurationPolicy) (patterns : Patterns)
    (refDescriptions : String → List RefDescription) :
    List Upload → repositoryCache → World σ → List (Result Bool)
  | [], _, _ => []
  | upload :: rest, cache, w =>
    match isUploadProtectedByPolicy e fuel policies patterns refDescriptions cache upload w with
    | (.error f, _, _) => [.error f]
    | (.ok b, cache1, w1) =>
      .ok b :: batchOutcomes e fuel policies patterns refDescriptions rest cache1 w1

/-- The IDs of the uploads of the batch whose evaluation returned the given boolean, in
batch order. -/
def idsWithOutcome (outcome : Bool) (uploads : List Upload) (outcomes : List Bool) :
    List Int :=
  ((uploads.zip outcomes).filter (fun x => x.2 == outcome)).map (fun x => x.1.ID)

/-- An upload of repository 50 completed at time 20 that is visible from no commit. -/
def upload4 : Upload :=
  { ID := 4, RepositoryID := 50, Commit := "c4", State := "completed", FinishedAt := some 20 }

/-! ## Further concrete values used in the examples -/

/-- A branch policy with pattern `*`, no retention duration and intermediate commits not
retained: it protects the tips of branches only. -/
def branchTipPolicy : ConfigurationPolicy :=
  { ID := 4, Type_ := "GIT_TREE", Pattern := "*", RetentionEnabled := true,
    RetentionDuration := none, RetainIntermediateCommits := false }

/-- A commit policy with the pattern `c1` and no retention duration. -/
def commitPolicy : ConfigurationPolicy :=
  { ID := 5, Type_ := "GIT_COMMIT", Pattern := "c1", RetentionEnabled := true,
    RetentionDuration := none, RetainIntermediateCommits := false }

/-- A repository cache whose branches cache holds the branches that contain `c1`. -/
def cacheWithBranches : repositoryCache :=
  { protectedCommits := [],
    branchesContaining :=
      { size := repositoryCacheBranchesMaxKeys, items := [("c1", ["develop"])] } }

/-! ## Readings used for the retention flag -/

/-- The policy with its `RetentionEnabled` flag replaced by the one `flags` gives. -/
def withRetentionEnabled (flags : ConfigurationPolicy → Bool) (policy : ConfigurationPolicy) :
    ConfigurationPolicy :=
  { policy with RetentionEnabled := flags policy }

/-- A tag policy with pattern `*` and no retention duration whose `RetentionEnabled` flag
is false. -/
def disabledTagPolicy : ConfigurationPolicy :=
  { ID := 6, Type_ := "GIT_TAG", Pattern := "*", RetentionEnabled := false,
    RetentionDuration := none, RetainIntermediateCommits := false }

/-- A branch policy with pattern `develop` that retains intermediate commits and whose
`RetentionEnabled` flag is false. -/
def disabledDevelopPolicy : ConfigurationPolicy :=
  { ID := 7, Type_ := "GIT_TREE", Pattern := "develop", RetentionEnabled := false,
    RetentionDuration := none, RetainIntermediateCommits := true }

/-- Reference descriptions in which `c1` is the tip of the tag `v1`. -/
def exampleTags (commit : String) : List RefDescription :=
  if commit = "c1" then [{ Name := "v1", Type_ := RefType.RefTypeTag }] else []

/-- A branch policy with pattern `develop` and a retention duration of 85 that retains
intermediate commits. -/
def shortDevelopPolicy : ConfigurationPolicy :=
  { ID := 8, Type_ := "GIT_TREE", Pattern := "develop", RetentionEnabled := true,
    RetentionDuration := some 85, RetainIntermediateCommits := true }

/-! ## Readings used for the bound of the branches cache -/

/-- The branches cache of the repository cache has the capacity
`repositoryCacheBranchesMaxKeys` and holds no more entries than that. -/
def cacheBounded (cache : repositoryCache) : Prop :=
  cache.branchesContaining.size = repositoryCacheBranchesMaxKeys ∧
  cache.branchesContaining.items.length ≤ repositoryCacheBranchesMaxKeys

/-! ## Readings used for the errors of the collaborators -/

/-- The error a collaborator call returned, if it returned one. -/
def errorOf {α : Type} (r : Except Error α) : Option Error :=
  match r with
  | .error err => some err
  | .ok _ => none

/-- The way a call of an embedded function failed, if it failed. -/
def failureOf {α : Type} (r : Result α) : Option Failure :=
  match r with
  | .error f => some f
  | .ok _ => none

/-- A record of collaborator calls, oldest first, each with the error it returned. -/
abbrev CallLog := List (Call × Option Error)

/-- The state of the collaborators keeps a record of the calls made to the store and to
the gitserver during a repository scan: each call adds its entry, with the error it
returned, and the clocks leave the record as it is. -/
structure Logged {σ : Type} (e : uploadExpirer σ) (log : σ → CallLog) : Prop where
  GetConfigurationPolicies : ∀ s opts,
    log (e.dbStore.GetConfigurationPolicies s opts).2 =
      log s ++ [(Call.GetConfigurationPolicies opts,
        errorOf (e.dbStore.GetConfigurationPolicies s opts).1)]
  GetUploads : ∀ s opts,
    log (e.dbStore.GetUploads s opts).2 =
      log s ++ [(Call.GetUploads opts, errorOf (e.dbStore.GetUploads s opts).1)]
  CommitsVisibleToUpload : ∀ s uploadID limit offset,
    log (e.dbStore.CommitsVisibleToUpload s uploadID limit offset).2 =
      log s ++ [(Call.CommitsVisibleToUpload uploadID limit offset,
        errorOf (e.dbStore.CommitsVisibleToUpload s uploadID limit offset).1)]
  UpdateUploadRetention : ∀ s protectedIDs expiredIDs,
    log (e.dbStore.UpdateUploadRetention s protectedIDs expiredIDs).2 =
      log s ++ [(Call.UpdateUploadRetention protectedIDs expiredIDs,
        errorOf (e.dbStore.UpdateUploadRetention s protectedIDs expiredIDs).1)]
  RefDescriptions : ∀ s repositoryID,
    log (e.gitserverClient.RefDescriptions s repositoryID).2 =
      log s ++ [(Call.RefDescriptions repositoryID,
        errorOf (e.gitserverClient.RefDescriptions s repositoryID).1)]
  BranchesContaining : ∀ s repositoryID commit,
    log (e.gitserverClient.BranchesContaining s repositoryID commit).2 =
      log s ++ [(Call.BranchesContaining repositoryID commit,
        errorOf (e.gitserverClient.BranchesContaining s repositoryID commit).1)]
  timeNow : ∀ s, log (e.timeNow s).2 = log s
  timeutilNow : ∀ s, log (e.timeutilNow s).2 = log s

/-- Every call of the record returned without error. -/
def allSucceeded (calls : CallLog) : Prop :=
  ∀ x ∈ calls, x.2 = none

/-- No call of the record returned an error, or exactly the last one did and the failure
is that error. -/
def stopsAtFailure (failure : Option Failure) (calls : CallLog) : Prop :=
  allSucceeded calls ∨
    ∃ pre c err, calls = pre ++ [(c, some err)] ∧ allSucceeded pre ∧
      failure = some (.err err)

/-- The upload expirer with collaborators that record their calls: the state is paired
with the record, every call of the store and of the gitserver runs as in `e` and adds its
entry, and the clocks run as in `e`. -/
def recordingExpirer {σ : Type} (e : uploadExpirer σ) : uploadExpirer (σ × CallLog) :=
  { dbStore :=
      { RepositoryIDsForRetentionScan := fun s processDelay limit =>
          ((e.dbStore.RepositoryIDsForRetentionScan s.1 processDelay limit).1,
            ((e.dbStore.RepositoryIDsForRetentionScan s.1 processDelay limit).2,
              s.2 ++ [(Call.RepositoryIDsForRetentionScan processDelay limit,
                errorOf (e.dbStore.RepositoryIDsForRetentionScan s.1 processDelay limit).1)])),
        GetConfigurationPolicies := fun s opts =>
          ((e.dbStore.GetConfigurationPolicies s.1 opts).1,
            ((e.dbStore.GetConfigurationPolicies s.1 opts).2,
              s.2 ++ [(Call.GetConfigurationPolicies opts,
                errorOf (e.dbStore.GetConfigurationPolicies s.1 opts).1)])),
        GetUploads := fun s opts =>
          ((e.dbStore.GetUploads s.1 opts).1,
            ((e.dbStore.GetUploads s.1 opts).2,
              s.2 ++ [(Call.GetUploads opts, errorOf (e.dbStore.GetUploads s.1 opts).1)])),
        CommitsVisibleToUpload := fun s uploadID limit offset =>
          ((e.dbStore.CommitsVisibleToUpload s.1 uploadID limit offset).1,
            ((e.dbStore.CommitsVisibleToUpload s.1 uploadID limit offset).2,
              s.2 ++ [(Call.CommitsVisibleToUpload uploadID limit offset,
                errorOf (e.dbStore.CommitsVisibleToUpload s.1 uploadID limit offset).1)])),
        UpdateUploadRetention := fun s protectedIDs expiredIDs =>
          ((e.dbStore.UpdateUploadRetention s.1 protectedIDs expiredIDs).1,
            ((e.dbStore.UpdateUploadRetention s.1 protectedIDs expiredIDs).2,
              s.2 ++ [(Call.UpdateUploadRetention protectedIDs expiredIDs,
                errorOf (e.dbStore.UpdateUploadRetention s.1 protectedIDs expiredIDs).1)])) },
    gitserverClient :=
      { RefDescriptions := fun s repositoryID =>
          ((e.gitserverClient.RefDescriptions s.1 repositoryID).1,
            ((e.gitserverClient.RefDescriptions s.1 repositoryID).2,
              s.2 ++ [(Call.RefDescriptions repositoryID,
                errorOf (e.gitserverClient.RefDescriptions s.1 repositoryID).1)])),
        BranchesContaining := fun s repositoryID commit =>
          ((e.gitserverClient.BranchesContaining s.1 repositoryID commit).1,
            ((e.gitserverClient.BranchesContaining s.1 repositoryID commit).2,
              s.2 ++ [(Call.BranchesContaining repositoryID commit,
                errorOf (e.gitserverClient.BranchesContaining s.1 repositoryID commit).1)])) },
    repositoryProcessDelay := e.repositoryProcessDelay,
    repositoryBatchSize := e.repositoryBatchSize,
    uploadProcessDelay := e.uploadProcessDelay,
    uploadBatchSize := e.uploadBatchSize,
    globCompile := e.globCompile,
    timeNow := fun s => ((e.timeNow s.1).1, ((e.timeNow s.1).2, s.2)),
    timeutilNow := fun s => ((e.timeutilNow s.1).1, ((e.timeutilNow s.1).2, s.2)) }

/-- An expirer whose store holds the uploads 1 and 2 for every repository, serves the
commit `c1` for upload 1 and fails to list the commits of every other upload. -/
def expirerSecondUploadFails : uploadExpirer Unit :=
  stubExpirer
    (stubStore [50] (fun _ => .ok []) (fun _ => .ok [upload1, upload2])
      (fun uploadID _ offset =>
        if uploadID = 1 then (if offset = 0 then .ok ["c1"] else .ok [])
        else .error (.msg "commits unavailable")))
    (stubGitserver (fun _ => .ok [])) 100

/-- From the state `s` to the state `s1` the record grows by calls of which none returned
an error, or only the last one did, and then the failure is that error. -/
def LogExt {σ : Type} (log : σ → CallLog) (failure : Option Failure) (s s1 : σ) : Prop :=
  ∃ added, log s1 = log s ++ added ∧ stopsAtFailure failure added

/-! ## Readings used for the set of protected commits -/

/-- The policy with its `Type` replaced by the one `types` gives. -/
def withType (types : ConfigurationPolicy → String) (policy : ConfigurationPolicy) :
    ConfigurationPolicy :=
  { policy with Type_ := types policy }

/-- Every entry of the branches cache satisfies the relation `R` between a commit and a
list of branches. -/
def LRUHolds (R : String → List String → Prop) (c : LRU) : Prop :=
  ∀ key value, (key, value) ∈ c.items → R key value

/-- The gitserver has answered a `BranchesContaining` query for the commit with the list
of branches: some query for the commit, in some state, returns the list. -/
def answered {σ : Type} (e : uploadExpirer σ) (commit : String) (branches : List String) :
    Prop :=
  ∃ s repositoryID, (e.gitserverClient.BranchesContaining s repositoryID commit).1 = .ok branches

/-- The policy covers the upload at some reading of the clock: `policyCoversUpload`
returns true for them in some state. -/
def coveredBy {σ : Type} (e : uploadExpirer σ) (upload : Upload)
    (policy : ConfigurationPolicy) : Prop :=
  ∃ w : World σ, (policyCoversUpload e.timeutilNow policy upload w).1 = .ok true

/-- The tip matcher accepts the commit under the policy: the compiled pattern of the
policy matches the hash, a tag or a branch of which the commit is the tip, according to
the type of the policy. -/
def tipAccepts (patterns : Patterns) (refDescriptions : String → List RefDescription)
    (policy : ConfigurationPolicy) (commit : String) : Prop :=
  ∃ g, patterns.lookup policy.Pattern = some g ∧
    tipMatches g commit (refNamesByType (refDescriptions commit)).1
      (refNamesByType (refDescriptions commit)).2 policy = true

/-- The containment matcher accepts the commit under the policy: the policy retains
intermediate commits and its compiled pattern matches a branch of a list with which the
gitserver has answered a query for the commit. -/
def containsAccepts {σ : Type} (e : uploadExpirer σ) (patterns : Patterns)
    (policy : ConfigurationPolicy) (commit : String) : Prop :=
  policy.RetainIntermediateCommits = true ∧
    ∃ branches g, answered e commit branches ∧ patterns.lookup policy.Pattern = some g ∧
      branches.any g.Match = true

/-- The commit was accepted for the upload: some policy of the list covers the upload and
the tip matcher or the containment matcher accepts the commit under it. -/
def Accepted {σ : Type} (e : uploadExpirer σ) (policies : List ConfigurationPolicy)
    (patterns : Patterns) (refDescriptions : String → List RefDescription)
    (upload : Upload) (commit : String) : Prop :=
  ∃ policy ∈ policies, coveredBy e upload policy ∧
    (tipAccepts patterns refDescriptions policy commit ∨
      containsAccepts e patterns policy commit)

/-- Every protected commit of the cache was accepted for an upload of the list, and every
entry of the branches cache is an answer of the gitserver. -/
def Justified {σ : Type} (e : uploadExpirer σ) (policies : List ConfigurationPolicy)
    (patterns : Patterns) (refDescriptions : String → List RefDescription)
    (uploads : List Upload) (cache : repositoryCache) : Prop :=
  (∀ c ∈ cache.protectedCommits,
    ∃ u ∈ uploads, Accepted e policies patterns refDescriptions u c) ∧
  LRUHolds (answered e) cache.branchesContaining

/-- The uploads of a batch that the loop of `handleUploads` evaluates, in order: all of
them, or those up to the first whose evaluation fails. -/
def evaluatedUploads {σ : Type} (e : uploadExpirer σ) (fuel : Nat)
    (policies : List ConfigurationPolicy) (patterns : Patterns)
    (refDescriptions : String → List RefDescription) :
    List Upload → repositoryCache → World σ → List Upload
  | [], _, _ => []
  | upload :: rest, cache, w =>
    match isUploadProtectedByPolicy e fuel policies patterns refDescriptions cache upload w with
    | (.error _, _, _) => [upload]
    | (.ok _, cache1, w1) =>
      upload :: evaluatedUploads e fuel policies patterns refDescriptions rest cache1 w1

/-- The uploads that a repository scan evaluates, in order: those that `handleUploads`
evaluates of each batch that the batch loop of `handleRepository` fetches, up to the
batch at which the loop stops. -/
def scannedUploads {σ : Type} (e : uploadExpirer σ) (pageFuel : Nat)
    (repositoryID : Int) (policies : List ConfigurationPolicy) (patterns : Patterns)
    (refDescriptions : String → List RefDescription) (lastRetentionScanBefore : Int) :
    Nat → repositoryCache → World σ → List Upload
  | 0, _, _ => []
  | fuel + 1, cache, w =>
    match w.call (.GetUploads (getUploadsOptions e repositoryID lastRetentionScanBefore))
        (fun s => e.dbStore.GetUploads s
          (getUploadsOptions e repositoryID lastRetentionScanBefore)) with
    | (.error _, _) => []
    | (.ok uploads, w1) =>
      if uploads.length = 0 then []
      else
        match handleUploads e pageFuel policies patterns refDescriptions cache uploads w1 with
        | (.error _, _, _) =>
          evaluatedUploads e pageFuel policies patterns refDescriptions uploads cache w1
        | (.ok _, cache2, w2) =>
          evaluatedUploads e pageFuel policies patterns refDescriptions uploads cache w1 ++
            scannedUploads e pageFuel repositoryID policies patterns refDescriptions
              lastRetentionScanBefore fuel cache2 w2

/-- The page of visible commits decides the evaluation of an upload completed at
`finishedAt`: it holds a commit of the protected commits, a commit the tip matcher accepts
under a covering policy, or a commit the containment matcher accepts under a covering
policy that retains intermediate commits. -/
def pageDecides (patterns : Patterns) (refDescriptions : String → List RefDescription)
    (containing : String → List String) (policies : List ConfigurationPolicy)
    (now finishedAt : Int) (protectedCommits : List String) (page : List String) : Bool :=
  page.any (fun commit => decide (commit ∈ protectedCommits)) ||
  page.any (tipProtected patterns refDescriptions (policies.filter (covers now finishedAt))) ||
  page.any (containsProtected patterns containing
    (policies.filter (fun policy =>
      policy.RetainIntermediateCommits && covers now finishedAt policy)))

/-- The commit that the evaluation of an upload adds to the protected commits, over the
pages of its visible commits in order: none if the first page that decides holds a
protected commit; otherwise the first commit of that page, in page order, that the tip
matcher accepts, or, if it accepts none, the first that the containment matcher accepts;
none if no page decides. -/
def addedCommit (patterns : Patterns) (refDescriptions : String → List RefDescription)
    (containing : String → List String) (policies : List ConfigurationPolicy)
    (now finishedAt : Int) (protectedCommits : List String) :
    List (List String) → Option String
  | [] => none
  | page :: rest =>
    if page.any (fun commit => decide (commit ∈ protectedCommits)) then none
    else
      match page.find?
          (tipProtected patterns refDescriptions (policies.filter (covers now finishedAt))) with
      | some commit => some commit
      | none =>
        match page.find? (containsProtected patterns containing
            (policies.filter (fun policy =>
              policy.RetainIntermediateCommits && covers now finishedAt policy))) with
        | some commit => some commit
        | none =>
          addedCommit patterns refDescriptions containing policies now finishedAt
            protectedCommits rest

/-! ## Readings used for the pages of visible commits -/

/-- The page a store returns for a request with limit 100 at the given offset when the
commits visible to the upload are the list `all`: the commits at the positions from
`offset` up to `offset + 100`. -/
def pageAt (all : List String) (offset : Int) : List String :=
  (all.drop offset.toNat).take 100

/-- The list cut into pages of 100 commits, the last page holding what is left; the
first argument bounds the number of pages. -/
def pagesOf : Nat → List String → List (List String)
  | 0, _ => []
  | n + 1, l => if l = [] then [] else l.take 100 :: pagesOf n (l.drop 100)

/-- The offsets of the requests for the pages of the list and for the page after them,
the first request being made at `offset`: each offset is the one before it plus the
number of commits of the page returned there. -/
def pageOffsets (offset : Int) : List (List String) → List Int
  | [] => [offset]
  | page :: rest => offset :: pageOffsets (offset + page.length) rest

/-- The offsets of the requests with limit 100 for the visible commits of the upload
among the calls, in order. -/
def pageRequests (uploadID : Int) (calls : List Call) : List Int :=
  calls.filterMap (fun c =>
    match c with
    | .CommitsVisibleToUpload id limit offset =>
      if id = uploadID ∧ limit = 100 then some offset else none
    | _ => none)

/-- An expirer whose store returns, for every upload, the slice of the list `all` at the
requested offset, over the example branches, with no tips and the clock stopped at 100. -/
def sliceExpirer (all : List String) : uploadExpirer Unit :=
  stubExpirer
    (stubStore [50] (fun _ => .ok []) (fun _ => .ok [])
      (fun _ _ offset => .ok (pageAt all offset)))
    (stubGitserver (fun commit => .ok (exampleContaining commit))) 100

/-! ## A clock that advances -/

/-- An expirer over the example pages and branches, with no tips, whose state is the
time: every reading of either clock returns the state and advances it by one. -/
def tickingExpirer : uploadExpirer Int :=
  { dbStore :=
      { RepositoryIDsForRetentionScan := fun s _ _ => (.ok [50], s),
        GetConfigurationPolicies := fun s _ => (.ok [], s),
        GetUploads := fun s _ => (.ok [], s),
        CommitsVisibleToUpload := fun s uploadID _ offset =>
          (.ok (examplePages uploadID offset), s),
        UpdateUploadRetention := fun s _ _ => (.ok (), s) },
    gitserverClient :=
      { RefDescriptions := fun s _ => (.ok (fun _ => []), s),
        BranchesContaining := fun s _ commit => (.ok (exampleContaining commit), s) },
    repositoryProcessDelay := 0,
    repositoryBatchSize := 100,
    uploadProcessDelay := 0,
    uploadBatchSize := 100,
    globCompile := stubCompile,
    timeNow := fun s => (s, s + 1),
    timeutilNow := fun s => (s, s + 1) }

/-- The world in which the clock reads `now` and no call has been made. -/
def worldAt (now : Int) : World Int := { state := now, trace := [] }

end Janitor

/-!
# The decoder of event streams

A shallow embedding of `internal/search/streaming/http/decoder.go`.

* A byte slice is a list of bytes, each a natural number; a nil slice and an empty slice
  are both the empty list, as `bytes.Equal` makes no difference between them.
* The reader the decoder is made from is the list of the bytes it delivers; it delivers
  them without an error and reports the end of the stream by a read of its own.
* The constant `maxPayloadSize` is declared outside the source file and is a parameter
  of `NewDecoder`.
* `Event` and `Data` are the bytes their slices hold when the `Scan` that decoded the
  event returns. In the source the two slices share the buffer of the scanner, which a
  later `Scan` may shift and refill; this sharing is left out, so nothing is stated here
  on `Event` and `Data` once `Scan` has been called again.
-/

namespace StreamHTTP

/-- A Go byte slice. -/
abbrev Bytes := List Nat

/-- The bytes of a string of ASCII characters, such as the literal `[]byte("event")`. -/
def ascii (s : String) : Bytes :=
  s.toList.map Char.toNat

/-- The function `bytes.Index`: the index of the first place at which `sep` occurs in `s`,
or none, which stands for the result -1. -/
def Index : Bytes → Bytes → Option Nat
  | [], sep => if sep = [] then some 0 else none
  | b :: rest, sep =>
    if sep.isPrefixOf (b :: rest) then some 0 else (Index rest sep).map (fun i => i + 1)

/-- The number of bytes of the white space character, in the sense of `unicode.IsSpace`,
that is encoded at the start of the bytes, or 0 if there is none: the six ASCII spaces,
U+0085, U+00A0, U+1680, U+2000 to U+200A, U+2028, U+2029, U+202F, U+205F and U+3000 in
their UTF-8 encoding. -/
def spaceWidth : Bytes → Nat
  | [] => 0
  | b0 :: rest =>
    if b0 = 9 ∨ b0 = 10 ∨ b0 = 11 ∨ b0 = 12 ∨ b0 = 13 ∨ b0 = 32 then 1
    else
      match rest with
      | [] => 0
      | b1 :: rest1 =>
        if b0 = 0xC2 ∧ (b1 = 0x85 ∨ b1 = 0xA0) then 2
        else
          match rest1 with
          | [] => 0
          | b2 :: _ =>
            if b0 = 0xE1 ∧ b1 = 0x9A ∧ b2 = 0x80 then 3
            else if b0 = 0xE2 ∧ b1 = 0x80 ∧
                ((0x80 ≤ b2 ∧ b2 ≤ 0x8A) ∨ b2 = 0xA8 ∨ b2 = 0xA9 ∨ b2 = 0xAF) then 3
            else if b0 = 0xE2 ∧ b1 = 0x81 ∧ b2 = 0x9F then 3
            else if b0 = 0xE3 ∧ b1 = 0x80 ∧ b2 = 0x80 then 3
            else 0

/-- The number of bytes of the white space character that is encoded at the end of the
bytes, which are given last byte first, or 0 if there is none. -/
def spaceWidthEnd : Bytes → Nat
  | [] => 0
  | b0 :: rest =>
    if b0 = 9 ∨ b0 = 10 ∨ b0 = 11 ∨ b0 = 12 ∨ b0 = 13 ∨ b0 = 32 then 1
    else
      match rest with
      | [] => 0
      | b1 :: rest1 =>
        if b1 = 0xC2 ∧ (b0 = 0x85 ∨ b0 = 0xA0) then 2
        else
          match rest1 with
          | [] => 0
          | b2 :: _ =>
            if b2 = 0xE1 ∧ b1 = 0x9A ∧ b0 = 0x80 then 3
            else if b2 = 0xE2 ∧ b1 = 0x80 ∧
                ((0x80 ≤ b0 ∧ b0 ≤ 0x8A) ∨ b0 = 0xA8 ∨ b0 = 0xA9 ∨ b0 = 0xAF) then 3
            else if b2 = 0xE2 ∧ b1 = 0x81 ∧ b0 = 0x9F then 3
            else if b2 = 0xE3 ∧ b1 = 0x80 ∧ b0 = 0x80 then 3
            else 0

/-- Drops white space characters from the front for as long as `width` finds one, in at
most `n` steps. -/
def trimLoop (width : Bytes → Nat) : Nat → Bytes → Bytes
  | 0, s => s
  | n + 1, s => if width s = 0 then s else trimLoop width n (s.drop (width s))

/-- The function `bytes.TrimLeftFunc` with `unicode.IsSpace`. -/
def trimLeft (s : Bytes) : Bytes :=
  trimLoop spaceWidth s.length s

/-- The function `bytes.TrimRightFunc` with `unicode.IsSpace`. -/
def trimRight (s : Bytes) : Bytes :=
  (trimLoop spaceWidthEnd s.length s.reverse).reverse

/-- The function `bytes.TrimSpace`: the bytes without the white space at their start and
at their end. -/
def TrimSpace (s : Bytes) : Bytes :=
  trimRight (trimLeft s)

/-- The function `splitColon`: the bytes before and after the first colon, both trimmed;
without a colon, all the bytes, trimmed, and nil. -/
def splitColon (data : Bytes) : Bytes × Bytes :=
  match Index data (ascii ":") with
  | none => (TrimSpace data, [])
  | some i => (TrimSpace (data.take i), TrimSpace (data.drop (i + 1)))

/-- A Go `error` value of the decoder: the error `bufio.ErrTooLong` of the scanner, or an
error made by `errors.Errorf` from a format and its arguments. -/
inductive Error where
  | ErrTooLong
  | Errorf (format : String) (args : List Bytes)
  deriving DecidableEq, Repr

/-- The split function `NewDecoder` gives the scanner: the number of bytes to advance by
and the token, if there is one. The token is the bytes before the first two consecutive
newlines; at the end of the input, all the bytes that are left. -/
def split (data : Bytes) (atEOF : Bool) : Nat × Option Bytes :=
  if atEOF && data.length == 0 then (0, none)
  else
    match Index data (ascii "\n\n") with
    | some i => (i + 2, some (data.take i))
    | none => if atEOF then (data.length, some data) else (0, none)

/-- Modelled from the spec: the type `bufio.Scanner` of the Go library, reading from a
reader that delivers `input`: the bytes not consumed yet, the largest buffer size given
to `Buffer`, the error that stopped the scanner, and the last token. -/
structure Scanner where
  input : Bytes
  maxTokenSize : Nat
  err : Option Error
  token : Bytes
  deriving DecidableEq, Repr

/-- The capacity of the buffer of a scanner set up by `Buffer(make([]byte, 0, 4096), max)`:
the buffer starts with 4096 bytes and grows up to `max` bytes. -/
def Scanner.capacity (s : Scanner) : Nat :=
  max 4096 s.maxTokenSize

/-- Modelled from the spec: the method `Scanner.Scan` of the Go library with the split
function of the decoder. The scanner fills its buffer until the split function finds a
token in it. If the buffer is full and holds no token, the scanner stops with
`ErrTooLong`. At the end of the input the split function is given the bytes that are
left; with none left, `Scan` returns false without an error. Once the scanner has
stopped with an error, the bytes in its buffer are split as at the end of the input. -/
def Scanner.Scan (s : Scanner) : Bool × Scanner :=
  match s.err with
  | some _ =>
    match split s.input true with
    | (advance, some token) => (true, { s with input := s.input.drop advance, token := token })
    | (_, none) => (false, { s with input := [] })
  | none =>
    match split (s.input.take s.capacity) false with
    | (advance, some token) => (true, { s with input := s.input.drop advance, token := token })
    | (_, none) =>
      if s.input.length < s.capacity then
        match split s.input true with
        | (advance, some token) =>
          (true, { s with input := s.input.drop advance, token := token })
        | (_, none) => (false, s)
      else
        (false, { s with input := s.input.take s.capacity, err := some Error.ErrTooLong })

/-- The method `Scanner.Bytes`: the last token. -/
def Scanner.Bytes (s : Scanner) : Bytes :=
  s.token

/-- The method `Scanner.Err`: the error that stopped the scanner; the end of the input is
not an error. -/
def Scanner.Err (s : Scanner) : Option Error :=
  s.err

/-- The struct `Decoder`. -/
structure Decoder where
  scanner : Scanner
  event : Bytes
  data : Bytes
  err : Option Error
  deriving DecidableEq, Repr

/-- The function `NewDecoder`, for a reader that delivers the bytes `r`. -/
def NewDecoder (maxPayloadSize : Nat) (r : Bytes) : Decoder :=
  { scanner := { input := r, maxTokenSize := maxPayloadSize, err := none, token := [] },
    event := [],
    data := [],
    err := none }

/-- The method `Decoder.Scan`: advances the decoder to the next event of the stream;
returns false at the end of the stream and on an error. -/
def Decoder.Scan (d : Decoder) : Bool × Decoder :=
  match d.scanner.Scan with
  | (false, scanner) => (false, { d with scanner := scanner, err := scanner.Err })
  | (true, scanner) =>
    match Index scanner.Bytes (ascii "\n") with
    | none =>
      (false, { d with
        scanner := scanner,
        err := some (.Errorf "malformed event, no newline: %s" [scanner.Bytes]) })
    | some nl =>
      if (splitColon (scanner.Bytes.take nl)).1 ≠ ascii "event" then
        (false, { d with
          scanner := scanner,
          err := some (.Errorf "malformed event, expected event: %s"
            [(splitColon (scanner.Bytes.take nl)).1]) })
      else if (splitColon (scanner.Bytes.drop (nl + 1))).1 ≠ ascii "data" then
        (false, { d with
          scanner := scanner,
          err := some (.Errorf "malformed event %s, expected data: %s"
            [(splitColon (scanner.Bytes.take nl)).1,
             (splitColon (scanner.Bytes.drop (nl + 1))).1]) })
      else
        (true, { d with
          scanner := scanner,
          event := (splitColon (scanner.Bytes.take nl)).2,
          data := (splitColon (scanner.Bytes.drop (nl + 1))).2 })

/-- The method `Decoder.Event`: the event name of the last decoded event. -/
def Decoder.Event (d : Decoder) : Bytes :=
  d.event

/-- The method `Decoder.Data`: the data of the last decoded event. -/
def Decoder.Data (d : Decoder) : Bytes :=
  d.data

/-- The method `Decoder.Err`: the last error met. -/
def Decoder.Err (d : Decoder) : Option Error :=
  d.err

/-- The stream of one event: `event: ` and the name, a newline, `data: ` and the payload,
two newlines. -/
def eventStream (event data : Bytes) : Bytes :=
  ascii "event: " ++ event ++ ascii "\ndata: " ++ data ++ ascii "\n\n"

end StreamHTTP

/-!
# The workspace resolver of batch changes

A shallow embedding of the function `findWorkspaces` of
`enterprise/internal/batches/service/workspace_resolver.go`.

* The batch spec and the repository revisions are reached through non-nil pointers, as
  the callers of `findWorkspaces` build them; the types behind them are declared outside
  the source file and are modelled with the fields that `findWorkspaces` reads.
* The function `glob.Compile` is a parameter; a compiled glob is its `Match` method.
* The map of the compiled globs is an association list that is read from the front and
  extended at the front; the map from the index of a workspace configuration to the
  repositories that match it is an association list with one entry for each index.
* The part of `findWorkspaces` that follows the matching loop (the search for the
  directories, the steps of each workspace and the sorting) is a parameter that is given
  the two results of the matching loop.
-/

namespace BatchesService

/-- A compiled glob of `github.com/gobwas/glob`: its `Match` method. -/
structure Glob where
  Match : String → Bool

/-- Modelled from the spec: the type `batcheslib.WorkspaceConfiguration`, one entry of
the `workspaces` list of a batch spec, with its three fields. -/
structure WorkspaceConfiguration where
  RootAtLocationOf : String
  In : String
  OnlyFetchWorkspace : Bool
deriving DecidableEq, Repr

/-- Modelled from the spec: the type `batcheslib.BatchSpec`, with the one field that
`findWorkspaces` reads itself. -/
structure BatchSpec where
  Workspaces : List WorkspaceConfiguration
deriving DecidableEq, Repr

/-- Modelled from the spec: the type `types.Repo`, with the fields that `findWorkspaces`
and `RepoRevision.Key` read. -/
structure Repo where
  ID : Int
  Name : String
deriving DecidableEq, Repr

/-- Modelled from the spec: the type `RepoRevision`, a repository at a branch and a
commit. -/
structure RepoRevision where
  Repo : Repo
  Branch : String
  Commit : String
deriving DecidableEq, Repr

/-- A Go `error` value built by `findWorkspaces`: an error of `errors.Errorf` with its
format and its arguments as text, a validation error of `batcheslib.NewValidationError`
around an error, or a `*multierror.Error` holding a list of errors. -/
inductive Error where
  | Errorf (format : String) (args : List String)
  | ValidationError (cause : Error)
  | multi (errs : List Error)

/-- How a call can fail: with a Go error, or with a run-time panic (the method call on a
nil `glob.Glob`). -/
inductive Failure where
  | err (e : Error)
  | panic

/-- The outcome of a Go function that returns `(T, error)`. -/
abbrev Result (α : Type) := Except Failure α

/-- The map `workspaceMatchers`: the value for a configuration whose glob failed to
compile is the nil glob. -/
abbrev Matchers := List (WorkspaceConfiguration × Option Glob)

/-- The map `matched`, from the index of a workspace configuration to the repositories
that match it. -/
abbrev Matched := List (Nat × List RepoRevision)

/-- The statement `matched[idx] = append(matched[idx], repoRev)`. -/
def appendMatched : Matched → Nat → RepoRevision → Matched
  | [], idx, repoRev => [(idx, [repoRev])]
  | (i, repoRevs) :: rest, idx, repoRev =>
    if i = idx then (i, repoRevs ++ [repoRev]) :: rest
    else (i, repoRevs) :: appendMatched rest idx repoRev

/-- The loop of `findWorkspaces` that compiles the globs: every configuration gets an
entry in the map, and every glob that fails to compile adds a validation error. -/
def compileGlobs (compile : String → Except String Glob) :
    List WorkspaceConfiguration → Matchers → List Error → Matchers × List Error
  | [], workspaceMatchers, errs => (workspaceMatchers, errs)
  | conf :: rest, workspaceMatchers, errs =>
    match compile conf.In with
    | .error err =>
      compileGlobs compile rest ((conf, none) :: workspaceMatchers)
        (errs ++ [.ValidationError (.Errorf "failed to compile glob %q: %v" [conf.In, err])])
    | .ok g => compileGlobs compile rest ((conf, some g) :: workspaceMatchers) errs

/-- The inner loop of the matching loop of `findWorkspaces`, over the workspace
configurations from the index `idx` on, for one repository. -/
def matchConfigurations (workspaceMatchers : Matchers) (repoRev : RepoRevision) :
    List WorkspaceConfiguration → Nat → Bool → Matched → Result (Bool × Matched)
  | [], _, found, matched => .ok (found, matched)
  | conf :: rest, idx, found, matched =>
    match workspaceMatchers.lookup conf with
    | none => .error .panic
    | some none => .error .panic
    | some (some g) =>
      if !g.Match repoRev.Repo.Name then
        matchConfigurations workspaceMatchers repoRev rest (idx + 1) found matched
      else if found then
        .error (.err (.ValidationError (.Errorf
          "repository %s matches multiple workspaces.in globs in the batch spec. glob: %q"
          [repoRev.Repo.Name, conf.In])))
      else
        matchConfigurations workspaceMatchers repoRev rest (idx + 1) true
          (appendMatched matched idx repoRev)

/-- The matching loop of `findWorkspaces`, over the repository revisions: a repository
that no configuration matches is added to `root`. -/
def matchRepositories (workspaceMatchers : Matchers) (workspaces : List WorkspaceConfiguration) :
    List RepoRevision → List RepoRevision → Matched → Result (List RepoRevision × Matched)
  | [], root, matched => .ok (root, matched)
  | repoRev :: rest, root, matched =>
    match matchConfigurations workspaceMatchers repoRev workspaces 0 false matched with
    | .error failure => .error failure
    | .ok (found, matched1) =>
      matchRepositories workspaceMatchers workspaces rest
        (if !found then root ++ [repoRev] else root) matched1

/-- The function `findWorkspaces`. The parameter `locate` is the part of the function
after the matching loop, which is given `root` and `matched`. -/
def findWorkspaces {ω : Type} (compile : String → Except String Glob)
    (locate : List RepoRevision → Matched → Result ω)
    (spec : BatchSpec) (repoRevs : List RepoRevision) : Result ω :=
  match compileGlobs compile spec.Workspaces [] [] with
  | (workspaceMatchers, errs) =>
    if !errs.isEmpty then .error (.err (.multi errs))
    else
      match matchRepositories workspaceMatchers spec.Workspaces repoRevs [] [] with
      | .error failure => .error failure
      | .ok (root, matched) => locate root matched

/-- Whether the glob of a workspace configuration compiles and matches the name of a
repository. -/
def matchesIn (compile : String → Except String Glob) (conf : WorkspaceConfiguration)
    (repoRev : RepoRevision) : Bool :=
  match compile conf.In with
  | .ok g => g.Match repoRev.Repo.Name
  | .error _ => false

/-- The number of entries of a list of workspace configurations whose glob matches the
name of a repository. -/
def matchCount (compile : String → Except String Glob)
    (workspaces : List WorkspaceConfiguration) (repoRev : RepoRevision) : Nat :=
  (workspaces.filter (fun conf => matchesIn compile conf repoRev)).length

/-- Whether the glob of every configuration of a list compiles. -/
def allCompile (compile : String → Except String Glob)
    (workspaces : List WorkspaceConfiguration) : Bool :=
  workspaces.all (fun conf => (compile conf.In).toBool)

/-- A glob compiler for the examples: the pattern `[` does not compile, a pattern that
ends in `*` matches the names that start with what stands before the star, and any
other pattern matches itself alone. -/
def exampleCompile (pattern : String) : Except String Glob :=
  if pattern = "[" then .error "unexpected end of input"
  else if pattern.toList.getLast? = some '*' then
    .ok { Match := fun name => pattern.toList.dropLast.isPrefixOf name.toList }
  else .ok { Match := fun name => name == pattern }

/-- A batch spec for the examples, with two workspace configurations whose globs both
match the names that start with `github.com/a/`. -/
def exampleSpec : BatchSpec :=
  { Workspaces :=
      [ { RootAtLocationOf := "package.json", In := "github.com/a/*",
          OnlyFetchWorkspace := false },
        { RootAtLocationOf := "go.mod", In := "github.com/*",
          OnlyFetchWorkspace := true } ] }

/-- A repository revision for the examples. -/
def exampleRepoRev (id : Int) (name : String) : RepoRevision :=
  { Repo := { ID := id, Name := name }, Branch := "refs/heads/main", Commit := "d34db33f" }

end BatchesService

namespace Janitor

/-! ## Lemmas on the matchers -/

theorem patternMatchesAnyValue_some (g : Glob) (values : List String) :
    patternMatchesAnyValue (some g) values = .ok (values.any g.Match) := by
  induction values with
  | nil => rfl
  | cons v vs ih =>
    simp only [patternMatchesAnyValue, globMatch, List.any_cons]
    cases h : g.Match v <;> simp [ih]

theorem refNamesByType_fst (rds : List RefDescription) :
    (refNamesByType rds).1 =
      (rds.filter (fun rd => decide (rd.Type_ = RefType.RefTypeBranch))).map (·.Name) := by
  induction rds with
  | nil => rfl
  | cons rd rest ih =>
    simp only [refNamesByType]
    by_cases hb : rd.Type_ = RefType.RefTypeBranch
    · simp [hb, ih]
    · by_cases ht : rd.Type_ = RefType.RefTypeTag <;> simp [hb, ht, ih]

theorem refNamesByType_snd (rds : List RefDescription) :
    (refNamesByType rds).2 =
      (rds.filter (fun rd => decide (rd.Type_ = RefType.RefTypeTag))).map (·.Name) := by
  induction rds with
  | nil => rfl
  | cons rd rest ih =>
    simp only [refNamesByType]
    by_cases hb : rd.Type_ = RefType.RefTypeBranch
    · have ht : rd.Type_ ≠ RefType.RefTypeTag := by rw [hb]; decide
      simp [hb, ih]
    · by_cases ht : rd.Type_ = RefType.RefTypeTag <;> simp [hb, ht, ih]

theorem tipPolicyMatcherLoop_cons_some (patterns : Patterns) (commit : String)
    (branches tags : List String) (policy : ConfigurationPolicy)
    (rest : List ConfigurationPolicy) (g : Glob)
    (hg : patterns.lookup policy.Pattern = some g) :
    tipPolicyMatcherLoop patterns commit branches tags (policy :: rest) =
      if tipMatches g commit branches tags policy then .ok true
      else tipPolicyMatcherLoop patterns commit branches tags rest := by
  simp only [tipPolicyMatcherLoop, hg, patternMatchesAnyValue_some, globMatch, condAnd,
    tipMatches]
  by_cases h1 : policy.Type_ = "GIT_COMMIT"
  · have h2 : policy.Type_ ≠ "GIT_TAG" := by rw [h1]; decide
    have h3 : policy.Type_ ≠ "GIT_TREE" := by rw [h1]; decide
    rcases Bool.eq_false_or_eq_true (g.Match commit) with hm | hm <;> simp [h1, hm]
  · by_cases h2 : policy.Type_ = "GIT_TAG"
    · have h3 : policy.Type_ ≠ "GIT_TREE" := by rw [h2]; decide
      rcases Bool.eq_false_or_eq_true (tags.any g.Match) with hm | hm <;> simp [h2, hm]
    · by_cases h3 : policy.Type_ = "GIT_TREE"
      · rcases Bool.eq_false_or_eq_true (branches.any g.Match) with hm | hm <;>
          simp [h3, hm]
      · simp [h1, h2, h3]

/-- With every pattern compiled the tip matcher returns, and it returns whether some
policy of the list matches. -/
theorem tipPolicyMatcherLoop_eq (patterns : Patterns) (commit : String)
    (branches tags : List String) (policies : List ConfigurationPolicy)
    (hc : AllCompiled patterns policies) :
    tipPolicyMatcherLoop patterns commit branches tags policies =
      .ok (policies.any (fun policy =>
        match patterns.lookup policy.Pattern with
        | some g => tipMatches g commit branches tags policy
        | none => false)) := by
  induction policies with
  | nil => rfl
  | cons policy rest ih =>
    obtain ⟨g, hg⟩ := hc policy (List.mem_cons_self _ _)
    have hrest : AllCompiled patterns rest := fun q hq => hc q (List.mem_cons_of_mem _ hq)
    rw [tipPolicyMatcherLoop_cons_some _ _ _ _ _ _ g hg, ih hrest]
    simp only [List.any_cons, hg]
    cases tipMatches g commit branches tags policy <;> simp

theorem containsPolicyMatcherLoop_eq (patterns : Patterns) (branches : List String)
    (policies : List ConfigurationPolicy) (hc : AllCompiled patterns policies) :
    containsPolicyMatcherLoop patterns branches policies =
      .ok (policies.any (fun policy =>
        match patterns.lookup policy.Pattern with
        | some g => branches.any g.Match
        | none => false)) := by
  induction policies with
  | nil => rfl
  | cons policy rest ih =>
    obtain ⟨g, hg⟩ := hc policy (List.mem_cons_self _ _)
    have hrest : AllCompiled patterns rest := fun q hq => hc q (List.mem_cons_of_mem _ hq)
    simp only [containsPolicyMatcherLoop, hg, patternMatchesAnyValue_some, List.any_cons]
    cases hm : branches.any g.Match
    · simpa using ih hrest
    · simp

/-! ## Lemmas on the trace -/

theorem TraceExt.refl {σ : Type} (P : Call → Prop) (w : World σ) : TraceExt P w w :=
  ⟨[], by simp, by simp⟩

theorem TraceExt.of_trace_eq {σ : Type} (P : Call → Prop) (w1 w2 : World σ)
    (h : w2.trace = w1.trace) : TraceExt P w1 w2 :=
  ⟨[], by simp [h], by simp⟩

theorem TraceExt.trans {σ : Type} {P : Call → Prop} {w1 w2 w3 : World σ}
    (h12 : TraceExt P w1 w2) (h23 : TraceExt P w2 w3) : TraceExt P w1 w3 := by
  obtain ⟨a, ha, hpa⟩ := h12
  obtain ⟨b, hb, hpb⟩ := h23
  refine ⟨a ++ b, by rw [hb, ha, List.append_assoc], ?_⟩
  intro c hc
  rcases List.mem_append.mp hc with h | h
  · exact hpa c h
  · exact hpb c h

theorem TraceExt.mono {σ : Type} {P Q : Call → Prop} {w1 w2 : World σ}
    (h : TraceExt P w1 w2) (hPQ : ∀ c, P c → Q c) : TraceExt Q w1 w2 := by
  obtain ⟨a, ha, hpa⟩ := h
  exact ⟨a, ha, fun c hc => hPQ c (hpa c hc)⟩

theorem TraceExt.call {σ α : Type} (P : Call → Prop) (w : World σ) (c : Call)
    (op : σ → α × σ) (hc : P c) : TraceExt P w (w.call c op).2 :=
  ⟨[c], rfl, by simpa using hc⟩

theorem policyCoversUpload_trace {σ : Type} (timeutilNow : σ → Int × σ)
    (policy : ConfigurationPolicy) (upload : Upload) (w : World σ) :
    (policyCoversUpload timeutilNow policy upload w).2.trace = w.trace := by
  unfold policyCoversUpload
  cases policy.RetentionDuration <;> cases upload.FinishedAt <;> rfl

theorem filterPolicies_trace {σ : Type}
    (filter : ConfigurationPolicy → World σ → Result Bool × World σ)
    (hfilter : ∀ policy w, (filter policy w).2.trace = w.trace)
    (policies : List ConfigurationPolicy) (w : World σ) :
    (filterPolicies filter policies w).2.trace = w.trace := by
  induction policies generalizing w with
  | nil => rfl
  | cons policy rest ih =>
    unfold filterPolicies
    have h1 := hfilter policy w
    rcases hfp : filter policy w with ⟨r, w1⟩
    rw [hfp] at h1
    cases r with
    | error f => exact h1
    | ok keep =>
      have h2 := ih w1
      rcases hrest : filterPolicies filter rest w1 with ⟨r2, w2⟩
      rw [hrest] at h2
      cases r2 with
      | error f => simp only [hrest]; exact h2.trans h1
      | ok filtered => simp only [hrest]; exact h2.trans h1

theorem fastPath_trace {σ : Type} (e : uploadExpirer σ)
    (policies : List ConfigurationPolicy) (patterns : Patterns)
    (refDescriptions : String → List RefDescription) (cache : repositoryCache)
    (upload : Upload) (commits : List String) (w : World σ) :
    (isUploadProtectedByPolicyFastPath e policies patterns refDescriptions cache upload
      commits w).2.2.trace = w.trace := by
  unfold isUploadProtectedByPolicyFastPath
  have h := filterPolicies_trace (fun policy => policyCoversUpload e.timeutilNow policy upload)
    (fun policy w => policyCoversUpload_trace _ _ _ _) policies w
  rcases hfp : filterPolicies (fun policy => policyCoversUpload e.timeutilNow policy upload)
    policies w with ⟨r, w1⟩
  rw [hfp] at h
  cases r with
  | error f => exact h
  | ok ps =>
    simp only
    split <;> exact h

theorem slowPathLoop_trace {σ : Type} (e : uploadExpirer σ) (patterns : Patterns)
    (policies : List ConfigurationPolicy) (upload : Upload) (commits : List String)
    (cache : repositoryCache) (w : World σ) :
    TraceExt (fun c => c.isBranchesContaining = true) w
      (slowPathLoop e patterns policies upload commits cache w).2.2 := by
  induction commits generalizing cache w with
  | nil => exact TraceExt.refl _ _
  | cons commit rest ih =>
    simp only [slowPathLoop]
    split
    · split
      · exact TraceExt.refl _ _
      · exact TraceExt.refl _ _
      · exact ih _ _
    · have hcall := TraceExt.call (fun c => c.isBranchesContaining = true) w
        (.BranchesContaining upload.RepositoryID commit)
        (fun s => e.gitserverClient.BranchesContaining s upload.RepositoryID commit) rfl
      split
      · next heq => rw [heq] at hcall; exact hcall
      · next heq =>
        rw [heq] at hcall
        split
        · exact hcall
        · exact hcall
        · exact hcall.trans (ih _ _)

theorem slowPath_trace {σ : Type} (e : uploadExpirer σ)
    (policies : List ConfigurationPolicy) (patterns : Patterns) (cache : repositoryCache)
    (upload : Upload) (commits : List String) (w : World σ) :
    TraceExt (fun c => c.isBranchesContaining = true) w
      (isUploadProtectedByPolicySlowPath e policies patterns cache upload commits w).2.2 := by
  unfold isUploadProtectedByPolicySlowPath
  have h := filterPolicies_trace
    (fun policy w =>
      if policy.RetainIntermediateCommits then policyCoversUpload e.timeutilNow policy upload w
      else (.ok false, w))
    (fun policy w => by
      dsimp only
      split
      · exact policyCoversUpload_trace _ _ _ _
      · rfl) policies w
  split
  · next heq => rw [heq] at h; exact TraceExt.of_trace_eq _ _ _ h
  · next heq =>
    rw [heq] at h
    split
    · exact TraceExt.of_trace_eq _ _ _ h
    · exact (TraceExt.of_trace_eq _ _ _ h).trans (slowPathLoop_trace _ _ _ _ _ _ _)

theorem isUploadProtectedByPolicyFrom_trace {σ : Type} (e : uploadExpirer σ)
    (policies : List ConfigurationPolicy) (patterns : Patterns)
    (refDescriptions : String → List RefDescription) (upload : Upload) (fuel : Nat)
    (offset : Int) (cache : repositoryCache) (w : World σ) :
    TraceExt (fun c => c.isEvaluation = true) w
      (isUploadProtectedByPolicyFrom e policies patterns refDescriptions upload fuel offset
        cache w).2.2 := by
  induction fuel generalizing offset cache w with
  | zero => exact TraceExt.refl _ _
  | succ fuel ih =>
    simp only [isUploadProtectedByPolicyFrom]
    have hcall := TraceExt.call (fun c => c.isEvaluation = true) w
      (.CommitsVisibleToUpload upload.ID 100 offset)
      (fun s => e.dbStore.CommitsVisibleToUpload s upload.ID 100 offset) rfl
    split
    · next heq => rw [heq] at hcall; exact hcall
    · next commits w1 heq =>
      rw [heq] at hcall
      split
      · exact hcall
      · split
        · exact hcall
        · have hfast := fastPath_trace e policies patterns refDescriptions cache upload
            commits w1
          split
          · next cache2 w2 hf =>
            rw [hf] at hfast
            have hslow := (slowPath_trace e policies patterns cache2 upload commits w2).mono
              (Q := fun c => c.isEvaluation = true)
              (fun c hc => by simp [Call.isEvaluation, hc])
            split
            · next cache3 w3 hs =>
              rw [hs] at hslow
              exact (hcall.trans ((TraceExt.of_trace_eq _ _ _ hfast).trans hslow)).trans
                (ih _ _ _)
            · exact hcall.trans ((TraceExt.of_trace_eq _ _ _ hfast).trans hslow)
          · exact hcall.trans (TraceExt.of_trace_eq _ _ _ hfast)

theorem handleUploadsLoop_trace {σ : Type} (e : uploadExpirer σ) (fuel : Nat)
    (policies : List ConfigurationPolicy) (patterns : Patterns)
    (refDescriptions : String → List RefDescription) (uploads : List Upload)
    (protectedIDs expiredIDs : List Int) (cache : repositoryCache) (w : World σ) :
    TraceExt (fun c => c.isEvaluation = true) w
      (handleUploadsLoop e fuel policies patterns refDescriptions uploads protectedIDs
        expiredIDs cache w).2.2 := by
  induction uploads generalizing protectedIDs expiredIDs cache w with
  | nil => exact TraceExt.refl _ _
  | cons upload rest ih =>
    simp only [handleUploadsLoop]
    have h := isUploadProtectedByPolicyFrom_trace e policies patterns refDescriptions upload
      fuel 0 cache w
    split
    · next heq => rw [isUploadProtectedByPolicy] at heq; rw [heq] at h; exact h
    · next heq =>
      rw [isUploadProtectedByPolicy] at heq; rw [heq] at h; exact h.trans (ih _ _ _ _)
    · next heq =>
      rw [isUploadProtectedByPolicy] at heq; rw [heq] at h; exact h.trans (ih _ _ _ _)

/-! ## Lemmas on batches and on the pattern loop -/

theorem handleUploadsLoop_append {σ : Type} (e : uploadExpirer σ) (fuel : Nat)
    (policies : List ConfigurationPolicy) (patterns : Patterns)
    (refDescriptions : String → List RefDescription) (pre rest : List Upload)
    (protectedIDs expiredIDs : List Int) (cache : repositoryCache) (w : World σ) :
    handleUploadsLoop e fuel policies patterns refDescriptions (pre ++ rest) protectedIDs
        expiredIDs cache w =
      match handleUploadsLoop e fuel policies patterns refDescriptions pre protectedIDs
          expiredIDs cache w with
      | (.error f, cache1, w1) => (.error f, cache1, w1)
      | (.ok ids, cache1, w1) =>
        handleUploadsLoop e fuel policies patterns refDescriptions rest ids.1 ids.2 cache1 w1 := by
  induction pre generalizing protectedIDs expiredIDs cache w with
  | nil => rfl
  | cons upload pre ih =>
    simp only [List.cons_append, handleUploadsLoop]
    split
    · rfl
    · exact ih _ _ _ _
    · exact ih _ _ _ _

theorem handleUploads_trace_of_loop {σ : Type} (e : uploadExpirer σ) (fuel : Nat)
    (policies : List ConfigurationPolicy) (patterns : Patterns)
    (refDescriptions : String → List RefDescription) (cache : repositoryCache)
    (uploads : List Upload) (w : World σ) (ids : List Int × List Int)
    (cache1 : repositoryCache) (w1 : World σ)
    (hloop : handleUploadsLoop e fuel policies patterns refDescriptions uploads [] [] cache w =
      (.ok ids, cache1, w1)) :
    (handleUploads e fuel policies patterns refDescriptions cache uploads w).2.2.trace =
      w1.trace ++ [Call.UpdateUploadRetention ids.1 ids.2] := by
  simp only [handleUploads, hloop, World.call]
  rcases e.dbStore.UpdateUploadRetention w1.state ids.1 ids.2 with ⟨r, s1⟩
  cases r <;> rfl

theorem compilePatterns_first_failure {σ : Type} (e : uploadExpirer σ)
    (policies : List ConfigurationPolicy) (patterns : Patterns) (w : World σ)
    (hkeys : ∀ pattern g, patterns.lookup pattern = some g →
      ∃ g0, e.globCompile pattern = .ok g0)
    (policy : ConfigurationPolicy)
    (hfind : policies.find? (compileFails e) = some policy) :
    ∃ err, e.globCompile policy.Pattern = .error err ∧
      (compilePatterns e policies patterns w).1 =
        .error (.err (.wrap err (compileErrorMessage policy))) ∧
      TraceExt (fun c => c.isGlobCompile = true) w (compilePatterns e policies patterns w).2 := by
  induction policies generalizing patterns w with
  | nil => simp at hfind
  | cons p rest ih =>
    have hstep : TraceExt (fun c => c.isGlobCompile = true) w
        { w with trace := w.trace ++ [Call.globCompile p.Pattern] } :=
      ⟨[Call.globCompile p.Pattern], rfl, by simp [Call.isGlobCompile]⟩
    rw [List.find?_cons] at hfind
    cases hp : compileFails e p with
    | true =>
      rw [hp] at hfind
      simp only [Option.some.injEq] at hfind
      subst hfind
      unfold compileFails at hp
      cases hc : e.globCompile p.Pattern with
      | ok g => rw [hc] at hp; simp at hp
      | error err =>
        have hnone : patterns.lookup p.Pattern = none := by
          cases hl : patterns.lookup p.Pattern with
          | none => rfl
          | some g =>
            obtain ⟨g0, hg0⟩ := hkeys _ _ hl
            rw [hc] at hg0
            simp at hg0
        refine ⟨err, rfl, ?_, ?_⟩
        · simp only [compilePatterns, hnone, hc]
        · simp only [compilePatterns, hnone, hc]
          exact hstep
    | false =>
      rw [hp] at hfind
      simp only at hfind
      cases hl : patterns.lookup p.Pattern with
      | some g =>
        simp only [compilePatterns, hl]
        exact ih patterns w hkeys hfind
      | none =>
        unfold compileFails at hp
        cases hc : e.globCompile p.Pattern with
        | error err => rw [hc] at hp; simp at hp
        | ok g =>
          simp only [compilePatterns, hl, hc]
          have hkeys2 : ∀ pattern g1, List.lookup pattern ((p.Pattern, g) :: patterns) = some g1 →
              ∃ g0, e.globCompile pattern = .ok g0 := by
            intro pattern g1 h1
            rw [List.lookup_cons] at h1
            by_cases hk : pattern = p.Pattern
            · subst hk
              exact ⟨g, hc⟩
            · have : (pattern == p.Pattern) = false := by simpa using hk
              rw [this] at h1
              exact hkeys _ _ h1
          obtain ⟨err, h1, h2, h3⟩ := ih ((p.Pattern, g) :: patterns)
            { w with trace := w.trace ++ [Call.globCompile p.Pattern] } hkeys2 hfind
          exact ⟨err, h1, h2, hstep.trans h3⟩

/-! ## Lemmas on the protection check -/

theorem lookup_mem {β : Type} (key : String) (value : β) (l : List (String × β))
    (h : l.lookup key = some value) : (key, value) ∈ l := by
  induction l with
  | nil => simp at h
  | cons x rest ih =>
    obtain ⟨k, v⟩ := x
    rw [List.lookup_cons] at h
    by_cases hk : key = k
    · subst hk
      simp only [beq_self_eq_true, Option.some.injEq] at h
      subst h
      exact List.mem_cons_self _ _
    · have : (key == k) = false := by simpa using hk
      rw [this] at h
      exact List.mem_cons_of_mem _ (ih h)

theorem LRUConsistent_Get (containing : String → List String) (c : LRU) (key : String)
    (hc : LRUConsistent containing c) :
    LRUConsistent containing (c.Get key).2 ∧
    (∀ value, (c.Get key).1 = some value → value = containing key) := by
  unfold LRU.Get
  cases hl : c.items.lookup key with
  | none => exact ⟨hc, by simp⟩
  | some value =>
    have hv := hc key value (lookup_mem _ _ _ hl)
    refine ⟨?_, ?_⟩
    · intro k v hm
      simp only [List.mem_cons, Prod.mk.injEq, List.mem_filter] at hm
      rcases hm with ⟨rfl, rfl⟩ | ⟨hm, _⟩
      · exact hv
      · exact hc k v hm
    · intro v h
      simp only [Option.some.injEq] at h
      rw [← h]
      exact hv

theorem LRUConsistent_Add (containing : String → List String) (c : LRU) (key : String)
    (hc : LRUConsistent containing c) :
    LRUConsistent containing (c.Add key (containing key)) := by
  unfold LRU.Add
  cases c.items.lookup key with
  | some value =>
    intro k v hm
    simp only [List.mem_cons, Prod.mk.injEq, List.mem_filter] at hm
    rcases hm with ⟨rfl, rfl⟩ | ⟨hm, _⟩
    · rfl
    · exact hc k v hm
  | none =>
    have hcons : ∀ k v, (k, v) ∈ (key, containing key) :: c.items → v = containing k := by
      intro k v hm
      simp only [List.mem_cons, Prod.mk.injEq] at hm
      rcases hm with ⟨rfl, rfl⟩ | hm
      · rfl
      · exact hc k v hm
    simp only
    split
    · intro k v hm
      exact hcons k v (List.mem_of_mem_dropLast hm)
    · exact hcons

theorem policyCoversUpload_eq {σ : Type} (timeutilNow : σ → Int × σ) (now finishedAt : Int)
    (policy : ConfigurationPolicy) (upload : Upload) (w : World σ)
    (hnow : ∀ s, (timeutilNow s).1 = now) (hf : upload.FinishedAt = some finishedAt) :
    (policyCoversUpload timeutilNow policy upload w).1 = .ok (covers now finishedAt policy) := by
  unfold policyCoversUpload covers
  cases policy.RetentionDuration with
  | none => rfl
  | some duration => simp only [hf, hnow]

theorem filterPolicies_eq {σ : Type}
    (filter : ConfigurationPolicy → World σ → Result Bool × World σ)
    (keep : ConfigurationPolicy → Bool)
    (hfilter : ∀ policy w, (filter policy w).1 = .ok (keep policy))
    (policies : List ConfigurationPolicy) (w : World σ) :
    (filterPolicies filter policies w).1 = .ok (policies.filter keep) := by
  induction policies generalizing w with
  | nil => rfl
  | cons policy rest ih =>
    unfold filterPolicies
    have h1 := hfilter policy w
    rcases hfp : filter policy w with ⟨r, w1⟩
    rw [hfp] at h1
    simp only at h1
    subst h1
    have h2 := ih w1
    rcases hrest : filterPolicies filter rest w1 with ⟨r2, w2⟩
    rw [hrest] at h2
    simp only at h2
    subst h2
    simp only [hrest, List.filter_cons]

theorem AllCompiled_filter (patterns : Patterns) (policies : List ConfigurationPolicy)
    (keep : ConfigurationPolicy → Bool) (hc : AllCompiled patterns policies) :
    AllCompiled patterns (policies.filter keep) :=
  fun policy hp => hc policy (List.mem_filter.mp hp).1

/-- With every pattern compiled the loop of the fast path returns whether the tip
matcher accepts some commit of the page, and it adds the first such commit to the
protected commits. -/
theorem fastPathLoop_eq (patterns : Patterns) (refDescriptions : String → List RefDescription)
    (policies : List ConfigurationPolicy) (cache : repositoryCache) (commits : List String)
    (hc : AllCompiled patterns policies) :
    fastPathLoop patterns refDescriptions policies cache commits =
      (.ok (commits.any (tipProtected patterns refDescriptions policies)),
        match commits.find? (tipProtected patterns refDescriptions policies) with
        | some commit =>
          { cache with protectedCommits := cache.protectedCommits.insert commit }
        | none => cache) := by
  induction commits with
  | nil => rfl
  | cons commit rest ih =>
    have hm : newTipPolicyMatcher patterns commit (refDescriptions commit) policies =
        .ok (tipProtected patterns refDescriptions policies commit) := by
      simp only [newTipPolicyMatcher, tipPolicyMatcherLoop_eq _ _ _ _ _ hc, tipProtected]
    simp only [fastPathLoop, hm, List.any_cons, List.find?_cons]
    cases tipProtected patterns refDescriptions policies commit with
    | true => simp
    | false => simpa using ih

theorem fastPath_eq {σ : Type} (e : uploadExpirer σ) (policies : List ConfigurationPolicy)
    (patterns : Patterns) (refDescriptions : String → List RefDescription)
    (cache : repositoryCache) (upload : Upload) (commits : List String) (w : World σ)
    (now finishedAt : Int)
    (hc : AllCompiled patterns policies)
    (hnow : ∀ s, (e.timeutilNow s).1 = now) (hf : upload.FinishedAt = some finishedAt) :
    ∃ w1 : World σ, w1.trace = w.trace ∧
      isUploadProtectedByPolicyFastPath e policies patterns refDescriptions cache upload
          commits w =
        (.ok (commits.any
            (tipProtected patterns refDescriptions (policies.filter (covers now finishedAt)))),
          (match commits.find?
              (tipProtected patterns refDescriptions
                (policies.filter (covers now finishedAt))) with
            | some commit =>
              { cache with protectedCommits := cache.protectedCommits.insert commit }
            | none => cache), w1) := by
  have h1 := filterPolicies_eq (fun policy => policyCoversUpload e.timeutilNow policy upload)
    (covers now finishedAt)
    (fun policy w => policyCoversUpload_eq _ _ _ _ _ _ hnow hf) policies w
  have h2 := filterPolicies_trace (fun policy => policyCoversUpload e.timeutilNow policy upload)
    (fun policy w => policyCoversUpload_trace _ _ _ _) policies w
  unfold isUploadProtectedByPolicyFastPath
  rcases hfp : filterPolicies (fun policy => policyCoversUpload e.timeutilNow policy upload)
    policies w with ⟨r, w1⟩
  rw [hfp] at h1 h2
  simp only at h1 h2
  subst h1
  refine ⟨w1, h2, ?_⟩
  simp only
  split
  · next hlen =>
    have hnil : policies.filter (covers now finishedAt) = [] := List.length_eq_zero.mp hlen
    have hnone : commits.find? (tipProtected patterns refDescriptions []) = none := by
      rw [List.find?_eq_none]
      intro c _
      simp [tipProtected]
    have hany : commits.any (tipProtected patterns refDescriptions []) = false := by
      rw [List.any_eq_false]
      intro c _
      simp [tipProtected]
    rw [hnil, hnone, hany]
  · rw [fastPathLoop_eq _ _ _ _ _ (AllCompiled_filter _ _ _ hc)]

theorem slowPathLoop_eq {σ : Type} (e : uploadExpirer σ) (patterns : Patterns)
    (policies : List ConfigurationPolicy) (upload : Upload) (commits : List String)
    (cache : repositoryCache) (w : World σ) (containing : String → List String)
    (hc : AllCompiled patterns policies)
    (hcontaining : ∀ s commit,
      (e.gitserverClient.BranchesContaining s upload.RepositoryID commit).1 =
        .ok (containing commit))
    (hlru : LRUConsistent containing cache.branchesContaining) :
    ∃ (lru : LRU) (w1 : World σ), LRUConsistent containing lru ∧
      slowPathLoop e patterns policies upload commits cache w =
        (.ok (commits.any (containsProtected patterns containing policies)),
          { protectedCommits :=
              (match commits.find? (containsProtected patterns containing policies) with
                | some commit => cache.protectedCommits.insert commit
                | none => cache.protectedCommits),
            branchesContaining := lru }, w1) := by
  induction commits generalizing cache w with
  | nil => exact ⟨cache.branchesContaining, w, hlru, rfl⟩
  | cons commit rest ih =>
    have hm : ∀ branches, branches = containing commit →
        newContainsPolicyMatcher patterns commit branches policies =
          .ok (containsProtected patterns containing policies commit) := by
      intro branches hb
      subst hb
      simp only [newContainsPolicyMatcher, containsPolicyMatcherLoop_eq _ _ _ hc,
        containsProtected]
    obtain ⟨hget1, hget2⟩ := LRUConsistent_Get containing cache.branchesContaining commit hlru
    simp only [slowPathLoop, List.any_cons, List.find?_cons]
    rcases hget : cache.branchesContaining.Get commit with ⟨found, lru⟩
    rw [hget] at hget1 hget2
    simp only at hget1 hget2
    cases found with
    | some branches =>
      simp only [hm branches (hget2 branches rfl)]
      cases hcp : containsProtected patterns containing policies commit with
      | true => exact ⟨lru, w, hget1, by simp⟩
      | false =>
        obtain ⟨lru2, w2, h1, h2⟩ :=
          ih { cache with branchesContaining := lru } w hget1
        exact ⟨lru2, w2, h1, by simpa using h2⟩
    | none =>
      have hcall := hcontaining w.state commit
      simp only [World.call]
      rcases hbc : e.gitserverClient.BranchesContaining w.state upload.RepositoryID commit
        with ⟨r, s1⟩
      rw [hbc] at hcall
      simp only at hcall
      subst hcall
      simp only [hm (containing commit) rfl]
      have hadd := LRUConsistent_Add containing lru commit hget1
      cases hcp : containsProtected patterns containing policies commit with
      | true =>
        exact ⟨lru.Add commit (containing commit),
          { state := s1,
            trace := w.trace ++ [Call.BranchesContaining upload.RepositoryID commit] },
          hadd, by simp⟩
      | false =>
        obtain ⟨lru2, w2, h1, h2⟩ :=
          ih { cache with branchesContaining := lru.Add commit (containing commit) }
            { state := s1,
              trace := w.trace ++ [Call.BranchesContaining upload.RepositoryID commit] } hadd
        exact ⟨lru2, w2, h1, by simpa using h2⟩

theorem slowPath_eq {σ : Type} (e : uploadExpirer σ) (policies : List ConfigurationPolicy)
    (patterns : Patterns) (cache : repositoryCache) (upload : Upload) (commits : List String)
    (w : World σ) (now finishedAt : Int) (containing : String → List String)
    (hc : AllCompiled patterns policies)
    (hnow : ∀ s, (e.timeutilNow s).1 = now) (hf : upload.FinishedAt = some finishedAt)
    (hcontaining : ∀ s commit,
      (e.gitserverClient.BranchesContaining s upload.RepositoryID commit).1 =
        .ok (containing commit))
    (hlru : LRUConsistent containing cache.branchesContaining) :
    ∃ (lru : LRU) (w1 : World σ), LRUConsistent containing lru ∧
      isUploadProtectedByPolicySlowPath e policies patterns cache upload commits w =
        (.ok (commits.any (containsProtected patterns containing
            (policies.filter (fun policy =>
              policy.RetainIntermediateCommits && covers now finishedAt policy)))),
          { protectedCommits :=
              (match commits.find? (containsProtected patterns containing
                  (policies.filter (fun policy =>
                    policy.RetainIntermediateCommits && covers now finishedAt policy))) with
                | some commit => cache.protectedCommits.insert commit
                | none => cache.protectedCommits),
            branchesContaining := lru }, w1) := by
  have h1 := filterPolicies_eq
    (fun policy (w : World σ) =>
      if policy.RetainIntermediateCommits then policyCoversUpload e.timeutilNow policy upload w
      else (.ok false, w))
    (fun policy => policy.RetainIntermediateCommits && covers now finishedAt policy)
    (fun policy w => by
      rcases Bool.eq_false_or_eq_true policy.RetainIntermediateCommits with hr | hr
      · simp only [hr, if_true, Bool.true_and]
        exact policyCoversUpload_eq _ _ _ _ _ _ hnow hf
      · simp [hr]) policies w
  unfold isUploadProtectedByPolicySlowPath
  rcases hfp : filterPolicies
    (fun policy (w : World σ) =>
      if policy.RetainIntermediateCommits then policyCoversUpload e.timeutilNow policy upload w
      else (.ok false, w)) policies w with ⟨r, w1⟩
  rw [hfp] at h1
  simp only at h1
  subst h1
  simp only
  split
  · next hlen =>
    have hnil : policies.filter (fun policy =>
        policy.RetainIntermediateCommits && covers now finishedAt policy) = [] :=
      List.length_eq_zero.mp hlen
    have hnone : commits.find? (containsProtected patterns containing []) = none := by
      rw [List.find?_eq_none]
      intro c _
      simp [containsProtected]
    have hany : commits.any (containsProtected patterns containing []) = false := by
      rw [List.any_eq_false]
      intro c _
      simp [containsProtected]
    exact ⟨cache.branchesContaining, w1, hlru, by rw [hnil, hnone, hany]⟩
  · exact slowPathLoop_eq e patterns _ upload commits cache w1 containing
      (AllCompiled_filter _ _ _ hc) hcontaining hlru

theorem commitProtected_of_tip (patterns : Patterns)
    (refDescriptions : String → List RefDescription) (containing : String → List String)
    (policies : List ConfigurationPolicy) (now finishedAt : Int) (commit : String)
    (h : tipProtected patterns refDescriptions (policies.filter (covers now finishedAt))
      commit = true) :
    commitProtected patterns refDescriptions containing policies now finishedAt commit = true := by
  simp [commitProtected, h]

theorem commitProtected_of_contains (patterns : Patterns)
    (refDescriptions : String → List RefDescription) (containing : String → List String)
    (policies : List ConfigurationPolicy) (now finishedAt : Int) (commit : String)
    (h : containsProtected patterns containing
      (policies.filter (fun policy =>
        policy.RetainIntermediateCommits && covers now finishedAt policy)) commit = true) :
    commitProtected patterns refDescriptions containing policies now finishedAt commit = true := by
  simp [commitProtected, h]

/-- The page loop under a deterministic store and gitserver: it returns whether some
commit of some page protects the upload, provided every commit already in the cache
does, and it keeps that property of the cache. -/
theorem isUploadProtectedByPolicyFrom_eq {σ : Type} (e : uploadExpirer σ)
    (policies : List ConfigurationPolicy) (patterns : Patterns)
    (refDescriptions : String → List RefDescription) (upload : Upload)
    (now finishedAt : Int) (visible : Int → List String) (containing : String → List String)
    (hc : AllCompiled patterns policies)
    (hnow : ∀ s, (e.timeutilNow s).1 = now) (hf : upload.FinishedAt = some finishedAt)
    (hvisible : ∀ s offset,
      (e.dbStore.CommitsVisibleToUpload s upload.ID 100 offset).1 = .ok (visible offset))
    (hcontaining : ∀ s commit,
      (e.gitserverClient.BranchesContaining s upload.RepositoryID commit).1 =
        .ok (containing commit))
    (pages : List (List String)) (fuel : Nat) (offset : Int) (cache : repositoryCache)
    (w : World σ)
    (hinv : ∀ c ∈ cache.protectedCommits,
      commitProtected patterns refDescriptions containing policies now finishedAt c = true)
    (hlru : LRUConsistent containing cache.branchesContaining)
    (hpages : ServesPages visible offset pages) (hfuel : pages.length < fuel) :
    ∃ (cache1 : repositoryCache) (w1 : World σ),
      isUploadProtectedByPolicyFrom e policies patterns refDescriptions upload fuel offset
          cache w =
        (.ok (pages.any (fun page => page.any
            (commitProtected patterns refDescriptions containing policies now finishedAt))),
          cache1, w1) ∧
      LRUConsistent containing cache1.branchesContaining ∧
      (∀ c ∈ cache1.protectedCommits,
        commitProtected patterns refDescriptions containing policies now finishedAt c = true) := by
  induction pages generalizing fuel offset cache w with
  | nil =>
    cases fuel with
    | zero => simp at hfuel
    | succ fuel =>
      have hv := hvisible w.state offset
      simp only [ServesPages] at hpages
      simp only [isUploadProtectedByPolicyFrom, World.call]
      rcases hcv : e.dbStore.CommitsVisibleToUpload w.state upload.ID 100 offset with ⟨r, s1⟩
      rw [hcv, hpages] at hv
      simp only at hv
      subst hv
      simp only [List.length_nil, if_true, List.any_nil]
      exact ⟨_, _, rfl, hlru, hinv⟩
  | cons page rest ih =>
    cases fuel with
    | zero => simp at hfuel
    | succ fuel =>
      have hfuel2 : rest.length < fuel := by simpa using hfuel
      have hv := hvisible w.state offset
      obtain ⟨hne, hpage, hrest⟩ := hpages
      simp only [isUploadProtectedByPolicyFrom, World.call]
      rcases hcv : e.dbStore.CommitsVisibleToUpload w.state upload.ID 100 offset with ⟨r, s1⟩
      rw [hcv, hpage] at hv
      simp only at hv
      subst hv
      have hlen : page.length ≠ 0 := fun h => hne (List.length_eq_zero.mp h)
      simp only [hlen, if_false, List.any_cons]
      by_cases hhit : page.any (fun commit => decide (commit ∈ cache.protectedCommits)) = true
      · obtain ⟨c, hcp, hcm⟩ := List.any_eq_true.mp hhit
        have hprot := hinv c (of_decide_eq_true hcm)
        have hany : page.any
            (commitProtected patterns refDescriptions containing policies now finishedAt) =
            true := List.any_eq_true.mpr ⟨c, hcp, hprot⟩
        simp only [hhit, if_true, hany, Bool.true_or]
        exact ⟨_, _, rfl, hlru, hinv⟩
      · simp only [hhit]
        obtain ⟨w2, _, hfast⟩ := fastPath_eq e policies patterns refDescriptions cache upload
          page { state := s1, trace := w.trace ++ [Call.CommitsVisibleToUpload upload.ID 100 offset] }
          now finishedAt hc hnow hf
        rw [hfast]
        rcases Bool.eq_false_or_eq_true (page.any (tipProtected patterns refDescriptions
            (policies.filter (covers now finishedAt)))) with htip | htip
        · obtain ⟨c, hcp, hct⟩ := List.any_eq_true.mp htip
          have hprot := commitProtected_of_tip patterns refDescriptions containing policies now
            finishedAt c hct
          have hany : page.any
              (commitProtected patterns refDescriptions containing policies now finishedAt) =
              true := List.any_eq_true.mpr ⟨c, hcp, hprot⟩
          cases hfind : page.find? (tipProtected patterns refDescriptions
              (policies.filter (covers now finishedAt))) with
          | none =>
            rw [List.find?_eq_none] at hfind
            exact absurd hct (hfind c hcp)
          | some c1 =>
            simp only [htip, hany, Bool.true_or]
            refine ⟨_, _, rfl, hlru, ?_⟩
            intro c2 hc2
            simp only [List.mem_insert_iff] at hc2
            rcases hc2 with rfl | hc2
            · exact commitProtected_of_tip _ _ _ _ _ _ _ (List.find?_some hfind)
            · exact hinv c2 hc2
        · have hfindF : page.find? (tipProtected patterns refDescriptions
              (policies.filter (covers now finishedAt))) = none := by
            rw [List.find?_eq_none]
            intro c hcp
            have := List.any_eq_false.mp htip c hcp
            simpa using this
          simp only [htip, hfindF]
          obtain ⟨lru, w3, hlru3, hslow⟩ := slowPath_eq e policies patterns cache upload page
            w2 now finishedAt containing hc hnow hf hcontaining hlru
          rw [hslow]
          rcases Bool.eq_false_or_eq_true (page.any (containsProtected patterns containing
              (policies.filter (fun policy =>
                policy.RetainIntermediateCommits && covers now finishedAt policy)))) with
            hcon | hcon
          · obtain ⟨c, hcp, hct⟩ := List.any_eq_true.mp hcon
            have hprot := commitProtected_of_contains patterns refDescriptions containing
              policies now finishedAt c hct
            have hany : page.any
                (commitProtected patterns refDescriptions containing policies now finishedAt) =
                true := List.any_eq_true.mpr ⟨c, hcp, hprot⟩
            cases hfind : page.find? (containsProtected patterns containing
                (policies.filter (fun policy =>
                  policy.RetainIntermediateCommits && covers now finishedAt policy))) with
            | none =>
              rw [List.find?_eq_none] at hfind
              exact absurd hct (hfind c hcp)
            | some c1 =>
              simp only [hcon, hany, Bool.true_or]
              refine ⟨_, _, rfl, hlru3, ?_⟩
              intro c2 hc2
              simp only [List.mem_insert_iff] at hc2
              rcases hc2 with rfl | hc2
              · exact commitProtected_of_contains _ _ _ _ _ _ _ (List.find?_some hfind)
              · exact hinv c2 hc2
          · have hfindS : page.find? (containsProtected patterns containing
                (policies.filter (fun policy =>
                  policy.RetainIntermediateCommits && covers now finishedAt policy))) =
                none := by
              rw [List.find?_eq_none]
              intro c hcp
              have := List.any_eq_false.mp hcon c hcp
              simpa using this
            have hany : page.any
                (commitProtected patterns refDescriptions containing policies now finishedAt) =
                false := by
              rw [List.any_eq_false]
              intro c hcp
              have h1 := List.any_eq_false.mp htip c hcp
              have h2 := List.any_eq_false.mp hcon c hcp
              simp only [Bool.not_eq_true] at h1 h2
              simp [commitProtected, h1, h2]
            simp only [hcon, hfindS, hany, Bool.false_or]
            exact ih fuel (offset + page.length)
              { protectedCommits := cache.protectedCommits, branchesContaining := lru } w3
              hinv hlru3 hrest hfuel2

theorem tipProtected_filter_iff (patterns : Patterns)
    (refDescriptions : String → List RefDescription) (policies : List ConfigurationPolicy)
    (keep : ConfigurationPolicy → Bool) (commit : String)
    (hc : AllCompiled patterns policies) :
    tipProtected patterns refDescriptions (policies.filter keep) commit = true ↔
      ∃ policy ∈ policies, keep policy = true ∧
        newTipPolicyMatcher patterns commit (refDescriptions commit) [policy] = .ok true := by
  have hone : ∀ policy ∈ policies,
      newTipPolicyMatcher patterns commit (refDescriptions commit) [policy] =
        .ok (tipProtected patterns refDescriptions [policy] commit) := by
    intro policy hp
    have hc1 : AllCompiled patterns [policy] := by
      intro q hq
      rw [List.mem_singleton] at hq
      subst hq
      exact hc q hp
    simp only [newTipPolicyMatcher, tipPolicyMatcherLoop_eq _ _ _ _ _ hc1, tipProtected]
  simp only [tipProtected, List.any_eq_true, List.mem_filter]
  constructor
  · rintro ⟨policy, ⟨hp, hk⟩, hm⟩
    refine ⟨policy, hp, hk, ?_⟩
    rw [hone policy hp]
    simp only [tipProtected, List.any_cons, List.any_nil, Bool.or_false, hm]
  · rintro ⟨policy, hp, hk, hm⟩
    refine ⟨policy, ⟨hp, hk⟩, ?_⟩
    rw [hone policy hp] at hm
    simpa only [tipProtected, List.any_cons, List.any_nil, Bool.or_false,
      Except.ok.injEq] using hm

theorem containsProtected_filter_iff (patterns : Patterns)
    (containing : String → List String) (policies : List ConfigurationPolicy)
    (keep : ConfigurationPolicy → Bool) (commit : String)
    (hc : AllCompiled patterns policies) :
    containsProtected patterns containing (policies.filter keep) commit = true ↔
      ∃ policy ∈ policies, keep policy = true ∧
        newContainsPolicyMatcher patterns commit (containing commit) [policy] = .ok true := by
  have hone : ∀ policy ∈ policies,
      newContainsPolicyMatcher patterns commit (containing commit) [policy] =
        .ok (containsProtected patterns containing [policy] commit) := by
    intro policy hp
    have hc1 : AllCompiled patterns [policy] := by
      intro q hq
      rw [List.mem_singleton] at hq
      subst hq
      exact hc q hp
    simp only [newContainsPolicyMatcher, containsPolicyMatcherLoop_eq _ _ _ hc1,
      containsProtected]
  simp only [containsProtected, List.any_eq_true, List.mem_filter]
  constructor
  · rintro ⟨policy, ⟨hp, hk⟩, hm⟩
    refine ⟨policy, hp, hk, ?_⟩
    rw [hone policy hp]
    simp only [containsProtected, List.any_cons, List.any_nil, Bool.or_false]
    rw [hm]
  · rintro ⟨policy, hp, hk, hm⟩
    refine ⟨policy, ⟨hp, hk⟩, ?_⟩
    rw [hone policy hp] at hm
    simp only [containsProtected, List.any_cons, List.any_nil, Bool.or_false,
      Except.ok.injEq] at hm
    exact hm

/-- The reading `commitProtected` in the words of the matchers: a covering policy
tip-matches the commit, or a covering policy that retains intermediate commits matches a
branch that contains it. -/
theorem commitProtected_iff (patterns : Patterns)
    (refDescriptions : String → List RefDescription) (containing : String → List String)
    (policies : List ConfigurationPolicy) (now finishedAt : Int) (commit : String)
    (hc : AllCompiled patterns policies) :
    commitProtected patterns refDescriptions containing policies now finishedAt commit = true ↔
      ∃ policy ∈ policies, covers now finishedAt policy = true ∧
        (newTipPolicyMatcher patterns commit (refDescriptions commit) [policy] = .ok true ∨
         (policy.RetainIntermediateCommits = true ∧
          newContainsPolicyMatcher patterns commit (containing commit) [policy] = .ok true)) := by
  simp only [commitProtected, Bool.or_eq_true, tipProtected_filter_iff _ _ _ _ _ hc,
    containsProtected_filter_iff _ _ _ _ _ hc, Bool.and_eq_true]
  constructor
  · rintro (⟨policy, hp, hk, hm⟩ | ⟨policy, hp, ⟨hr, hk⟩, hm⟩)
    · exact ⟨policy, hp, hk, Or.inl hm⟩
    · exact ⟨policy, hp, hk, Or.inr ⟨hr, hm⟩⟩
  · rintro ⟨policy, hp, hk, hm | ⟨hr, hm⟩⟩
    · exact Or.inl ⟨policy, hp, hk, hm⟩
    · exact Or.inr ⟨policy, hp, ⟨hr, hk⟩, hm⟩

/-! ## Lemmas on the processing order -/

theorem timeSub_antitone (now f1 f2 : Int) (h : f1 ≤ f2) : timeSub now f2 ≤ timeSub now f1 := by
  unfold timeSub minDuration maxDuration
  split_ifs <;> omega

theorem covers_mono (now f1 f2 : Int) (policy : ConfigurationPolicy) (h : f1 ≤ f2)
    (hcov : covers now f1 policy = true) : covers now f2 policy = true := by
  unfold covers at hcov ⊢
  cases hd : policy.RetentionDuration with
  | none => rfl
  | some duration =>
    rw [hd] at hcov
    simp only [decide_eq_true_eq] at hcov ⊢
    exact le_trans (timeSub_antitone now f1 f2 h) hcov

theorem commitProtected_mono (patterns : Patterns)
    (refDescriptions : String → List RefDescription) (containing : String → List String)
    (policies : List ConfigurationPolicy) (now f1 f2 : Int) (commit : String)
    (hc : AllCompiled patterns policies) (h : f1 ≤ f2)
    (hp : commitProtected patterns refDescriptions containing policies now f1 commit = true) :
    commitProtected patterns refDescriptions containing policies now f2 commit = true := by
  rw [commitProtected_iff _ _ _ _ _ _ _ hc] at hp ⊢
  obtain ⟨policy, hmem, hcov, hm⟩ := hp
  exact ⟨policy, hmem, covers_mono now f1 f2 policy h hcov, hm⟩

/-- Oldest-first scan of a list of uploads with a shared cache: the scan returns, and
every commit it leaves in the cache protects every upload completed at `hi` or later. -/
theorem handleUploadsLoop_inv {σ : Type} (e : uploadExpirer σ) (fuel : Nat)
    (policies : List ConfigurationPolicy) (patterns : Patterns)
    (refDescriptions : String → List RefDescription)
    (now : Int) (repositoryID : Int) (visible : Int → Int → List String)
    (containing : String → List String)
    (hc : AllCompiled patterns policies)
    (hnow : ∀ s, (e.timeutilNow s).1 = now)
    (hvisible : ∀ s uploadID offset,
      (e.dbStore.CommitsVisibleToUpload s uploadID 100 offset).1 =
        .ok (visible uploadID offset))
    (hcontaining : ∀ s commit,
      (e.gitserverClient.BranchesContaining s repositoryID commit).1 = .ok (containing commit))
    (uploads : List Upload) (hi : Int)
    (protectedIDs expiredIDs : List Int) (cache : repositoryCache) (w : World σ)
    (hrepo : ∀ u ∈ uploads, u.RepositoryID = repositoryID)
    (hfin : ∀ u ∈ uploads, ∃ f, u.FinishedAt = some f ∧ f ≤ hi)
    (hpages : ∀ u ∈ uploads, ∃ pages, ServesPages (visible u.ID) 0 pages ∧ pages.length < fuel)
    (hsorted : uploads.Pairwise (fun u1 u2 =>
      ∀ f1 f2, u1.FinishedAt = some f1 → u2.FinishedAt = some f2 → f1 ≤ f2))
    (hlru : LRUConsistent containing cache.branchesContaining)
    (hinv : ∀ c ∈ cache.protectedCommits,
      (∀ u ∈ uploads, ∀ f, u.FinishedAt = some f →
        commitProtected patterns refDescriptions containing policies now f c = true) ∧
      commitProtected patterns refDescriptions containing policies now hi c = true) :
    ∃ (ids : List Int × List Int) (cache1 : repositoryCache) (w1 : World σ),
      handleUploadsLoop e fuel policies patterns refDescriptions uploads protectedIDs
        expiredIDs cache w = (.ok ids, cache1, w1) ∧
      LRUConsistent containing cache1.branchesContaining ∧
      (∀ c ∈ cache1.protectedCommits,
        commitProtected patterns refDescriptions containing policies now hi c = true) := by
  induction uploads generalizing protectedIDs expiredIDs cache w with
  | nil => exact ⟨_, _, _, rfl, hlru, fun c hcm => (hinv c hcm).2⟩
  | cons upload rest ih =>
    obtain ⟨f, hf, hfhi⟩ := hfin upload (List.mem_cons_self _ _)
    obtain ⟨pages, hserve, hlen⟩ := hpages upload (List.mem_cons_self _ _)
    have hrepoU := hrepo upload (List.mem_cons_self _ _)
    obtain ⟨cache1, w1, heq, hlru1, hinv1⟩ := isUploadProtectedByPolicyFrom_eq e policies
      patterns refDescriptions upload now f (visible upload.ID) containing hc hnow hf
      (fun s offset => hvisible s upload.ID offset)
      (fun s commit => by rw [hrepoU]; exact hcontaining s commit)
      pages fuel 0 cache w
      (fun c hcm => (hinv c hcm).1 upload (List.mem_cons_self _ _) f hf) hlru hserve hlen
    have hsorted2 := List.pairwise_cons.mp hsorted
    have hinv2 : ∀ c ∈ cache1.protectedCommits,
        (∀ u ∈ rest, ∀ f2, u.FinishedAt = some f2 →
          commitProtected patterns refDescriptions containing policies now f2 c = true) ∧
        commitProtected patterns refDescriptions containing policies now hi c = true := by
      intro c hcm
      refine ⟨fun u hu f2 hf2 => ?_, ?_⟩
      · exact commitProtected_mono _ _ _ _ _ f f2 c hc (hsorted2.1 u hu f f2 hf hf2)
          (hinv1 c hcm)
      · exact commitProtected_mono _ _ _ _ _ f hi c hc hfhi (hinv1 c hcm)
    have hrest := fun (p x : List Int) => ih p x cache1 w1
      (fun u hu => hrepo u (List.mem_cons_of_mem _ hu))
      (fun u hu => hfin u (List.mem_cons_of_mem _ hu))
      (fun u hu => hpages u (List.mem_cons_of_mem _ hu)) hsorted2.2 hlru1 hinv2
    simp only [handleUploadsLoop, isUploadProtectedByPolicy, heq]
    cases pages.any (fun page => page.any
        (commitProtected patterns refDescriptions containing policies now f)) with
    | true => exact hrest _ _
    | false => exact hrest _ _

/-! ## Lemmas on a cache hit -/

theorem policyCoversUpload_ok {σ : Type} (timeutilNow : σ → Int × σ)
    (policy : ConfigurationPolicy) (upload : Upload) (w : World σ) (finishedAt : Int)
    (hf : upload.FinishedAt = some finishedAt) :
    ∃ b, (policyCoversUpload timeutilNow policy upload w).1 = .ok b := by
  unfold policyCoversUpload
  cases policy.RetentionDuration with
  | none => exact ⟨_, rfl⟩
  | some duration => simp only [hf]; exact ⟨_, rfl⟩

theorem filterPolicies_ok {σ : Type}
    (filter : ConfigurationPolicy → World σ → Result Bool × World σ)
    (hfilter : ∀ policy w, ∃ b, (filter policy w).1 = .ok b)
    (policies : List ConfigurationPolicy) (w : World σ) :
    ∃ kept, (filterPolicies filter policies w).1 = .ok kept ∧ ∀ p ∈ kept, p ∈ policies := by
  induction policies generalizing w with
  | nil => exact ⟨[], rfl, fun p hp => hp⟩
  | cons policy rest ih =>
    obtain ⟨b, hb⟩ := hfilter policy w
    unfold filterPolicies
    rcases hfp : filter policy w with ⟨r, w1⟩
    rw [hfp] at hb
    simp only at hb
    subst hb
    obtain ⟨kept, hk, hsub⟩ := ih w1
    rcases hrest : filterPolicies filter rest w1 with ⟨r2, w2⟩
    rw [hrest] at hk
    simp only at hk
    subst hk
    simp only [hrest]
    refine ⟨_, rfl, ?_⟩
    intro p hp
    cases b with
    | true =>
      simp only [if_true, List.mem_cons] at hp
      rcases hp with rfl | hp
      · exact List.mem_cons_self _ _
      · exact List.mem_cons_of_mem _ (hsub p hp)
    | false => exact List.mem_cons_of_mem _ (hsub p (by simpa using hp))

theorem AllCompiled_of_subset (patterns : Patterns) (policies kept : List ConfigurationPolicy)
    (hc : AllCompiled patterns policies) (hsub : ∀ p ∈ kept, p ∈ policies) :
    AllCompiled patterns kept :=
  fun policy hp => hc policy (hsub policy hp)

theorem fastPath_ok {σ : Type} (e : uploadExpirer σ) (policies : List ConfigurationPolicy)
    (patterns : Patterns) (refDescriptions : String → List RefDescription)
    (cache : repositoryCache) (upload : Upload) (commits : List String) (w : World σ)
    (finishedAt : Int) (hc : AllCompiled patterns policies)
    (hf : upload.FinishedAt = some finishedAt) :
    ∃ (b : Bool) (cache1 : repositoryCache) (w1 : World σ),
      isUploadProtectedByPolicyFastPath e policies patterns refDescriptions cache upload
        commits w = (.ok b, cache1, w1) ∧
      w1.trace = w.trace ∧ (∀ c ∈ cache.protectedCommits, c ∈ cache1.protectedCommits) := by
  obtain ⟨kept, hk, hsub⟩ := filterPolicies_ok
    (fun policy => policyCoversUpload e.timeutilNow policy upload)
    (fun policy w => policyCoversUpload_ok _ _ _ _ _ hf) policies w
  have htr := filterPolicies_trace (fun policy => policyCoversUpload e.timeutilNow policy upload)
    (fun policy w => policyCoversUpload_trace _ _ _ _) policies w
  unfold isUploadProtectedByPolicyFastPath
  rcases hfp : filterPolicies (fun policy => policyCoversUpload e.timeutilNow policy upload)
    policies w with ⟨r, w1⟩
  rw [hfp] at hk htr
  simp only at hk htr
  subst hk
  simp only
  split
  · exact ⟨_, _, _, rfl, htr, fun c hcm => hcm⟩
  · rw [fastPathLoop_eq _ _ _ _ _ (AllCompiled_of_subset _ _ _ hc hsub)]
    refine ⟨_, _, _, rfl, htr, ?_⟩
    intro c hcm
    split
    · exact List.mem_insert_of_mem hcm
    · exact hcm

theorem slowPathLoop_ok {σ : Type} (e : uploadExpirer σ) (patterns : Patterns)
    (policies : List ConfigurationPolicy) (upload : Upload) (commits : List String)
    (cache : repositoryCache) (w : World σ)
    (hc : AllCompiled patterns policies)
    (hbranches : ∀ s commit, ∃ branches,
      (e.gitserverClient.BranchesContaining s upload.RepositoryID commit).1 = .ok branches) :
    ∃ (b : Bool) (cache1 : repositoryCache) (w1 : World σ),
      slowPathLoop e patterns policies upload commits cache w = (.ok b, cache1, w1) ∧
      (∀ c ∈ cache.protectedCommits, c ∈ cache1.protectedCommits) ∧
      TraceExt (fun c => ∃ commit ∈ commits,
        c = Call.BranchesContaining upload.RepositoryID commit) w w1 := by
  induction commits generalizing cache w with
  | nil => exact ⟨_, _, _, rfl, fun c hcm => hcm, TraceExt.refl _ _⟩
  | cons commit rest ih =>
    have hm : ∀ branches, ∃ b,
        newContainsPolicyMatcher patterns commit branches policies = .ok b := by
      intro branches
      simp only [newContainsPolicyMatcher, containsPolicyMatcherLoop_eq _ _ _ hc]
      exact ⟨_, rfl⟩
    have hlift : ∀ {w1 w2 : World σ},
        TraceExt (fun c => ∃ commit ∈ rest,
          c = Call.BranchesContaining upload.RepositoryID commit) w1 w2 →
        TraceExt (fun c => ∃ commit0 ∈ commit :: rest,
          c = Call.BranchesContaining upload.RepositoryID commit0) w1 w2 := by
      intro w1 w2 h
      exact h.mono (fun c ⟨c0, hc0, hcq⟩ => ⟨c0, List.mem_cons_of_mem _ hc0, hcq⟩)
    simp only [slowPathLoop]
    rcases hget : cache.branchesContaining.Get commit with ⟨found, lru⟩
    cases found with
    | some branches =>
      obtain ⟨b, hb⟩ := hm branches
      simp only [hb]
      cases b with
      | true =>
        exact ⟨_, _, _, rfl, fun c hcm => List.mem_insert_of_mem hcm, TraceExt.refl _ _⟩
      | false =>
        obtain ⟨b2, cache2, w2, h1, h2, h3⟩ :=
          ih { cache with branchesContaining := lru } w
        exact ⟨b2, cache2, w2, h1, h2, hlift h3⟩
    | none =>
      obtain ⟨branches, hbr⟩ := hbranches w.state commit
      have hstep : TraceExt (fun c => ∃ commit0 ∈ commit :: rest,
          c = Call.BranchesContaining upload.RepositoryID commit0) w
          { state := (e.gitserverClient.BranchesContaining w.state upload.RepositoryID commit).2,
            trace := w.trace ++ [Call.BranchesContaining upload.RepositoryID commit] } :=
        ⟨[Call.BranchesContaining upload.RepositoryID commit], rfl, by
          intro c hcm
          rw [List.mem_singleton] at hcm
          exact ⟨commit, List.mem_cons_self _ _, hcm⟩⟩
      simp only [World.call]
      rcases hbc : e.gitserverClient.BranchesContaining w.state upload.RepositoryID commit
        with ⟨r, s1⟩
      rw [hbc] at hbr hstep
      simp only at hbr hstep
      subst hbr
      obtain ⟨b, hb⟩ := hm branches
      simp only [hb]
      cases b with
      | true =>
        exact ⟨_, _, _, rfl, fun c hcm => List.mem_insert_of_mem hcm, hstep⟩
      | false =>
        obtain ⟨b2, cache2, w2, h1, h2, h3⟩ :=
          ih { cache with branchesContaining := lru.Add commit branches }
            { state := s1,
              trace := w.trace ++ [Call.BranchesContaining upload.RepositoryID commit] }
        exact ⟨b2, cache2, w2, h1, h2, hstep.trans (hlift h3)⟩

theorem slowPath_ok {σ : Type} (e : uploadExpirer σ) (policies : List ConfigurationPolicy)
    (patterns : Patterns) (cache : repositoryCache) (upload : Upload) (commits : List String)
    (w : World σ) (finishedAt : Int) (hc : AllCompiled patterns policies)
    (hf : upload.FinishedAt = some finishedAt)
    (hbranches : ∀ s commit, ∃ branches,
      (e.gitserverClient.BranchesContaining s upload.RepositoryID commit).1 = .ok branches) :
    ∃ (b : Bool) (cache1 : repositoryCache) (w1 : World σ),
      isUploadProtectedByPolicySlowPath e policies patterns cache upload commits w =
        (.ok b, cache1, w1) ∧
      (∀ c ∈ cache.protectedCommits, c ∈ cache1.protectedCommits) ∧
      TraceExt (fun c => ∃ commit ∈ commits,
        c = Call.BranchesContaining upload.RepositoryID commit) w w1 := by
  have hfilter : ∀ (policy : ConfigurationPolicy) (w : World σ), ∃ b,
      (if policy.RetainIntermediateCommits then policyCoversUpload e.timeutilNow policy upload w
        else (.ok false, w)).1 = .ok b := by
    intro policy w
    split
    · exact policyCoversUpload_ok _ _ _ _ _ hf
    · exact ⟨_, rfl⟩
  have htrace : ∀ (policy : ConfigurationPolicy) (w : World σ),
      (if policy.RetainIntermediateCommits then policyCoversUpload e.timeutilNow policy upload w
        else (.ok false, w)).2.trace = w.trace := by
    intro policy w
    split
    · exact policyCoversUpload_trace _ _ _ _
    · rfl
  obtain ⟨kept, hk, hsub⟩ := filterPolicies_ok _ hfilter policies w
  have htr := filterPolicies_trace _ htrace policies w
  unfold isUploadProtectedByPolicySlowPath
  rcases hfp : filterPolicies
    (fun policy (w : World σ) =>
      if policy.RetainIntermediateCommits then policyCoversUpload e.timeutilNow policy upload w
      else (.ok false, w)) policies w with ⟨r, w1⟩
  rw [hfp] at hk htr
  simp only at hk htr
  subst hk
  simp only
  split
  · exact ⟨_, _, _, rfl, fun c hcm => hcm, TraceExt.of_trace_eq _ _ _ htr⟩
  · obtain ⟨b, cache1, w2, h1, h2, h3⟩ := slowPathLoop_ok e patterns kept upload commits cache
      w1 (AllCompiled_of_subset _ _ _ hc hsub) hbranches
    exact ⟨b, cache1, w2, h1, h2, (TraceExt.of_trace_eq _ _ _ htr).trans h3⟩

theorem isUploadProtectedByPolicyFrom_cache_hit {σ : Type} (e : uploadExpirer σ)
    (policies : List ConfigurationPolicy) (patterns : Patterns)
    (refDescriptions : String → List RefDescription) (upload : Upload) (finishedAt : Int)
    (visible : Int → List String)
    (hc : AllCompiled patterns policies) (hf : upload.FinishedAt = some finishedAt)
    (hvisible : ∀ s offset,
      (e.dbStore.CommitsVisibleToUpload s upload.ID 100 offset).1 = .ok (visible offset))
    (hbranches : ∀ s commit, ∃ branches,
      (e.gitserverClient.BranchesContaining s upload.RepositoryID commit).1 = .ok branches)
    (pre : List (List String)) (page : List String) (post : List (List String))
    (commit : String) (hpage : commit ∈ page)
    (fuel : Nat) (offset : Int) (cache : repositoryCache) (w : World σ)
    (hserve : ServesPages visible offset (pre ++ page :: post))
    (hcached : commit ∈ cache.protectedCommits) (hfuel : pre.length < fuel) :
    ∃ (cache1 : repositoryCache) (w1 : World σ),
      isUploadProtectedByPolicyFrom e policies patterns refDescriptions upload fuel offset
        cache w = (.ok true, cache1, w1) ∧
      TraceExt (fun c => c.isCommitsVisibleToUpload = true ∨
        ∃ p ∈ pre, ∃ c0 ∈ p, c = Call.BranchesContaining upload.RepositoryID c0) w w1 := by
  induction pre generalizing fuel offset cache w with
  | nil =>
    cases fuel with
    | zero => simp at hfuel
    | succ fuel =>
      obtain ⟨hne, hvis, _⟩ := hserve
      have hv := hvisible w.state offset
      have hcall := TraceExt.call (fun c => c.isCommitsVisibleToUpload = true ∨
          ∃ p ∈ ([] : List (List String)), ∃ c0 ∈ p,
            c = Call.BranchesContaining upload.RepositoryID c0) w
        (.CommitsVisibleToUpload upload.ID 100 offset)
        (fun s => e.dbStore.CommitsVisibleToUpload s upload.ID 100 offset) (Or.inl rfl)
      simp only [isUploadProtectedByPolicyFrom]
      rcases hcv : w.call (.CommitsVisibleToUpload upload.ID 100 offset)
        (fun s => e.dbStore.CommitsVisibleToUpload s upload.ID 100 offset) with ⟨r, w1⟩
      rw [hcv] at hcall
      have hr : r = .ok page := by
        have := congrArg Prod.fst hcv
        simp only [World.call] at this
        rw [← this, hv, hvis]
      subst hr
      have hlen : page.length ≠ 0 := fun h => hne (List.length_eq_zero.mp h)
      have hhit : page.any (fun commit => decide (commit ∈ cache.protectedCommits)) = true :=
        List.any_eq_true.mpr ⟨commit, hpage, decide_eq_true hcached⟩
      simp only [hlen, if_false, hhit, if_true]
      exact ⟨_, _, rfl, hcall⟩
  | cons p pre ih =>
    cases fuel with
    | zero => simp at hfuel
    | succ fuel =>
      have hfuel2 : pre.length < fuel := by simpa using hfuel
      obtain ⟨hne, hvis, hrest⟩ := hserve
      have hv := hvisible w.state offset
      have hcall := TraceExt.call (fun c => c.isCommitsVisibleToUpload = true ∨
          ∃ p0 ∈ p :: pre, ∃ c0 ∈ p0,
            c = Call.BranchesContaining upload.RepositoryID c0) w
        (.CommitsVisibleToUpload upload.ID 100 offset)
        (fun s => e.dbStore.CommitsVisibleToUpload s upload.ID 100 offset) (Or.inl rfl)
      simp only [isUploadProtectedByPolicyFrom]
      rcases hcv : w.call (.CommitsVisibleToUpload upload.ID 100 offset)
        (fun s => e.dbStore.CommitsVisibleToUpload s upload.ID 100 offset) with ⟨r, w1⟩
      rw [hcv] at hcall
      have hr : r = .ok p := by
        have := congrArg Prod.fst hcv
        simp only [World.call] at this
        rw [← this, hv, hvis]
      subst hr
      have hlen : p.length ≠ 0 := fun h => hne (List.length_eq_zero.mp h)
      simp only [hlen, if_false]
      split
      · exact ⟨_, _, rfl, hcall⟩
      · obtain ⟨b, cache2, w2, hfast, htr2, hsub2⟩ := fastPath_ok e policies patterns
          refDescriptions cache upload p w1 finishedAt hc hf
        rw [hfast]
        have hcall2 := hcall.trans (TraceExt.of_trace_eq _ _ _ htr2)
        cases b with
        | true => exact ⟨_, _, rfl, hcall2⟩
        | false =>
          obtain ⟨b3, cache3, w3, hslow, hsub3, htr3⟩ := slowPath_ok e policies patterns cache2
            upload p w2 finishedAt hc hf hbranches
          have hcall3 := hcall2.trans (htr3.mono (Q := fun c =>
              c.isCommitsVisibleToUpload = true ∨
              ∃ p0 ∈ p :: pre, ∃ c0 ∈ p0, c = Call.BranchesContaining upload.RepositoryID c0)
            (fun c ⟨c0, hc0, hcq⟩ => Or.inr ⟨p, List.mem_cons_self _ _, c0, hc0, hcq⟩))
          simp only [hslow]
          cases b3 with
          | true => exact ⟨_, _, rfl, hcall3⟩
          | false =>
            obtain ⟨cache4, w4, hrec, htr4⟩ := ih fuel (offset + p.length) cache3 w3 hrest
              (hsub3 commit (hsub2 commit hcached)) hfuel2
            refine ⟨cache4, w4, hrec, hcall3.trans (htr4.mono ?_)⟩
            rintro c (h | ⟨p0, hp0, c0, hc0, hcq⟩)
            · exact Or.inl h
            · exact Or.inr ⟨p0, List.mem_cons_of_mem _ hp0, c0, hc0, hcq⟩

/-! ## Lemmas on fuel -/

theorem patternMatchesAnyValue_not_timedOut (pattern : Option Glob) (values : List String) :
    timedOut (patternMatchesAnyValue pattern values) = false := by
  induction values with
  | nil => rfl
  | cons v vs ih =>
    cases pattern with
    | none => rfl
    | some g =>
      rw [patternMatchesAnyValue_some]
      rfl

theorem containsPolicyMatcherLoop_not_timedOut (patterns : Patterns) (branches : List String)
    (policies : List ConfigurationPolicy) :
    timedOut (containsPolicyMatcherLoop patterns branches policies) = false := by
  induction policies with
  | nil => rfl
  | cons policy rest ih =>
    have h := patternMatchesAnyValue_not_timedOut (patterns.lookup policy.Pattern) branches
    simp only [containsPolicyMatcherLoop]
    split
    · rfl
    · exact ih
    · next hne1 hne2 =>
      exact h

theorem condAnd_not_timedOut (a : Bool) (b : Result Bool) (hb : timedOut b = false) :
    timedOut (condAnd a b) = false := by
  unfold condAnd
  split
  · exact hb
  · rfl

theorem tipPolicyMatcherLoop_not_timedOut (patterns : Patterns) (commit : String)
    (branches tags : List String) (policies : List ConfigurationPolicy) :
    timedOut (tipPolicyMatcherLoop patterns commit branches tags policies) = false := by
  induction policies with
  | nil => rfl
  | cons policy rest ih =>
    have h1 : timedOut (condAnd (policy.Type_ = "GIT_COMMIT")
        (globMatch (patterns.lookup policy.Pattern) commit)) = false := by
      apply condAnd_not_timedOut
      cases patterns.lookup policy.Pattern <;> rfl
    have h2 := condAnd_not_timedOut (policy.Type_ = "GIT_TAG") _
      (patternMatchesAnyValue_not_timedOut (patterns.lookup policy.Pattern) tags)
    have h3 := condAnd_not_timedOut (policy.Type_ = "GIT_TREE") _
      (patternMatchesAnyValue_not_timedOut (patterns.lookup policy.Pattern) branches)
    simp only [tipPolicyMatcherLoop]
    split
    · rfl
    · split
      · rfl
      · split
        · rfl
        · exact ih
        · exact h3
      · exact h2
    · exact h1

theorem policyCoversUpload_not_timedOut {σ : Type} (timeutilNow : σ → Int × σ)
    (policy : ConfigurationPolicy) (upload : Upload) (w : World σ) :
    timedOut (policyCoversUpload timeutilNow policy upload w).1 = false := by
  unfold policyCoversUpload
  cases policy.RetentionDuration <;> cases upload.FinishedAt <;> rfl

theorem filterPolicies_not_timedOut {σ : Type}
    (filter : ConfigurationPolicy → World σ → Result Bool × World σ)
    (hfilter : ∀ policy w, timedOut (filter policy w).1 = false)
    (policies : List ConfigurationPolicy) (w : World σ) :
    timedOut (filterPolicies filter policies w).1 = false := by
  induction policies generalizing w with
  | nil => rfl
  | cons policy rest ih =>
    unfold filterPolicies
    have h1 := hfilter policy w
    rcases hfp : filter policy w with ⟨r, w1⟩
    rw [hfp] at h1
    cases r with
    | error f => cases f <;> first | rfl | exact h1
    | ok keep =>
      have h2 := ih w1
      rcases hrest : filterPolicies filter rest w1 with ⟨r2, w2⟩
      rw [hrest] at h2
      cases r2 with
      | error f => simp only [hrest]; cases f <;> first | rfl | exact h2
      | ok filtered => simp only [hrest]; rfl

theorem fastPathLoop_not_timedOut (patterns : Patterns)
    (refDescriptions : String → List RefDescription) (policies : List ConfigurationPolicy)
    (cache : repositoryCache) (commits : List String) :
    timedOut (fastPathLoop patterns refDescriptions policies cache commits).1 = false := by
  induction commits with
  | nil => rfl
  | cons commit rest ih =>
    have h := tipPolicyMatcherLoop_not_timedOut patterns commit
      (refNamesByType (refDescriptions commit)).1 (refNamesByType (refDescriptions commit)).2
      policies
    simp only [fastPathLoop, newTipPolicyMatcher]
    split
    · next heq => rw [heq] at h; exact h
    · rfl
    · exact ih

theorem fastPath_not_timedOut {σ : Type} (e : uploadExpirer σ)
    (policies : List ConfigurationPolicy) (patterns : Patterns)
    (refDescriptions : String → List RefDescription) (cache : repositoryCache)
    (upload : Upload) (commits : List String) (w : World σ) :
    timedOut (isUploadProtectedByPolicyFastPath e policies patterns refDescriptions cache
      upload commits w).1 = false := by
  have h := filterPolicies_not_timedOut
    (fun policy => policyCoversUpload e.timeutilNow policy upload)
    (fun policy w => policyCoversUpload_not_timedOut _ _ _ _) policies w
  unfold isUploadProtectedByPolicyFastPath
  split
  · next f w2 heq => rw [heq] at h; cases f <;> first | rfl | exact h
  · split
    · rfl
    · exact fastPathLoop_not_timedOut _ _ _ _ _

theorem slowPathLoop_not_timedOut {σ : Type} (e : uploadExpirer σ) (patterns : Patterns)
    (policies : List ConfigurationPolicy) (upload : Upload) (commits : List String)
    (cache : repositoryCache) (w : World σ) :
    timedOut (slowPathLoop e patterns policies upload commits cache w).1 = false := by
  induction commits generalizing cache w with
  | nil => rfl
  | cons commit rest ih =>
    have hm : ∀ branches r, containsPolicyMatcherLoop patterns branches policies = r →
        timedOut r = false := by
      intro branches r hr
      rw [← hr]
      exact containsPolicyMatcherLoop_not_timedOut patterns branches policies
    simp only [slowPathLoop, newContainsPolicyMatcher]
    split
    · split
      · next heq => exact hm _ _ heq
      · rfl
      · exact ih _ _
    · split
      · rfl
      · split
        · next heq => exact hm _ _ heq
        · rfl
        · exact ih _ _

theorem slowPath_not_timedOut {σ : Type} (e : uploadExpirer σ)
    (policies : List ConfigurationPolicy) (patterns : Patterns) (cache : repositoryCache)
    (upload : Upload) (commits : List String) (w : World σ) :
    timedOut (isUploadProtectedByPolicySlowPath e policies patterns cache upload commits
      w).1 = false := by
  have h := filterPolicies_not_timedOut
    (fun policy (w : World σ) =>
      if policy.RetainIntermediateCommits then policyCoversUpload e.timeutilNow policy upload w
      else (.ok false, w))
    (fun policy w => by
      dsimp only
      split
      · exact policyCoversUpload_not_timedOut _ _ _ _
      · rfl) policies w
  unfold isUploadProtectedByPolicySlowPath
  split
  · next f w2 heq => rw [heq] at h; cases f <;> first | rfl | exact h
  · split
    · rfl
    · exact slowPathLoop_not_timedOut _ _ _ _ _ _ _

/-- When the store serves finitely many pages of visible commits, the page loop ends
within a fuel larger than their number, whatever else fails. -/
theorem isUploadProtectedByPolicyFrom_not_timedOut {σ : Type} (e : uploadExpirer σ)
    (policies : List ConfigurationPolicy) (patterns : Patterns)
    (refDescriptions : String → List RefDescription) (upload : Upload)
    (visible : Int → List String)
    (hvisible : ∀ s offset commits,
      (e.dbStore.CommitsVisibleToUpload s upload.ID 100 offset).1 = .ok commits →
        commits = visible offset)
    (pages : List (List String)) (fuel : Nat) (offset : Int) (cache : repositoryCache)
    (w : World σ) (hpages : ServesPages visible offset pages) (hfuel : pages.length < fuel) :
    timedOut (isUploadProtectedByPolicyFrom e policies patterns refDescriptions upload fuel
      offset cache w).1 = false := by
  induction pages generalizing fuel offset cache w with
  | nil =>
    cases fuel with
    | zero => simp at hfuel
    | succ fuel =>
      simp only [ServesPages] at hpages
      simp only [isUploadProtectedByPolicyFrom, World.call]
      have hv := hvisible w.state offset
      rcases hcv : e.dbStore.CommitsVisibleToUpload w.state upload.ID 100 offset with ⟨r, s1⟩
      rw [hcv] at hv
      cases r with
      | error err => rfl
      | ok commits =>
        have := hv commits rfl
        rw [hpages] at this
        subst this
        rfl
  | cons page rest ih =>
    cases fuel with
    | zero => simp at hfuel
    | succ fuel =>
      have hfuel2 : rest.length < fuel := by simpa using hfuel
      obtain ⟨hne, hpage, hrest⟩ := hpages
      simp only [isUploadProtectedByPolicyFrom, World.call]
      have hv := hvisible w.state offset
      rcases hcv : e.dbStore.CommitsVisibleToUpload w.state upload.ID 100 offset with ⟨r, s1⟩
      rw [hcv] at hv
      cases r with
      | error err => rfl
      | ok commits =>
        have := hv commits rfl
        rw [hpage] at this
        subst this
        simp only
        split
        · rfl
        · split
          · rfl
          · have hfast := fastPath_not_timedOut e policies patterns refDescriptions cache
              upload commits
              { state := s1,
                trace := w.trace ++ [Call.CommitsVisibleToUpload upload.ID 100 offset] }
            split
            · next cache2 w2 hf =>
              have hslow := slowPath_not_timedOut e policies patterns cache2 upload commits w2
              split
              · exact ih fuel _ _ _ hrest hfuel2
              · next hne2 => exact hslow
            · next hne2 => exact hfast

/-! ## Lemmas on the states an evaluation goes through -/

theorem Reach.here {σ : Type} (e : uploadExpirer σ) (s : σ) : Reach e s s :=
  Relation.ReflTransGen.refl

theorem Reach.andThen {σ : Type} {e : uploadExpirer σ} {s1 s2 s3 : σ}
    (h12 : Reach e s1 s2) (h23 : Reach e s2 s3) : Reach e s1 s3 :=
  Relation.ReflTransGen.trans h12 h23

theorem Reach.oneStep {σ : Type} {e : uploadExpirer σ} {s1 s2 : σ} (h : StoreStep e s1 s2) :
    Reach e s1 s2 :=
  Relation.ReflTransGen.single h

theorem policyCoversUpload_reach {σ : Type} (e : uploadExpirer σ)
    (policy : ConfigurationPolicy) (upload : Upload) (w : World σ) :
    Reach e w.state (policyCoversUpload e.timeutilNow policy upload w).2.state := by
  unfold policyCoversUpload
  cases policy.RetentionDuration with
  | none => exact Reach.here _ _
  | some duration =>
    cases upload.FinishedAt <;> exact Reach.oneStep (Or.inl rfl)

theorem filterPolicies_reach {σ : Type} (e : uploadExpirer σ)
    (filter : ConfigurationPolicy → World σ → Result Bool × World σ)
    (hfilter : ∀ policy w, Reach e w.state (filter policy w).2.state)
    (policies : List ConfigurationPolicy) (w : World σ) :
    Reach e w.state (filterPolicies filter policies w).2.state := by
  induction policies generalizing w with
  | nil => exact Reach.here _ _
  | cons policy rest ih =>
    unfold filterPolicies
    have h1 := hfilter policy w
    rcases hfp : filter policy w with ⟨r, w1⟩
    rw [hfp] at h1
    cases r with
    | error f => exact h1
    | ok keep =>
      have h2 := ih w1
      rcases hrest : filterPolicies filter rest w1 with ⟨r2, w2⟩
      rw [hrest] at h2
      cases r2 with
      | error f => simp only [hrest]; exact h1.andThen h2
      | ok filtered => simp only [hrest]; exact h1.andThen h2

theorem fastPath_reach {σ : Type} (e : uploadExpirer σ)
    (policies : List ConfigurationPolicy) (patterns : Patterns)
    (refDescriptions : String → List RefDescription) (cache : repositoryCache)
    (upload : Upload) (commits : List String) (w : World σ) :
    Reach e w.state (isUploadProtectedByPolicyFastPath e policies patterns refDescriptions
      cache upload commits w).2.2.state := by
  unfold isUploadProtectedByPolicyFastPath
  have h := filterPolicies_reach e (fun policy => policyCoversUpload e.timeutilNow policy upload)
    (fun policy w => policyCoversUpload_reach _ _ _ _) policies w
  rcases hfp : filterPolicies (fun policy => policyCoversUpload e.timeutilNow policy upload)
    policies w with ⟨r, w1⟩
  rw [hfp] at h
  cases r with
  | error f => exact h
  | ok ps =>
    simp only
    split <;> exact h

theorem slowPathLoop_reach {σ : Type} (e : uploadExpirer σ) (patterns : Patterns)
    (policies : List ConfigurationPolicy) (upload : Upload) (commits : List String)
    (cache : repositoryCache) (w : World σ) :
    Reach e w.state (slowPathLoop e patterns policies upload commits cache w).2.2.state := by
  induction commits generalizing cache w with
  | nil => exact Reach.here _ _
  | cons commit rest ih =>
    simp only [slowPathLoop]
    split
    · split
      · exact Reach.here _ _
      · exact Reach.here _ _
      · exact ih _ _
    · have hcall : Reach e w.state
          (w.call (.BranchesContaining upload.RepositoryID commit)
            (fun s => e.gitserverClient.BranchesContaining s upload.RepositoryID commit)).2.state :=
        Reach.oneStep (Or.inr (Or.inr (Or.inl ⟨_, _, rfl⟩)))
      split
      · next heq => rw [heq] at hcall; exact hcall
      · next heq =>
        rw [heq] at hcall
        split
        · exact hcall
        · exact hcall
        · exact hcall.andThen (ih _ _)

theorem slowPath_reach {σ : Type} (e : uploadExpirer σ)
    (policies : List ConfigurationPolicy) (patterns : Patterns) (cache : repositoryCache)
    (upload : Upload) (commits : List String) (w : World σ) :
    Reach e w.state (isUploadProtectedByPolicySlowPath e policies patterns cache upload
      commits w).2.2.state := by
  unfold isUploadProtectedByPolicySlowPath
  have h := filterPolicies_reach e
    (fun policy w =>
      if policy.RetainIntermediateCommits then policyCoversUpload e.timeutilNow policy upload w
      else (.ok false, w))
    (fun policy w => by
      dsimp only
      split
      · exact policyCoversUpload_reach _ _ _ _
      · exact Reach.here _ _) policies w
  split
  · next heq => rw [heq] at h; exact h
  · next heq =>
    rw [heq] at h
    split
    · exact h
    · exact h.andThen (slowPathLoop_reach _ _ _ _ _ _ _)

theorem isUploadProtectedByPolicyFrom_reach {σ : Type} (e : uploadExpirer σ)
    (policies : List ConfigurationPolicy) (patterns : Patterns)
    (refDescriptions : String → List RefDescription) (upload : Upload) (fuel : Nat)
    (offset : Int) (cache : repositoryCache) (w : World σ) :
    Reach e w.state (isUploadProtectedByPolicyFrom e policies patterns refDescriptions upload
      fuel offset cache w).2.2.state := by
  induction fuel generalizing offset cache w with
  | zero => exact Reach.here _ _
  | succ fuel ih =>
    simp only [isUploadProtectedByPolicyFrom]
    have hcall : Reach e w.state
        (w.call (.CommitsVisibleToUpload upload.ID 100 offset)
          (fun s => e.dbStore.CommitsVisibleToUpload s upload.ID 100 offset)).2.state :=
      Reach.oneStep (Or.inr (Or.inl ⟨_, _, _, rfl⟩))
    split
    · next heq => rw [heq] at hcall; exact hcall
    · next commits w1 heq =>
      rw [heq] at hcall
      split
      · exact hcall
      · split
        · exact hcall
        · have hfast := fastPath_reach e policies patterns refDescriptions cache upload
            commits w1
          split
          · next cache2 w2 hf =>
            rw [hf] at hfast
            have hslow := slowPath_reach e policies patterns cache2 upload commits w2
            split
            · next cache3 w3 hs =>
              rw [hs] at hslow
              exact ((hcall.andThen hfast).andThen hslow).andThen (ih _ _ _)
            · exact (hcall.andThen hfast).andThen hslow
          · exact hcall.andThen hfast

theorem handleUploadsLoop_reach {σ : Type} (e : uploadExpirer σ) (fuel : Nat)
    (policies : List ConfigurationPolicy) (patterns : Patterns)
    (refDescriptions : String → List RefDescription) (uploads : List Upload)
    (protectedIDs expiredIDs : List Int) (cache : repositoryCache) (w : World σ) :
    Reach e w.state (handleUploadsLoop e fuel policies patterns refDescriptions uploads
      protectedIDs expiredIDs cache w).2.2.state := by
  induction uploads generalizing protectedIDs expiredIDs cache w with
  | nil => exact Reach.here _ _
  | cons upload rest ih =>
    simp only [handleUploadsLoop]
    have h := isUploadProtectedByPolicyFrom_reach e policies patterns refDescriptions upload
      fuel 0 cache w
    split
    · next heq => rw [isUploadProtectedByPolicy] at heq; rw [heq] at h; exact h
    · next heq =>
      rw [isUploadProtectedByPolicy] at heq; rw [heq] at h; exact h.andThen (ih _ _ _ _)
    · next heq =>
      rw [isUploadProtectedByPolicy] at heq; rw [heq] at h; exact h.andThen (ih _ _ _ _)

/-! ## Lemmas on the page requests of an evaluation -/

theorem isUploadProtectedByPolicyFrom_trace_offsets {σ : Type} (e : uploadExpirer σ)
    (policies : List ConfigurationPolicy) (patterns : Patterns)
    (refDescriptions : String → List RefDescription) (upload : Upload) (fuel : Nat)
    (offset : Int) (cache : repositoryCache) (w : World σ) :
    TraceExt (fun c => c.isBranchesContaining = true ∨
        ∃ off, offset ≤ off ∧ c = Call.CommitsVisibleToUpload upload.ID 100 off) w
      (isUploadProtectedByPolicyFrom e policies patterns refDescriptions upload fuel offset
        cache w).2.2 := by
  induction fuel generalizing offset cache w with
  | zero => exact TraceExt.refl _ _
  | succ fuel ih =>
    simp only [isUploadProtectedByPolicyFrom]
    have hcall := TraceExt.call (fun c => c.isBranchesContaining = true ∨
        ∃ off, offset ≤ off ∧ c = Call.CommitsVisibleToUpload upload.ID 100 off) w
      (.CommitsVisibleToUpload upload.ID 100 offset)
      (fun s => e.dbStore.CommitsVisibleToUpload s upload.ID 100 offset)
      (Or.inr ⟨offset, le_refl _, rfl⟩)
    split
    · next heq => rw [heq] at hcall; exact hcall
    · next commits w1 heq =>
      rw [heq] at hcall
      split
      · exact hcall
      · split
        · exact hcall
        · have hfast := fastPath_trace e policies patterns refDescriptions cache upload
            commits w1
          split
          · next cache2 w2 hf =>
            rw [hf] at hfast
            have hslow := (slowPath_trace e policies patterns cache2 upload commits w2).mono
              (Q := fun c => c.isBranchesContaining = true ∨
                ∃ off, offset ≤ off ∧ c = Call.CommitsVisibleToUpload upload.ID 100 off)
              (fun c hc => Or.inl hc)
            split
            · next cache3 w3 hs =>
              rw [hs] at hslow
              refine (hcall.trans ((TraceExt.of_trace_eq _ _ _ hfast).trans hslow)).trans
                ((ih (offset + commits.length) cache3 w3).mono ?_)
              rintro c (h | ⟨off, hoff, hc⟩)
              · exact Or.inl h
              · exact Or.inr ⟨off, by omega, hc⟩
            · exact hcall.trans ((TraceExt.of_trace_eq _ _ _ hfast).trans hslow)
          · exact hcall.trans (TraceExt.of_trace_eq _ _ _ hfast)

theorem evaluations_append (uploadID : Int) (a b : List Call) :
    evaluations uploadID (a ++ b) = evaluations uploadID a + evaluations uploadID b := by
  simp [evaluations, List.count_append]

theorem evaluations_eq_zero (uploadID : Int) (calls : List Call)
    (h : ∀ c ∈ calls, c ≠ Call.CommitsVisibleToUpload uploadID 100 0) :
    evaluations uploadID calls = 0 := by
  unfold evaluations
  rw [List.count_eq_zero]
  intro hmem
  exact h _ hmem rfl

theorem isUploadProtectedByPolicy_evaluations {σ : Type} (e : uploadExpirer σ) (fuel : Nat)
    (policies : List ConfigurationPolicy) (patterns : Patterns)
    (refDescriptions : String → List RefDescription) (cache : repositoryCache)
    (upload : Upload) (w : World σ) :
    ∃ added,
      (isUploadProtectedByPolicy e fuel policies patterns refDescriptions cache upload
        w).2.2.trace = w.trace ++ added ∧
      ∀ uploadID, evaluations uploadID added ≤ if upload.ID = uploadID then 1 else 0 := by
  cases fuel with
  | zero => exact ⟨[], by simp [isUploadProtectedByPolicy, isUploadProtectedByPolicyFrom],
      fun _ => Nat.zero_le _⟩
  | succ fuel =>
    have hrest : TraceExt (fun c => c.isBranchesContaining = true ∨
        ∃ off, 1 ≤ off ∧ c = Call.CommitsVisibleToUpload upload.ID 100 off)
        (w.call (.CommitsVisibleToUpload upload.ID 100 0)
          (fun s => e.dbStore.CommitsVisibleToUpload s upload.ID 100 0)).2
        (isUploadProtectedByPolicy e (fuel + 1) policies patterns refDescriptions cache upload
          w).2.2 := by
      simp only [isUploadProtectedByPolicy, isUploadProtectedByPolicyFrom]
      rcases hcv : w.call (.CommitsVisibleToUpload upload.ID 100 0)
        (fun s => e.dbStore.CommitsVisibleToUpload s upload.ID 100 0) with ⟨r, w1⟩
      cases r with
      | error err => exact TraceExt.refl _ _
      | ok commits =>
        simp only
        split
        · exact TraceExt.refl _ _
        · next hlen =>
          split
          · exact TraceExt.refl _ _
          · have hfast := fastPath_trace e policies patterns refDescriptions cache upload
              commits w1
            split
            · next cache2 w2 hf =>
              rw [hf] at hfast
              have hslow := (slowPath_trace e policies patterns cache2 upload commits w2).mono
                (Q := fun c => c.isBranchesContaining = true ∨
                  ∃ off, 1 ≤ off ∧ c = Call.CommitsVisibleToUpload upload.ID 100 off)
                (fun c hc => Or.inl hc)
              split
              · next cache3 w3 hs =>
                rw [hs] at hslow
                refine ((TraceExt.of_trace_eq _ _ _ hfast).trans hslow).trans
                  ((isUploadProtectedByPolicyFrom_trace_offsets e policies patterns
                    refDescriptions upload fuel (0 + commits.length) cache3 w3).mono ?_)
                rintro c (h | ⟨off, hoff, hc⟩)
                · exact Or.inl h
                · refine Or.inr ⟨off, ?_, hc⟩
                  have : 0 < commits.length := Nat.pos_of_ne_zero hlen
                  omega
              · exact (TraceExt.of_trace_eq _ _ _ hfast).trans hslow
            · exact TraceExt.of_trace_eq _ _ _ hfast
    obtain ⟨added, hadded, hall⟩ := hrest
    refine ⟨Call.CommitsVisibleToUpload upload.ID 100 0 :: added, ?_, ?_⟩
    · rw [hadded]
      simp [World.call]
    · intro uploadID
      have hzero : evaluations uploadID added = 0 := by
        apply evaluations_eq_zero
        intro c hc heq
        subst heq
        rcases hall _ hc with h | ⟨off, hoff, h⟩
        · simp [Call.isBranchesContaining] at h
        · simp only [Call.CommitsVisibleToUpload.injEq, true_and] at h
          omega
      have hcons : evaluations uploadID (Call.CommitsVisibleToUpload upload.ID 100 0 :: added) =
          evaluations uploadID [Call.CommitsVisibleToUpload upload.ID 100 0] +
            evaluations uploadID added :=
        evaluations_append uploadID [_] added
      rw [hcons, hzero]
      by_cases hid : upload.ID = uploadID
      · simp [hid, evaluations]
      · have hne : Call.CommitsVisibleToUpload upload.ID 100 0 ≠
            Call.CommitsVisibleToUpload uploadID 100 0 := by
          simp [hid]
        simp [hid, evaluations, List.count_cons, hne]

theorem handleUploadsLoop_evaluations {σ : Type} (e : uploadExpirer σ) (fuel : Nat)
    (policies : List ConfigurationPolicy) (patterns : Patterns)
    (refDescriptions : String → List RefDescription) (uploads : List Upload)
    (protectedIDs expiredIDs : List Int) (cache : repositoryCache) (w : World σ) :
    ∃ added,
      (handleUploadsLoop e fuel policies patterns refDescriptions uploads protectedIDs
        expiredIDs cache w).2.2.trace = w.trace ++ added ∧
      ∀ uploadID, evaluations uploadID added ≤ (uploads.map (·.ID)).count uploadID := by
  induction uploads generalizing protectedIDs expiredIDs cache w with
  | nil => exact ⟨[], by simp [handleUploadsLoop], fun _ => Nat.zero_le _⟩
  | cons upload rest ih =>
    obtain ⟨a1, h1, hc1⟩ := isUploadProtectedByPolicy_evaluations e fuel policies patterns
      refDescriptions cache upload w
    have hcount : ∀ uploadID, (if upload.ID = uploadID then 1 else 0) +
        (rest.map (·.ID)).count uploadID ≤ ((upload :: rest).map (·.ID)).count uploadID := by
      intro uploadID
      simp only [List.map_cons, List.count_cons]
      by_cases hid : upload.ID = uploadID
      · simp [hid]; omega
      · simp [hid]
    simp only [handleUploadsLoop]
    rcases heval : isUploadProtectedByPolicy e fuel policies patterns refDescriptions cache
      upload w with ⟨r, cache1, w1⟩
    rw [heval] at h1
    simp only at h1
    have hstep : ∀ (p x : List Int), ∃ added,
        (handleUploadsLoop e fuel policies patterns refDescriptions rest p x cache1
          w1).2.2.trace = w.trace ++ added ∧
        ∀ uploadID, evaluations uploadID added ≤
          ((upload :: rest).map (·.ID)).count uploadID := by
      intro p x
      obtain ⟨a2, h2, hc2⟩ := ih p x cache1 w1
      refine ⟨a1 ++ a2, by rw [h2, h1, List.append_assoc], fun uploadID => ?_⟩
      rw [evaluations_append]
      exact le_trans (Nat.add_le_add (hc1 uploadID) (hc2 uploadID)) (hcount uploadID)
    cases r with
    | error f =>
      exact ⟨a1, h1, fun uploadID =>
        le_trans (hc1 uploadID) (le_trans (Nat.le_add_right _ _) (hcount uploadID))⟩
    | ok b =>
      cases b with
      | true => exact hstep _ _
      | false => exact hstep _ _

theorem handleUploadsLoop_ids {σ : Type} (e : uploadExpirer σ) (fuel : Nat)
    (policies : List ConfigurationPolicy) (patterns : Patterns)
    (refDescriptions : String → List RefDescription) (uploads : List Upload)
    (protectedIDs expiredIDs : List Int) (cache : repositoryCache) (w : World σ)
    (ids : List Int × List Int) (cache1 : repositoryCache) (w1 : World σ)
    (h : handleUploadsLoop e fuel policies patterns refDescriptions uploads protectedIDs
      expiredIDs cache w = (.ok ids, cache1, w1)) :
    ∀ uploadID, (uploadID ∈ protectedIDs ∨ uploadID ∈ expiredIDs ∨
        uploadID ∈ uploads.map (·.ID)) → uploadID ∈ ids.1 ∨ uploadID ∈ ids.2 := by
  induction uploads generalizing protectedIDs expiredIDs cache w with
  | nil =>
    simp only [handleUploadsLoop, Prod.mk.injEq, Except.ok.injEq] at h
    obtain ⟨rfl, _, _⟩ := h
    intro uploadID hid
    simpa using hid
  | cons upload rest ih =>
    simp only [handleUploadsLoop] at h
    intro uploadID hid
    split at h
    · simp at h
    · refine ih _ _ _ _ h uploadID ?_
      simp only [List.map_cons, List.mem_cons, List.mem_append, List.mem_singleton] at hid ⊢
      tauto
    · refine ih _ _ _ _ h uploadID ?_
      simp only [List.map_cons, List.mem_cons, List.mem_append, List.mem_singleton] at hid ⊢
      tauto

/-! ## Lemmas on the batch loop -/

theorem handleUploadsLoop_not_timedOut {σ : Type} (e : uploadExpirer σ) (fuel : Nat)
    (policies : List ConfigurationPolicy) (patterns : Patterns)
    (refDescriptions : String → List RefDescription) (visible : Int → Int → List String)
    (hvisible : ∀ s uploadID offset commits,
      (e.dbStore.CommitsVisibleToUpload s uploadID 100 offset).1 = .ok commits →
        commits = visible uploadID offset)
    (uploads : List Upload)
    (hpages : ∀ u ∈ uploads, ∃ pages,
      ServesPages (visible u.ID) 0 pages ∧ pages.length < fuel)
    (protectedIDs expiredIDs : List Int) (cache : repositoryCache) (w : World σ) :
    timedOut (handleUploadsLoop e fuel policies patterns refDescriptions uploads protectedIDs
      expiredIDs cache w).1 = false := by
  induction uploads generalizing protectedIDs expiredIDs cache w with
  | nil => rfl
  | cons upload rest ih =>
    obtain ⟨pages, hserve, hlen⟩ := hpages upload (List.mem_cons_self _ _)
    have h := isUploadProtectedByPolicyFrom_not_timedOut e policies patterns refDescriptions
      upload (visible upload.ID) (fun s offset commits => hvisible s upload.ID offset commits)
      pages fuel 0 cache w hserve hlen
    have hrest := fun p x c1 w1 => ih (fun u hu => hpages u (List.mem_cons_of_mem _ hu)) p x c1 w1
    simp only [handleUploadsLoop, isUploadProtectedByPolicy]
    split
    · next f c1 w1 heq => rw [heq] at h; cases f <;> first | rfl | exact h
    · exact hrest _ _ _ _
    · exact hrest _ _ _ _

theorem settled_of_reach {σ : Type} (e : uploadExpirer σ) (view : RetentionView σ)
    (boundary : Int)
    (hkeep : ∀ s s1, StoreStep e s s1 → ∀ uploadID,
      view.settled boundary s uploadID = true → view.settled boundary s1 uploadID = true)
    (s s1 : σ) (hreach : Reach e s s1) (uploadID : Int)
    (h : view.settled boundary s uploadID = true) :
    view.settled boundary s1 uploadID = true := by
  induction hreach with
  | refl => exact h
  | tail _ hstep ih => exact hkeep _ _ hstep uploadID ih

theorem filter_length_lt (l : List Int) (p q : Int → Bool)
    (hqp : ∀ x ∈ l, q x = true → p x = true) (x : Int) (hx : x ∈ l) (hp : p x = true)
    (hq : q x = false) : (l.filter q).length < (l.filter p).length := by
  induction l with
  | nil => exact absurd hx (List.not_mem_nil _)
  | cons y rest ih =>
    have hle : (rest.filter q).length ≤ (rest.filter p).length := by
      clear ih hx
      induction rest with
      | nil => exact Nat.le_refl _
      | cons z rest2 ih2 =>
        have hz := hqp z (List.mem_cons_of_mem _ (List.mem_cons_self _ _))
        have ih3 := ih2 (fun a ha => hqp a (by
          rcases List.mem_cons.mp ha with rfl | ha
          · exact List.mem_cons_self _ _
          · exact List.mem_cons_of_mem _ (List.mem_cons_of_mem _ ha)))
        simp only [List.filter_cons]
        cases hqz : q z with
        | true => simp only [hz hqz, if_true, List.length_cons]; omega
        | false => cases p z <;> simp <;> omega
    simp only [List.filter_cons]
    rcases List.mem_cons.mp hx with rfl | hmem
    · simp only [hp, hq, if_true, List.length_cons]
      simp only [Bool.false_eq_true, if_false]
      omega
    · have ih2 := ih (fun a ha => hqp a (List.mem_cons_of_mem _ ha)) hmem
      have hy := hqp y (List.mem_cons_self _ _)
      cases hqy : q y with
      | true => simp only [hy hqy, if_true, List.length_cons]; omega
      | false => cases p y <;> simp <;> omega

/-- The batch loop, by induction on a bound `n` on the number of uploads of the universe
that are not settled: the loop ends; it evaluates no upload twice; and it evaluates only
uploads that are not settled when it starts. -/
theorem handleRepositoryLoop_bounded {σ : Type} (e : uploadExpirer σ) (pageFuel : Nat)
    (repositoryID : Int) (policies : List ConfigurationPolicy) (patterns : Patterns)
    (refDescriptions : String → List RefDescription) (boundary : Int)
    (view : RetentionView σ) (all : List Int) (visible : Int → Int → List String)
    (hget : ∀ s uploads,
      (e.dbStore.GetUploads s (getUploadsOptions e repositoryID boundary)).1 = .ok uploads →
        (uploads.map (·.ID)).Nodup ∧
        ∀ u ∈ uploads, u.ID ∈ all ∧ view.expired s u.ID = false ∧
          ∀ t, view.lastScan s u.ID = some t → t < boundary)
    (hupdate : ∀ s protectedIDs expiredIDs,
      (∀ uploadID ∈ expiredIDs,
        view.expired (e.dbStore.UpdateUploadRetention s protectedIDs expiredIDs).2 uploadID =
          true) ∧
      (∀ uploadID ∈ protectedIDs, ∃ t,
        view.lastScan (e.dbStore.UpdateUploadRetention s protectedIDs expiredIDs).2 uploadID =
          some t ∧ boundary ≤ t))
    (hkeep : ∀ s s1, StoreStep e s s1 → ∀ uploadID,
      view.settled boundary s uploadID = true → view.settled boundary s1 uploadID = true)
    (hvisible : ∀ s uploadID offset commits,
      (e.dbStore.CommitsVisibleToUpload s uploadID 100 offset).1 = .ok commits →
        commits = visible uploadID offset)
    (hpages : ∀ uploadID ∈ all, ∃ pages,
      ServesPages (visible uploadID) 0 pages ∧ pages.length < pageFuel)
    (n : Nat) (fuel : Nat) (cache : repositoryCache) (w : World σ)
    (hn : (all.filter (fun uploadID => !view.settled boundary w.state uploadID)).length ≤ n)
    (hfuel : n < fuel) :
    ∃ added,
      timedOut (handleRepositoryLoop e pageFuel repositoryID policies patterns refDescriptions
        boundary fuel cache w).1 = false ∧
      (handleRepositoryLoop e pageFuel repositoryID policies patterns refDescriptions
        boundary fuel cache w).2.2.trace = w.trace ++ added ∧
      ∀ uploadID, evaluations uploadID added ≤ 1 ∧
        (1 ≤ evaluations uploadID added → view.settled boundary w.state uploadID = false) := by
  induction n generalizing fuel cache w with
  | zero =>
    cases fuel with
    | zero => exact absurd hfuel (Nat.lt_irrefl _)
    | succ fuel =>
      simp only [handleRepositoryLoop, World.call]
      have hg := hget w.state
      rcases hgu : e.dbStore.GetUploads w.state (getUploadsOptions e repositoryID boundary)
        with ⟨r, s1⟩
      rw [hgu] at hg
      have hnone : ∀ uploadID, evaluations uploadID
          [Call.GetUploads (getUploadsOptions e repositoryID boundary)] ≤ 1 ∧
          (1 ≤ evaluations uploadID
            [Call.GetUploads (getUploadsOptions e repositoryID boundary)] →
            view.settled boundary w.state uploadID = false) := by
        intro uploadID
        have : evaluations uploadID
            [Call.GetUploads (getUploadsOptions e repositoryID boundary)] = 0 := by
          apply evaluations_eq_zero
          intro c hc
          rw [List.mem_singleton] at hc
          subst hc
          simp
        rw [this]
        exact ⟨Nat.zero_le _, fun h => absurd h (by decide)⟩
      cases r with
      | error err => exact ⟨_, rfl, rfl, hnone⟩
      | ok uploads =>
        simp only
        split
        · exact ⟨_, rfl, rfl, hnone⟩
        · next hlen =>
          exfalso
          obtain ⟨_, hall⟩ := hg uploads rfl
          cases uploads with
          | nil => exact hlen rfl
          | cons u rest =>
            obtain ⟨hmem, hexp, hscan⟩ := hall u (List.mem_cons_self _ _)
            have hunsettled : view.settled boundary w.state u.ID = false := by
              unfold RetentionView.settled
              rw [hexp]
              cases hls : view.lastScan w.state u.ID with
              | none => rfl
              | some t =>
                have := hscan t hls
                simp only [Bool.false_or, decide_eq_false_iff_not, not_le]
                exact this
            have hfil : u.ID ∈ all.filter
                (fun uploadID => !view.settled boundary w.state uploadID) := by
              rw [List.mem_filter]
              exact ⟨hmem, by simp [hunsettled]⟩
            have hnil := List.length_eq_zero.mp (Nat.le_zero.mp hn)
            rw [hnil] at hfil
            exact absurd hfil (List.not_mem_nil _)
  | succ n ih =>
    cases fuel with
    | zero => exact absurd hfuel (Nat.not_lt_zero _)
    | succ fuel =>
      have hfuel2 : n < fuel := Nat.lt_of_succ_lt_succ hfuel
      simp only [handleRepositoryLoop, World.call]
      have hg := hget w.state
      rcases hgu : e.dbStore.GetUploads w.state (getUploadsOptions e repositoryID boundary)
        with ⟨r, s1⟩
      rw [hgu] at hg
      have hstep1 : StoreStep e w.state s1 := by
        refine Or.inr (Or.inr (Or.inr (Or.inl ⟨getUploadsOptions e repositoryID boundary, ?_⟩)))
        rw [hgu]
      have hzeroG : ∀ uploadID, evaluations uploadID
          [Call.GetUploads (getUploadsOptions e repositoryID boundary)] = 0 := by
        intro uploadID
        apply evaluations_eq_zero
        intro c hc
        rw [List.mem_singleton] at hc
        subst hc
        simp
      have hnone : ∀ uploadID, evaluations uploadID
          [Call.GetUploads (getUploadsOptions e repositoryID boundary)] ≤ 1 ∧
          (1 ≤ evaluations uploadID
            [Call.GetUploads (getUploadsOptions e repositoryID boundary)] →
            view.settled boundary w.state uploadID = false) := by
        intro uploadID
        rw [hzeroG]
        exact ⟨Nat.zero_le _, fun h => absurd h (by decide)⟩
      cases r with
      | error err => exact ⟨_, rfl, rfl, hnone⟩
      | ok uploads =>
        simp only
        split
        · exact ⟨_, rfl, rfl, hnone⟩
        · next hlen =>
          obtain ⟨hnodup, hall⟩ := hg uploads rfl
          have hunsettled : ∀ u ∈ uploads, view.settled boundary w.state u.ID = false := by
            intro u hu
            obtain ⟨_, hexp, hscan⟩ := hall u hu
            unfold RetentionView.settled
            rw [hexp]
            cases hls : view.lastScan w.state u.ID with
            | none => rfl
            | some t =>
              have := hscan t hls
              simp only [Bool.false_or, decide_eq_false_iff_not, not_le]
              exact this
          have hnt := handleUploadsLoop_not_timedOut e pageFuel policies patterns
            refDescriptions visible hvisible uploads
            (fun u hu => hpages u.ID (hall u hu).1) [] [] cache
            { state := s1,
              trace := w.trace ++ [Call.GetUploads (getUploadsOptions e repositoryID boundary)] }
          obtain ⟨a2, htr2, hcount2⟩ := handleUploadsLoop_evaluations e pageFuel policies patterns
            refDescriptions uploads [] [] cache
            { state := s1,
              trace := w.trace ++ [Call.GetUploads (getUploadsOptions e repositoryID boundary)] }
          have hreach2 := handleUploadsLoop_reach e pageFuel policies patterns refDescriptions
            uploads [] [] cache
            { state := s1,
              trace := w.trace ++ [Call.GetUploads (getUploadsOptions e repositoryID boundary)] }
          have hbatch : ∀ uploadID, evaluations uploadID a2 ≤ 1 ∧
              (1 ≤ evaluations uploadID a2 → uploadID ∈ uploads.map (·.ID)) := by
            intro uploadID
            refine ⟨le_trans (hcount2 uploadID) (List.nodup_iff_count_le_one.mp hnodup _), ?_⟩
            intro h1
            have : 0 < (uploads.map (·.ID)).count uploadID :=
              lt_of_lt_of_le (Nat.lt_of_lt_of_le Nat.zero_lt_one h1) (hcount2 uploadID)
            exact List.count_pos_iff.mp this
          have hbatchUnsettled : ∀ uploadID, uploadID ∈ uploads.map (·.ID) →
              view.settled boundary w.state uploadID = false := by
            intro uploadID hmem
            obtain ⟨u, hu, rfl⟩ := List.mem_map.mp hmem
            exact hunsettled u hu
          simp only [handleUploads]
          rcases hloop : handleUploadsLoop e pageFuel policies patterns refDescriptions uploads
            [] [] cache
            { state := s1,
              trace := w.trace ++ [Call.GetUploads (getUploadsOptions e repositoryID boundary)] }
            with ⟨r2, cache2, w2⟩
          rw [hloop] at hnt htr2 hreach2
          simp only at hnt htr2 hreach2
          have hpart : ∀ uploadID, evaluations uploadID
              ([Call.GetUploads (getUploadsOptions e repositoryID boundary)] ++ a2) ≤ 1 ∧
              (1 ≤ evaluations uploadID
                ([Call.GetUploads (getUploadsOptions e repositoryID boundary)] ++ a2) →
                view.settled boundary w.state uploadID = false) := by
            intro uploadID
            rw [evaluations_append, hzeroG, Nat.zero_add]
            exact ⟨(hbatch uploadID).1,
              fun h => hbatchUnsettled uploadID ((hbatch uploadID).2 h)⟩
          cases r2 with
          | error f =>
            refine ⟨[Call.GetUploads (getUploadsOptions e repositoryID boundary)] ++ a2,
              ?_, ?_, hpart⟩
            · cases f <;> first | rfl | exact hnt
            · simp only [htr2, List.append_assoc]
          | ok ids =>
            simp only [World.call]
            have hu := hupdate w2.state ids.1 ids.2
            rcases hupd : e.dbStore.UpdateUploadRetention w2.state ids.1 ids.2 with ⟨r3, s3⟩
            rw [hupd] at hu
            simp only at hu
            have hstep3 : StoreStep e w2.state s3 := by
              refine Or.inr (Or.inr (Or.inr (Or.inr ⟨ids.1, ids.2, ?_⟩)))
              rw [hupd]
            have hzeroU : ∀ uploadID, evaluations uploadID
                [Call.UpdateUploadRetention ids.1 ids.2] = 0 := by
              intro uploadID
              apply evaluations_eq_zero
              intro c hc
              rw [List.mem_singleton] at hc
              subst hc
              simp
            cases r3 with
            | error err =>
              refine ⟨[Call.GetUploads (getUploadsOptions e repositoryID boundary)] ++ a2 ++
                [Call.UpdateUploadRetention ids.1 ids.2], rfl, ?_, ?_⟩
              · simp only [htr2, List.append_assoc]
              · intro uploadID
                rw [evaluations_append, hzeroU, Nat.add_zero]
                exact hpart uploadID
            | ok done =>
              simp only
              have hmono : ∀ uploadID, view.settled boundary w.state uploadID = true →
                  view.settled boundary s3 uploadID = true := by
                intro uploadID h
                have h1 := hkeep _ _ hstep1 uploadID h
                have h2 := settled_of_reach e view boundary hkeep _ _ hreach2 uploadID h1
                exact hkeep _ _ hstep3 uploadID h2
              have hdone : ∀ uploadID, uploadID ∈ uploads.map (·.ID) →
                  view.settled boundary s3 uploadID = true := by
                intro uploadID hmem
                rcases handleUploadsLoop_ids e pageFuel policies patterns refDescriptions
                  uploads [] [] cache _ ids cache2 w2 hloop uploadID (Or.inr (Or.inr hmem))
                  with hp | hx
                · obtain ⟨t, ht, hbt⟩ := hu.2 uploadID hp
                  unfold RetentionView.settled
                  rw [ht]
                  simp [hbt]
                · unfold RetentionView.settled
                  rw [hu.1 uploadID hx]
                  rfl
              have hmeasure : (all.filter
                  (fun uploadID => !view.settled boundary s3 uploadID)).length ≤ n := by
                cases uploads with
                | nil => exact absurd rfl hlen
                | cons u rest =>
                  have hlt := filter_length_lt all
                    (fun uploadID => !view.settled boundary w.state uploadID)
                    (fun uploadID => !view.settled boundary s3 uploadID)
                    (fun x _ hx => by
                      cases hs : view.settled boundary w.state x with
                      | false => simp [hs]
                      | true =>
                        have := hmono x hs
                        simp [this] at hx)
                    u.ID (hall u (List.mem_cons_self _ _)).1
                    (by simp [hunsettled u (List.mem_cons_self _ _)])
                    (by simp [hdone u.ID (by simp)])
                  omega
              obtain ⟨a4, hnt4, htr4, hcount4⟩ := ih fuel cache2
                { state := s3, trace := w2.trace ++ [Call.UpdateUploadRetention ids.1 ids.2] }
                hmeasure hfuel2
              refine ⟨[Call.GetUploads (getUploadsOptions e repositoryID boundary)] ++ a2 ++
                [Call.UpdateUploadRetention ids.1 ids.2] ++ a4, hnt4, ?_, ?_⟩
              · rw [htr4]
                simp only [htr2, List.append_assoc]
              · intro uploadID
                rw [evaluations_append, evaluations_append, hzeroU, Nat.add_zero]
                obtain ⟨hp1, hp2⟩ := hpart uploadID
                obtain ⟨hc1, hc2⟩ := hcount4 uploadID
                have hsplit : evaluations uploadID
                    ([Call.GetUploads (getUploadsOptions e repositoryID boundary)] ++ a2) =
                    evaluations uploadID a2 := by
                  rw [evaluations_append, hzeroG, Nat.zero_add]
                have hexcl : 1 ≤ evaluations uploadID a2 → evaluations uploadID a4 = 0 := by
                  intro h1
                  have hs3 := hdone uploadID ((hbatch uploadID).2 h1)
                  by_contra hne
                  have := hc2 (Nat.one_le_iff_ne_zero.mpr hne)
                  rw [hs3] at this
                  exact absurd this (by decide)
                constructor
                · rw [hsplit]
                  by_cases h1 : 1 ≤ evaluations uploadID a2
                  · rw [hexcl h1]
                    exact (hbatch uploadID).1
                  · have : evaluations uploadID a2 = 0 := by omega
                    rw [this, Nat.zero_add]
                    exact hc1
                · intro htot
                  rw [hsplit] at htot
                  by_cases h1 : 1 ≤ evaluations uploadID a2
                  · exact hbatchUnsettled uploadID ((hbatch uploadID).2 h1)
                  · have h4 : 1 ≤ evaluations uploadID a4 := by omega
                    have hs3 := hc2 h4
                    cases hs : view.settled boundary w.state uploadID with
                    | false => rfl
                    | true =>
                      rw [hmono uploadID hs] at hs3
                      exact absurd hs3 (by decide)

/-! ## Lemmas on the calls of a repository scan -/

theorem handleUploads_trace {σ : Type} (e : uploadExpirer σ) (fuel : Nat)
    (policies : List ConfigurationPolicy) (patterns : Patterns)
    (refDescriptions : String → List RefDescription) (cache : repositoryCache)
    (uploads : List Upload) (w : World σ) :
    TraceExt (fun c => c.isEvaluation = true ∨ c.isUpdateUploadRetention = true) w
      (handleUploads e fuel policies patterns refDescriptions cache uploads w).2.2 := by
  have h := (handleUploadsLoop_trace e fuel policies patterns refDescriptions uploads [] []
    cache w).mono (Q := fun c => c.isEvaluation = true ∨ c.isUpdateUploadRetention = true)
    (fun c hc => Or.inl hc)
  simp only [handleUploads]
  rcases hloop : handleUploadsLoop e fuel policies patterns refDescriptions uploads [] [] cache
    w with ⟨r, cache1, w1⟩
  rw [hloop] at h
  cases r with
  | error f => exact h
  | ok ids =>
    have hcall := TraceExt.call
      (fun c => c.isEvaluation = true ∨ c.isUpdateUploadRetention = true) w1
      (.UpdateUploadRetention ids.1 ids.2)
      (fun s => e.dbStore.UpdateUploadRetention s ids.1 ids.2) (Or.inr rfl)
    simp only
    split
    · next heq => rw [heq] at hcall; exact h.trans hcall
    · next heq => rw [heq] at hcall; exact h.trans hcall

theorem handleRepositoryLoop_trace {σ : Type} (e : uploadExpirer σ) (pageFuel : Nat)
    (repositoryID : Int) (policies : List ConfigurationPolicy) (patterns : Patterns)
    (refDescriptions : String → List RefDescription) (boundary : Int) (fuel : Nat)
    (cache : repositoryCache) (w : World σ) :
    TraceExt (fun c => c = Call.GetUploads (getUploadsOptions e repositoryID boundary) ∨
        c.isEvaluation = true ∨ c.isUpdateUploadRetention = true) w
      (handleRepositoryLoop e pageFuel repositoryID policies patterns refDescriptions boundary
        fuel cache w).2.2 := by
  induction fuel generalizing cache w with
  | zero => exact TraceExt.refl _ _
  | succ fuel ih =>
    simp only [handleRepositoryLoop]
    have hcall := TraceExt.call
      (fun c => c = Call.GetUploads (getUploadsOptions e repositoryID boundary) ∨
        c.isEvaluation = true ∨ c.isUpdateUploadRetention = true) w
      (.GetUploads (getUploadsOptions e repositoryID boundary))
      (fun s => e.dbStore.GetUploads s (getUploadsOptions e repositoryID boundary))
      (Or.inl rfl)
    split
    · next heq => rw [heq] at hcall; exact hcall
    · next uploads w1 heq =>
      rw [heq] at hcall
      split
      · exact hcall
      · have hbatch := (handleUploads_trace e pageFuel policies patterns refDescriptions cache
          uploads w1).mono
          (Q := fun c => c = Call.GetUploads (getUploadsOptions e repositoryID boundary) ∨
            c.isEvaluation = true ∨ c.isUpdateUploadRetention = true)
          (fun c hc => Or.inr hc)
        split
        · next heq2 => rw [heq2] at hbatch; exact hcall.trans hbatch
        · next heq2 => rw [heq2] at hbatch; exact (hcall.trans hbatch).trans (ih _ _)

theorem compilePatterns_trace {σ : Type} (e : uploadExpirer σ)
    (policies : List ConfigurationPolicy) (patterns : Patterns) (w : World σ) :
    TraceExt (fun c => c.isGlobCompile = true) w (compilePatterns e policies patterns w).2 := by
  induction policies generalizing patterns w with
  | nil => exact TraceExt.refl _ _
  | cons policy rest ih =>
    have hstep : TraceExt (fun c => c.isGlobCompile = true) w
        { w with trace := w.trace ++ [Call.globCompile policy.Pattern] } :=
      ⟨[Call.globCompile policy.Pattern], rfl, by simp [Call.isGlobCompile]⟩
    simp only [compilePatterns]
    split
    · exact ih _ _
    · split
      · exact hstep
      · exact hstep.trans (ih _ _)

/-- The calls of `handleRepository`: the load of the repository's policies first, then
calls of the glob compiler, the `RefDescriptions` call of the repository, `GetUploads`
calls that all carry one boundary, a clock reading minus the upload process delay, and
the calls of the batches. -/
theorem handleRepository_trace {σ : Type} (e : uploadExpirer σ) (fuel : Nat)
    (repositoryID : Int) (globalPolicies : List ConfigurationPolicy) (w : World σ) :
    ∃ boundary rest,
      (∃ s, boundary = timeAdd (e.timeNow s).1 (negDuration e.uploadProcessDelay)) ∧
      (handleRepository e fuel repositoryID globalPolicies w).2.trace =
        w.trace ++ Call.GetConfigurationPolicies
          { RepositoryID := repositoryID, ForDataRetention := true } :: rest ∧
      ∀ c ∈ rest, c.isGlobCompile = true ∨ c = Call.RefDescriptions repositoryID ∨
        c = Call.GetUploads (getUploadsOptions e repositoryID boundary) ∨
        c.isEvaluation = true ∨ c.isUpdateUploadRetention = true := by
  have key : ∃ boundary, (∃ s, boundary =
        timeAdd (e.timeNow s).1 (negDuration e.uploadProcessDelay)) ∧
      TraceExt (fun c => c.isGlobCompile = true ∨ c = Call.RefDescriptions repositoryID ∨
        c = Call.GetUploads (getUploadsOptions e repositoryID boundary) ∨
        c.isEvaluation = true ∨ c.isUpdateUploadRetention = true)
        (w.call (.GetConfigurationPolicies
            { RepositoryID := repositoryID, ForDataRetention := true })
          (fun s => e.dbStore.GetConfigurationPolicies s
            { RepositoryID := repositoryID, ForDataRetention := true })).2
        (handleRepository e fuel repositoryID globalPolicies w).2 := by
    simp only [handleRepository]
    rcases hload : w.call (.GetConfigurationPolicies
        { RepositoryID := repositoryID, ForDataRetention := true })
      (fun s => e.dbStore.GetConfigurationPolicies s
        { RepositoryID := repositoryID, ForDataRetention := true }) with ⟨r, w1⟩
    cases r with
    | error err => exact ⟨0 + timeAdd (e.timeNow w.state).1 (negDuration e.uploadProcessDelay),
        ⟨w.state, by simp⟩, TraceExt.refl _ _⟩
    | ok repositoryPolicies =>
      simp only
      have hcomp := compilePatterns_trace e (globalPolicies ++ repositoryPolicies) [] w1
      rcases hcp : compilePatterns e (globalPolicies ++ repositoryPolicies) [] w1 with ⟨r2, w2⟩
      rw [hcp] at hcomp
      cases r2 with
      | error f =>
        exact ⟨timeAdd (e.timeNow w.state).1 (negDuration e.uploadProcessDelay),
          ⟨w.state, rfl⟩, hcomp.mono (fun c hc => Or.inl hc)⟩
      | ok patterns =>
        simp only
        rcases href : w2.call (.RefDescriptions repositoryID)
          (fun s => e.gitserverClient.RefDescriptions s repositoryID) with ⟨r3, w3⟩
        have hw3 : w3.trace = w2.trace ++ [Call.RefDescriptions repositoryID] := by
          have := congrArg (fun x => x.2.trace) href
          exact this.symm
        cases r3 with
        | error err =>
          refine ⟨timeAdd (e.timeNow w.state).1 (negDuration e.uploadProcessDelay),
            ⟨w.state, rfl⟩, (hcomp.mono (fun c hc => Or.inl hc)).trans
              ⟨[Call.RefDescriptions repositoryID], hw3, ?_⟩⟩
          intro c hc
          rw [List.mem_singleton] at hc
          exact Or.inr (Or.inl hc)
        | ok refDescriptions =>
          simp only
          refine ⟨timeAdd (e.timeNow w3.state).1 (negDuration e.uploadProcessDelay),
            ⟨w3.state, rfl⟩, ?_⟩
          have h1 : TraceExt (fun c => c.isGlobCompile = true ∨
              c = Call.RefDescriptions repositoryID ∨
              c = Call.GetUploads (getUploadsOptions e repositoryID
                (timeAdd (e.timeNow w3.state).1 (negDuration e.uploadProcessDelay))) ∨
              c.isEvaluation = true ∨ c.isUpdateUploadRetention = true) w1 w3 := by
            refine (hcomp.mono (fun c hc => Or.inl hc)).trans
              ⟨[Call.RefDescriptions repositoryID], hw3, ?_⟩
            intro c hc
            rw [List.mem_singleton] at hc
            exact Or.inr (Or.inl hc)
          have h2 := (handleRepositoryLoop_trace e fuel repositoryID
            (globalPolicies ++ repositoryPolicies) patterns refDescriptions
            (timeAdd (e.timeNow w3.state).1 (negDuration e.uploadProcessDelay)) fuel
            newRepositoryCache { w3 with state := (e.timeNow w3.state).2 }).mono
            (Q := fun c => c.isGlobCompile = true ∨
              c = Call.RefDescriptions repositoryID ∨
              c = Call.GetUploads (getUploadsOptions e repositoryID
                (timeAdd (e.timeNow w3.state).1 (negDuration e.uploadProcessDelay))) ∨
              c.isEvaluation = true ∨ c.isUpdateUploadRetention = true)
            (fun c hc => Or.inr (Or.inr hc))
          exact h1.trans (TraceExt.trans (TraceExt.of_trace_eq _ _ _ rfl) h2)
  obtain ⟨boundary, hb, rest, hrest, hall⟩ := key
  refine ⟨boundary, rest, hb, ?_, hall⟩
  rw [hrest]
  simp [World.call]

/-! ## Lemmas on the loop over the repositories -/

theorem handleRepository_policy_calls {σ : Type} (e : uploadExpirer σ) (fuel : Nat)
    (repositoryID : Int) (globalPolicies : List ConfigurationPolicy) (w : World σ) :
    ∃ added, (handleRepository e fuel repositoryID globalPolicies w).2.trace = w.trace ++ added ∧
      added.filter Call.isGetConfigurationPolicies =
        [Call.GetConfigurationPolicies
          { RepositoryID := repositoryID, ForDataRetention := true }] := by
  obtain ⟨boundary, rest, _, htr, hall⟩ :=
    handleRepository_trace e fuel repositoryID globalPolicies w
  refine ⟨_, htr, ?_⟩
  have hrest : rest.filter Call.isGetConfigurationPolicies = [] := by
    rw [List.filter_eq_nil_iff]
    intro c hc
    have := hall c hc
    cases c <;> simp_all [Call.isGetConfigurationPolicies, Call.isGlobCompile,
      Call.isEvaluation, Call.isCommitsVisibleToUpload, Call.isBranchesContaining,
      Call.isUpdateUploadRetention]
  simp [List.filter_cons, Call.isGetConfigurationPolicies, hrest]

/-- The loop of `Handle` over repositories whose scans all return: the loop returns, and
the policy loads it makes are those of the repositories of the list, one each, in list
order. -/
theorem handleLoop_policy_calls {σ : Type} (e : uploadExpirer σ) (fuel : Nat)
    (globalPolicies : List ConfigurationPolicy) (ids : List Int) (err : Option Error)
    (w : World σ)
    (hreturns : ∀ id ∈ ids, ∀ w1,
      returned (handleRepository e fuel id globalPolicies w1).1 = true) :
    ∃ added err1,
      (handleLoop e fuel globalPolicies ids err w).1 = .ok err1 ∧
      (handleLoop e fuel globalPolicies ids err w).2.trace = w.trace ++ added ∧
      added.filter Call.isGetConfigurationPolicies =
        ids.map (fun id => Call.GetConfigurationPolicies
          { RepositoryID := id, ForDataRetention := true }) := by
  induction ids generalizing err w with
  | nil => exact ⟨[], err, rfl, by simp [handleLoop], rfl⟩
  | cons id rest ih =>
    obtain ⟨a, ha, hfa⟩ := handleRepository_policy_calls e fuel id globalPolicies w
    have hret := hreturns id (List.mem_cons_self _ _) w
    have hrest : ∀ id1 ∈ rest, ∀ w1,
        returned (handleRepository e fuel id1 globalPolicies w1).1 = true :=
      fun id1 h1 => hreturns id1 (List.mem_cons_of_mem _ h1)
    simp only [handleLoop]
    rcases hr : handleRepository e fuel id globalPolicies w with ⟨r, w1⟩
    rw [hr] at ha hret
    simp only at ha hret
    have hstep : ∀ err2, ∃ added err1,
        (handleLoop e fuel globalPolicies rest err2 w1).1 = .ok err1 ∧
        (handleLoop e fuel globalPolicies rest err2 w1).2.trace = w.trace ++ added ∧
        added.filter Call.isGetConfigurationPolicies =
          (id :: rest).map (fun id => Call.GetConfigurationPolicies
            { RepositoryID := id, ForDataRetention := true }) := by
      intro err2
      obtain ⟨b, err1, h1, h2, h3⟩ := ih err2 w1 hrest
      refine ⟨a ++ b, err1, h1, by rw [h2, ha, List.append_assoc], ?_⟩
      rw [List.filter_append, hfa, h3]
      rfl
    cases r with
    | ok done => exact hstep err
    | error f =>
      cases f with
      | err repositoryErr =>
        cases err with
        | none => exact hstep _
        | some err0 => exact hstep _
      | panic => simp [returned] at hret
      | outOfFuel => simp [returned] at hret

/-! ## Lemmas on the partition of a batch -/

theorem idsWithOutcome_cons (outcome : Bool) (upload : Upload) (uploads : List Upload)
    (b : Bool) (bs : List Bool) :
    idsWithOutcome outcome (upload :: uploads) (b :: bs) =
      if b = outcome then upload.ID :: idsWithOutcome outcome uploads bs
      else idsWithOutcome outcome uploads bs := by
  unfold idsWithOutcome
  cases b <;> cases outcome <;> simp [List.filter_cons]

theorem idsWithOutcome_subset (outcome : Bool) (uploads : List Upload) (bs : List Bool) :
    ∀ id ∈ idsWithOutcome outcome uploads bs, id ∈ uploads.map (fun u => u.ID) := by
  intro id hid
  unfold idsWithOutcome at hid
  obtain ⟨x, hx, rfl⟩ := List.mem_map.mp hid
  obtain ⟨u, b⟩ := x
  exact List.mem_map.mpr ⟨u, (List.of_mem_zip (List.mem_filter.mp hx).1).1, rfl⟩

theorem idsWithOutcome_length (uploads : List Upload) (bs : List Bool)
    (hlen : bs.length = uploads.length) :
    (idsWithOutcome true uploads bs).length + (idsWithOutcome false uploads bs).length =
      uploads.length := by
  induction uploads generalizing bs with
  | nil => simp [idsWithOutcome]
  | cons upload rest ih =>
    cases bs with
    | nil => simp at hlen
    | cons b bs =>
      have h := ih bs (by simpa using hlen)
      rw [idsWithOutcome_cons, idsWithOutcome_cons]
      cases b <;> simp <;> omega

theorem idsWithOutcome_disjoint (uploads : List Upload) (bs : List Bool)
    (hnodup : (uploads.map (fun u => u.ID)).Nodup) :
    List.Disjoint (idsWithOutcome true uploads bs) (idsWithOutcome false uploads bs) := by
  induction uploads generalizing bs with
  | nil => simp [idsWithOutcome]
  | cons upload rest ih =>
    cases bs with
    | nil => simp [idsWithOutcome]
    | cons b bs =>
      rw [List.map_cons, List.nodup_cons] at hnodup
      have h := ih bs hnodup.2
      rw [idsWithOutcome_cons, idsWithOutcome_cons]
      cases b with
      | true =>
        simp only [if_true, Bool.true_eq_false, if_false]
        intro id h1 h2
        rw [List.mem_cons] at h1
        rcases h1 with rfl | h1
        · exact hnodup.1 (idsWithOutcome_subset _ _ _ _ h2)
        · exact h h1 h2
      | false =>
        simp only [if_true, Bool.false_eq_true, if_false]
        intro id h1 h2
        rw [List.mem_cons] at h2
        rcases h2 with rfl | h2
        · exact hnodup.1 (idsWithOutcome_subset _ _ _ _ h1)
        · exact h h1 h2

theorem batchOutcomes_length {σ : Type} (e : uploadExpirer σ) (fuel : Nat)
    (policies : List ConfigurationPolicy) (patterns : Patterns)
    (refDescriptions : String → List RefDescription) (uploads : List Upload)
    (cache : repositoryCache) (w : World σ) (bs : List Bool)
    (hok : batchOutcomes e fuel policies patterns refDescriptions uploads cache w =
      bs.map Except.ok) :
    bs.length = uploads.length := by
  induction uploads generalizing bs cache w with
  | nil =>
    simp only [batchOutcomes] at hok
    cases bs with
    | nil => rfl
    | cons b bs => simp at hok
  | cons upload rest ih =>
    simp only [batchOutcomes] at hok
    rcases hr : isUploadProtectedByPolicy e fuel policies patterns refDescriptions cache
      upload w with ⟨r, cache1, w1⟩
    rw [hr] at hok
    cases bs with
    | nil => cases r <;> simp at hok
    | cons b bs =>
      cases r with
      | error f => simp at hok
      | ok b1 =>
        simp only [List.map_cons, List.cons.injEq] at hok
        simp only [List.length_cons, ih cache1 w1 bs hok.2]

/-- The loop of `handleUploads` on a batch whose evaluations all return a boolean: it
appends to the protected IDs the IDs of the uploads that evaluated to true and to the
expired IDs the IDs of the others. -/
theorem handleUploadsLoop_partition {σ : Type} (e : uploadExpirer σ) (fuel : Nat)
    (policies : List ConfigurationPolicy) (patterns : Patterns)
    (refDescriptions : String → List RefDescription) (uploads : List Upload)
    (protectedIDs expiredIDs : List Int) (cache : repositoryCache) (w : World σ)
    (bs : List Bool)
    (hok : batchOutcomes e fuel policies patterns refDescriptions uploads cache w =
      bs.map Except.ok) :
    (handleUploadsLoop e fuel policies patterns refDescriptions uploads protectedIDs
        expiredIDs cache w).1 =
      .ok (protectedIDs ++ idsWithOutcome true uploads bs,
        expiredIDs ++ idsWithOutcome false uploads bs) := by
  induction uploads generalizing bs protectedIDs expiredIDs cache w with
  | nil => simp [handleUploadsLoop, idsWithOutcome]
  | cons upload rest ih =>
    simp only [batchOutcomes] at hok
    simp only [handleUploadsLoop]
    rcases hr : isUploadProtectedByPolicy e fuel policies patterns refDescriptions cache
      upload w with ⟨r, cache1, w1⟩
    rw [hr] at hok
    cases bs with
    | nil => cases r <;> simp at hok
    | cons b bs =>
      cases r with
      | error f => simp at hok
      | ok b1 =>
        simp only [List.map_cons, List.cons.injEq, Except.ok.injEq] at hok
        obtain ⟨hb, hrest⟩ := hok
        subst hb
        rw [idsWithOutcome_cons, idsWithOutcome_cons]
        cases b1 with
        | true =>
          simp only [if_true, Bool.true_eq_false, if_false]
          rw [ih _ _ _ _ _ hrest, List.append_assoc, List.singleton_append]
        | false =>
          simp only [if_true, Bool.false_eq_true, if_false]
          rw [ih _ _ _ _ _ hrest, List.append_assoc, List.singleton_append]

/-! ## Lemmas on evaluations that find no match -/

theorem filterPolicies_kept {σ : Type}
    (filter : ConfigurationPolicy → World σ → Result Bool × World σ)
    (Q : ConfigurationPolicy → Prop)
    (hfilter : ∀ policy w, (filter policy w).1 = .ok true → Q policy)
    (policies : List ConfigurationPolicy) (w : World σ) (kept : List ConfigurationPolicy)
    (h : (filterPolicies filter policies w).1 = .ok kept) :
    ∀ p ∈ kept, p ∈ policies ∧ Q p := by
  induction policies generalizing w kept with
  | nil =>
    simp only [filterPolicies, Except.ok.injEq] at h
    subst h
    intro p hp
    simp at hp
  | cons policy rest ih =>
    unfold filterPolicies at h
    have hq := hfilter policy w
    rcases hfp : filter policy w with ⟨r, w1⟩
    rw [hfp] at h hq
    cases r with
    | error f => simp at h
    | ok keep =>
      simp only at h hq
      have hih := ih w1
      rcases hrest : filterPolicies filter rest w1 with ⟨r2, w2⟩
      rw [hrest] at h hih
      cases r2 with
      | error f => simp at h
      | ok filtered =>
        simp only [Except.ok.injEq] at h
        subst h
        intro p hp
        have hf := hih filtered rfl
        cases keep with
        | true =>
          simp only [if_true, List.mem_cons] at hp
          rcases hp with rfl | hp
          · exact ⟨List.mem_cons_self _ _, hq rfl⟩
          · exact ⟨List.mem_cons_of_mem _ (hf p hp).1, (hf p hp).2⟩
        | false =>
          have hp2 : p ∈ filtered := by simpa using hp
          exact ⟨List.mem_cons_of_mem _ (hf p hp2).1, (hf p hp2).2⟩

/-- The tip matcher on a commit that is the tip of no branch and no tag returns false
when no policy is of type `GIT_COMMIT`; no pattern is looked at. -/
theorem tipPolicyMatcherLoop_no_names (patterns : Patterns) (commit : String)
    (policies : List ConfigurationPolicy)
    (hcommit : ∀ p ∈ policies, p.Type_ ≠ "GIT_COMMIT") :
    tipPolicyMatcherLoop patterns commit [] [] policies = .ok false := by
  induction policies with
  | nil => rfl
  | cons policy rest ih =>
    have h1 : policy.Type_ ≠ "GIT_COMMIT" := hcommit policy (List.mem_cons_self _ _)
    have h2 := ih (fun p hp => hcommit p (List.mem_cons_of_mem _ hp))
    simp only [tipPolicyMatcherLoop, condAnd, h1, decide_False, if_false,
      patternMatchesAnyValue, ite_self, h2, Bool.false_eq_true]

theorem fastPathLoop_no_tip (patterns : Patterns)
    (refDescriptions : String → List RefDescription) (policies : List ConfigurationPolicy)
    (cache : repositoryCache) (commits : List String)
    (htips : ∀ commit ∈ commits, refNamesByType (refDescriptions commit) = ([], []))
    (hcommit : ∀ p ∈ policies, p.Type_ ≠ "GIT_COMMIT") :
    fastPathLoop patterns refDescriptions policies cache commits = (.ok false, cache) := by
  induction commits with
  | nil => rfl
  | cons commit rest ih =>
    have h1 := htips commit (List.mem_cons_self _ _)
    simp only [fastPathLoop, newTipPolicyMatcher, h1,
      tipPolicyMatcherLoop_no_names patterns commit policies hcommit]
    exact ih (fun c hc => htips c (List.mem_cons_of_mem _ hc))

theorem fastPath_no_tip {σ : Type} (e : uploadExpirer σ) (policies : List ConfigurationPolicy)
    (patterns : Patterns) (refDescriptions : String → List RefDescription)
    (cache : repositoryCache) (upload : Upload) (commits : List String) (w : World σ)
    (finishedAt : Int) (hf : upload.FinishedAt = some finishedAt)
    (htips : ∀ commit ∈ commits, refNamesByType (refDescriptions commit) = ([], []))
    (hcommit : ∀ p ∈ policies, p.Type_ ≠ "GIT_COMMIT") :
    ∃ w1 : World σ, w1.trace = w.trace ∧
      isUploadProtectedByPolicyFastPath e policies patterns refDescriptions cache upload
        commits w = (.ok false, cache, w1) := by
  obtain ⟨kept, hk, hsub⟩ := filterPolicies_ok
    (fun policy => policyCoversUpload e.timeutilNow policy upload)
    (fun policy w => policyCoversUpload_ok _ _ _ _ _ hf) policies w
  have htr := filterPolicies_trace (fun policy => policyCoversUpload e.timeutilNow policy upload)
    (fun policy w => policyCoversUpload_trace _ _ _ _) policies w
  unfold isUploadProtectedByPolicyFastPath
  rcases hfp : filterPolicies (fun policy => policyCoversUpload e.timeutilNow policy upload)
    policies w with ⟨r, w1⟩
  rw [hfp] at hk htr
  simp only at hk htr
  subst hk
  refine ⟨w1, htr, ?_⟩
  simp only
  split
  · rfl
  · rw [fastPathLoop_no_tip patterns refDescriptions kept cache commits htips
      (fun p hp => hcommit p (hsub p hp))]

theorem slowPath_no_retain {σ : Type} (e : uploadExpirer σ)
    (policies : List ConfigurationPolicy) (patterns : Patterns) (cache : repositoryCache)
    (upload : Upload) (commits : List String) (w : World σ)
    (hretain : ∀ p ∈ policies, p.RetainIntermediateCommits = false) :
    ∃ w1 : World σ, w1.trace = w.trace ∧
      isUploadProtectedByPolicySlowPath e policies patterns cache upload commits w =
        (.ok false, cache, w1) := by
  have hkeep : ∀ (ps : List ConfigurationPolicy) (w : World σ),
      (∀ p ∈ ps, p.RetainIntermediateCommits = false) →
      filterPolicies
        (fun policy (w : World σ) =>
          if policy.RetainIntermediateCommits then
            policyCoversUpload e.timeutilNow policy upload w
          else (.ok false, w)) ps w = (.ok [], w) := by
    intro ps
    induction ps with
    | nil => intro w _; rfl
    | cons p rest ih =>
      intro w h
      have hp := h p (List.mem_cons_self _ _)
      have hr := ih w (fun q hq => h q (List.mem_cons_of_mem _ hq))
      simp only [filterPolicies, hp, Bool.false_eq_true, if_false, hr]
  refine ⟨w, rfl, ?_⟩
  simp only [isUploadProtectedByPolicySlowPath, hkeep policies w hretain, List.length_nil,
    if_true]

/-- The page loop when neither path finds a match on any page: it returns false after
the requests for the pages, and leaves the cache as it was. -/
theorem isUploadProtectedByPolicyFrom_no_match {σ : Type} (e : uploadExpirer σ)
    (policies : List ConfigurationPolicy) (patterns : Patterns)
    (refDescriptions : String → List RefDescription) (upload : Upload)
    (visible : Int → List String)
    (hvisible : ∀ s offset,
      (e.dbStore.CommitsVisibleToUpload s upload.ID 100 offset).1 = .ok (visible offset))
    (cache : repositoryCache) (hcache : cache.protectedCommits = [])
    (pages : List (List String))
    (hfast : ∀ page ∈ pages, ∀ w, ∃ w1 : World σ, w1.trace = w.trace ∧
      isUploadProtectedByPolicyFastPath e policies patterns refDescriptions cache upload
        page w = (.ok false, cache, w1))
    (hslow : ∀ page ∈ pages, ∀ w, ∃ w1 : World σ, w1.trace = w.trace ∧
      isUploadProtectedByPolicySlowPath e policies patterns cache upload page w =
        (.ok false, cache, w1))
    (fuel : Nat) (offset : Int) (w : World σ)
    (hpages : ServesPages visible offset pages) (hfuel : pages.length < fuel) :
    ∃ w1 : World σ,
      isUploadProtectedByPolicyFrom e policies patterns refDescriptions upload fuel offset
        cache w = (.ok false, cache, w1) ∧
      TraceExt (fun c => c.isCommitsVisibleToUpload = true) w w1 := by
  induction pages generalizing fuel offset w with
  | nil =>
    cases fuel with
    | zero => simp at hfuel
    | succ fuel =>
      have hv := hvisible w.state offset
      simp only [ServesPages] at hpages
      have hcall := TraceExt.call (fun c => c.isCommitsVisibleToUpload = true) w
        (.CommitsVisibleToUpload upload.ID 100 offset)
        (fun s => e.dbStore.CommitsVisibleToUpload s upload.ID 100 offset) rfl
      simp only [isUploadProtectedByPolicyFrom]
      simp only [World.call] at hcall ⊢
      rcases hcv : e.dbStore.CommitsVisibleToUpload w.state upload.ID 100 offset with ⟨r, s1⟩
      rw [hcv, hpages] at hv
      rw [hcv] at hcall
      simp only at hv hcall
      subst hv
      simp only [List.length_nil, if_true]
      exact ⟨_, rfl, hcall⟩
  | cons page rest ih =>
    cases fuel with
    | zero => simp at hfuel
    | succ fuel =>
      have hfuel2 : rest.length < fuel := by simpa using hfuel
      have hv := hvisible w.state offset
      obtain ⟨hne, hpage, hrest⟩ := hpages
      have hcall := TraceExt.call (fun c => c.isCommitsVisibleToUpload = true) w
        (.CommitsVisibleToUpload upload.ID 100 offset)
        (fun s => e.dbStore.CommitsVisibleToUpload s upload.ID 100 offset) rfl
      simp only [isUploadProtectedByPolicyFrom]
      simp only [World.call] at hcall ⊢
      rcases hcv : e.dbStore.CommitsVisibleToUpload w.state upload.ID 100 offset with ⟨r, s1⟩
      rw [hcv, hpage] at hv
      rw [hcv] at hcall
      simp only at hv hcall
      subst hv
      have hlen : page.length ≠ 0 := fun h => hne (List.length_eq_zero.mp h)
      have hhit : page.any (fun commit => decide (commit ∈ cache.protectedCommits)) = false := by
        rw [hcache]
        simp
      simp only [hlen, if_false, hhit, Bool.false_eq_true]
      obtain ⟨w2, htr2, hf2⟩ := hfast page (List.mem_cons_self _ _)
        { state := s1, trace := w.trace ++ [Call.CommitsVisibleToUpload upload.ID 100 offset] }
      obtain ⟨w3, htr3, hs3⟩ := hslow page (List.mem_cons_self _ _) w2
      simp only [hf2, hs3]
      obtain ⟨w4, h4, htr4⟩ := ih
        (fun p hp => hfast p (List.mem_cons_of_mem _ hp))
        (fun p hp => hslow p (List.mem_cons_of_mem _ hp))
        fuel (offset + page.length) w3 hrest hfuel2
      refine ⟨w4, h4, ?_⟩
      exact (hcall.trans (TraceExt.of_trace_eq _ _ _ (htr3.trans htr2))).trans htr4

/-- The loop of `handleUploads` when no evaluation finds a match: every upload ID goes
to the expired list, the cache is left as it was, and the calls are the requests for the
pages of visible commits. -/
theorem handleUploadsLoop_no_match {σ : Type} (e : uploadExpirer σ) (fuel : Nat)
    (policies : List ConfigurationPolicy) (patterns : Patterns)
    (refDescriptions : String → List RefDescription) (cache : repositoryCache)
    (uploads : List Upload)
    (heval : ∀ upload ∈ uploads, ∀ w, ∃ w1 : World σ,
      isUploadProtectedByPolicy e fuel policies patterns refDescriptions cache upload w =
        (.ok false, cache, w1) ∧
      TraceExt (fun c => c.isCommitsVisibleToUpload = true) w w1)
    (protectedIDs expiredIDs : List Int) (w : World σ) :
    ∃ w1 : World σ,
      handleUploadsLoop e fuel policies patterns refDescriptions uploads protectedIDs
        expiredIDs cache w =
        (.ok (protectedIDs, expiredIDs ++ uploads.map (fun u => u.ID)), cache, w1) ∧
      batchOutcomes e fuel policies patterns refDescriptions uploads cache w =
        uploads.map (fun _ => .ok false) ∧
      TraceExt (fun c => c.isCommitsVisibleToUpload = true) w w1 := by
  induction uploads generalizing expiredIDs w with
  | nil => exact ⟨w, by simp [handleUploadsLoop], rfl, TraceExt.refl _ _⟩
  | cons upload rest ih =>
    obtain ⟨w1, h1, htr1⟩ := heval upload (List.mem_cons_self _ _) w
    obtain ⟨w2, h2, hb2, htr2⟩ := ih (fun u hu => heval u (List.mem_cons_of_mem _ hu))
      (expiredIDs ++ [upload.ID]) w1
    refine ⟨w2, ?_, ?_, htr1.trans htr2⟩
    · simp only [handleUploadsLoop, h1, h2, List.map_cons, List.append_assoc,
        List.singleton_append]
    · simp only [batchOutcomes, h1, hb2, List.map_cons]

/-! ## Lemmas on a page protected by containment only -/

/-- On a commit that is the tip of no branch and no tag, the tip matcher accepts a single
policy only if the policy is of type `GIT_COMMIT` and its pattern matches the hash. -/
theorem newTipPolicyMatcher_no_names (patterns : Patterns) (commit : String)
    (refDescriptions : List RefDescription) (policy : ConfigurationPolicy)
    (htip : refNamesByType refDescriptions = ([], []))
    (hm : newTipPolicyMatcher patterns commit refDescriptions [policy] = .ok true) :
    policy.Type_ = "GIT_COMMIT" ∧
      globMatch (patterns.lookup policy.Pattern) commit = .ok true := by
  simp only [newTipPolicyMatcher, htip] at hm
  by_cases ht : policy.Type_ = "GIT_COMMIT"
  · refine ⟨ht, ?_⟩
    simp only [tipPolicyMatcherLoop, condAnd, ht, decide_True, if_true] at hm
    cases hg : globMatch (patterns.lookup policy.Pattern) commit with
    | error f => rw [hg] at hm; simp at hm
    | ok b =>
      cases b with
      | true => rfl
      | false =>
        rw [hg] at hm
        simp [patternMatchesAnyValue] at hm
  · have := tipPolicyMatcherLoop_no_names patterns commit [policy]
      (fun p hp => by rw [List.mem_singleton] at hp; subst hp; exact ht)
    rw [this] at hm
    simp at hm

/-! ## Lemmas on the branches cache -/

/-- The loop of the slow path returns the same outcome from any two caches that are
consistent with the answers of the gitserver, whatever entries they hold. -/
theorem slowPathLoop_cache_independent {σ : Type} (e : uploadExpirer σ) (patterns : Patterns)
    (policies : List ConfigurationPolicy) (upload : Upload) (containing : String → List String)
    (hcontaining : ∀ s commit,
      (e.gitserverClient.BranchesContaining s upload.RepositoryID commit).1 =
        .ok (containing commit))
    (commits : List String) (cache1 cache2 : repositoryCache) (w1 w2 : World σ)
    (hlru1 : LRUConsistent containing cache1.branchesContaining)
    (hlru2 : LRUConsistent containing cache2.branchesContaining) :
    (slowPathLoop e patterns policies upload commits cache1 w1).1 =
      (slowPathLoop e patterns policies upload commits cache2 w2).1 := by
  have hone : ∀ (commit : String) (rest : List String) (cacheR : repositoryCache)
      (wR : World σ) (cache : repositoryCache) (w : World σ),
      LRUConsistent containing cache.branchesContaining →
      (∀ (c : repositoryCache) (w0 : World σ), LRUConsistent containing c.branchesContaining →
        (slowPathLoop e patterns policies upload rest c w0).1 =
          (slowPathLoop e patterns policies upload rest cacheR wR).1) →
      (slowPathLoop e patterns policies upload (commit :: rest) cache w).1 =
        match newContainsPolicyMatcher patterns commit (containing commit) policies with
        | .error f => .error f
        | .ok true => .ok true
        | .ok false => (slowPathLoop e patterns policies upload rest cacheR wR).1 := by
    intro commit rest cacheR wR cache w hlru hrest
    obtain ⟨hget1, hget2⟩ := LRUConsistent_Get containing cache.branchesContaining commit hlru
    simp only [slowPathLoop]
    rcases hget : cache.branchesContaining.Get commit with ⟨found, lru⟩
    rw [hget] at hget1 hget2
    simp only at hget1 hget2
    cases found with
    | some branches =>
      rw [hget2 branches rfl]
      simp only
      rcases hm : newContainsPolicyMatcher patterns commit (containing commit) policies
        with f | b
      · rfl
      · cases b with
        | true => rfl
        | false => exact hrest { cache with branchesContaining := lru } w hget1
    | none =>
      have hcall := hcontaining w.state commit
      simp only [World.call]
      rcases hbc : e.gitserverClient.BranchesContaining w.state upload.RepositoryID commit
        with ⟨r, s1⟩
      rw [hbc] at hcall
      simp only at hcall
      subst hcall
      simp only
      have hadd := LRUConsistent_Add containing lru commit hget1
      rcases hm : newContainsPolicyMatcher patterns commit (containing commit) policies
        with f | b
      · rfl
      · cases b with
        | true => rfl
        | false =>
          exact hrest { cache with branchesContaining := lru.Add commit (containing commit) }
            _ hadd
  induction commits generalizing cache1 cache2 w1 w2 with
  | nil => rfl
  | cons commit rest ih =>
    have hrest : ∀ (c : repositoryCache) (w0 : World σ),
        LRUConsistent containing c.branchesContaining →
        (slowPathLoop e patterns policies upload rest c w0).1 =
          (slowPathLoop e patterns policies upload rest cache2 w2).1 :=
      fun c w0 hc => ih c cache2 w0 w2 hc hlru2
    rw [hone commit rest cache2 w2 cache1 w1 hlru1 hrest,
      hone commit rest cache2 w2 cache2 w2 hlru2 hrest]

/-! ## Lemmas on the fields of a policy that the evaluation reads -/

theorem tipPolicyMatcherLoop_map (f : ConfigurationPolicy → ConfigurationPolicy)
    (htype : ∀ p, (f p).Type_ = p.Type_) (hpattern : ∀ p, (f p).Pattern = p.Pattern)
    (patterns : Patterns) (commit : String) (branches tags : List String)
    (policies : List ConfigurationPolicy) :
    tipPolicyMatcherLoop patterns commit branches tags (policies.map f) =
      tipPolicyMatcherLoop patterns commit branches tags policies := by
  induction policies with
  | nil => rfl
  | cons policy rest ih =>
    simp only [List.map_cons, tipPolicyMatcherLoop, htype, hpattern, ih]

theorem containsPolicyMatcherLoop_map (f : ConfigurationPolicy → ConfigurationPolicy)
    (hpattern : ∀ p, (f p).Pattern = p.Pattern)
    (patterns : Patterns) (branches : List String) (policies : List ConfigurationPolicy) :
    containsPolicyMatcherLoop patterns branches (policies.map f) =
      containsPolicyMatcherLoop patterns branches policies := by
  induction policies with
  | nil => rfl
  | cons policy rest ih =>
    simp only [List.map_cons, containsPolicyMatcherLoop, hpattern, ih]

theorem filterPolicies_map {σ : Type}
    (filter : ConfigurationPolicy → World σ → Result Bool × World σ)
    (f : ConfigurationPolicy → ConfigurationPolicy)
    (hfilter : ∀ p w, filter (f p) w = filter p w)
    (policies : List ConfigurationPolicy) (w : World σ) :
    filterPolicies filter (policies.map f) w =
      match filterPolicies filter policies w with
      | (.error g, w1) => (.error g, w1)
      | (.ok kept, w1) => (.ok (kept.map f), w1) := by
  induction policies generalizing w with
  | nil => rfl
  | cons policy rest ih =>
    simp only [List.map_cons, filterPolicies, hfilter]
    rcases filter policy w with ⟨r, w1⟩
    cases r with
    | error g => rfl
    | ok keep =>
      simp only [ih w1]
      rcases filterPolicies filter rest w1 with ⟨r2, w2⟩
      cases r2 with
      | error g => rfl
      | ok kept => cases keep <;> rfl

theorem fastPathLoop_map (f : ConfigurationPolicy → ConfigurationPolicy)
    (htype : ∀ p, (f p).Type_ = p.Type_) (hpattern : ∀ p, (f p).Pattern = p.Pattern)
    (patterns : Patterns) (refDescriptions : String → List RefDescription)
    (policies : List ConfigurationPolicy) (cache : repositoryCache) (commits : List String) :
    fastPathLoop patterns refDescriptions (policies.map f) cache commits =
      fastPathLoop patterns refDescriptions policies cache commits := by
  induction commits with
  | nil => rfl
  | cons commit rest ih =>
    simp only [fastPathLoop, newTipPolicyMatcher,
      tipPolicyMatcherLoop_map f htype hpattern, ih]

theorem slowPathLoop_map {σ : Type} (e : uploadExpirer σ)
    (f : ConfigurationPolicy → ConfigurationPolicy)
    (hpattern : ∀ p, (f p).Pattern = p.Pattern)
    (patterns : Patterns) (policies : List ConfigurationPolicy) (upload : Upload)
    (commits : List String) (cache : repositoryCache) (w : World σ) :
    slowPathLoop e patterns (policies.map f) upload commits cache w =
      slowPathLoop e patterns policies upload commits cache w := by
  induction commits generalizing cache w with
  | nil => rfl
  | cons commit rest ih =>
    simp only [slowPathLoop, newContainsPolicyMatcher,
      containsPolicyMatcherLoop_map f hpattern, ih]

/-- The fast path reads the type, the pattern and the retention duration of a policy and
nothing else. -/
theorem fastPath_map {σ : Type} (e : uploadExpirer σ)
    (f : ConfigurationPolicy → ConfigurationPolicy)
    (htype : ∀ p, (f p).Type_ = p.Type_) (hpattern : ∀ p, (f p).Pattern = p.Pattern)
    (hduration : ∀ p, (f p).RetentionDuration = p.RetentionDuration)
    (policies : List ConfigurationPolicy) (patterns : Patterns)
    (refDescriptions : String → List RefDescription) (cache : repositoryCache)
    (upload : Upload) (commits : List String) (w : World σ) :
    isUploadProtectedByPolicyFastPath e (policies.map f) patterns refDescriptions cache upload
        commits w =
      isUploadProtectedByPolicyFastPath e policies patterns refDescriptions cache upload
        commits w := by
  have hfilter : ∀ p (w : World σ),
      policyCoversUpload e.timeutilNow (f p) upload w =
        policyCoversUpload e.timeutilNow p upload w := by
    intro p w
    simp only [policyCoversUpload, hduration]
  simp only [isUploadProtectedByPolicyFastPath]
  rw [filterPolicies_map (fun policy => policyCoversUpload e.timeutilNow policy upload) f
    hfilter policies w]
  rcases filterPolicies (fun policy => policyCoversUpload e.timeutilNow policy upload)
    policies w with ⟨r, w1⟩
  cases r with
  | error g => rfl
  | ok kept =>
    simp only [List.length_map, fastPathLoop_map f htype hpattern]

/-- The slow path reads the pattern, the retention duration and the
`RetainIntermediateCommits` flag of a policy and nothing else. -/
theorem slowPath_map {σ : Type} (e : uploadExpirer σ)
    (f : ConfigurationPolicy → ConfigurationPolicy)
    (hpattern : ∀ p, (f p).Pattern = p.Pattern)
    (hduration : ∀ p, (f p).RetentionDuration = p.RetentionDuration)
    (hretain : ∀ p, (f p).RetainIntermediateCommits = p.RetainIntermediateCommits)
    (policies : List ConfigurationPolicy) (patterns : Patterns) (cache : repositoryCache)
    (upload : Upload) (commits : List String) (w : World σ) :
    isUploadProtectedByPolicySlowPath e (policies.map f) patterns cache upload commits w =
      isUploadProtectedByPolicySlowPath e policies patterns cache upload commits w := by
  have hfilter : ∀ p (w : World σ),
      (if (f p).RetainIntermediateCommits then
          policyCoversUpload e.timeutilNow (f p) upload w
        else (.ok false, w)) =
      (if p.RetainIntermediateCommits then policyCoversUpload e.timeutilNow p upload w
        else (.ok false, w)) := by
    intro p w
    simp only [policyCoversUpload, hduration, hretain]
  simp only [isUploadProtectedByPolicySlowPath]
  rw [filterPolicies_map
    (fun policy (w : World σ) =>
      if policy.RetainIntermediateCommits then
        policyCoversUpload e.timeutilNow policy upload w
      else (.ok false, w)) f hfilter policies w]
  rcases filterPolicies
    (fun policy (w : World σ) =>
      if policy.RetainIntermediateCommits then
        policyCoversUpload e.timeutilNow policy upload w
      else (.ok false, w)) policies w with ⟨r, w1⟩
  cases r with
  | error g => rfl
  | ok kept =>
    simp only [List.length_map, slowPathLoop_map e f hpattern]

theorem isUploadProtectedByPolicyFrom_map {σ : Type} (e : uploadExpirer σ)
    (f : ConfigurationPolicy → ConfigurationPolicy)
    (htype : ∀ p, (f p).Type_ = p.Type_) (hpattern : ∀ p, (f p).Pattern = p.Pattern)
    (hduration : ∀ p, (f p).RetentionDuration = p.RetentionDuration)
    (hretain : ∀ p, (f p).RetainIntermediateCommits = p.RetainIntermediateCommits)
    (policies : List ConfigurationPolicy) (patterns : Patterns)
    (refDescriptions : String → List RefDescription) (upload : Upload) (fuel : Nat)
    (offset : Int) (cache : repositoryCache) (w : World σ) :
    isUploadProtectedByPolicyFrom e (policies.map f) patterns refDescriptions upload fuel
        offset cache w =
      isUploadProtectedByPolicyFrom e policies patterns refDescriptions upload fuel offset
        cache w := by
  induction fuel generalizing offset cache w with
  | zero => rfl
  | succ fuel ih =>
    simp only [isUploadProtectedByPolicyFrom, fastPath_map e f htype hpattern hduration,
      slowPath_map e f hpattern hduration hretain, ih]

theorem handleLoop_policy_options {σ : Type} (e : uploadExpirer σ) (fuel : Nat)
    (globalPolicies : List ConfigurationPolicy) (ids : List Int) (err : Option Error)
    (w : World σ) :
    TraceExt (fun c => c.isGetConfigurationPolicies = true →
        ∃ id, c = Call.GetConfigurationPolicies { RepositoryID := id, ForDataRetention := true })
      w (handleLoop e fuel globalPolicies ids err w).2 := by
  induction ids generalizing err w with
  | nil => exact TraceExt.refl _ _
  | cons id rest ih =>
    have hrepo : TraceExt (fun c => c.isGetConfigurationPolicies = true →
        ∃ id, c = Call.GetConfigurationPolicies { RepositoryID := id, ForDataRetention := true })
        w (handleRepository e fuel id globalPolicies w).2 := by
      obtain ⟨boundary, added, _, htr, hall⟩ := handleRepository_trace e fuel id globalPolicies w
      refine ⟨_, htr, ?_⟩
      intro c hc hget
      rw [List.mem_cons] at hc
      rcases hc with rfl | hc
      · exact ⟨id, rfl⟩
      · have := hall c hc
        cases c <;> simp_all [Call.isGetConfigurationPolicies, Call.isGlobCompile,
          Call.isEvaluation, Call.isCommitsVisibleToUpload, Call.isBranchesContaining,
          Call.isUpdateUploadRetention]
    simp only [handleLoop]
    rcases hr : handleRepository e fuel id globalPolicies w with ⟨r, w1⟩
    rw [hr] at hrepo
    cases r with
    | ok done => exact hrepo.trans (ih _ _)
    | error g =>
      cases g with
      | err repositoryErr =>
        cases err with
        | none => exact hrepo.trans (ih _ _)
        | some err0 => exact hrepo.trans (ih _ _)
      | panic => exact hrepo
      | outOfFuel => exact hrepo

theorem Handle_policy_options {σ : Type} (e : uploadExpirer σ) (fuel : Nat) (w : World σ) :
    TraceExt (fun c => c.isGetConfigurationPolicies = true →
        ∃ id, c = Call.GetConfigurationPolicies { RepositoryID := id, ForDataRetention := true })
      w (Handle e fuel w).2 := by
  have h1 := TraceExt.call (fun c => c.isGetConfigurationPolicies = true →
      ∃ id, c = Call.GetConfigurationPolicies { RepositoryID := id, ForDataRetention := true }) w
    (.RepositoryIDsForRetentionScan e.repositoryProcessDelay e.repositoryBatchSize)
    (fun s => e.dbStore.RepositoryIDsForRetentionScan s e.repositoryProcessDelay
      e.repositoryBatchSize) (by simp [Call.isGetConfigurationPolicies])
  simp only [Handle]
  rcases hids : w.call
    (.RepositoryIDsForRetentionScan e.repositoryProcessDelay e.repositoryBatchSize)
    (fun s => e.dbStore.RepositoryIDsForRetentionScan s e.repositoryProcessDelay
      e.repositoryBatchSize) with ⟨r, w1⟩
  rw [hids] at h1
  cases r with
  | error err => exact h1
  | ok repositoryIDs =>
    simp only
    split
    · exact h1
    · have h2 := TraceExt.call (fun c => c.isGetConfigurationPolicies = true →
          ∃ id, c = Call.GetConfigurationPolicies
            { RepositoryID := id, ForDataRetention := true }) w1
        (.GetConfigurationPolicies { RepositoryID := 0, ForDataRetention := true })
        (fun s => e.dbStore.GetConfigurationPolicies s
          { RepositoryID := 0, ForDataRetention := true }) (fun _ => ⟨0, rfl⟩)
      rcases hg : w1.call
        (.GetConfigurationPolicies { RepositoryID := 0, ForDataRetention := true })
        (fun s => e.dbStore.GetConfigurationPolicies s
          { RepositoryID := 0, ForDataRetention := true }) with ⟨r2, w2⟩
      rw [hg] at h2
      cases r2 with
      | error err => exact h1.trans h2
      | ok globalPolicies =>
        simp only
        have h3 := handleLoop_policy_options e fuel globalPolicies repositoryIDs none w2
        rcases hl : handleLoop e fuel globalPolicies repositoryIDs none w2 with ⟨r3, w3⟩
        rw [hl] at h3
        cases r3 with
        | error g => exact (h1.trans h2).trans h3
        | ok done => exact (h1.trans h2).trans h3

/-! ## Lemmas on two runs with the same answers -/

theorem policyCoversUpload_agree {σ : Type} (timeutilNow : σ → Int × σ)
    (hnow : ∀ s1 s2, (timeutilNow s1).1 = (timeutilNow s2).1)
    (policy : ConfigurationPolicy) (upload : Upload) (w1 w2 : World σ) :
    (policyCoversUpload timeutilNow policy upload w1).1 =
      (policyCoversUpload timeutilNow policy upload w2).1 := by
  unfold policyCoversUpload
  cases policy.RetentionDuration with
  | none => rfl
  | some duration =>
    cases upload.FinishedAt with
    | none => rfl
    | some finishedAt => simp only [hnow w1.state w2.state]

theorem filterPolicies_agree {σ : Type}
    (filter : ConfigurationPolicy → World σ → Result Bool × World σ)
    (hfilter : ∀ p w1 w2, (filter p w1).1 = (filter p w2).1)
    (policies : List ConfigurationPolicy) (w1 w2 : World σ) :
    (filterPolicies filter policies w1).1 = (filterPolicies filter policies w2).1 := by
  induction policies generalizing w1 w2 with
  | nil => rfl
  | cons policy rest ih =>
    have h := hfilter policy w1 w2
    simp only [filterPolicies]
    rcases h1 : filter policy w1 with ⟨r1, v1⟩
    rcases h2 : filter policy w2 with ⟨r2, v2⟩
    rw [h1, h2] at h
    simp only at h
    subst h
    cases r1 with
    | error g => rfl
    | ok keep =>
      have hr := ih v1 v2
      simp only
      rcases h3 : filterPolicies filter rest v1 with ⟨r3, v3⟩
      rcases h4 : filterPolicies filter rest v2 with ⟨r4, v4⟩
      rw [h3, h4] at hr
      simp only at hr
      subst hr
      cases r3 <;> rfl

theorem fastPath_agree {σ : Type} (e : uploadExpirer σ)
    (hnow : ∀ s1 s2, (e.timeutilNow s1).1 = (e.timeutilNow s2).1)
    (policies : List ConfigurationPolicy) (patterns : Patterns)
    (refDescriptions : String → List RefDescription) (cache : repositoryCache)
    (upload : Upload) (commits : List String) (w1 w2 : World σ) :
    (isUploadProtectedByPolicyFastPath e policies patterns refDescriptions cache upload
        commits w1).1 =
      (isUploadProtectedByPolicyFastPath e policies patterns refDescriptions cache upload
        commits w2).1 ∧
    (isUploadProtectedByPolicyFastPath e policies patterns refDescriptions cache upload
        commits w1).2.1 =
      (isUploadProtectedByPolicyFastPath e policies patterns refDescriptions cache upload
        commits w2).2.1 := by
  have h := filterPolicies_agree (fun policy => policyCoversUpload e.timeutilNow policy upload)
    (fun p v1 v2 => policyCoversUpload_agree e.timeutilNow hnow p upload v1 v2) policies w1 w2
  simp only [isUploadProtectedByPolicyFastPath]
  rcases h1 : filterPolicies (fun policy => policyCoversUpload e.timeutilNow policy upload)
    policies w1 with ⟨r1, v1⟩
  rcases h2 : filterPolicies (fun policy => policyCoversUpload e.timeutilNow policy upload)
    policies w2 with ⟨r2, v2⟩
  rw [h1, h2] at h
  simp only at h
  subst h
  cases r1 with
  | error g => exact ⟨rfl, rfl⟩
  | ok kept =>
    simp only
    split
    · exact ⟨rfl, rfl⟩
    · exact ⟨rfl, rfl⟩

theorem slowPathLoop_agree {σ : Type} (e : uploadExpirer σ)
    (hcontaining : ∀ s1 s2 repositoryID commit,
      (e.gitserverClient.BranchesContaining s1 repositoryID commit).1 =
        (e.gitserverClient.BranchesContaining s2 repositoryID commit).1)
    (patterns : Patterns) (policies : List ConfigurationPolicy) (upload : Upload)
    (commits : List String) (cache : repositoryCache) (w1 w2 : World σ) :
    (slowPathLoop e patterns policies upload commits cache w1).1 =
      (slowPathLoop e patterns policies upload commits cache w2).1 ∧
    (slowPathLoop e patterns policies upload commits cache w1).2.1 =
      (slowPathLoop e patterns policies upload commits cache w2).2.1 := by
  induction commits generalizing cache w1 w2 with
  | nil => exact ⟨rfl, rfl⟩
  | cons commit rest ih =>
    simp only [slowPathLoop]
    rcases cache.branchesContaining.Get commit with ⟨found, lru⟩
    cases found with
    | some branches =>
      simp only
      rcases newContainsPolicyMatcher patterns commit branches policies with g | b
      · exact ⟨rfl, rfl⟩
      · cases b with
        | true => exact ⟨rfl, rfl⟩
        | false => exact ih _ w1 w2
    | none =>
      have h := hcontaining w1.state w2.state upload.RepositoryID commit
      simp only [World.call]
      rcases h1 : e.gitserverClient.BranchesContaining w1.state upload.RepositoryID commit
        with ⟨r1, s1⟩
      rcases h2 : e.gitserverClient.BranchesContaining w2.state upload.RepositoryID commit
        with ⟨r2, s2⟩
      rw [h1, h2] at h
      simp only at h
      subst h
      cases r1 with
      | error err => exact ⟨rfl, rfl⟩
      | ok newBranches =>
        simp only
        rcases newContainsPolicyMatcher patterns commit newBranches policies with g | b
        · exact ⟨rfl, rfl⟩
        · cases b with
          | true => exact ⟨rfl, rfl⟩
          | false => exact ih _ _ _

theorem slowPath_agree {σ : Type} (e : uploadExpirer σ)
    (hnow : ∀ s1 s2, (e.timeutilNow s1).1 = (e.timeutilNow s2).1)
    (hcontaining : ∀ s1 s2 repositoryID commit,
      (e.gitserverClient.BranchesContaining s1 repositoryID commit).1 =
        (e.gitserverClient.BranchesContaining s2 repositoryID commit).1)
    (policies : List ConfigurationPolicy) (patterns : Patterns) (cache : repositoryCache)
    (upload : Upload) (commits : List String) (w1 w2 : World σ) :
    (isUploadProtectedByPolicySlowPath e policies patterns cache upload commits w1).1 =
      (isUploadProtectedByPolicySlowPath e policies patterns cache upload commits w2).1 ∧
    (isUploadProtectedByPolicySlowPath e policies patterns cache upload commits w1).2.1 =
      (isUploadProtectedByPolicySlowPath e policies patterns cache upload commits w2).2.1 := by
  have h := filterPolicies_agree
    (fun policy (w : World σ) =>
      if policy.RetainIntermediateCommits then
        policyCoversUpload e.timeutilNow policy upload w
      else (.ok false, w))
    (fun p v1 v2 => by
      dsimp only
      split
      · exact policyCoversUpload_agree e.timeutilNow hnow p upload v1 v2
      · rfl) policies w1 w2
  simp only [isUploadProtectedByPolicySlowPath]
  rcases h1 : filterPolicies
    (fun policy (w : World σ) =>
      if policy.RetainIntermediateCommits then
        policyCoversUpload e.timeutilNow policy upload w
      else (.ok false, w)) policies w1 with ⟨r1, v1⟩
  rcases h2 : filterPolicies
    (fun policy (w : World σ) =>
      if policy.RetainIntermediateCommits then
        policyCoversUpload e.timeutilNow policy upload w
      else (.ok false, w)) policies w2 with ⟨r2, v2⟩
  rw [h1, h2] at h
  simp only at h
  subst h
  cases r1 with
  | error g => exact ⟨rfl, rfl⟩
  | ok kept =>
    simp only
    split
    · exact ⟨rfl, rfl⟩
    · exact slowPathLoop_agree e hcontaining patterns kept upload commits cache v1 v2

theorem isUploadProtectedByPolicyFrom_agree {σ : Type} (e : uploadExpirer σ)
    (hnow : ∀ s1 s2, (e.timeutilNow s1).1 = (e.timeutilNow s2).1)
    (hvisible : ∀ s1 s2 uploadID offset,
      (e.dbStore.CommitsVisibleToUpload s1 uploadID 100 offset).1 =
        (e.dbStore.CommitsVisibleToUpload s2 uploadID 100 offset).1)
    (hcontaining : ∀ s1 s2 repositoryID commit,
      (e.gitserverClient.BranchesContaining s1 repositoryID commit).1 =
        (e.gitserverClient.BranchesContaining s2 repositoryID commit).1)
    (policies : List ConfigurationPolicy) (patterns : Patterns)
    (refDescriptions : String → List RefDescription) (upload : Upload) (fuel : Nat)
    (offset : Int) (cache : repositoryCache) (w1 w2 : World σ) :
    (isUploadProtectedByPolicyFrom e policies patterns refDescriptions upload fuel offset
        cache w1).1 =
      (isUploadProtectedByPolicyFrom e policies patterns refDescriptions upload fuel offset
        cache w2).1 ∧
    (isUploadProtectedByPolicyFrom e policies patterns refDescriptions upload fuel offset
        cache w1).2.1 =
      (isUploadProtectedByPolicyFrom e policies patterns refDescriptions upload fuel offset
        cache w2).2.1 := by
  induction fuel generalizing offset cache w1 w2 with
  | zero => exact ⟨rfl, rfl⟩
  | succ fuel ih =>
    have h := hvisible w1.state w2.state upload.ID offset
    simp only [isUploadProtectedByPolicyFrom, World.call]
    rcases h1 : e.dbStore.CommitsVisibleToUpload w1.state upload.ID 100 offset with ⟨r1, s1⟩
    rcases h2 : e.dbStore.CommitsVisibleToUpload w2.state upload.ID 100 offset with ⟨r2, s2⟩
    rw [h1, h2] at h
    simp only at h
    subst h
    cases r1 with
    | error err => exact ⟨rfl, rfl⟩
    | ok commits =>
      simp only
      split
      · exact ⟨rfl, rfl⟩
      · split
        · exact ⟨rfl, rfl⟩
        · have hfast := fastPath_agree e hnow policies patterns refDescriptions cache upload
            commits
            { state := s1, trace := w1.trace ++ [Call.CommitsVisibleToUpload upload.ID 100 offset] }
            { state := s2, trace := w2.trace ++ [Call.CommitsVisibleToUpload upload.ID 100 offset] }
          rcases hf1 : isUploadProtectedByPolicyFastPath e policies patterns refDescriptions
            cache upload commits
            { state := s1, trace := w1.trace ++ [Call.CommitsVisibleToUpload upload.ID 100 offset] }
            with ⟨a1, c1, v1⟩
          rcases hf2 : isUploadProtectedByPolicyFastPath e policies patterns refDescriptions
            cache upload commits
            { state := s2, trace := w2.trace ++ [Call.CommitsVisibleToUpload upload.ID 100 offset] }
            with ⟨a2, c2, v2⟩
          rw [hf1, hf2] at hfast
          simp only at hfast
          obtain ⟨ha, hcc⟩ := hfast
          subst ha
          subst hcc
          cases a1 with
          | error g => exact ⟨rfl, rfl⟩
          | ok b =>
            cases b with
            | true => exact ⟨rfl, rfl⟩
            | false =>
              simp only
              have hslow := slowPath_agree e hnow hcontaining policies patterns c1 upload
                commits v1 v2
              rcases hs1 : isUploadProtectedByPolicySlowPath e policies patterns c1 upload
                commits v1 with ⟨b1, d1, u1⟩
              rcases hs2 : isUploadProtectedByPolicySlowPath e policies patterns c1 upload
                commits v2 with ⟨b2, d2, u2⟩
              rw [hs1, hs2] at hslow
              simp only at hslow
              obtain ⟨hb, hd⟩ := hslow
              subst hb
              subst hd
              cases b1 with
              | error g => exact ⟨rfl, rfl⟩
              | ok b =>
                cases b with
                | true => exact ⟨rfl, rfl⟩
                | false => exact ih _ _ _ _

/-- Two runs of the loop of `handleUploads` on the same batch, from the same cache and
the same lists, in two states of collaborators that give the same answers: the runs end
with the same outcome and the same cache. -/
theorem handleUploadsLoop_agree {σ : Type} (e : uploadExpirer σ)
    (hnow : ∀ s1 s2, (e.timeutilNow s1).1 = (e.timeutilNow s2).1)
    (hvisible : ∀ s1 s2 uploadID offset,
      (e.dbStore.CommitsVisibleToUpload s1 uploadID 100 offset).1 =
        (e.dbStore.CommitsVisibleToUpload s2 uploadID 100 offset).1)
    (hcontaining : ∀ s1 s2 repositoryID commit,
      (e.gitserverClient.BranchesContaining s1 repositoryID commit).1 =
        (e.gitserverClient.BranchesContaining s2 repositoryID commit).1)
    (fuel : Nat) (policies : List ConfigurationPolicy) (patterns : Patterns)
    (refDescriptions : String → List RefDescription) (uploads : List Upload)
    (protectedIDs expiredIDs : List Int) (cache : repositoryCache) (w1 w2 : World σ) :
    (handleUploadsLoop e fuel policies patterns refDescriptions uploads protectedIDs
        expiredIDs cache w1).1 =
      (handleUploadsLoop e fuel policies patterns refDescriptions uploads protectedIDs
        expiredIDs cache w2).1 ∧
    (handleUploadsLoop e fuel policies patterns refDescriptions uploads protectedIDs
        expiredIDs cache w1).2.1 =
      (handleUploadsLoop e fuel policies patterns refDescriptions uploads protectedIDs
        expiredIDs cache w2).2.1 := by
  induction uploads generalizing protectedIDs expiredIDs cache w1 w2 with
  | nil => exact ⟨rfl, rfl⟩
  | cons upload rest ih =>
    have h := isUploadProtectedByPolicyFrom_agree e hnow hvisible hcontaining policies patterns
      refDescriptions upload fuel 0 cache w1 w2
    simp only [handleUploadsLoop, isUploadProtectedByPolicy]
    rcases h1 : isUploadProtectedByPolicyFrom e policies patterns refDescriptions upload fuel 0
      cache w1 with ⟨r1, c1, v1⟩
    rcases h2 : isUploadProtectedByPolicyFrom e policies patterns refDescriptions upload fuel 0
      cache w2 with ⟨r2, c2, v2⟩
    rw [h1, h2] at h
    simp only at h
    obtain ⟨hr, hcc⟩ := h
    subst hr
    subst hcc
    cases r1 with
    | error g => exact ⟨rfl, rfl⟩
    | ok b =>
      cases b with
      | true => exact ih _ _ _ _ _
      | false => exact ih _ _ _ _ _

/-! ## Lemmas on the compile loop -/

theorem compilePatterns_state {σ : Type} (e : uploadExpirer σ)
    (policies : List ConfigurationPolicy) (patterns : Patterns) (w : World σ) :
    (compilePatterns e policies patterns w).2.state = w.state := by
  induction policies generalizing patterns w with
  | nil => rfl
  | cons policy rest ih =>
    simp only [compilePatterns]
    split
    · exact ih _ _
    · split
      · rfl
      · exact ih _ _

/-- A compile loop that ends without error leaves the entries the map had and has an
entry for the pattern of every policy of the list. -/
theorem compilePatterns_entries {σ : Type} (e : uploadExpirer σ)
    (policies : List ConfigurationPolicy) (patterns : Patterns) (w : World σ)
    (patterns1 : Patterns)
    (h : (compilePatterns e policies patterns w).1 = .ok patterns1) :
    (∀ key g, patterns.lookup key = some g → ∃ g1, patterns1.lookup key = some g1) ∧
    AllCompiled patterns1 policies := by
  induction policies generalizing patterns w with
  | nil =>
    simp only [compilePatterns, Except.ok.injEq] at h
    subst h
    exact ⟨fun key g hg => ⟨g, hg⟩, fun policy hp => by simp at hp⟩
  | cons policy rest ih =>
    simp only [compilePatterns] at h
    cases hl : patterns.lookup policy.Pattern with
    | some g0 =>
      rw [hl] at h
      obtain ⟨h1, h2⟩ := ih patterns w h
      refine ⟨h1, ?_⟩
      intro p hp
      rw [List.mem_cons] at hp
      rcases hp with rfl | hp
      · exact h1 _ _ hl
      · exact h2 p hp
    | none =>
      rw [hl] at h
      cases hc : e.globCompile policy.Pattern with
      | error err => rw [hc] at h; simp at h
      | ok g =>
        rw [hc] at h
        obtain ⟨h1, h2⟩ := ih _ _ h
        have hhead : ∃ g1, patterns1.lookup policy.Pattern = some g1 :=
          h1 policy.Pattern g (by simp [List.lookup_cons])
        refine ⟨?_, ?_⟩
        · intro key g2 hg2
          by_cases hk : key = policy.Pattern
          · subst hk; exact hhead
          · refine h1 key g2 ?_
            have : (key == policy.Pattern) = false := by simpa using hk
            rw [List.lookup_cons, this]
            exact hg2
        · intro p hp
          rw [List.mem_cons] at hp
          rcases hp with rfl | hp
          · exact hhead
          · exact h2 p hp

/-- The compile loop on a list whose patterns all compile: it ends without error, and it
calls the compiler once for each pattern of the list that the map does not hold yet. -/
theorem compilePatterns_calls {σ : Type} (e : uploadExpirer σ)
    (policies : List ConfigurationPolicy) (patterns : Patterns) (w : World σ)
    (hcompile : ∀ policy ∈ policies, ∃ g, e.globCompile policy.Pattern = .ok g) :
    ∃ (patterns1 : Patterns) (compiled : List String),
      compilePatterns e policies patterns w =
        (.ok patterns1, { w with trace := w.trace ++ compiled.map Call.globCompile }) ∧
      compiled.Nodup ∧
      (∀ pattern ∈ compiled, patterns.lookup pattern = none ∧
        pattern ∈ policies.map (fun p => p.Pattern)) ∧
      (∀ policy ∈ policies, patterns.lookup policy.Pattern = none →
        policy.Pattern ∈ compiled) := by
  induction policies generalizing patterns w with
  | nil => exact ⟨patterns, [], by simp [compilePatterns], List.nodup_nil, by simp, by simp⟩
  | cons policy rest ih =>
    have hrest : ∀ p ∈ rest, ∃ g, e.globCompile p.Pattern = .ok g :=
      fun p hp => hcompile p (List.mem_cons_of_mem _ hp)
    cases hl : patterns.lookup policy.Pattern with
    | some g0 =>
      obtain ⟨patterns1, compiled, h1, h2, h3, h4⟩ := ih patterns w hrest
      refine ⟨patterns1, compiled, ?_, h2, ?_, ?_⟩
      · simp only [compilePatterns, hl, h1]
      · intro pattern hp
        exact ⟨(h3 pattern hp).1, by
          rw [List.map_cons]
          exact List.mem_cons_of_mem _ (h3 pattern hp).2⟩
      · intro p hp hnone
        rw [List.mem_cons] at hp
        rcases hp with rfl | hp
        · rw [hl] at hnone; simp at hnone
        · exact h4 p hp hnone
    | none =>
      obtain ⟨g, hg⟩ := hcompile policy (List.mem_cons_self _ _)
      obtain ⟨patterns1, compiled, h1, h2, h3, h4⟩ := ih ((policy.Pattern, g) :: patterns)
        { w with trace := w.trace ++ [Call.globCompile policy.Pattern] } hrest
      have hlook : ∀ pattern, List.lookup pattern ((policy.Pattern, g) :: patterns) = none →
          pattern ≠ policy.Pattern ∧ patterns.lookup pattern = none := by
        intro pattern hnone
        rw [List.lookup_cons] at hnone
        by_cases hk : pattern = policy.Pattern
        · subst hk; simp at hnone
        · have : (pattern == policy.Pattern) = false := by simpa using hk
          rw [this] at hnone
          exact ⟨hk, hnone⟩
      refine ⟨patterns1, policy.Pattern :: compiled, ?_, ?_, ?_, ?_⟩
      · simp only [compilePatterns, hl, hg, h1, List.map_cons, List.append_assoc,
          List.singleton_append]
      · rw [List.nodup_cons]
        exact ⟨fun hmem => (hlook _ (h3 _ hmem).1).1 rfl, h2⟩
      · intro pattern hp
        rw [List.mem_cons] at hp
        rcases hp with rfl | hp
        · exact ⟨hl, by simp⟩
        · exact ⟨(hlook _ (h3 pattern hp).1).2, by
            rw [List.map_cons]
            exact List.mem_cons_of_mem _ (h3 pattern hp).2⟩
      · intro p hp hnone
        rw [List.mem_cons] at hp
        rcases hp with rfl | hp
        · exact List.mem_cons_self _ _
        · by_cases hk : p.Pattern = policy.Pattern
          · rw [hk]; exact List.mem_cons_self _ _
          · refine List.mem_cons_of_mem _ (h4 p hp ?_)
            have : (p.Pattern == policy.Pattern) = false := by simpa using hk
            rw [List.lookup_cons, this]
            exact hnone

theorem count_globCompile_map (pattern : String) (compiled : List String)
    (hnodup : compiled.Nodup) :
    (compiled.map Call.globCompile).count (Call.globCompile pattern) =
      if pattern ∈ compiled then 1 else 0 := by
  have hinj : Function.Injective Call.globCompile := by
    intro a b hab
    exact Call.globCompile.inj hab
  rw [List.count_map_of_injective _ _ hinj]
  split
  · next h => exact List.count_eq_one_of_mem hnodup h
  · next h => exact List.count_eq_zero_of_not_mem h

/-! ## Lemmas on the size of the branches cache -/

theorem LRU_Get_length (c : LRU) (key : String) :
    (c.Get key).2.size = c.size ∧ (c.Get key).2.items.length ≤ c.items.length := by
  unfold LRU.Get
  cases hl : c.items.lookup key with
  | none => exact ⟨rfl, le_refl _⟩
  | some value =>
    refine ⟨rfl, ?_⟩
    have hmem := lookup_mem key value c.items hl
    have hlt : (c.items.filter (fun x => x.1 != key)).length < c.items.length := by
      apply List.length_filter_lt_length_iff_exists.mpr
      exact ⟨(key, value), hmem, by simp⟩
    simp only [List.length_cons]
    omega

theorem LRU_Add_length (c : LRU) (key : String) (value : List String)
    (h : c.items.length ≤ c.size) :
    (c.Add key value).size = c.size ∧ (c.Add key value).items.length ≤ c.size := by
  unfold LRU.Add
  cases hl : c.items.lookup key with
  | some old =>
    refine ⟨rfl, ?_⟩
    have hmem := lookup_mem key old c.items hl
    have hlt : (c.items.filter (fun x => x.1 != key)).length < c.items.length := by
      apply List.length_filter_lt_length_iff_exists.mpr
      exact ⟨(key, old), hmem, by simp⟩
    simp only [List.length_cons]
    omega
  | none =>
    simp only
    split
    · refine ⟨rfl, ?_⟩
      simp only [List.length_dropLast, List.length_cons, Nat.add_sub_cancel]
      exact h
    · next hfit =>
      refine ⟨rfl, ?_⟩
      simp only [List.length_cons]
      omega

theorem cacheBounded_Get (cache : repositoryCache) (key : String) (h : cacheBounded cache) :
    cacheBounded { cache with branchesContaining := (cache.branchesContaining.Get key).2 } := by
  obtain ⟨h1, h2⟩ := LRU_Get_length cache.branchesContaining key
  exact ⟨by rw [h1]; exact h.1, le_trans h2 h.2⟩

theorem cacheBounded_Add (cache : repositoryCache) (lru : LRU) (key : String)
    (value : List String)
    (h : cacheBounded { cache with branchesContaining := lru }) :
    cacheBounded { cache with branchesContaining := lru.Add key value } := by
  obtain ⟨h1, h2⟩ := LRU_Add_length lru key value (by rw [h.1]; exact h.2)
  exact ⟨by rw [h1]; exact h.1, by rw [h.1] at h2; exact h2⟩

theorem fastPathLoop_branches (patterns : Patterns)
    (refDescriptions : String → List RefDescription) (policies : List ConfigurationPolicy)
    (cache : repositoryCache) (commits : List String) :
    (fastPathLoop patterns refDescriptions policies cache commits).2.branchesContaining =
      cache.branchesContaining := by
  induction commits with
  | nil => rfl
  | cons commit rest ih =>
    simp only [fastPathLoop]
    split
    · rfl
    · rfl
    · exact ih

theorem fastPath_branches {σ : Type} (e : uploadExpirer σ)
    (policies : List ConfigurationPolicy) (patterns : Patterns)
    (refDescriptions : String → List RefDescription) (cache : repositoryCache)
    (upload : Upload) (commits : List String) (w : World σ) :
    (isUploadProtectedByPolicyFastPath e policies patterns refDescriptions cache upload
      commits w).2.1.branchesContaining = cache.branchesContaining := by
  simp only [isUploadProtectedByPolicyFastPath]
  split
  · rfl
  · split
    · rfl
    · exact fastPathLoop_branches _ _ _ _ _

theorem slowPathLoop_bounded {σ : Type} (e : uploadExpirer σ) (patterns : Patterns)
    (policies : List ConfigurationPolicy) (upload : Upload) (commits : List String)
    (cache : repositoryCache) (w : World σ) (h : cacheBounded cache) :
    cacheBounded (slowPathLoop e patterns policies upload commits cache w).2.1 := by
  induction commits generalizing cache w with
  | nil => exact h
  | cons commit rest ih =>
    have hget := cacheBounded_Get cache commit h
    simp only [slowPathLoop]
    rcases hg : cache.branchesContaining.Get commit with ⟨found, lru⟩
    rw [hg] at hget
    simp only at hget
    cases found with
    | some branches =>
      simp only
      split
      · exact hget
      · exact hget
      · exact ih _ _ hget
    | none =>
      simp only
      split
      · exact hget
      · next newBranches w1 heq =>
        have hadd := cacheBounded_Add cache lru commit newBranches hget
        split
        · exact hadd
        · exact hadd
        · exact ih _ _ hadd

theorem slowPath_bounded {σ : Type} (e : uploadExpirer σ)
    (policies : List ConfigurationPolicy) (patterns : Patterns) (cache : repositoryCache)
    (upload : Upload) (commits : List String) (w : World σ) (h : cacheBounded cache) :
    cacheBounded
      (isUploadProtectedByPolicySlowPath e policies patterns cache upload commits w).2.1 := by
  simp only [isUploadProtectedByPolicySlowPath]
  split
  · exact h
  · split
    · exact h
    · exact slowPathLoop_bounded _ _ _ _ _ _ _ h

theorem isUploadProtectedByPolicyFrom_bounded {σ : Type} (e : uploadExpirer σ)
    (policies : List ConfigurationPolicy) (patterns : Patterns)
    (refDescriptions : String → List RefDescription) (upload : Upload) (fuel : Nat)
    (offset : Int) (cache : repositoryCache) (w : World σ) (h : cacheBounded cache) :
    cacheBounded (isUploadProtectedByPolicyFrom e policies patterns refDescriptions upload
      fuel offset cache w).2.1 := by
  induction fuel generalizing offset cache w with
  | zero => exact h
  | succ fuel ih =>
    simp only [isUploadProtectedByPolicyFrom]
    split
    · exact h
    · next commits w1 heq =>
      split
      · exact h
      · split
        · exact h
        · have hfast := fastPath_branches e policies patterns refDescriptions cache upload
            commits w1
          split
          · next cache2 w2 hf =>
            rw [hf] at hfast
            have h2 : cacheBounded cache2 := by
              unfold cacheBounded
              rw [hfast]
              exact h
            have hslow := slowPath_bounded e policies patterns cache2 upload commits w2 h2
            split
            · next cache3 w3 hs =>
              rw [hs] at hslow
              exact ih _ _ _ hslow
            · exact hslow
          · unfold cacheBounded
            rw [hfast]
            exact h

theorem handleUploadsLoop_bounded {σ : Type} (e : uploadExpirer σ) (fuel : Nat)
    (policies : List ConfigurationPolicy) (patterns : Patterns)
    (refDescriptions : String → List RefDescription) (uploads : List Upload)
    (protectedIDs expiredIDs : List Int) (cache : repositoryCache) (w : World σ)
    (h : cacheBounded cache) :
    cacheBounded (handleUploadsLoop e fuel policies patterns refDescriptions uploads
      protectedIDs expiredIDs cache w).2.1 := by
  induction uploads generalizing protectedIDs expiredIDs cache w with
  | nil => exact h
  | cons upload rest ih =>
    have h1 := isUploadProtectedByPolicyFrom_bounded e policies patterns refDescriptions
      upload fuel 0 cache w h
    simp only [handleUploadsLoop, isUploadProtectedByPolicy]
    split
    · next heq => rw [heq] at h1; exact h1
    · next heq => rw [heq] at h1; exact ih _ _ _ _ h1
    · next heq => rw [heq] at h1; exact ih _ _ _ _ h1

theorem handleUploads_bounded {σ : Type} (e : uploadExpirer σ) (fuel : Nat)
    (policies : List ConfigurationPolicy) (patterns : Patterns)
    (refDescriptions : String → List RefDescription) (cache : repositoryCache)
    (uploads : List Upload) (w : World σ) (h : cacheBounded cache) :
    cacheBounded
      (handleUploads e fuel policies patterns refDescriptions cache uploads w).2.1 := by
  have h1 := handleUploadsLoop_bounded e fuel policies patterns refDescriptions uploads [] []
    cache w h
  simp only [handleUploads]
  split
  · next heq => rw [heq] at h1; exact h1
  · next heq =>
    rw [heq] at h1
    split
    · exact h1
    · exact h1

theorem handleRepositoryLoop_cache_bounded {σ : Type} (e : uploadExpirer σ) (pageFuel : Nat)
    (repositoryID : Int) (policies : List ConfigurationPolicy) (patterns : Patterns)
    (refDescriptions : String → List RefDescription) (boundary : Int) (fuel : Nat)
    (cache : repositoryCache) (w : World σ) (h : cacheBounded cache) :
    cacheBounded (handleRepositoryLoop e pageFuel repositoryID policies patterns
      refDescriptions boundary fuel cache w).2.1 := by
  induction fuel generalizing cache w with
  | zero => exact h
  | succ fuel ih =>
    simp only [handleRepositoryLoop]
    split
    · exact h
    · next uploads w1 heq =>
      split
      · exact h
      · have h1 := handleUploads_bounded e pageFuel policies patterns refDescriptions cache
          uploads w1 h
        split
        · next heq2 => rw [heq2] at h1; exact h1
        · next heq2 => rw [heq2] at h1; exact ih _ _ h1

/-! ## Lemmas on the policy lists of an invocation -/

theorem handleLoop_append {σ : Type} (e : uploadExpirer σ) (fuel : Nat)
    (globalPolicies : List ConfigurationPolicy) (pre post : List Int) (err : Option Error)
    (w : World σ) :
    handleLoop e fuel globalPolicies (pre ++ post) err w =
      match handleLoop e fuel globalPolicies pre err w with
      | (.ok err1, w1) => handleLoop e fuel globalPolicies post err1 w1
      | (.error f, w1) => (.error f, w1) := by
  induction pre generalizing err w with
  | nil => rfl
  | cons id pre ih =>
    simp only [List.cons_append, handleLoop]
    rcases handleRepository e fuel id globalPolicies w with ⟨r, w1⟩
    cases r with
    | ok done => exact ih _ _
    | error f =>
      cases f with
      | err repositoryErr =>
        cases err with
        | none => exact ih _ _
        | some err0 => exact ih _ _
      | panic => rfl
      | outOfFuel => rfl

theorem handleLoop_repository_calls {σ : Type} (e : uploadExpirer σ) (fuel : Nat)
    (globalPolicies : List ConfigurationPolicy) (ids : List Int) (err : Option Error)
    (w : World σ) :
    TraceExt (fun c => c.isGetConfigurationPolicies = true →
        ∃ id ∈ ids, c = Call.GetConfigurationPolicies
          { RepositoryID := id, ForDataRetention := true })
      w (handleLoop e fuel globalPolicies ids err w).2 := by
  induction ids generalizing err w with
  | nil => exact TraceExt.refl _ _
  | cons id rest ih =>
    have hrepo : TraceExt (fun c => c.isGetConfigurationPolicies = true →
        ∃ id0 ∈ id :: rest, c = Call.GetConfigurationPolicies
          { RepositoryID := id0, ForDataRetention := true })
        w (handleRepository e fuel id globalPolicies w).2 := by
      obtain ⟨boundary, added, _, htr, hall⟩ := handleRepository_trace e fuel id globalPolicies w
      refine ⟨_, htr, ?_⟩
      intro c hc hget
      rw [List.mem_cons] at hc
      rcases hc with rfl | hc
      · exact ⟨id, List.mem_cons_self _ _, rfl⟩
      · have := hall c hc
        cases c <;> simp_all [Call.isGetConfigurationPolicies, Call.isGlobCompile,
          Call.isEvaluation, Call.isCommitsVisibleToUpload, Call.isBranchesContaining,
          Call.isUpdateUploadRetention]
    have hrest : ∀ err1 w1, TraceExt (fun c => c.isGetConfigurationPolicies = true →
        ∃ id0 ∈ id :: rest, c = Call.GetConfigurationPolicies
          { RepositoryID := id0, ForDataRetention := true })
        w1 (handleLoop e fuel globalPolicies rest err1 w1).2 := by
      intro err1 w1
      exact (ih err1 w1).mono (fun c hc hget => by
        obtain ⟨id0, h0, h1⟩ := hc hget
        exact ⟨id0, List.mem_cons_of_mem _ h0, h1⟩)
    simp only [handleLoop]
    rcases hr : handleRepository e fuel id globalPolicies w with ⟨r, w1⟩
    rw [hr] at hrepo
    cases r with
    | ok done => exact hrepo.trans (hrest _ _)
    | error g =>
      cases g with
      | err repositoryErr =>
        cases err with
        | none => exact hrepo.trans (hrest _ _)
        | some err0 => exact hrepo.trans (hrest _ _)
      | panic => exact hrepo
      | outOfFuel => exact hrepo

/-- The loop of `Handle` from a repository on: when the scan of the repository returns,
the loop goes on with the repositories after it in the world the scan left. -/
theorem handleLoop_cons_returned {σ : Type} (e : uploadExpirer σ) (fuel : Nat)
    (globalPolicies : List ConfigurationPolicy) (id : Int) (post : List Int)
    (err : Option Error) (w : World σ)
    (hret : returned (handleRepository e fuel id globalPolicies w).1 = true) :
    ∃ err2, handleLoop e fuel globalPolicies (id :: post) err w =
      handleLoop e fuel globalPolicies post err2
        (handleRepository e fuel id globalPolicies w).2 := by
  simp only [handleLoop]
  rcases hr : handleRepository e fuel id globalPolicies w with ⟨r, w1⟩
  rw [hr] at hret
  cases r with
  | ok done => exact ⟨err, rfl⟩
  | error g =>
    cases g with
    | err repositoryErr =>
      cases err with
      | none => exact ⟨_, rfl⟩
      | some err0 => exact ⟨_, rfl⟩
    | panic => simp [returned] at hret
    | outOfFuel => simp [returned] at hret

/-! ## Lemmas on the record of collaborator calls -/

theorem allSucceeded_append (a b : CallLog) (ha : allSucceeded a) (hb : allSucceeded b) :
    allSucceeded (a ++ b) := by
  intro x hx
  rcases List.mem_append.mp hx with h | h
  · exact ha x h
  · exact hb x h

theorem allSucceeded_of_none (calls : CallLog) (h : stopsAtFailure none calls) :
    allSucceeded calls := by
  rcases h with h | ⟨pre, c, err, _, _, hf⟩
  · exact h
  · simp at hf

theorem LogExt.same {σ : Type} (log : σ → CallLog) (failure : Option Failure) (s s1 : σ)
    (h : log s1 = log s) : LogExt log failure s s1 :=
  ⟨[], by simp [h], Or.inl (fun x hx => by simp at hx)⟩

theorem LogExt.seq {σ : Type} {log : σ → CallLog} {failure : Option Failure} {s s1 s2 : σ}
    (h1 : LogExt log none s s1) (h2 : LogExt log failure s1 s2) :
    LogExt log failure s s2 := by
  obtain ⟨a, ha, hsa⟩ := h1
  obtain ⟨b, hb, hsb⟩ := h2
  have hall := allSucceeded_of_none a hsa
  refine ⟨a ++ b, by rw [hb, ha, List.append_assoc], ?_⟩
  rcases hsb with h | ⟨pre, c, err, hpre, hall2, hf⟩
  · exact Or.inl (allSucceeded_append a b hall h)
  · exact Or.inr ⟨a ++ pre, c, err, by rw [hpre, List.append_assoc],
      allSucceeded_append a pre hall hall2, hf⟩

theorem LogExt.logged {σ α : Type} (log : σ → CallLog) (c : Call) (op : σ → Except Error α × σ)
    (s : σ) (h : log (op s).2 = log s ++ [(c, errorOf (op s).1)]) :
    LogExt log (match (op s).1 with
      | .error err => some (.err err)
      | .ok _ => none) s (op s).2 := by
  refine ⟨_, h, ?_⟩
  cases hr : (op s).1 with
  | error err =>
    exact Or.inr ⟨[], c, err, by simp [errorOf], fun x hx => by simp at hx, rfl⟩
  | ok value =>
    refine Or.inl ?_
    intro x hx
    rw [List.mem_singleton] at hx
    subst hx
    rfl

theorem policyCoversUpload_log {σ : Type} (e : uploadExpirer σ) (log : σ → CallLog)
    (hlog : Logged e log) (policy : ConfigurationPolicy) (upload : Upload) (w : World σ) :
    log (policyCoversUpload e.timeutilNow policy upload w).2.state = log w.state := by
  unfold policyCoversUpload
  cases policy.RetentionDuration with
  | none => rfl
  | some duration =>
    cases upload.FinishedAt with
    | none => exact hlog.timeutilNow _
    | some finishedAt => exact hlog.timeutilNow _

theorem filterPolicies_log {σ : Type} (log : σ → CallLog)
    (filter : ConfigurationPolicy → World σ → Result Bool × World σ)
    (hfilter : ∀ policy w, log (filter policy w).2.state = log w.state)
    (policies : List ConfigurationPolicy) (w : World σ) :
    log (filterPolicies filter policies w).2.state = log w.state := by
  induction policies generalizing w with
  | nil => rfl
  | cons policy rest ih =>
    unfold filterPolicies
    have h1 := hfilter policy w
    rcases hfp : filter policy w with ⟨r, w1⟩
    rw [hfp] at h1
    cases r with
    | error f => exact h1
    | ok keep =>
      have h2 := ih w1
      rcases hrest : filterPolicies filter rest w1 with ⟨r2, w2⟩
      rw [hrest] at h2
      cases r2 with
      | error f => simp only [hrest]; exact h2.trans h1
      | ok filtered => simp only [hrest]; exact h2.trans h1

theorem fastPath_log {σ : Type} (e : uploadExpirer σ) (log : σ → CallLog)
    (hlog : Logged e log) (policies : List ConfigurationPolicy) (patterns : Patterns)
    (refDescriptions : String → List RefDescription) (cache : repositoryCache)
    (upload : Upload) (commits : List String) (w : World σ) :
    log (isUploadProtectedByPolicyFastPath e policies patterns refDescriptions cache upload
      commits w).2.2.state = log w.state := by
  unfold isUploadProtectedByPolicyFastPath
  have h := filterPolicies_log log
    (fun policy => policyCoversUpload e.timeutilNow policy upload)
    (fun policy w => policyCoversUpload_log e log hlog _ _ _) policies w
  rcases hfp : filterPolicies (fun policy => policyCoversUpload e.timeutilNow policy upload)
    policies w with ⟨r, w1⟩
  rw [hfp] at h
  cases r with
  | error f => exact h
  | ok ps =>
    simp only
    split <;> exact h

theorem slowPathLoop_log {σ : Type} (e : uploadExpirer σ) (log : σ → CallLog)
    (hlog : Logged e log) (patterns : Patterns) (policies : List ConfigurationPolicy)
    (upload : Upload) (commits : List String) (cache : repositoryCache) (w : World σ) :
    LogExt log (failureOf (slowPathLoop e patterns policies upload commits cache w).1) w.state
      (slowPathLoop e patterns policies upload commits cache w).2.2.state := by
  induction commits generalizing cache w with
  | nil => exact LogExt.same _ _ _ _ rfl
  | cons commit rest ih =>
    simp only [slowPathLoop]
    split
    · split
      · exact LogExt.same _ _ _ _ rfl
      · exact LogExt.same _ _ _ _ rfl
      · exact ih _ _
    · have hcall := LogExt.logged log (.BranchesContaining upload.RepositoryID commit)
        (fun s => e.gitserverClient.BranchesContaining s upload.RepositoryID commit) w.state
        (hlog.BranchesContaining _ _ _)
      simp only [World.call]
      rcases hbc : e.gitserverClient.BranchesContaining w.state upload.RepositoryID commit
        with ⟨r, s1⟩
      simp only [hbc] at hcall
      cases r with
      | error err => exact hcall
      | ok newBranches =>
        simp only
        split
        · exact hcall.seq (LogExt.same _ _ _ _ rfl)
        · exact hcall.seq (LogExt.same _ _ _ _ rfl)
        · exact hcall.seq (ih _ _)

theorem slowPath_log {σ : Type} (e : uploadExpirer σ) (log : σ → CallLog)
    (hlog : Logged e log) (policies : List ConfigurationPolicy) (patterns : Patterns)
    (cache : repositoryCache) (upload : Upload) (commits : List String) (w : World σ) :
    LogExt log
      (failureOf (isUploadProtectedByPolicySlowPath e policies patterns cache upload commits
        w).1) w.state
      (isUploadProtectedByPolicySlowPath e policies patterns cache upload commits
        w).2.2.state := by
  unfold isUploadProtectedByPolicySlowPath
  have h := filterPolicies_log log
    (fun policy (w : World σ) =>
      if policy.RetainIntermediateCommits then policyCoversUpload e.timeutilNow policy upload w
      else (.ok false, w))
    (fun policy w => by
      dsimp only
      split
      · exact policyCoversUpload_log e log hlog _ _ _
      · rfl) policies w
  split
  · next heq => rw [heq] at h; exact LogExt.same _ _ _ _ h
  · next heq =>
    rw [heq] at h
    split
    · exact LogExt.same _ _ _ _ h
    · exact (LogExt.same log none _ _ h).seq (slowPathLoop_log e log hlog _ _ _ _ _ _)

theorem isUploadProtectedByPolicyFrom_log {σ : Type} (e : uploadExpirer σ)
    (log : σ → CallLog) (hlog : Logged e log) (policies : List ConfigurationPolicy)
    (patterns : Patterns) (refDescriptions : String → List RefDescription) (upload : Upload)
    (fuel : Nat) (offset : Int) (cache : repositoryCache) (w : World σ) :
    LogExt log
      (failureOf (isUploadProtectedByPolicyFrom e policies patterns refDescriptions upload
        fuel offset cache w).1) w.state
      (isUploadProtectedByPolicyFrom e policies patterns refDescriptions upload fuel offset
        cache w).2.2.state := by
  induction fuel generalizing offset cache w with
  | zero => exact LogExt.same _ _ _ _ rfl
  | succ fuel ih =>
    have hcall := LogExt.logged log (.CommitsVisibleToUpload upload.ID 100 offset)
      (fun s => e.dbStore.CommitsVisibleToUpload s upload.ID 100 offset) w.state
      (hlog.CommitsVisibleToUpload _ _ _ _)
    simp only [isUploadProtectedByPolicyFrom, World.call]
    rcases hcv : e.dbStore.CommitsVisibleToUpload w.state upload.ID 100 offset with ⟨r, s1⟩
    simp only [hcv] at hcall
    cases r with
    | error err => exact hcall
    | ok commits =>
      simp only
      split
      · exact hcall
      · split
        · exact hcall
        · have hfast := fastPath_log e log hlog policies patterns refDescriptions cache upload
            commits
            { state := s1, trace := w.trace ++ [Call.CommitsVisibleToUpload upload.ID 100 offset] }
          split
          · next cache2 w2 hf =>
            rw [hf] at hfast
            have hslow := slowPath_log e log hlog policies patterns cache2 upload commits w2
            split
            · next cache3 w3 hs =>
              rw [hs] at hslow
              exact (hcall.seq ((LogExt.same log none _ _ hfast).seq hslow)).seq (ih _ _ _)
            · exact hcall.seq ((LogExt.same log none _ _ hfast).seq hslow)
          · exact hcall.seq (LogExt.same _ _ _ _ hfast)

theorem handleUploadsLoop_log {σ : Type} (e : uploadExpirer σ) (log : σ → CallLog)
    (hlog : Logged e log) (fuel : Nat) (policies : List ConfigurationPolicy)
    (patterns : Patterns) (refDescriptions : String → List RefDescription)
    (uploads : List Upload) (protectedIDs expiredIDs : List Int) (cache : repositoryCache)
    (w : World σ) :
    LogExt log
      (failureOf (handleUploadsLoop e fuel policies patterns refDescriptions uploads
        protectedIDs expiredIDs cache w).1) w.state
      (handleUploadsLoop e fuel policies patterns refDescriptions uploads protectedIDs
        expiredIDs cache w).2.2.state := by
  induction uploads generalizing protectedIDs expiredIDs cache w with
  | nil => exact LogExt.same _ _ _ _ rfl
  | cons upload rest ih =>
    have h := isUploadProtectedByPolicyFrom_log e log hlog policies patterns refDescriptions
      upload fuel 0 cache w
    simp only [handleUploadsLoop, isUploadProtectedByPolicy]
    split
    · next heq => rw [heq] at h; exact h
    · next heq => rw [heq] at h; exact h.seq (ih _ _ _ _)
    · next heq => rw [heq] at h; exact h.seq (ih _ _ _ _)

theorem handleUploads_log {σ : Type} (e : uploadExpirer σ) (log : σ → CallLog)
    (hlog : Logged e log) (fuel : Nat) (policies : List ConfigurationPolicy)
    (patterns : Patterns) (refDescriptions : String → List RefDescription)
    (cache : repositoryCache) (uploads : List Upload) (w : World σ) :
    LogExt log
      (failureOf (handleUploads e fuel policies patterns refDescriptions cache uploads w).1)
      w.state
      (handleUploads e fuel policies patterns refDescriptions cache uploads w).2.2.state := by
  have h := handleUploadsLoop_log e log hlog fuel policies patterns refDescriptions uploads []
    [] cache w
  simp only [handleUploads]
  rcases hl : handleUploadsLoop e fuel policies patterns refDescriptions uploads [] [] cache w
    with ⟨r, cache1, w1⟩
  rw [hl] at h
  cases r with
  | error f => exact h
  | ok ids =>
    have hcall := LogExt.logged log (.UpdateUploadRetention ids.1 ids.2)
      (fun s => e.dbStore.UpdateUploadRetention s ids.1 ids.2) w1.state
      (hlog.UpdateUploadRetention _ _ _)
    simp only [World.call]
    rcases hu : e.dbStore.UpdateUploadRetention w1.state ids.1 ids.2 with ⟨r2, s2⟩
    simp only [hu] at hcall
    cases r2 with
    | error err => exact h.seq hcall
    | ok done => exact h.seq hcall

theorem handleRepositoryLoop_log {σ : Type} (e : uploadExpirer σ) (log : σ → CallLog)
    (hlog : Logged e log) (pageFuel : Nat) (repositoryID : Int)
    (policies : List ConfigurationPolicy) (patterns : Patterns)
    (refDescriptions : String → List RefDescription) (boundary : Int) (fuel : Nat)
    (cache : repositoryCache) (w : World σ) :
    LogExt log
      (failureOf (handleRepositoryLoop e pageFuel repositoryID policies patterns
        refDescriptions boundary fuel cache w).1) w.state
      (handleRepositoryLoop e pageFuel repositoryID policies patterns refDescriptions boundary
        fuel cache w).2.2.state := by
  induction fuel generalizing cache w with
  | zero => exact LogExt.same _ _ _ _ rfl
  | succ fuel ih =>
    have hcall := LogExt.logged log (.GetUploads (getUploadsOptions e repositoryID boundary))
      (fun s => e.dbStore.GetUploads s (getUploadsOptions e repositoryID boundary)) w.state
      (hlog.GetUploads _ _)
    simp only [handleRepositoryLoop, World.call]
    rcases hg : e.dbStore.GetUploads w.state (getUploadsOptions e repositoryID boundary)
      with ⟨r, s1⟩
    simp only [hg] at hcall
    cases r with
    | error err => exact hcall
    | ok uploads =>
      simp only
      split
      · exact hcall
      · have hbatch := handleUploads_log e log hlog pageFuel policies patterns refDescriptions
          cache uploads
          { state := s1,
            trace := w.trace ++ [Call.GetUploads (getUploadsOptions e repositoryID boundary)] }
        split
        · next heq2 => rw [heq2] at hbatch; exact hcall.seq hbatch
        · next heq2 => rw [heq2] at hbatch; exact (hcall.seq hbatch).seq (ih _ _)

/-- The record of the calls of `handleRepository`: no call returned an error, or the last
one did and `handleRepository` returns that error. -/
theorem handleRepository_log {σ : Type} (e : uploadExpirer σ) (log : σ → CallLog)
    (hlog : Logged e log) (fuel : Nat) (repositoryID : Int)
    (globalPolicies : List ConfigurationPolicy) (w : World σ) :
    LogExt log (failureOf (handleRepository e fuel repositoryID globalPolicies w).1) w.state
      (handleRepository e fuel repositoryID globalPolicies w).2.state := by
  have hcall := LogExt.logged log
    (.GetConfigurationPolicies { RepositoryID := repositoryID, ForDataRetention := true })
    (fun s => e.dbStore.GetConfigurationPolicies s
      { RepositoryID := repositoryID, ForDataRetention := true }) w.state
    (hlog.GetConfigurationPolicies _ _)
  simp only [handleRepository, World.call]
  rcases hg : e.dbStore.GetConfigurationPolicies w.state
    { RepositoryID := repositoryID, ForDataRetention := true } with ⟨r, s1⟩
  simp only [hg] at hcall
  cases r with
  | error err => exact hcall
  | ok repositoryPolicies =>
    simp only
    have hstate := compilePatterns_state e (globalPolicies ++ repositoryPolicies) []
      { state := s1, trace := w.trace ++ [Call.GetConfigurationPolicies
        { RepositoryID := repositoryID, ForDataRetention := true }] }
    rcases hcp : compilePatterns e (globalPolicies ++ repositoryPolicies) []
      { state := s1, trace := w.trace ++ [Call.GetConfigurationPolicies
        { RepositoryID := repositoryID, ForDataRetention := true }] } with ⟨r2, w2⟩
    rw [hcp] at hstate
    simp only at hstate
    cases r2 with
    | error f =>
      simp only
      exact hcall.seq (LogExt.same _ _ _ _ (congrArg log hstate))
    | ok patterns =>
      simp only
      have hrefs := LogExt.logged log (.RefDescriptions repositoryID)
        (fun s => e.gitserverClient.RefDescriptions s repositoryID) w2.state
        (hlog.RefDescriptions _ _)
      rcases hr : e.gitserverClient.RefDescriptions w2.state repositoryID with ⟨r3, s3⟩
      simp only [hr] at hrefs
      rw [hstate] at hrefs
      cases r3 with
      | error err => exact hcall.seq hrefs
      | ok refDescriptions =>
        simp only
        have hloop := handleRepositoryLoop_log e log hlog fuel repositoryID
          (globalPolicies ++ repositoryPolicies) patterns refDescriptions
          (timeAdd (e.timeNow s3).1 (negDuration e.uploadProcessDelay)) fuel newRepositoryCache
          { state := (e.timeNow s3).2, trace := w2.trace ++ [Call.RefDescriptions repositoryID] }
        exact (hcall.seq hrefs).seq
          ((LogExt.same log none _ _ (hlog.timeNow s3)).seq hloop)

theorem recordingExpirer_logged {σ : Type} (e : uploadExpirer σ) :
    Logged (recordingExpirer e) (fun s => s.2) := by
  constructor <;> intros <;> rfl

theorem stopsAtFailure_last (failure : Option Failure) (added : CallLog)
    (h : stopsAtFailure failure added) (pre : CallLog) (c : Call) (err : Error)
    (post : CallLog) (hsplit : added = pre ++ (c, some err) :: post) :
    post = [] ∧ failure = some (.err err) := by
  rcases h with hall | ⟨pre0, c0, err0, hadded, hallpre, hf⟩
  · have := hall (c, some err) (by rw [hsplit]; simp)
    simp at this
  · rcases List.eq_nil_or_concat post with hnil | ⟨post1, last, hpost⟩
    · subst hnil
      rw [hadded] at hsplit
      have h2 := List.append_inj' hsplit rfl
      simp only [List.cons.injEq, Prod.mk.injEq, Option.some.injEq, and_true] at h2
      exact ⟨rfl, by rw [hf, h2.2.2]⟩
    · subst hpost
      rw [hadded] at hsplit
      have h3 : pre ++ (c, some err) :: post1.concat last =
          (pre ++ (c, some err) :: post1) ++ [last] := by simp
      rw [h3] at hsplit
      have h2 := List.append_inj' hsplit rfl
      have := hallpre (c, some err) (by rw [h2.1]; simp)
      simp at this

/-! ## Lemmas on what the matchers accept -/

theorem patternMatchesAnyValue_true (pattern : Option Glob) (values : List String)
    (h : patternMatchesAnyValue pattern values = .ok true) :
    ∃ g, pattern = some g ∧ values.any g.Match = true := by
  cases pattern with
  | none =>
    cases values with
    | nil => simp [patternMatchesAnyValue] at h
    | cons v vs => simp [patternMatchesAnyValue, globMatch] at h
  | some g =>
    rw [patternMatchesAnyValue_some, Except.ok.injEq] at h
    exact ⟨g, rfl, h⟩

theorem tipPolicyMatcherLoop_none (patterns : Patterns) (commit : String)
    (branches tags : List String) (policy : ConfigurationPolicy)
    (rest : List ConfigurationPolicy) (hg : patterns.lookup policy.Pattern = none)
    (h : tipPolicyMatcherLoop patterns commit branches tags (policy :: rest) = .ok true) :
    tipPolicyMatcherLoop patterns commit branches tags rest = .ok true := by
  simp only [tipPolicyMatcherLoop, hg, condAnd, globMatch] at h
  by_cases h1 : policy.Type_ = "GIT_COMMIT"
  · simp [h1] at h
  · simp only [h1, decide_False, Bool.false_eq_true, if_false] at h
    by_cases h2 : policy.Type_ = "GIT_TAG"
    · simp only [h2, decide_True, if_true] at h
      cases tags with
      | nil =>
        simp only [patternMatchesAnyValue] at h
        have h3 : ("GIT_TAG" : String) ≠ "GIT_TREE" := by decide
        simpa [h3] using h
      | cons t ts => simp [patternMatchesAnyValue, globMatch] at h
    · simp only [h2, decide_False, Bool.false_eq_true, if_false] at h
      by_cases h3 : policy.Type_ = "GIT_TREE"
      · simp only [h3, decide_True, if_true] at h
        cases branches with
        | nil => simpa [patternMatchesAnyValue] using h
        | cons b bs => simp [patternMatchesAnyValue, globMatch] at h
      · simpa [h3] using h

/-- The tip matcher returns true only if the compiled pattern of some policy of the list
matches according to the type of the policy. -/
theorem tipPolicyMatcherLoop_true (patterns : Patterns) (commit : String)
    (branches tags : List String) (policies : List ConfigurationPolicy)
    (h : tipPolicyMatcherLoop patterns commit branches tags policies = .ok true) :
    ∃ policy ∈ policies, ∃ g, patterns.lookup policy.Pattern = some g ∧
      tipMatches g commit branches tags policy = true := by
  induction policies with
  | nil => simp [tipPolicyMatcherLoop] at h
  | cons policy rest ih =>
    cases hg : patterns.lookup policy.Pattern with
    | none =>
      obtain ⟨p, hp, g, hpg, hm⟩ := ih (tipPolicyMatcherLoop_none _ _ _ _ _ _ hg h)
      exact ⟨p, List.mem_cons_of_mem _ hp, g, hpg, hm⟩
    | some g =>
      rw [tipPolicyMatcherLoop_cons_some _ _ _ _ _ _ g hg] at h
      by_cases hm : tipMatches g commit branches tags policy = true
      · exact ⟨policy, List.mem_cons_self _ _, g, hg, hm⟩
      · simp only [hm, Bool.false_eq_true, if_false] at h
        obtain ⟨p, hp, g1, hpg, hm1⟩ := ih h
        exact ⟨p, List.mem_cons_of_mem _ hp, g1, hpg, hm1⟩

/-- The containment matcher returns true only if the compiled pattern of some policy of
the list matches one of the branches. -/
theorem containsPolicyMatcherLoop_true (patterns : Patterns) (branches : List String)
    (policies : List ConfigurationPolicy)
    (h : containsPolicyMatcherLoop patterns branches policies = .ok true) :
    ∃ policy ∈ policies, ∃ g, patterns.lookup policy.Pattern = some g ∧
      branches.any g.Match = true := by
  induction policies with
  | nil => simp [containsPolicyMatcherLoop] at h
  | cons policy rest ih =>
    simp only [containsPolicyMatcherLoop] at h
    cases hp : patternMatchesAnyValue (patterns.lookup policy.Pattern) branches with
    | error f => rw [hp] at h; simp at h
    | ok b =>
      cases b with
      | true =>
        obtain ⟨g, hg, hm⟩ := patternMatchesAnyValue_true _ _ hp
        exact ⟨policy, List.mem_cons_self _ _, g, hg, hm⟩
      | false =>
        rw [hp] at h
        obtain ⟨p, hpm, g, hg, hm⟩ := ih h
        exact ⟨p, List.mem_cons_of_mem _ hpm, g, hg, hm⟩

/-! ## Lemmas on the origin of the entries of the branches cache -/

theorem LRUHolds_Get (R : String → List String → Prop) (c : LRU) (key : String)
    (hc : LRUHolds R c) :
    LRUHolds R (c.Get key).2 ∧ (∀ value, (c.Get key).1 = some value → R key value) := by
  unfold LRU.Get
  cases hl : c.items.lookup key with
  | none => exact ⟨hc, by simp⟩
  | some value =>
    have hv := hc key value (lookup_mem _ _ _ hl)
    refine ⟨?_, ?_⟩
    · intro k v hm
      simp only [List.mem_cons, Prod.mk.injEq, List.mem_filter] at hm
      rcases hm with ⟨rfl, rfl⟩ | ⟨hm, _⟩
      · exact hv
      · exact hc k v hm
    · intro v h
      simp only [Option.some.injEq] at h
      rw [← h]
      exact hv

theorem LRUHolds_Add (R : String → List String → Prop) (c : LRU) (key : String)
    (value : List String) (hc : LRUHolds R c) (hv : R key value) :
    LRUHolds R (c.Add key value) := by
  unfold LRU.Add
  cases c.items.lookup key with
  | some old =>
    intro k v hm
    simp only [List.mem_cons, Prod.mk.injEq, List.mem_filter] at hm
    rcases hm with ⟨rfl, rfl⟩ | ⟨hm, _⟩
    · exact hv
    · exact hc k v hm
  | none =>
    have hcons : ∀ k v, (k, v) ∈ (key, value) :: c.items → R k v := by
      intro k v hm
      simp only [List.mem_cons, Prod.mk.injEq] at hm
      rcases hm with ⟨rfl, rfl⟩ | hm
      · exact hv
      · exact hc k v hm
    simp only
    split
    · intro k v hm
      exact hcons k v (List.mem_of_mem_dropLast hm)
    · exact hcons

/-! ## Lemmas on the commits an evaluation adds to the protected commits -/

/-- The loop of the fast path: it returns true at the first commit of the page that the
tip matcher accepts and adds that commit to the protected commits; any other outcome
leaves the cache as it was. -/
theorem fastPathLoop_first (patterns : Patterns)
    (refDescriptions : String → List RefDescription) (policies : List ConfigurationPolicy)
    (cache : repositoryCache) (commits : List String) :
    ((fastPathLoop patterns refDescriptions policies cache commits).1 ≠ .ok true ∧
      (fastPathLoop patterns refDescriptions policies cache commits).2 = cache) ∨
    ((fastPathLoop patterns refDescriptions policies cache commits).1 = .ok true ∧
      ∃ pre c post, commits = pre ++ c :: post ∧
        (∀ x ∈ pre, newTipPolicyMatcher patterns x (refDescriptions x) policies = .ok false) ∧
        newTipPolicyMatcher patterns c (refDescriptions c) policies = .ok true ∧
        (fastPathLoop patterns refDescriptions policies cache commits).2 =
          { cache with protectedCommits := cache.protectedCommits.insert c }) := by
  induction commits with
  | nil => exact Or.inl ⟨by simp [fastPathLoop], rfl⟩
  | cons commit rest ih =>
    simp only [fastPathLoop]
    cases hm : newTipPolicyMatcher patterns commit (refDescriptions commit) policies with
    | error f => exact Or.inl ⟨by simp, rfl⟩
    | ok b =>
      cases b with
      | true => exact Or.inr ⟨rfl, [], commit, rest, rfl, by simp, hm, rfl⟩
      | false =>
        rcases ih with h | ⟨h1, pre, c, post, hc, hpre, hacc, hcache⟩
        · exact Or.inl h
        · refine Or.inr ⟨h1, commit :: pre, c, post, by rw [hc]; rfl, ?_, hacc, hcache⟩
          intro x hx
          rcases List.mem_cons.mp hx with rfl | hx
          · exact hm
          · exact hpre x hx

theorem coveredBy_of_filter {σ : Type} (e : uploadExpirer σ) (upload : Upload)
    (policies : List ConfigurationPolicy) (w : World σ) (kept : List ConfigurationPolicy)
    (h : (filterPolicies (fun policy => policyCoversUpload e.timeutilNow policy upload)
      policies w).1 = .ok kept) :
    ∀ p ∈ kept, p ∈ policies ∧ coveredBy e upload p :=
  filterPolicies_kept _ (coveredBy e upload) (fun _ w1 hp => ⟨w1, hp⟩) policies w kept h

theorem coveredBy_of_retain_filter {σ : Type} (e : uploadExpirer σ) (upload : Upload)
    (policies : List ConfigurationPolicy) (w : World σ) (kept : List ConfigurationPolicy)
    (h : (filterPolicies
      (fun policy (w : World σ) =>
        if policy.RetainIntermediateCommits then
          policyCoversUpload e.timeutilNow policy upload w
        else (.ok false, w)) policies w).1 = .ok kept) :
    ∀ p ∈ kept, p ∈ policies ∧
      (p.RetainIntermediateCommits = true ∧ coveredBy e upload p) := by
  refine filterPolicies_kept _ (fun p => p.RetainIntermediateCommits = true ∧ coveredBy e upload p)
    (fun policy w1 hp => ?_) policies w kept h
  rcases Bool.eq_false_or_eq_true policy.RetainIntermediateCommits with hr | hr
  · simp only [hr, if_true] at hp
    exact ⟨hr, w1, hp⟩
  · simp [hr] at hp

/-- The fast path: it returns true at the first commit of the page that the tip matcher
accepts under the policies that cover the upload, and adds that commit to the protected
commits; any other outcome leaves the cache as it was. -/
theorem fastPath_first {σ : Type} (e : uploadExpirer σ) (policies : List ConfigurationPolicy)
    (patterns : Patterns) (refDescriptions : String → List RefDescription)
    (cache : repositoryCache) (upload : Upload) (commits : List String) (w : World σ) :
    ((isUploadProtectedByPolicyFastPath e policies patterns refDescriptions cache upload
        commits w).1 ≠ .ok true ∧
      (isUploadProtectedByPolicyFastPath e policies patterns refDescriptions cache upload
        commits w).2.1 = cache) ∨
    ((isUploadProtectedByPolicyFastPath e policies patterns refDescriptions cache upload
        commits w).1 = .ok true ∧
      ∃ kept pre c post,
        (filterPolicies (fun policy => policyCoversUpload e.timeutilNow policy upload)
          policies w).1 = .ok kept ∧
        commits = pre ++ c :: post ∧
        (∀ x ∈ pre, newTipPolicyMatcher patterns x (refDescriptions x) kept = .ok false) ∧
        newTipPolicyMatcher patterns c (refDescriptions c) kept = .ok true ∧
        (isUploadProtectedByPolicyFastPath e policies patterns refDescriptions cache upload
          commits w).2.1 =
            { cache with protectedCommits := cache.protectedCommits.insert c }) := by
  unfold isUploadProtectedByPolicyFastPath
  rcases hfp : filterPolicies (fun policy => policyCoversUpload e.timeutilNow policy upload)
    policies w with ⟨r, w1⟩
  cases r with
  | error f => exact Or.inl ⟨by simp, rfl⟩
  | ok kept =>
    simp only
    split
    · exact Or.inl ⟨by simp, rfl⟩
    · rcases fastPathLoop_first patterns refDescriptions kept cache commits with h | h
      · exact Or.inl h
      · obtain ⟨h1, pre, c, post, hc, hpre, hacc, hcache⟩ := h
        exact Or.inr ⟨h1, kept, pre, c, post, rfl, hc, hpre, hacc, hcache⟩

/-- A commit that the fast path adds was accepted for the upload. -/
theorem fastPath_accepted {σ : Type} (e : uploadExpirer σ)
    (policies : List ConfigurationPolicy) (patterns : Patterns)
    (refDescriptions : String → List RefDescription) (upload : Upload) (w : World σ)
    (kept : List ConfigurationPolicy) (c : String)
    (hk : (filterPolicies (fun policy => policyCoversUpload e.timeutilNow policy upload)
      policies w).1 = .ok kept)
    (hacc : newTipPolicyMatcher patterns c (refDescriptions c) kept = .ok true) :
    Accepted e policies patterns refDescriptions upload c := by
  obtain ⟨p, hp, g, hg, hm⟩ := tipPolicyMatcherLoop_true _ _ _ _ _ hacc
  obtain ⟨hmem, hcov⟩ := coveredBy_of_filter e upload policies w kept hk p hp
  exact ⟨p, hmem, hcov, Or.inl ⟨g, hg, hm⟩⟩
/-- The loop of the slow path, from a branches cache that holds answers of the gitserver:
it keeps that property; if it returns true it adds one commit of the page, which the
containment matcher accepts with an answer of the gitserver; any other outcome leaves the
protected commits as they were. -/
theorem slowPathLoop_justified {σ : Type} (e : uploadExpirer σ) (patterns : Patterns)
    (policies : List ConfigurationPolicy) (upload : Upload) (commits : List String)
    (cache : repositoryCache) (w : World σ)
    (hlru : LRUHolds (answered e) cache.branchesContaining) :
    LRUHolds (answered e)
      (slowPathLoop e patterns policies upload commits cache w).2.1.branchesContaining ∧
    (((slowPathLoop e patterns policies upload commits cache w).1 ≠ .ok true ∧
        (slowPathLoop e patterns policies upload commits cache w).2.1.protectedCommits =
          cache.protectedCommits) ∨
      ((slowPathLoop e patterns policies upload commits cache w).1 = .ok true ∧
        ∃ c ∈ commits, ∃ branches, answered e c branches ∧
          newContainsPolicyMatcher patterns c branches policies = .ok true ∧
          (slowPathLoop e patterns policies upload commits cache w).2.1.protectedCommits =
            cache.protectedCommits.insert c)) := by
  induction commits generalizing cache w with
  | nil => exact ⟨hlru, Or.inl ⟨by simp [slowPathLoop], rfl⟩⟩
  | cons commit rest ih =>
    obtain ⟨hget1, hget2⟩ := LRUHolds_Get (answered e) cache.branchesContaining commit hlru
    simp only [slowPathLoop]
    rcases hget : cache.branchesContaining.Get commit with ⟨found, lru⟩
    rw [hget] at hget1 hget2
    simp only at hget1 hget2
    cases found with
    | some branches =>
      simp only
      cases hm : newContainsPolicyMatcher patterns commit branches policies with
      | error f => exact ⟨hget1, Or.inl ⟨by simp, rfl⟩⟩
      | ok b =>
        cases b with
        | true =>
          exact ⟨hget1, Or.inr ⟨rfl, commit, List.mem_cons_self _ _, branches,
            hget2 branches rfl, hm, rfl⟩⟩
        | false =>
          obtain ⟨h1, h2⟩ := ih { cache with branchesContaining := lru } w hget1
          refine ⟨h1, ?_⟩
          rcases h2 with h2 | ⟨h2, c, hc, bs, hans, hacc, hpc⟩
          · exact Or.inl h2
          · exact Or.inr ⟨h2, c, List.mem_cons_of_mem _ hc, bs, hans, hacc, hpc⟩
    | none =>
      simp only [World.call]
      rcases hbc : e.gitserverClient.BranchesContaining w.state upload.RepositoryID commit
        with ⟨r, s1⟩
      cases r with
      | error err => exact ⟨hget1, Or.inl ⟨by simp, rfl⟩⟩
      | ok newBranches =>
        have hans : answered e commit newBranches :=
          ⟨w.state, upload.RepositoryID, by rw [hbc]⟩
        have hadd := LRUHolds_Add (answered e) lru commit newBranches hget1 hans
        simp only
        cases hm : newContainsPolicyMatcher patterns commit newBranches policies with
        | error f => exact ⟨hadd, Or.inl ⟨by simp, rfl⟩⟩
        | ok b =>
          cases b with
          | true =>
            exact ⟨hadd, Or.inr ⟨rfl, commit, List.mem_cons_self _ _, newBranches, hans, hm,
              rfl⟩⟩
          | false =>
            obtain ⟨h1, h2⟩ := ih
              { cache with branchesContaining := lru.Add commit newBranches }
              { state := s1,
                trace := w.trace ++ [Call.BranchesContaining upload.RepositoryID commit] } hadd
            refine ⟨h1, ?_⟩
            rcases h2 with h2 | ⟨h2, c, hc, bs, hans2, hacc, hpc⟩
            · exact Or.inl h2
            · exact Or.inr ⟨h2, c, List.mem_cons_of_mem _ hc, bs, hans2, hacc, hpc⟩

/-- The slow path, from a branches cache that holds answers of the gitserver: it keeps
that property; if it returns true it adds one commit of the page, which was accepted for
the upload; any other outcome leaves the protected commits as they were. -/
theorem slowPath_justified {σ : Type} (e : uploadExpirer σ)
    (policies : List ConfigurationPolicy) (patterns : Patterns)
    (refDescriptions : String → List RefDescription) (cache : repositoryCache)
    (upload : Upload) (commits : List String) (w : World σ)
    (hlru : LRUHolds (answered e) cache.branchesContaining) :
    LRUHolds (answered e)
      (isUploadProtectedByPolicySlowPath e policies patterns cache upload commits
        w).2.1.branchesContaining ∧
    (((isUploadProtectedByPolicySlowPath e policies patterns cache upload commits w).1 ≠
          .ok true ∧
        (isUploadProtectedByPolicySlowPath e policies patterns cache upload commits
          w).2.1.protectedCommits = cache.protectedCommits) ∨
      ((isUploadProtectedByPolicySlowPath e policies patterns cache upload commits w).1 =
          .ok true ∧
        ∃ c ∈ commits, Accepted e policies patterns refDescriptions upload c ∧
          (isUploadProtectedByPolicySlowPath e policies patterns cache upload commits
            w).2.1.protectedCommits = cache.protectedCommits.insert c)) := by
  have hkept := coveredBy_of_retain_filter e upload policies w
  unfold isUploadProtectedByPolicySlowPath
  rcases hfp : filterPolicies
    (fun policy (w : World σ) =>
      if policy.RetainIntermediateCommits then policyCoversUpload e.timeutilNow policy upload w
      else (.ok false, w)) policies w with ⟨r, w1⟩
  rw [hfp] at hkept
  cases r with
  | error f => exact ⟨hlru, Or.inl ⟨by simp, rfl⟩⟩
  | ok kept =>
    simp only
    split
    · exact ⟨hlru, Or.inl ⟨by simp, rfl⟩⟩
    · obtain ⟨h1, h2⟩ := slowPathLoop_justified e patterns kept upload commits cache w1 hlru
      refine ⟨h1, ?_⟩
      rcases h2 with h2 | ⟨h2, c, hc, bs, hans, hacc, hpc⟩
      · exact Or.inl h2
      · obtain ⟨p, hp, g, hg, hm⟩ := containsPolicyMatcherLoop_true _ _ _ hacc
        obtain ⟨hmem, hret, hcov⟩ := hkept kept rfl p hp
        exact Or.inr ⟨h2, c, hc, ⟨p, hmem, hcov, Or.inr ⟨hret, bs, g, hans, hg, hm⟩⟩, hpc⟩

/-- The evaluation of an upload, from a branches cache that holds answers of the
gitserver: it keeps that property; it leaves the protected commits as they were, or it
returns true and adds one commit, which was not protected before and was accepted for the
upload. -/
theorem isUploadProtectedByPolicyFrom_justified {σ : Type} (e : uploadExpirer σ)
    (policies : List ConfigurationPolicy) (patterns : Patterns)
    (refDescriptions : String → List RefDescription) (upload : Upload) (fuel : Nat)
    (offset : Int) (cache : repositoryCache) (w : World σ)
    (hlru : LRUHolds (answered e) cache.branchesContaining) :
    LRUHolds (answered e)
      (isUploadProtectedByPolicyFrom e policies patterns refDescriptions upload fuel offset
        cache w).2.1.branchesContaining ∧
    ((isUploadProtectedByPolicyFrom e policies patterns refDescriptions upload fuel offset
        cache w).2.1.protectedCommits = cache.protectedCommits ∨
      ((isUploadProtectedByPolicyFrom e policies patterns refDescriptions upload fuel offset
          cache w).1 = .ok true ∧
        ∃ c, c ∉ cache.protectedCommits ∧
          Accepted e policies patterns refDescriptions upload c ∧
          (isUploadProtectedByPolicyFrom e policies patterns refDescriptions upload fuel
            offset cache w).2.1.protectedCommits = c :: cache.protectedCommits)) := by
  induction fuel generalizing offset cache w with
  | zero => exact ⟨hlru, Or.inl rfl⟩
  | succ fuel ih =>
    simp only [isUploadProtectedByPolicyFrom, World.call]
    rcases hcv : e.dbStore.CommitsVisibleToUpload w.state upload.ID 100 offset with ⟨r, s1⟩
    cases r with
    | error err => exact ⟨hlru, Or.inl rfl⟩
    | ok commits =>
      simp only
      split
      · exact ⟨hlru, Or.inl rfl⟩
      · split
        · exact ⟨hlru, Or.inl rfl⟩
        · next hlen hhit =>
          have hnew : ∀ c ∈ commits, c ∉ cache.protectedCommits := by
            intro c hc hmem
            apply hhit
            exact List.any_eq_true.mpr ⟨c, hc, decide_eq_true hmem⟩
          have hfast := fastPath_first e policies patterns refDescriptions cache upload commits
            { state := s1,
              trace := w.trace ++ [Call.CommitsVisibleToUpload upload.ID 100 offset] }
          rcases hf : isUploadProtectedByPolicyFastPath e policies patterns refDescriptions
            cache upload commits
            { state := s1,
              trace := w.trace ++ [Call.CommitsVisibleToUpload upload.ID 100 offset] }
            with ⟨rf, cache2, w2⟩
          rw [hf] at hfast
          simp only at hfast
          rcases hfast with ⟨hne, hc2⟩ | ⟨htrue, kept, pre, c, post, hk, hpage, _, hacc, hc2⟩
          · subst hc2
            cases rf with
            | error f => exact ⟨hlru, Or.inl rfl⟩
            | ok b =>
              cases b with
              | true => exact absurd rfl hne
              | false =>
                simp only
                obtain ⟨hs1, hs2⟩ := slowPath_justified e policies patterns refDescriptions
                  cache2 upload commits w2 hlru
                rcases hs : isUploadProtectedByPolicySlowPath e policies patterns cache2 upload
                  commits w2 with ⟨rs, cache3, w3⟩
                rw [hs] at hs1 hs2
                simp only at hs1 hs2
                rcases hs2 with ⟨hne2, hpc⟩ | ⟨htrue2, c, hc, hacc, hpc⟩
                · cases rs with
                  | error f => exact ⟨hs1, Or.inl hpc⟩
                  | ok b =>
                    cases b with
                    | true => exact absurd rfl hne2
                    | false =>
                      simp only
                      obtain ⟨i1, i2⟩ := ih (offset + commits.length) cache3 w3 hs1
                      refine ⟨i1, ?_⟩
                      rw [hpc] at i2
                      exact i2
                · subst htrue2
                  refine ⟨hs1, Or.inr ⟨rfl, c, hnew c hc, hacc, ?_⟩⟩
                  rw [hpc, List.insert_of_not_mem (hnew c hc)]
          · subst htrue
            subst hc2
            have hcm : c ∈ commits := by rw [hpage]; simp
            refine ⟨hlru, Or.inr ⟨rfl, c, hnew c hcm,
              fastPath_accepted e policies patterns refDescriptions upload _ kept c hk hacc, ?_⟩⟩
            simp only
            rw [List.insert_of_not_mem (hnew c hcm)]
/-- The page loop under a deterministic store and gitserver: it returns whether some page
decides, and the protected commits it leaves are those it found, with the commit that
`addedCommit` names in front if there is one. -/
theorem isUploadProtectedByPolicyFrom_added {σ : Type} (e : uploadExpirer σ)
    (policies : List ConfigurationPolicy) (patterns : Patterns)
    (refDescriptions : String → List RefDescription) (upload : Upload)
    (now finishedAt : Int) (visible : Int → List String) (containing : String → List String)
    (hc : AllCompiled patterns policies)
    (hnow : ∀ s, (e.timeutilNow s).1 = now) (hf : upload.FinishedAt = some finishedAt)
    (hvisible : ∀ s offset,
      (e.dbStore.CommitsVisibleToUpload s upload.ID 100 offset).1 = .ok (visible offset))
    (hcontaining : ∀ s commit,
      (e.gitserverClient.BranchesContaining s upload.RepositoryID commit).1 =
        .ok (containing commit))
    (pages : List (List String)) (fuel : Nat) (offset : Int) (cache : repositoryCache)
    (w : World σ)
    (hlru : LRUConsistent containing cache.branchesContaining)
    (hpages : ServesPages visible offset pages) (hfuel : pages.length < fuel) :
    ∃ (cache1 : repositoryCache) (w1 : World σ),
      isUploadProtectedByPolicyFrom e policies patterns refDescriptions upload fuel offset
          cache w =
        (.ok (pages.any (pageDecides patterns refDescriptions containing policies now
            finishedAt cache.protectedCommits)), cache1, w1) ∧
      LRUConsistent containing cache1.branchesContaining ∧
      cache1.protectedCommits =
        (match addedCommit patterns refDescriptions containing policies now finishedAt
            cache.protectedCommits pages with
          | some c => c :: cache.protectedCommits
          | none => cache.protectedCommits) := by
  induction pages generalizing fuel offset cache w with
  | nil =>
    cases fuel with
    | zero => simp at hfuel
    | succ fuel =>
      have hv := hvisible w.state offset
      simp only [ServesPages] at hpages
      simp only [isUploadProtectedByPolicyFrom, World.call]
      rcases hcv : e.dbStore.CommitsVisibleToUpload w.state upload.ID 100 offset with ⟨r, s1⟩
      rw [hcv, hpages] at hv
      simp only at hv
      subst hv
      simp only [List.length_nil, if_true, List.any_nil, addedCommit]
      exact ⟨_, _, rfl, hlru, rfl⟩
  | cons page rest ih =>
    cases fuel with
    | zero => simp at hfuel
    | succ fuel =>
      have hfuel2 : rest.length < fuel := by simpa using hfuel
      have hv := hvisible w.state offset
      obtain ⟨hne, hpage, hrest⟩ := hpages
      simp only [isUploadProtectedByPolicyFrom, World.call]
      rcases hcv : e.dbStore.CommitsVisibleToUpload w.state upload.ID 100 offset with ⟨r, s1⟩
      rw [hcv, hpage] at hv
      simp only at hv
      subst hv
      have hlen : page.length ≠ 0 := fun h => hne (List.length_eq_zero.mp h)
      simp only [hlen, if_false, List.any_cons, addedCommit, pageDecides]
      by_cases hhit : page.any (fun commit => decide (commit ∈ cache.protectedCommits)) = true
      · simp only [hhit, if_true, Bool.true_or]
        exact ⟨_, _, rfl, hlru, rfl⟩
      · have hnew : ∀ c ∈ page, c ∉ cache.protectedCommits := by
          intro c hcp hmem
          exact hhit (List.any_eq_true.mpr ⟨c, hcp, decide_eq_true hmem⟩)
        simp only [hhit, Bool.false_eq_true, if_false, Bool.false_or]
        obtain ⟨w2, _, hfast⟩ := fastPath_eq e policies patterns refDescriptions cache upload
          page { state := s1, trace := w.trace ++ [Call.CommitsVisibleToUpload upload.ID 100 offset] }
          now finishedAt hc hnow hf
        rw [hfast]
        cases hfind : page.find? (tipProtected patterns refDescriptions
            (policies.filter (covers now finishedAt))) with
        | some c1 =>
          have htip : page.any (tipProtected patterns refDescriptions
              (policies.filter (covers now finishedAt))) = true :=
            List.any_eq_true.mpr ⟨c1, List.mem_of_find?_eq_some hfind, List.find?_some hfind⟩
          simp only [htip, Bool.true_or]
          refine ⟨_, _, rfl, hlru, ?_⟩
          simp only
          rw [List.insert_of_not_mem (hnew c1 (List.mem_of_find?_eq_some hfind))]
        | none =>
          have htip : page.any (tipProtected patterns refDescriptions
              (policies.filter (covers now finishedAt))) = false := by
            rw [List.any_eq_false]
            intro c hcp
            rw [List.find?_eq_none] at hfind
            exact hfind c hcp
          simp only [htip, Bool.false_or]
          obtain ⟨lru, w3, hlru3, hslow⟩ := slowPath_eq e policies patterns cache upload page
            w2 now finishedAt containing hc hnow hf hcontaining hlru
          rw [hslow]
          cases hfindS : page.find? (containsProtected patterns containing
              (policies.filter (fun policy =>
                policy.RetainIntermediateCommits && covers now finishedAt policy))) with
          | some c1 =>
            have hcon : page.any (containsProtected patterns containing
                (policies.filter (fun policy =>
                  policy.RetainIntermediateCommits && covers now finishedAt policy))) = true :=
              List.any_eq_true.mpr ⟨c1, List.mem_of_find?_eq_some hfindS,
                List.find?_some hfindS⟩
            simp only [hcon, Bool.true_or]
            refine ⟨_, _, rfl, hlru3, ?_⟩
            simp only
            rw [List.insert_of_not_mem (hnew c1 (List.mem_of_find?_eq_some hfindS))]
          | none =>
            have hcon : page.any (containsProtected patterns containing
                (policies.filter (fun policy =>
                  policy.RetainIntermediateCommits && covers now finishedAt policy))) =
                false := by
              rw [List.any_eq_false]
              intro c hcp
              rw [List.find?_eq_none] at hfindS
              exact hfindS c hcp
            simp only [hcon, Bool.false_or]
            exact ih fuel (offset + page.length)
              { protectedCommits := cache.protectedCommits, branchesContaining := lru } w3
              hlru3 hrest hfuel2

/-- What `addedCommit` names: a commit that was not protected, on a page before which no
page decides and that holds no protected commit; it is the first commit of the page that
the tip matcher accepts, or, when the tip matcher accepts no commit of the page, the first
that the containment matcher accepts. -/
theorem addedCommit_some (patterns : Patterns) (refDescriptions : String → List RefDescription)
    (containing : String → List String) (policies : List ConfigurationPolicy)
    (now finishedAt : Int) (protectedCommits : List String) (pages : List (List String))
    (c : String)
    (h : addedCommit patterns refDescriptions containing policies now finishedAt
      protectedCommits pages = some c) :
    ∃ before page after pre post, pages = before ++ page :: after ∧ page = pre ++ c :: post ∧
      (∀ p ∈ before, pageDecides patterns refDescriptions containing policies now finishedAt
        protectedCommits p = false) ∧
      (∀ x ∈ page, x ∉ protectedCommits) ∧
      ((tipProtected patterns refDescriptions (policies.filter (covers now finishedAt)) c =
            true ∧
          ∀ x ∈ pre, tipProtected patterns refDescriptions
            (policies.filter (covers now finishedAt)) x = false) ∨
        ((∀ x ∈ page, tipProtected patterns refDescriptions
            (policies.filter (covers now finishedAt)) x = false) ∧
          containsProtected patterns containing
            (policies.filter (fun policy =>
              policy.RetainIntermediateCommits && covers now finishedAt policy)) c = true ∧
          ∀ x ∈ pre, containsProtected patterns containing
            (policies.filter (fun policy =>
              policy.RetainIntermediateCommits && covers now finishedAt policy)) x =
              false)) := by
  induction pages with
  | nil => simp [addedCommit] at h
  | cons page rest ih =>
    simp only [addedCommit] at h
    by_cases hhit : page.any (fun commit => decide (commit ∈ protectedCommits)) = true
    · simp [hhit] at h
    · have hnew : ∀ x ∈ page, x ∉ protectedCommits := by
        intro x hx hmem
        exact hhit (List.any_eq_true.mpr ⟨x, hx, decide_eq_true hmem⟩)
      simp only [hhit, Bool.false_eq_true, if_false] at h
      cases hfind : page.find? (tipProtected patterns refDescriptions
          (policies.filter (covers now finishedAt))) with
      | some c1 =>
        rw [hfind] at h
        simp only [Option.some.injEq] at h
        subst h
        obtain ⟨_, pre, post, hsplit, hpre⟩ := List.find?_eq_some.mp hfind
        refine ⟨[], page, rest, pre, post, rfl, hsplit, by simp, hnew,
          Or.inl ⟨List.find?_some hfind, ?_⟩⟩
        intro x hx
        simpa using hpre x hx
      | none =>
        rw [hfind] at h
        simp only at h
        have htip : ∀ x ∈ page, tipProtected patterns refDescriptions
            (policies.filter (covers now finishedAt)) x = false := by
          intro x hx
          rw [List.find?_eq_none] at hfind
          simpa using hfind x hx
        cases hfindS : page.find? (containsProtected patterns containing
            (policies.filter (fun policy =>
              policy.RetainIntermediateCommits && covers now finishedAt policy))) with
        | some c1 =>
          rw [hfindS] at h
          simp only [Option.some.injEq] at h
          subst h
          obtain ⟨_, pre, post, hsplit, hpre⟩ := List.find?_eq_some.mp hfindS
          refine ⟨[], page, rest, pre, post, rfl, hsplit, by simp, hnew,
            Or.inr ⟨htip, List.find?_some hfindS, ?_⟩⟩
          intro x hx
          simpa using hpre x hx
        | none =>
          rw [hfindS] at h
          simp only at h
          obtain ⟨before, pg, after, pre, post, hp, hsplit, hbefore, hnew2, hacc⟩ := ih h
          refine ⟨page :: before, pg, after, pre, post, by rw [hp]; rfl, hsplit, ?_, hnew2,
            hacc⟩
          intro p hp2
          rcases List.mem_cons.mp hp2 with rfl | hp2
          · have hcon : ∀ x ∈ p, containsProtected patterns containing
                (policies.filter (fun policy =>
                  policy.RetainIntermediateCommits && covers now finishedAt policy)) x =
                false := by
              intro x hx
              rw [List.find?_eq_none] at hfindS
              simpa using hfindS x hx
            have h1 : p.any (fun commit => decide (commit ∈ protectedCommits)) = false := by
              simpa using hhit
            have h2 : p.any (tipProtected patterns refDescriptions
                (policies.filter (covers now finishedAt))) = false :=
              List.any_eq_false.mpr (fun x hx => by simp [htip x hx])
            have h3 : p.any (containsProtected patterns containing
                (policies.filter (fun policy =>
                  policy.RetainIntermediateCommits && covers now finishedAt policy))) =
                false :=
              List.any_eq_false.mpr (fun x hx => by simp [hcon x hx])
            simp only [pageDecides, h1, h2, h3, Bool.or_self]
          · exact hbefore p hp2
/-- The loop of the slow path: if it returns true it adds one commit of the page to the
protected commits; any other outcome leaves the protected commits as they were. -/
theorem slowPathLoop_frame {σ : Type} (e : uploadExpirer σ) (patterns : Patterns)
    (policies : List ConfigurationPolicy) (upload : Upload) (commits : List String)
    (cache : repositoryCache) (w : World σ) :
    ((slowPathLoop e patterns policies upload commits cache w).1 ≠ .ok true ∧
      (slowPathLoop e patterns policies upload commits cache w).2.1.protectedCommits =
        cache.protectedCommits) ∨
    ((slowPathLoop e patterns policies upload commits cache w).1 = .ok true ∧
      ∃ c ∈ commits,
        (slowPathLoop e patterns policies upload commits cache w).2.1.protectedCommits =
          cache.protectedCommits.insert c) := by
  induction commits generalizing cache w with
  | nil => exact Or.inl ⟨by simp [slowPathLoop], rfl⟩
  | cons commit rest ih =>
    have hstep : ∀ (cache2 : repositoryCache) (w2 : World σ),
        cache2.protectedCommits = cache.protectedCommits →
        ((slowPathLoop e patterns policies upload rest cache2 w2).1 ≠ .ok true ∧
          (slowPathLoop e patterns policies upload rest cache2 w2).2.1.protectedCommits =
            cache.protectedCommits) ∨
        ((slowPathLoop e patterns policies upload rest cache2 w2).1 = .ok true ∧
          ∃ c ∈ commit :: rest,
            (slowPathLoop e patterns policies upload rest cache2 w2).2.1.protectedCommits =
              cache.protectedCommits.insert c) := by
      intro cache2 w2 hpc
      rcases ih cache2 w2 with ⟨h1, h2⟩ | ⟨h1, c, hc, h2⟩
      · exact Or.inl ⟨h1, by rw [h2, hpc]⟩
      · exact Or.inr ⟨h1, c, List.mem_cons_of_mem _ hc, by rw [h2, hpc]⟩
    simp only [slowPathLoop]
    rcases cache.branchesContaining.Get commit with ⟨found, lru⟩
    cases found with
    | some branches =>
      simp only
      cases newContainsPolicyMatcher patterns commit branches policies with
      | error f => exact Or.inl ⟨by simp, rfl⟩
      | ok b =>
        cases b with
        | true => exact Or.inr ⟨rfl, commit, List.mem_cons_self _ _, rfl⟩
        | false => exact hstep _ _ rfl
    | none =>
      simp only [World.call]
      rcases e.gitserverClient.BranchesContaining w.state upload.RepositoryID commit
        with ⟨r, s1⟩
      cases r with
      | error err => exact Or.inl ⟨by simp, rfl⟩
      | ok newBranches =>
        simp only
        cases newContainsPolicyMatcher patterns commit newBranches policies with
        | error f => exact Or.inl ⟨by simp, rfl⟩
        | ok b =>
          cases b with
          | true => exact Or.inr ⟨rfl, commit, List.mem_cons_self _ _, rfl⟩
          | false => exact hstep _ _ rfl

theorem slowPath_frame {σ : Type} (e : uploadExpirer σ)
    (policies : List ConfigurationPolicy) (patterns : Patterns) (cache : repositoryCache)
    (upload : Upload) (commits : List String) (w : World σ) :
    ((isUploadProtectedByPolicySlowPath e policies patterns cache upload commits w).1 ≠
        .ok true ∧
      (isUploadProtectedByPolicySlowPath e policies patterns cache upload commits
        w).2.1.protectedCommits = cache.protectedCommits) ∨
    ((isUploadProtectedByPolicySlowPath e policies patterns cache upload commits w).1 =
        .ok true ∧
      ∃ c ∈ commits,
        (isUploadProtectedByPolicySlowPath e policies patterns cache upload commits
          w).2.1.protectedCommits = cache.protectedCommits.insert c) := by
  unfold isUploadProtectedByPolicySlowPath
  rcases filterPolicies
    (fun policy (w : World σ) =>
      if policy.RetainIntermediateCommits then policyCoversUpload e.timeutilNow policy upload w
      else (.ok false, w)) policies w with ⟨r, w1⟩
  cases r with
  | error f => exact Or.inl ⟨by simp, rfl⟩
  | ok kept =>
    simp only
    split
    · exact Or.inl ⟨by simp, rfl⟩
    · exact slowPathLoop_frame e patterns kept upload commits cache w1

/-- The evaluation of an upload: it leaves the protected commits as they were, or it
returns true and adds one commit that was not protected before. -/
theorem isUploadProtectedByPolicyFrom_frame {σ : Type} (e : uploadExpirer σ)
    (policies : List ConfigurationPolicy) (patterns : Patterns)
    (refDescriptions : String → List RefDescription) (upload : Upload) (fuel : Nat)
    (offset : Int) (cache : repositoryCache) (w : World σ) :
    (isUploadProtectedByPolicyFrom e policies patterns refDescriptions upload fuel offset
        cache w).2.1.protectedCommits = cache.protectedCommits ∨
    ((isUploadProtectedByPolicyFrom e policies patterns refDescriptions upload fuel offset
        cache w).1 = .ok true ∧
      ∃ c, c ∉ cache.protectedCommits ∧
        (isUploadProtectedByPolicyFrom e policies patterns refDescriptions upload fuel
          offset cache w).2.1.protectedCommits = c :: cache.protectedCommits) := by
  induction fuel generalizing offset cache w with
  | zero => exact Or.inl rfl
  | succ fuel ih =>
    simp only [isUploadProtectedByPolicyFrom, World.call]
    rcases e.dbStore.CommitsVisibleToUpload w.state upload.ID 100 offset with ⟨r, s1⟩
    cases r with
    | error err => exact Or.inl rfl
    | ok commits =>
      simp only
      split
      · exact Or.inl rfl
      · split
        · exact Or.inl rfl
        · next hlen hhit =>
          have hnew : ∀ c ∈ commits, c ∉ cache.protectedCommits := by
            intro c hc hmem
            apply hhit
            exact List.any_eq_true.mpr ⟨c, hc, decide_eq_true hmem⟩
          have hfast := fastPath_first e policies patterns refDescriptions cache upload commits
            { state := s1,
              trace := w.trace ++ [Call.CommitsVisibleToUpload upload.ID 100 offset] }
          rcases hf : isUploadProtectedByPolicyFastPath e policies patterns refDescriptions
            cache upload commits
            { state := s1,
              trace := w.trace ++ [Call.CommitsVisibleToUpload upload.ID 100 offset] }
            with ⟨rf, cache2, w2⟩
          rw [hf] at hfast
          simp only at hfast
          rcases hfast with ⟨hne, hc2⟩ | ⟨htrue, kept, pre, c, post, _, hpage, _, _, hc2⟩
          · subst hc2
            cases rf with
            | error f => exact Or.inl rfl
            | ok b =>
              cases b with
              | true => exact absurd rfl hne
              | false =>
                simp only
                have hs2 := slowPath_frame e policies patterns cache2 upload commits w2
                rcases hs : isUploadProtectedByPolicySlowPath e policies patterns cache2 upload
                  commits w2 with ⟨rs, cache3, w3⟩
                rw [hs] at hs2
                simp only at hs2
                rcases hs2 with ⟨hne2, hpc⟩ | ⟨htrue2, c, hc, hpc⟩
                · cases rs with
                  | error f => exact Or.inl hpc
                  | ok b =>
                    cases b with
                    | true => exact absurd rfl hne2
                    | false =>
                      simp only
                      have i2 := ih (offset + commits.length) cache3 w3
                      rw [hpc] at i2
                      exact i2
                · subst htrue2
                  refine Or.inr ⟨rfl, c, hnew c hc, ?_⟩
                  rw [hpc, List.insert_of_not_mem (hnew c hc)]
          · subst htrue
            subst hc2
            have hcm : c ∈ commits := by rw [hpage]; simp
            refine Or.inr ⟨rfl, c, hnew c hcm, ?_⟩
            simp only
            rw [List.insert_of_not_mem (hnew c hcm)]

/-! ## Lemmas on the origin of the protected commits -/

/-- One evaluation keeps the origin of the protected commits, with the evaluated upload
added to the uploads. -/
theorem isUploadProtectedByPolicy_justified {σ : Type} (e : uploadExpirer σ) (fuel : Nat)
    (policies : List ConfigurationPolicy) (patterns : Patterns)
    (refDescriptions : String → List RefDescription) (earlier : List Upload)
    (cache : repositoryCache) (upload : Upload) (w : World σ)
    (hj : Justified e policies patterns refDescriptions earlier cache) :
    Justified e policies patterns refDescriptions (earlier ++ [upload])
      (isUploadProtectedByPolicy e fuel policies patterns refDescriptions cache upload
        w).2.1 := by
  obtain ⟨h1, h2⟩ := isUploadProtectedByPolicyFrom_justified e policies patterns
    refDescriptions upload fuel 0 cache w hj.2
  refine ⟨?_, h1⟩
  intro c hc
  rw [isUploadProtectedByPolicy] at hc
  rcases h2 with h2 | ⟨_, c1, _, hacc, h2⟩
  · rw [h2] at hc
    obtain ⟨u, hu, ha⟩ := hj.1 c hc
    exact ⟨u, List.mem_append_left _ hu, ha⟩
  · rw [h2] at hc
    rcases List.mem_cons.mp hc with rfl | hc
    · exact ⟨upload, by simp, hacc⟩
    · obtain ⟨u, hu, ha⟩ := hj.1 c hc
      exact ⟨u, List.mem_append_left _ hu, ha⟩

theorem handleUploadsLoop_justified {σ : Type} (e : uploadExpirer σ) (fuel : Nat)
    (policies : List ConfigurationPolicy) (patterns : Patterns)
    (refDescriptions : String → List RefDescription) (uploads : List Upload)
    (earlier : List Upload) (protectedIDs expiredIDs : List Int) (cache : repositoryCache)
    (w : World σ) (hj : Justified e policies patterns refDescriptions earlier cache) :
    Justified e policies patterns refDescriptions
      (earlier ++ evaluatedUploads e fuel policies patterns refDescriptions uploads cache w)
      (handleUploadsLoop e fuel policies patterns refDescriptions uploads protectedIDs
        expiredIDs cache w).2.1 := by
  induction uploads generalizing earlier protectedIDs expiredIDs cache w with
  | nil => simpa [handleUploadsLoop, evaluatedUploads] using hj
  | cons upload rest ih =>
    have h1 := isUploadProtectedByPolicy_justified e fuel policies patterns refDescriptions
      earlier cache upload w hj
    simp only [handleUploadsLoop, evaluatedUploads]
    rcases heval : isUploadProtectedByPolicy e fuel policies patterns refDescriptions cache
      upload w with ⟨r, cache1, w1⟩
    rw [heval] at h1
    simp only at h1
    cases r with
    | error f => exact h1
    | ok b =>
      have h2 : ∀ (p x : List Int), Justified e policies patterns refDescriptions
          (earlier ++ upload ::
            evaluatedUploads e fuel policies patterns refDescriptions rest cache1 w1)
          (handleUploadsLoop e fuel policies patterns refDescriptions rest p x cache1
            w1).2.1 := by
        intro p x
        have := ih (earlier ++ [upload]) p x cache1 w1 h1
        rwa [List.append_assoc, List.singleton_append] at this
      cases b with
      | true => exact h2 _ _
      | false => exact h2 _ _

theorem handleUploads_cache {σ : Type} (e : uploadExpirer σ) (fuel : Nat)
    (policies : List ConfigurationPolicy) (patterns : Patterns)
    (refDescriptions : String → List RefDescription) (cache : repositoryCache)
    (uploads : List Upload) (w : World σ) :
    (handleUploads e fuel policies patterns refDescriptions cache uploads w).2.1 =
      (handleUploadsLoop e fuel policies patterns refDescriptions uploads [] [] cache
        w).2.1 := by
  simp only [handleUploads]
  rcases handleUploadsLoop e fuel policies patterns refDescriptions uploads [] [] cache w
    with ⟨r, cache1, w1⟩
  cases r with
  | error f => rfl
  | ok ids =>
    simp only [World.call]
    rcases e.dbStore.UpdateUploadRetention w1.state ids.1 ids.2 with ⟨r2, s2⟩
    cases r2 <;> rfl

theorem handleUploads_justified {σ : Type} (e : uploadExpirer σ) (fuel : Nat)
    (policies : List ConfigurationPolicy) (patterns : Patterns)
    (refDescriptions : String → List RefDescription) (earlier : List Upload)
    (cache : repositoryCache) (uploads : List Upload) (w : World σ)
    (hj : Justified e policies patterns refDescriptions earlier cache) :
    Justified e policies patterns refDescriptions
      (earlier ++ evaluatedUploads e fuel policies patterns refDescriptions uploads cache w)
      (handleUploads e fuel policies patterns refDescriptions cache uploads w).2.1 := by
  rw [handleUploads_cache]
  exact handleUploadsLoop_justified e fuel policies patterns refDescriptions uploads earlier
    [] [] cache w hj

theorem handleRepositoryLoop_justified {σ : Type} (e : uploadExpirer σ) (pageFuel : Nat)
    (repositoryID : Int) (policies : List ConfigurationPolicy) (patterns : Patterns)
    (refDescriptions : String → List RefDescription) (lastRetentionScanBefore : Int)
    (fuel : Nat) (earlier : List Upload) (cache : repositoryCache) (w : World σ)
    (hj : Justified e policies patterns refDescriptions earlier cache) :
    Justified e policies patterns refDescriptions
      (earlier ++ scannedUploads e pageFuel repositoryID policies patterns refDescriptions
        lastRetentionScanBefore fuel cache w)
      (handleRepositoryLoop e pageFuel repositoryID policies patterns refDescriptions
        lastRetentionScanBefore fuel cache w).2.1 := by
  induction fuel generalizing earlier cache w with
  | zero => simpa [handleRepositoryLoop, scannedUploads] using hj
  | succ fuel ih =>
    simp only [handleRepositoryLoop, scannedUploads]
    rcases w.call (.GetUploads (getUploadsOptions e repositoryID lastRetentionScanBefore))
      (fun s => e.dbStore.GetUploads s
        (getUploadsOptions e repositoryID lastRetentionScanBefore)) with ⟨r, w1⟩
    cases r with
    | error err => simpa using hj
    | ok uploads =>
      simp only
      split
      · simpa using hj
      · have h1 := handleUploads_justified e pageFuel policies patterns refDescriptions earlier
          cache uploads w1 hj
        rcases hh : handleUploads e pageFuel policies patterns refDescriptions cache uploads w1
          with ⟨r2, cache2, w2⟩
        rw [hh] at h1
        simp only at h1
        cases r2 with
        | error f => exact h1
        | ok u =>
          simp only
          have := ih (earlier ++ evaluatedUploads e pageFuel policies patterns refDescriptions
            uploads cache w1) cache2 w2 h1
          rwa [List.append_assoc] at this

/-! ## Lemmas on the pages of visible commits -/

theorem pageRequests_append (uploadID : Int) (a b : List Call) :
    pageRequests uploadID (a ++ b) = pageRequests uploadID a ++ pageRequests uploadID b := by
  simp [pageRequests, List.filterMap_append]

theorem pageRequests_single (uploadID : Int) (offset : Int) :
    pageRequests uploadID [Call.CommitsVisibleToUpload uploadID 100 offset] = [offset] := by
  simp [pageRequests]

theorem pageRequests_branches (uploadID : Int) (calls : List Call)
    (h : ∀ c ∈ calls, c.isBranchesContaining = true) : pageRequests uploadID calls = [] := by
  induction calls with
  | nil => rfl
  | cons c rest ih =>
    have hc := h c (List.mem_cons_self _ _)
    have hrest := ih (fun x hx => h x (List.mem_cons_of_mem _ hx))
    cases c <;> simp_all [pageRequests, Call.isBranchesContaining]

theorem pageOffsets_length (offset : Int) (pages : List (List String)) :
    (pageOffsets offset pages).length = pages.length + 1 := by
  induction pages generalizing offset with
  | nil => rfl
  | cons page rest ih => simp [pageOffsets, ih]

/-- The pages a store returns at the offsets of the requests are the pages it serves,
followed by the empty page. -/
theorem ServesPages_map (visible : Int → List String) (offset : Int)
    (pages : List (List String)) (h : ServesPages visible offset pages) :
    (pageOffsets offset pages).map visible = pages ++ [[]] := by
  induction pages generalizing offset with
  | nil =>
    simp only [ServesPages] at h
    simp [pageOffsets, h]
  | cons page rest ih =>
    obtain ⟨_, hpage, hrest⟩ := h
    simp [pageOffsets, hpage, ih _ hrest]

theorem pagesOf_nil (n : Nat) : pagesOf n [] = [] := by
  cases n <;> simp [pagesOf]

theorem pagesOf_join (n : Nat) (l : List String) (h : l.length ≤ n) :
    (pagesOf n l).flatten = l := by
  induction n generalizing l with
  | zero =>
    have : l = [] := List.length_eq_zero.mp (Nat.le_zero.mp h)
    subst this
    rfl
  | succ n ih =>
    simp only [pagesOf]
    split
    · next hnil => subst hnil; rfl
    · next hne =>
      have hpos : 0 < l.length := List.length_pos.mpr hne
      have hlen : (l.drop 100).length ≤ n := by
        rw [List.length_drop]
        omega
      rw [List.flatten_cons, ih _ hlen, List.take_append_drop]

theorem pagesOf_length (n : Nat) (l : List String) :
    (pagesOf n l).length ≤ l.length / 100 + 1 := by
  induction n generalizing l with
  | zero => simp [pagesOf]
  | succ n ih =>
    simp only [pagesOf]
    split
    · simp
    · have h := ih (l.drop 100)
      rw [List.length_drop] at h
      simp only [List.length_cons]
      by_cases hl : l.length < 100
      · have hd : l.drop 100 = [] := List.drop_eq_nil_of_le (by omega)
        rw [hd, pagesOf_nil]
        simp
      · omega

/-- A store that returns the slices of a list serves the pages of the list. -/
theorem ServesPages_pagesOf (all : List String) (n : Nat) (l : List String) (offset : Int)
    (hn : l.length ≤ n) (hoff : 0 ≤ offset) (hl : l = all.drop offset.toNat) :
    ServesPages (pageAt all) offset (pagesOf n l) := by
  induction n generalizing l offset with
  | zero =>
    have : l = [] := List.length_eq_zero.mp (Nat.le_zero.mp hn)
    subst this
    simp only [pagesOf, ServesPages, pageAt, ← hl, List.take_nil]
  | succ n ih =>
    simp only [pagesOf]
    split
    · next hnil =>
      subst hnil
      simp only [ServesPages, pageAt, ← hl, List.take_nil]
    · next hne =>
      have hpos : 0 < l.length := List.length_pos.mpr hne
      refine ⟨?_, by rw [pageAt, ← hl], ?_⟩
      · intro h
        have := congrArg List.length h
        simp only [List.length_take, List.length_nil] at this
        omega
      · apply ih
        · rw [List.length_drop]
          omega
        · omega
        · have hlen : (l.take 100).length = min 100 l.length := List.length_take _ _
          have htonat : (offset + ((l.take 100).length : Int)).toNat =
              offset.toNat + (l.take 100).length := by
            omega
          rw [htonat, ← List.drop_drop, ← hl]
          by_cases hl100 : l.length < 100
          · rw [List.drop_eq_nil_of_le (by omega), List.drop_eq_nil_of_le (by omega)]
          · rw [hlen, Nat.min_eq_left (by omega)]

/-- The page requests of an evaluation over a store that serves the pages `pages`: the
evaluation does not run out of fuel, makes only requests for the pages of the upload, with
limit 100, besides `BranchesContaining` queries, makes them at the offsets of the first
`k + 1` pages for some `k`, and returns false exactly when it has made all of them. -/
theorem isUploadProtectedByPolicyFrom_requests {σ : Type} (e : uploadExpirer σ)
    (policies : List ConfigurationPolicy) (patterns : Patterns)
    (refDescriptions : String → List RefDescription) (upload : Upload)
    (visible : Int → List String)
    (hvisible : ∀ s offset,
      (e.dbStore.CommitsVisibleToUpload s upload.ID 100 offset).1 = .ok (visible offset))
    (pages : List (List String)) (fuel : Nat) (offset : Int) (cache : repositoryCache)
    (w : World σ) (hpages : ServesPages visible offset pages) (hfuel : pages.length < fuel) :
    ∃ added k,
      (isUploadProtectedByPolicyFrom e policies patterns refDescriptions upload fuel offset
        cache w).2.2.trace = w.trace ++ added ∧
      (∀ c ∈ added, c.isBranchesContaining = true ∨
        ∃ off, c = Call.CommitsVisibleToUpload upload.ID 100 off) ∧
      k ≤ pages.length ∧
      pageRequests upload.ID added = (pageOffsets offset pages).take (k + 1) ∧
      timedOut (isUploadProtectedByPolicyFrom e policies patterns refDescriptions upload fuel
        offset cache w).1 = false ∧
      ((isUploadProtectedByPolicyFrom e policies patterns refDescriptions upload fuel offset
        cache w).1 = .ok false ↔ k = pages.length) := by
  induction pages generalizing fuel offset cache w with
  | nil =>
    cases fuel with
    | zero => simp at hfuel
    | succ fuel =>
      have hv := hvisible w.state offset
      simp only [ServesPages] at hpages
      simp only [isUploadProtectedByPolicyFrom, World.call]
      rcases hcv : e.dbStore.CommitsVisibleToUpload w.state upload.ID 100 offset with ⟨r, s1⟩
      rw [hcv, hpages] at hv
      simp only at hv
      subst hv
      simp only [List.length_nil, if_true]
      exact ⟨[Call.CommitsVisibleToUpload upload.ID 100 offset], 0, rfl,
        fun c hc => Or.inr ⟨offset, List.mem_singleton.mp hc⟩, le_refl _,
        by simp [pageRequests_single, pageOffsets], rfl, by simp⟩
  | cons page rest ih =>
    cases fuel with
    | zero => simp at hfuel
    | succ fuel =>
      have hfuel2 : rest.length < fuel := by simpa using hfuel
      have hv := hvisible w.state offset
      obtain ⟨hne, hpage, hrest⟩ := hpages
      simp only [isUploadProtectedByPolicyFrom, World.call]
      rcases hcv : e.dbStore.CommitsVisibleToUpload w.state upload.ID 100 offset with ⟨r, s1⟩
      rw [hcv, hpage] at hv
      simp only at hv
      subst hv
      have hlen : page.length ≠ 0 := fun h => hne (List.length_eq_zero.mp h)
      simp only [hlen, if_false]
      have hstop : ∀ (r : Result Bool) (cache1 : repositoryCache) (w1 : World σ)
          (bc : List Call),
          w1.trace = w.trace ++ [Call.CommitsVisibleToUpload upload.ID 100 offset] ++ bc →
          (∀ c ∈ bc, c.isBranchesContaining = true) →
          timedOut r = false → r ≠ .ok false →
          ∃ added k,
            ((r, cache1, w1) : Result Bool × repositoryCache × World σ).2.2.trace =
              w.trace ++ added ∧
            (∀ c ∈ added, c.isBranchesContaining = true ∨
              ∃ off, c = Call.CommitsVisibleToUpload upload.ID 100 off) ∧
            k ≤ (page :: rest).length ∧
            pageRequests upload.ID added = (pageOffsets offset (page :: rest)).take (k + 1) ∧
            timedOut ((r, cache1, w1) : Result Bool × repositoryCache × World σ).1 = false ∧
            (((r, cache1, w1) : Result Bool × repositoryCache × World σ).1 = .ok false ↔
              k = (page :: rest).length) := by
        intro r cache1 w1 bc htr hbc hto hnf
        refine ⟨Call.CommitsVisibleToUpload upload.ID 100 offset :: bc, 0, ?_, ?_,
          Nat.zero_le _, ?_, hto, ?_⟩
        · simp only [htr, List.append_assoc, List.singleton_append]
        · intro c hc
          rcases List.mem_cons.mp hc with rfl | hc
          · exact Or.inr ⟨offset, rfl⟩
          · exact Or.inl (hbc c hc)
        · have : Call.CommitsVisibleToUpload upload.ID 100 offset :: bc =
              [Call.CommitsVisibleToUpload upload.ID 100 offset] ++ bc := rfl
          rw [this, pageRequests_append, pageRequests_single, pageRequests_branches _ _ hbc]
          simp [pageOffsets]
        · simp only [List.length_cons]
          constructor
          · intro h; exact absurd h hnf
          · intro h; omega
      split
      · exact hstop (.ok true) cache _ [] (by simp) (by simp) rfl (by simp)
      · have hfast := fastPath_trace e policies patterns refDescriptions cache upload page
          { state := s1,
            trace := w.trace ++ [Call.CommitsVisibleToUpload upload.ID 100 offset] }
        have hfto := fastPath_not_timedOut e policies patterns refDescriptions cache upload page
          { state := s1,
            trace := w.trace ++ [Call.CommitsVisibleToUpload upload.ID 100 offset] }
        rcases hf : isUploadProtectedByPolicyFastPath e policies patterns refDescriptions
          cache upload page
          { state := s1,
            trace := w.trace ++ [Call.CommitsVisibleToUpload upload.ID 100 offset] }
          with ⟨rf, cache2, w2⟩
        rw [hf] at hfast hfto
        simp only at hfast hfto
        cases rf with
        | error f => exact hstop (.error f) cache2 w2 [] (by simp [hfast]) (by simp) hfto (by simp)
        | ok b =>
          cases b with
          | true => exact hstop (.ok true) cache2 w2 [] (by simp [hfast]) (by simp) rfl (by simp)
          | false =>
            simp only
            obtain ⟨bc, hbc1, hbc2⟩ := slowPath_trace e policies patterns cache2 upload page w2
            have hsto := slowPath_not_timedOut e policies patterns cache2 upload page w2
            rcases hs : isUploadProtectedByPolicySlowPath e policies patterns cache2 upload
              page w2 with ⟨rs, cache3, w3⟩
            rw [hs] at hbc1 hsto
            simp only at hbc1 hsto
            have htr3 : w3.trace =
                w.trace ++ [Call.CommitsVisibleToUpload upload.ID 100 offset] ++ bc := by
              rw [hbc1, hfast]
            cases rs with
            | error f => exact hstop (.error f) cache3 w3 bc htr3 hbc2 hsto (by simp)
            | ok b =>
              cases b with
              | true => exact hstop (.ok true) cache3 w3 bc htr3 hbc2 rfl (by simp)
              | false =>
                simp only
                obtain ⟨added, k, h1, h2, h3, h4, h5, h6⟩ :=
                  ih fuel (offset + page.length) cache3 w3 hrest hfuel2
                refine ⟨Call.CommitsVisibleToUpload upload.ID 100 offset :: (bc ++ added),
                  k + 1, ?_, ?_, ?_, ?_, h5, ?_⟩
                · rw [h1, htr3]
                  simp
                · intro c hc
                  rcases List.mem_cons.mp hc with rfl | hc
                  · exact Or.inr ⟨offset, rfl⟩
                  · rcases List.mem_append.mp hc with hc | hc
                    · exact Or.inl (hbc2 c hc)
                    · exact h2 c hc
                · simp only [List.length_cons]
                  omega
                · have : Call.CommitsVisibleToUpload upload.ID 100 offset :: (bc ++ added) =
                      [Call.CommitsVisibleToUpload upload.ID 100 offset] ++ (bc ++ added) := rfl
                  rw [this, pageRequests_append, pageRequests_append, pageRequests_single,
                    pageRequests_branches _ _ hbc2, h4]
                  simp [pageOffsets]
                · rw [h6]
                  simp only [List.length_cons]
                  omega
/-- Each offset of the requests is the first offset plus the number of commits of the
pages returned at the offsets before it. -/
theorem pageOffsets_sum (visible : Int → List String) (offset : Int)
    (pages : List (List String)) (h : ServesPages visible offset pages) (i : Nat) (off : Int)
    (hi : (pageOffsets offset pages)[i]? = some off) :
    off = offset +
      (((pageOffsets offset pages).take i).map (fun o => ((visible o).length : Int))).sum := by
  induction pages generalizing offset i with
  | nil =>
    cases i with
    | zero => simpa [pageOffsets] using hi.symm
    | succ i => simp [pageOffsets] at hi
  | cons page rest ih =>
    obtain ⟨_, hpage, hrest⟩ := h
    cases i with
    | zero => simpa [pageOffsets] using hi.symm
    | succ i =>
      simp only [pageOffsets, List.getElem?_cons_succ] at hi
      have := ih _ hrest i hi
      simp only [pageOffsets, List.take_succ_cons, List.map_cons, List.sum_cons, hpage]
      omega

theorem pageOffsets_take_sum (visible : Int → List String) (offset : Int)
    (pages : List (List String)) (h : ServesPages visible offset pages) (k i : Nat) (off : Int)
    (hi : ((pageOffsets offset pages).take k)[i]? = some off) :
    off = offset +
      ((((pageOffsets offset pages).take k).take i).map
        (fun o => ((visible o).length : Int))).sum := by
  have hik : i < k := by
    by_contra hge
    have hlen : ((pageOffsets offset pages).take k).length ≤ i := by
      rw [List.length_take]
      omega
    rw [List.getElem?_eq_none hlen] at hi
    simp at hi
  rw [List.getElem?_take_of_lt hik] at hi
  rw [List.take_take, Nat.min_eq_left (Nat.le_of_lt hik)]
  exact pageOffsets_sum visible offset pages h i off hi

/-! ## Lemmas on uploads that are visible from no commit -/

/-- The evaluation of an upload whose first page of visible commits is empty: it returns
false after the request for that page, whatever the policies and the cache are. -/
theorem isUploadProtectedByPolicy_of_empty {σ : Type} (e : uploadExpirer σ) (fuel : Nat)
    (policies : List ConfigurationPolicy) (patterns : Patterns)
    (refDescriptions : String → List RefDescription) (cache : repositoryCache)
    (upload : Upload) (w : World σ)
    (hempty : (e.dbStore.CommitsVisibleToUpload w.state upload.ID 100 0).1 = .ok []) :
    isUploadProtectedByPolicy e (fuel + 1) policies patterns refDescriptions cache upload w =
      (.ok false, cache,
        { state := (e.dbStore.CommitsVisibleToUpload w.state upload.ID 100 0).2,
          trace := w.trace ++ [Call.CommitsVisibleToUpload upload.ID 100 0] }) := by
  simp only [isUploadProtectedByPolicy, isUploadProtectedByPolicyFrom, World.call]
  rcases hcv : e.dbStore.CommitsVisibleToUpload w.state upload.ID 100 0 with ⟨r, s1⟩
  rw [hcv] at hempty
  simp only at hempty
  subst hempty
  simp

/-- The loop of `handleUploads` on a batch in which every upload with the ID `uploadID` is
visible from no commit: if the loop ends without failure, the ID is in the expired list as
soon as the batch or the list it started from holds it, and it is not in the protected list
unless the list it started from holds it. -/
theorem handleUploadsLoop_of_empty {σ : Type} (e : uploadExpirer σ) (fuel : Nat)
    (policies : List ConfigurationPolicy) (patterns : Patterns)
    (refDescriptions : String → List RefDescription) (uploadID : Int)
    (hempty : ∀ s, (e.dbStore.CommitsVisibleToUpload s uploadID 100 0).1 = .ok [])
    (uploads : List Upload) (protectedIDs expiredIDs : List Int) (cache : repositoryCache)
    (w : World σ) (ids : List Int × List Int) (cache1 : repositoryCache) (w1 : World σ)
    (h : handleUploadsLoop e (fuel + 1) policies patterns refDescriptions uploads protectedIDs
      expiredIDs cache w = (.ok ids, cache1, w1)) :
    ((uploadID ∈ uploads.map (·.ID) ∨ uploadID ∈ expiredIDs) → uploadID ∈ ids.2) ∧
    (uploadID ∉ protectedIDs → uploadID ∉ ids.1) := by
  induction uploads generalizing protectedIDs expiredIDs cache w with
  | nil =>
    simp only [handleUploadsLoop, Prod.mk.injEq, Except.ok.injEq] at h
    obtain ⟨rfl, _, _⟩ := h
    simp
  | cons upload rest ih =>
    simp only [handleUploadsLoop] at h
    by_cases hid : upload.ID = uploadID
    · have heval := isUploadProtectedByPolicy_of_empty e fuel policies patterns refDescriptions
        cache upload w (by rw [hid]; exact hempty w.state)
      rw [heval] at h
      simp only at h
      obtain ⟨h1, h2⟩ := ih _ _ _ _ h
      exact ⟨fun _ => h1 (Or.inr (by simp [hid])), h2⟩
    · rcases heval : isUploadProtectedByPolicy e (fuel + 1) policies patterns refDescriptions
        cache upload w with ⟨r, cache2, w2⟩
      rw [heval] at h
      have hmem : (uploadID ∈ (upload :: rest).map (·.ID) ∨ uploadID ∈ expiredIDs) →
          (uploadID ∈ rest.map (·.ID) ∨ uploadID ∈ expiredIDs) := by
        intro hm
        simp only [List.map_cons, List.mem_cons] at hm
        rcases hm with (hm | hm) | hm
        · exact absurd hm.symm hid
        · exact Or.inl hm
        · exact Or.inr hm
      cases r with
      | error f => simp at h
      | ok b =>
        cases b with
        | true =>
          simp only at h
          obtain ⟨h1, h2⟩ := ih _ _ _ _ h
          refine ⟨fun hm => h1 (hmem hm), fun hp => h2 ?_⟩
          simp only [List.mem_append, List.mem_singleton, not_or]
          exact ⟨hp, fun heq => hid heq.symm⟩
        | false =>
          simp only at h
          obtain ⟨h1, h2⟩ := ih _ _ _ _ h
          refine ⟨fun hm => h1 ?_, h2⟩
          rcases hmem hm with hm | hm
          · exact Or.inl hm
          · exact Or.inr (List.mem_append_left _ hm)

/-! ## The policy matchers (C4, C5) and the age test (C6) -/

/-- C4: with every pattern compiled, the matcher built by `newTipPolicyMatcher` returns,
and it returns true if and only if some policy is of type `GIT_COMMIT` and its pattern
matches the commit hash, or of type `GIT_TAG` and its pattern matches the name of a tag
of the descriptions, or of type `GIT_TREE` and its pattern matches the name of a branch
of the descriptions. In particular a tag policy returns false on descriptions that are
all branches, and a branch policy returns false on descriptions that are all tags. -/
theorem newTipPolicyMatcher_spec (patterns : Patterns) (commit : String)
    (refDescriptions : List RefDescription) (policies : List ConfigurationPolicy)
    (hc : AllCompiled patterns policies) :
    (∃ b, newTipPolicyMatcher patterns commit refDescriptions policies = .ok b) ∧
    (newTipPolicyMatcher patterns commit refDescriptions policies = .ok true ↔
      ∃ policy ∈ policies, ∃ g, patterns.lookup policy.Pattern = some g ∧
        ((policy.Type_ = "GIT_COMMIT" ∧ g.Match commit = true) ∨
         (policy.Type_ = "GIT_TAG" ∧
            ∃ rd ∈ refDescriptions, rd.Type_ = RefType.RefTypeTag ∧ g.Match rd.Name = true) ∨
         (policy.Type_ = "GIT_TREE" ∧
            ∃ rd ∈ refDescriptions, rd.Type_ = RefType.RefTypeBranch ∧
              g.Match rd.Name = true))) ∧
    (∀ policy, policies = [policy] → policy.Type_ = "GIT_TAG" →
      (∀ rd ∈ refDescriptions, rd.Type_ = RefType.RefTypeBranch) →
      newTipPolicyMatcher patterns commit refDescriptions policies = .ok false) ∧
    (∀ policy, policies = [policy] → policy.Type_ = "GIT_TREE" →
      (∀ rd ∈ refDescriptions, rd.Type_ = RefType.RefTypeTag) →
      newTipPolicyMatcher patterns commit refDescriptions policies = .ok false) := by
  have hiff : newTipPolicyMatcher patterns commit refDescriptions policies = .ok true ↔
      ∃ policy ∈ policies, ∃ g, patterns.lookup policy.Pattern = some g ∧
        ((policy.Type_ = "GIT_COMMIT" ∧ g.Match commit = true) ∨
         (policy.Type_ = "GIT_TAG" ∧
            ∃ rd ∈ refDescriptions, rd.Type_ = RefType.RefTypeTag ∧ g.Match rd.Name = true) ∨
         (policy.Type_ = "GIT_TREE" ∧
            ∃ rd ∈ refDescriptions, rd.Type_ = RefType.RefTypeBranch ∧
              g.Match rd.Name = true)) := by
    simp only [newTipPolicyMatcher, tipPolicyMatcherLoop_eq _ _ _ _ _ hc, Except.ok.injEq,
      List.any_eq_true, refNamesByType_fst, refNamesByType_snd]
    constructor
    · rintro ⟨policy, hp, hm⟩
      obtain ⟨g, hg⟩ := hc policy hp
      refine ⟨policy, hp, g, hg, ?_⟩
      simp only [hg, tipMatches, Bool.or_eq_true, Bool.and_eq_true, decide_eq_true_eq,
        List.any_eq_true, List.mem_map, List.mem_filter] at hm
      rcases hm with (h | h) | h
      · exact Or.inl h
      · obtain ⟨ht, v, ⟨rd, ⟨hrd, hty⟩, rfl⟩, hv⟩ := h
        exact Or.inr (Or.inl ⟨ht, rd, hrd, hty, hv⟩)
      · obtain ⟨ht, v, ⟨rd, ⟨hrd, hty⟩, rfl⟩, hv⟩ := h
        exact Or.inr (Or.inr ⟨ht, rd, hrd, hty, hv⟩)
    · rintro ⟨policy, hp, g, hg, h⟩
      refine ⟨policy, hp, ?_⟩
      simp only [hg, tipMatches, Bool.or_eq_true, Bool.and_eq_true, decide_eq_true_eq,
        List.any_eq_true, List.mem_map, List.mem_filter]
      rcases h with h | ⟨ht, rd, hrd, hty, hv⟩ | ⟨ht, rd, hrd, hty, hv⟩
      · exact Or.inl (Or.inl h)
      · exact Or.inl (Or.inr ⟨ht, rd.Name, ⟨rd, ⟨hrd, hty⟩, rfl⟩, hv⟩)
      · exact Or.inr ⟨ht, rd.Name, ⟨rd, ⟨hrd, hty⟩, rfl⟩, hv⟩
  have hret : ∃ b, newTipPolicyMatcher patterns commit refDescriptions policies = .ok b := by
    simp only [newTipPolicyMatcher, tipPolicyMatcherLoop_eq _ _ _ _ _ hc]
    exact ⟨_, rfl⟩
  have hfalse : ∀ {x : Result Bool}, (∃ b, x = .ok b) → ¬ x = .ok true → x = .ok false := by
    rintro x ⟨b, rfl⟩ hb
    cases b
    · rfl
    · exact absurd rfl hb
  refine ⟨hret, hiff, ?_, ?_⟩
  · rintro policy rfl hty hall
    apply hfalse hret
    rw [hiff]
    rintro ⟨q, hq, g, _, h⟩
    rw [List.mem_singleton] at hq
    subst hq
    rcases h with ⟨h, _⟩ | ⟨_, rd, hrd, hrt, _⟩ | ⟨h, _⟩
    · rw [hty] at h; exact absurd h (by decide)
    · rw [hall rd hrd] at hrt; exact absurd hrt (by decide)
    · rw [hty] at h; exact absurd h (by decide)
  · rintro policy rfl hty hall
    apply hfalse hret
    rw [hiff]
    rintro ⟨q, hq, g, _, h⟩
    rw [List.mem_singleton] at hq
    subst hq
    rcases h with ⟨h, _⟩ | ⟨h, _⟩ | ⟨_, rd, hrd, hrt, _⟩
    · rw [hty] at h; exact absurd h (by decide)
    · rw [hty] at h; exact absurd h (by decide)
    · rw [hall rd hrd] at hrt; exact absurd hrt (by decide)

/-- C4, at a concrete input: a tag policy `*` on a commit tipped by the branch `main`
only does not match. -/
theorem newTipPolicyMatcher_spec_witness :
    AllCompiled [("*", globAny)] [tagPolicy] ∧
    newTipPolicyMatcher [("*", globAny)] "c1" [{ Name := "main", Type_ := RefType.RefTypeBranch }]
      [tagPolicy] = .ok false :=
  have hc : AllCompiled [("*", globAny)] [tagPolicy] := by
    intro policy hp
    rw [List.mem_singleton] at hp
    subst hp
    exact ⟨globAny, rfl⟩
  ⟨hc, (newTipPolicyMatcher_spec [("*", globAny)] "c1"
      [{ Name := "main", Type_ := RefType.RefTypeBranch }] [tagPolicy] hc).2.2.1 tagPolicy rfl rfl
      (by intro rd hrd; rw [List.mem_singleton] at hrd; subst hrd; rfl)⟩

/-- C5: with every pattern compiled, the matcher built by `newContainsPolicyMatcher`
returns, and it returns true if and only if the pattern of some policy of the list
matches some branch name of the list; it returns false for an empty policy list and for
an empty branch list. -/
theorem newContainsPolicyMatcher_spec (patterns : Patterns) (commit : String)
    (branches : List String) (policies : List ConfigurationPolicy)
    (hc : AllCompiled patterns policies) :
    (∃ b, newContainsPolicyMatcher patterns commit branches policies = .ok b) ∧
    (newContainsPolicyMatcher patterns commit branches policies = .ok true ↔
      ∃ policy ∈ policies, ∃ g, patterns.lookup policy.Pattern = some g ∧
        ∃ branch ∈ branches, g.Match branch = true) ∧
    (policies = [] → newContainsPolicyMatcher patterns commit branches policies = .ok false) ∧
    (branches = [] → newContainsPolicyMatcher patterns commit branches policies = .ok false) := by
  simp only [newContainsPolicyMatcher, containsPolicyMatcherLoop_eq _ _ _ hc, Except.ok.injEq,
    List.any_eq_true, exists_eq', true_and, List.any_eq_false]
  refine ⟨?_, ?_, ?_⟩
  · constructor
    · rintro ⟨policy, hp, hm⟩
      obtain ⟨g, hg⟩ := hc policy hp
      simp only [hg, List.any_eq_true] at hm
      exact ⟨policy, hp, g, hg, hm⟩
    · rintro ⟨policy, hp, g, hg, hm⟩
      refine ⟨policy, hp, ?_⟩
      simpa only [hg, List.any_eq_true] using hm
  · rintro rfl policy hp
    exact absurd hp (List.not_mem_nil _)
  · rintro rfl policy hp
    obtain ⟨g, hg⟩ := hc policy hp
    simp [hg]

/-- C5, at a concrete input: the pattern `*` matches the containing branch `develop`. -/
theorem newContainsPolicyMatcher_spec_witness :
    AllCompiled [("*", globAny)] [treePolicy] ∧
    newContainsPolicyMatcher [("*", globAny)] "c1" ["develop"] [treePolicy] = .ok true :=
  have hc : AllCompiled [("*", globAny)] [treePolicy] := by
    intro policy hp
    rw [List.mem_singleton] at hp
    subst hp
    exact ⟨globAny, rfl⟩
  ⟨hc, (newContainsPolicyMatcher_spec [("*", globAny)] "c1" ["develop"] [treePolicy] hc).2.1.mpr
      ⟨treePolicy, List.mem_singleton.mpr rfl, globAny, rfl, "develop",
        List.mem_singleton.mpr rfl, rfl⟩⟩

/-- C6: for an upload with a completion time, `policyCoversUpload` returns, and it
returns true if and only if the policy has no retention duration or the age of the
upload, the current time minus `FinishedAt` as `Time.Sub` computes it, is at most the
duration. So a policy without duration covers every upload, an upload whose age equals
the duration is covered, and the age is the plain difference whenever that difference
fits a duration. -/
theorem policyCoversUpload_spec {σ : Type} (timeutilNow : σ → Int × σ)
    (policy : ConfigurationPolicy) (upload : Upload) (w : World σ) (finishedAt : Int)
    (hf : upload.FinishedAt = some finishedAt) :
    (∃ b, (policyCoversUpload timeutilNow policy upload w).1 = .ok b) ∧
    ((policyCoversUpload timeutilNow policy upload w).1 = .ok true ↔
      policy.RetentionDuration = none ∨
      ∃ duration, policy.RetentionDuration = some duration ∧
        timeSub (timeutilNow w.state).1 finishedAt ≤ duration) ∧
    (policy.RetentionDuration = none →
      (policyCoversUpload timeutilNow policy upload w).1 = .ok true) ∧
    (policy.RetentionDuration = some (timeSub (timeutilNow w.state).1 finishedAt) →
      (policyCoversUpload timeutilNow policy upload w).1 = .ok true) ∧
    (minDuration ≤ (timeutilNow w.state).1 - finishedAt →
      (timeutilNow w.state).1 - finishedAt ≤ maxDuration →
      timeSub (timeutilNow w.state).1 finishedAt = (timeutilNow w.state).1 - finishedAt) := by
  refine ⟨?_, ?_, ?_, ?_, ?_⟩
  · cases hd : policy.RetentionDuration <;> simp [policyCoversUpload, hd, hf]
  · cases hd : policy.RetentionDuration <;> simp [policyCoversUpload, hd, hf]
  · intro hd
    simp [policyCoversUpload, hd]
  · intro hd
    simp [policyCoversUpload, hd, hf]
  · intro h1 h2
    unfold timeSub
    rw [if_neg (not_lt.mpr h1), if_neg (not_lt.mpr h2)]

/-- C6, at a concrete input: at time 100 an upload completed at time 10 has age 90 and is
covered by a policy of duration 90. -/
theorem policyCoversUpload_spec_witness :
    upload1.FinishedAt = some 10 ∧
    (policyCoversUpload (fun s : Unit => ((100 : Int), s)) treePolicy upload1
      { state := (), trace := [] }).1 = .ok true :=
  ⟨rfl, (policyCoversUpload_spec (fun s : Unit => ((100 : Int), s)) treePolicy upload1
      { state := (), trace := [] } 10 rfl).2.2.2.1 (by decide)⟩

/-! ## Error handling (C2, C3, C10) -/

/-- C2, at a failing input: the store selects repository 50 and fails to load its
policies. `handleRepository` returns that error and the loop of `Handle` holds it in the
named result, yet `Handle` returns nil: the error accumulated by the loop is dropped by
the final `return nil`. -/
theorem Handle_returns_nil_after_repository_error :
    (handleRepository expirerPoliciesFail 1 50 [] world0).1 =
      .error (.err (.msg "policies unavailable")) ∧
    (handleLoop expirerPoliciesFail 1 [] [50] none world0).1 =
      .ok (some (.msg "policies unavailable")) ∧
    (Handle expirerPoliciesFail 1 world0).1 = .ok () :=
  ⟨rfl, rfl, rfl⟩

/-- C3: if the uploads before some upload of the batch evaluate without failure and the
evaluation of that upload fails, with a returned error in particular, `handleUploads`
ends with that same failure in the state the evaluation left, and the calls made since
the start of the batch contain no `UpdateUploadRetention` call. -/
theorem handleUploads_error {σ : Type} (e : uploadExpirer σ) (fuel : Nat)
    (policies : List ConfigurationPolicy) (patterns : Patterns)
    (refDescriptions : String → List RefDescription) (cache : repositoryCache) (w : World σ)
    (pre : List Upload) (upload : Upload) (post : List Upload)
    (ids : List Int × List Int) (cache1 : repositoryCache) (w1 : World σ)
    (f : Failure) (cache2 : repositoryCache) (w2 : World σ)
    (hpre : handleUploadsLoop e fuel policies patterns refDescriptions pre [] [] cache w =
      (.ok ids, cache1, w1))
    (hfail : isUploadProtectedByPolicy e fuel policies patterns refDescriptions cache1 upload
      w1 = (.error f, cache2, w2)) :
    handleUploads e fuel policies patterns refDescriptions cache (pre ++ upload :: post) w =
      (.error f, cache2, w2) ∧
    ∃ added, w2.trace = w.trace ++ added ∧ ∀ c ∈ added, c.isUpdateUploadRetention = false := by
  have hloop : handleUploadsLoop e fuel policies patterns refDescriptions
      (pre ++ upload :: post) [] [] cache w = (.error f, cache2, w2) := by
    rw [handleUploadsLoop_append, hpre]
    simp only [handleUploadsLoop, hfail]
  constructor
  · simp only [handleUploads, hloop]
  · have h := handleUploadsLoop_trace e fuel policies patterns refDescriptions
      (pre ++ upload :: post) [] [] cache w
    rw [hloop] at h
    obtain ⟨added, h1, h2⟩ := h
    refine ⟨added, h1, fun c hc => ?_⟩
    have := h2 c hc
    cases c <;> simp_all [Call.isEvaluation, Call.isUpdateUploadRetention,
      Call.isCommitsVisibleToUpload, Call.isBranchesContaining]

/-- C3, at a concrete input: upload 1 evaluates to unprotected, the store fails to list
the commits of upload 2, and the batch ends with that error after the two
`CommitsVisibleToUpload` requests of upload 1 and the failed one of upload 2. -/
theorem handleUploads_error_witness :
    handleUploads expirerCommitsFail 5 [] [] (fun _ => []) newRepositoryCache
        [upload1, upload2] world0 =
      (.error (.err (.msg "commits unavailable")), newRepositoryCache,
        { state := (),
          trace := [.CommitsVisibleToUpload 1 100 0, .CommitsVisibleToUpload 1 100 1,
            .CommitsVisibleToUpload 2 100 0] }) :=
  (handleUploads_error expirerCommitsFail 5 [] [] (fun _ => []) newRepositoryCache world0
    [upload1] upload2 [] ([], [1]) newRepositoryCache
    { state := (), trace := [.CommitsVisibleToUpload 1 100 0, .CommitsVisibleToUpload 1 100 1] }
    (.err (.msg "commits unavailable")) newRepositoryCache
    { state := (),
      trace := [.CommitsVisibleToUpload 1 100 0, .CommitsVisibleToUpload 1 100 1,
        .CommitsVisibleToUpload 2 100 0] }
    rfl rfl).1

/-- C10: if the repository's policies load and the pattern of some policy of the merged
list fails to compile, `handleRepository` returns the compile error of the first such
policy in list order, wrapped with the message that names that policy, and after the
policy load it calls only the glob compiler: no `RefDescriptions`, `GetUploads`,
`CommitsVisibleToUpload` or `UpdateUploadRetention` call is made. -/
theorem handleRepository_compile_error {σ : Type} (e : uploadExpirer σ) (fuel : Nat)
    (repositoryID : Int) (globalPolicies repositoryPolicies : List ConfigurationPolicy)
    (w : World σ)
    (hload : (e.dbStore.GetConfigurationPolicies w.state
      { RepositoryID := repositoryID, ForDataRetention := true }).1 = .ok repositoryPolicies)
    (hfail : ∃ policy ∈ globalPolicies ++ repositoryPolicies, compileFails e policy = true) :
    ∃ policy err,
      (globalPolicies ++ repositoryPolicies).find? (compileFails e) = some policy ∧
      e.globCompile policy.Pattern = .error err ∧
      (handleRepository e fuel repositoryID globalPolicies w).1 =
        .error (.err (.wrap err (compileErrorMessage policy))) ∧
      ∃ added,
        (handleRepository e fuel repositoryID globalPolicies w).2.trace =
          w.trace ++ Call.GetConfigurationPolicies
            { RepositoryID := repositoryID, ForDataRetention := true } :: added ∧
        ∀ c ∈ added, c.isGlobCompile = true ∧ c.isRefDescriptions = false ∧
          c.isGetUploads = false ∧ c.isCommitsVisibleToUpload = false ∧
          c.isUpdateUploadRetention = false := by
  obtain ⟨bad, hbad, hbadf⟩ := hfail
  cases hfind : (globalPolicies ++ repositoryPolicies).find? (compileFails e) with
  | none =>
    rw [List.find?_eq_none] at hfind
    exact absurd hbadf (hfind bad hbad)
  | some policy =>
    obtain ⟨err, herr, hres, added, htr, hadded⟩ :=
      compilePatterns_first_failure e (globalPolicies ++ repositoryPolicies) []
        (w.call (.GetConfigurationPolicies
            { RepositoryID := repositoryID, ForDataRetention := true })
          (fun s => e.dbStore.GetConfigurationPolicies s
            { RepositoryID := repositoryID, ForDataRetention := true })).2
        (by intro pattern g h; simp at h) policy hfind
    refine ⟨policy, err, rfl, herr, ?_, added, ?_, ?_⟩
    · unfold handleRepository
      simp only [World.call, hload] at hres ⊢
      rcases hcp : compilePatterns e (globalPolicies ++ repositoryPolicies) []
        { state := (e.dbStore.GetConfigurationPolicies w.state
            { RepositoryID := repositoryID, ForDataRetention := true }).2,
          trace := w.trace ++ [Call.GetConfigurationPolicies
            { RepositoryID := repositoryID, ForDataRetention := true }] } with ⟨r, w2⟩
      rw [hcp] at hres
      simp only at hres
      subst hres
      rfl
    · unfold handleRepository
      simp only [World.call, hload] at hres htr ⊢
      rcases hcp : compilePatterns e (globalPolicies ++ repositoryPolicies) []
        { state := (e.dbStore.GetConfigurationPolicies w.state
            { RepositoryID := repositoryID, ForDataRetention := true }).2,
          trace := w.trace ++ [Call.GetConfigurationPolicies
            { RepositoryID := repositoryID, ForDataRetention := true }] } with ⟨r, w2⟩
      rw [hcp] at hres htr
      simp only at hres htr
      subst hres
      simp only [htr, List.append_assoc, List.singleton_append]
    · intro c hc
      have := hadded c hc
      cases c <;> simp_all [Call.isGlobCompile, Call.isRefDescriptions, Call.isGetUploads,
        Call.isCommitsVisibleToUpload, Call.isUpdateUploadRetention]

/-- C10, at a concrete input: the repository policy has the pattern `[`, which the
compiler rejects; the scan of repository 50 returns the wrapped compile error. -/
theorem handleRepository_compile_error_witness :
    (∃ policy ∈ [tagPolicy] ++ [badPolicy], compileFails expirerBadPattern policy = true) ∧
    ∃ policy err,
      ([tagPolicy] ++ [badPolicy]).find? (compileFails expirerBadPattern) = some policy ∧
      expirerBadPattern.globCompile policy.Pattern = .error err ∧
      (handleRepository expirerBadPattern 1 50 [tagPolicy] world0).1 =
        .error (.err (.wrap err (compileErrorMessage policy))) ∧
      ∃ added,
        (handleRepository expirerBadPattern 1 50 [tagPolicy] world0).2.trace =
          world0.trace ++ Call.GetConfigurationPolicies
            { RepositoryID := 50, ForDataRetention := true } :: added ∧
        ∀ c ∈ added, c.isGlobCompile = true ∧ c.isRefDescriptions = false ∧
          c.isGetUploads = false ∧ c.isCommitsVisibleToUpload = false ∧
          c.isUpdateUploadRetention = false :=
  have hfail : ∃ policy ∈ [tagPolicy] ++ [badPolicy],
      compileFails expirerBadPattern policy = true :=
    ⟨badPolicy, by simp, by decide⟩
  ⟨hfail, handleRepository_compile_error expirerBadPattern 1 50 [tagPolicy] [badPolicy] world0
    rfl hfail⟩

/-! ## The decision of `isUploadProtectedByPolicy` (C1) -/

/-- C1, counterexample: with a clock that advances by one at every reading, started at
95, take upload 1 (completed at 10, visible from `c1`, which is the tip of no ref and is
contained in `develop`) and the one policy `develop` with a duration of 85 that retains
intermediate commits. The store and the gitserver answer every call and the cache starts
empty. When the evaluation starts the policy covers the upload and matches the branch
`develop` that contains `c1`, so the right-hand side of the claim holds. The filter of
the fast path reads 95 and keeps the policy, the fast path finds no tip, the filter of
the slow path reads 96 and drops the policy, and `isUploadProtectedByPolicy` returns
false; `handleUploads` lists the upload as expired. -/
theorem covering_policy_expires_between_filters :
    AllCompiled [("develop", globExact "develop")] [shortDevelopPolicy] ∧
    (policyCoversUpload tickingExpirer.timeutilNow shortDevelopPolicy upload1
      (worldAt 95)).1 = .ok true ∧
    shortDevelopPolicy.RetainIntermediateCommits = true ∧
    "c1" ∈ examplePages upload1.ID 0 ∧
    newContainsPolicyMatcher [("develop", globExact "develop")] "c1"
      (exampleContaining "c1") [shortDevelopPolicy] = .ok true ∧
    (isUploadProtectedByPolicy tickingExpirer 5 [shortDevelopPolicy]
      [("develop", globExact "develop")] (fun _ => []) newRepositoryCache upload1
      (worldAt 95)).1 = .ok false ∧
    (handleUploads tickingExpirer 5 [shortDevelopPolicy] [("develop", globExact "develop")]
      (fun _ => []) newRepositoryCache [upload1] (worldAt 95)).2.2.trace.getLast? =
      some (Call.UpdateUploadRetention [] [1]) := by
  refine ⟨?_, rfl, rfl, by decide, rfl, rfl, ?_⟩
  · intro policy hp
    simp only [List.mem_singleton] at hp
    subst hp
    exact ⟨globExact "develop", rfl⟩
  · rfl

/-- C1, amended: for an upload with a completion time, compiled patterns, a clock that
reads `now` at every reading, a store that serves the pages `pages` of visible commits
and then an empty page, and a gitserver that answers `containing`,
`isUploadProtectedByPolicy` started on the empty cache returns a boolean, and that
boolean is true if and only if some commit of some page is tip-matched by a policy that
covers the upload, or has a containing branch matched by a policy that covers the upload
and retains intermediate commits. On the batch made of this upload alone `handleUploads`
ends with one `UpdateUploadRetention` call that lists the upload as protected when the
boolean is true and as expired otherwise. -/
theorem isUploadProtectedByPolicy_spec {σ : Type} (e : uploadExpirer σ) (fuel : Nat)
    (policies : List ConfigurationPolicy) (patterns : Patterns)
    (refDescriptions : String → List RefDescription) (upload : Upload) (w : World σ)
    (now finishedAt : Int) (visible : Int → List String) (containing : String → List String)
    (pages : List (List String))
    (hc : AllCompiled patterns policies)
    (hf : upload.FinishedAt = some finishedAt)
    (hnow : ∀ s, (e.timeutilNow s).1 = now)
    (hvisible : ∀ s offset,
      (e.dbStore.CommitsVisibleToUpload s upload.ID 100 offset).1 = .ok (visible offset))
    (hcontaining : ∀ s commit,
      (e.gitserverClient.BranchesContaining s upload.RepositoryID commit).1 =
        .ok (containing commit))
    (hpages : ServesPages visible 0 pages) (hfuel : pages.length < fuel) :
    ∃ b : Bool,
      (isUploadProtectedByPolicy e fuel policies patterns refDescriptions newRepositoryCache
        upload w).1 = .ok b ∧
      (b = true ↔ ∃ page ∈ pages, ∃ commit ∈ page, ∃ policy ∈ policies,
        (policyCoversUpload e.timeutilNow policy upload w).1 = .ok true ∧
        (newTipPolicyMatcher patterns commit (refDescriptions commit) [policy] = .ok true ∨
         (policy.RetainIntermediateCommits = true ∧
          newContainsPolicyMatcher patterns commit (containing commit) [policy] =
            .ok true))) ∧
      ∃ calls,
        (handleUploads e fuel policies patterns refDescriptions newRepositoryCache [upload]
          w).2.2.trace =
          w.trace ++ calls ++
            [Call.UpdateUploadRetention (if b then [upload.ID] else [])
              (if b then [] else [upload.ID])] ∧
        ∀ c ∈ calls, c.isEvaluation = true := by
  obtain ⟨cache1, w1, heq, _, _⟩ := isUploadProtectedByPolicyFrom_eq e policies patterns
    refDescriptions upload now finishedAt visible containing hc hnow hf hvisible hcontaining
    pages fuel 0 newRepositoryCache w (by simp [newRepositoryCache])
    (by intro k v h; simp [newRepositoryCache] at h) hpages hfuel
  have htrace := isUploadProtectedByPolicyFrom_trace e policies patterns refDescriptions upload
    fuel 0 newRepositoryCache w
  rw [heq] at htrace
  obtain ⟨calls, hcalls, hall⟩ := htrace
  refine ⟨_, by rw [isUploadProtectedByPolicy, heq], ?_, calls, ?_, hall⟩
  · simp only [List.any_eq_true, commitProtected_iff _ _ _ _ _ _ _ hc,
      policyCoversUpload_eq _ _ _ _ _ _ hnow hf, Except.ok.injEq]
  · simp only at hcalls
    have hloop : ∀ b : Bool,
        isUploadProtectedByPolicyFrom e policies patterns refDescriptions upload fuel 0
          newRepositoryCache w = (.ok b, cache1, w1) →
        handleUploadsLoop e fuel policies patterns refDescriptions [upload] [] []
          newRepositoryCache w =
          (.ok (if b then [upload.ID] else [], if b then [] else [upload.ID]), cache1, w1) := by
      intro b hb
      cases b <;> simp [handleUploadsLoop, isUploadProtectedByPolicy, hb]
    rw [handleUploads_trace_of_loop _ _ _ _ _ _ _ _ _ _ _ (hloop _ heq), hcalls,
      List.append_assoc]

/-- C1, amended, at a concrete input: upload 1, completed at time 10, is visible from
`c1`, which is the tip of no ref and is contained in `develop`; with the clock stopped at
100 the branch policy `*` of duration 90 that retains intermediate commits covers it, and
the upload is protected. -/
theorem isUploadProtectedByPolicy_spec_witness :
    (isUploadProtectedByPolicy exampleExpirer 2 [treePolicy] [("*", globAny)] (fun _ => [])
      newRepositoryCache upload1 world0).1 = .ok true := by
  have hc : AllCompiled [("*", globAny)] [treePolicy] := by
    intro policy hp
    rw [List.mem_singleton] at hp
    subst hp
    exact ⟨globAny, rfl⟩
  obtain ⟨b, hb, hiff, _⟩ := isUploadProtectedByPolicy_spec exampleExpirer 2 [treePolicy]
    [("*", globAny)] (fun _ => []) upload1 world0 100 10 (examplePages 1) exampleContaining
    [["c1"]] hc rfl (fun _ => rfl) (fun _ _ => rfl) (fun _ _ => rfl)
    ⟨by decide, rfl, rfl⟩ (by decide)
  have htrue : b = true :=
    hiff.mpr ⟨["c1"], List.mem_singleton.mpr rfl, "c1", List.mem_singleton.mpr rfl, treePolicy,
      List.mem_singleton.mpr rfl, rfl, Or.inr ⟨rfl, rfl⟩⟩
  rw [hb, htrue]

/-! ## Memoising protected commits (C7) -/

/-- C7: uploads of one repository are evaluated in the order of a list sorted by
completion time, oldest first, against one shared cache that starts empty, with compiled
patterns, a clock that reads `now`, and a store and gitserver whose answers depend on
their arguments only. Then for every upload of the list the evaluations of the uploads
before it return, and its evaluation against the cache they leave returns the same
boolean as its evaluation against a fresh empty cache, whatever the state of the world
the fresh evaluation starts in. -/
theorem isUploadProtectedByPolicy_shared_cache {σ : Type} (e : uploadExpirer σ) (fuel : Nat)
    (policies : List ConfigurationPolicy) (patterns : Patterns)
    (refDescriptions : String → List RefDescription)
    (now : Int) (repositoryID : Int) (visible : Int → Int → List String)
    (containing : String → List String) (uploads : List Upload) (w : World σ)
    (hc : AllCompiled patterns policies)
    (hnow : ∀ s, (e.timeutilNow s).1 = now)
    (hvisible : ∀ s uploadID offset,
      (e.dbStore.CommitsVisibleToUpload s uploadID 100 offset).1 =
        .ok (visible uploadID offset))
    (hcontaining : ∀ s commit,
      (e.gitserverClient.BranchesContaining s repositoryID commit).1 = .ok (containing commit))
    (hrepo : ∀ u ∈ uploads, u.RepositoryID = repositoryID)
    (hfin : ∀ u ∈ uploads, ∃ f, u.FinishedAt = some f)
    (hpages : ∀ u ∈ uploads, ∃ pages, ServesPages (visible u.ID) 0 pages ∧ pages.length < fuel)
    (hsorted : uploads.Pairwise (fun u1 u2 =>
      ∀ f1 f2, u1.FinishedAt = some f1 → u2.FinishedAt = some f2 → f1 ≤ f2))
    (pre : List Upload) (upload : Upload) (post : List Upload)
    (hsplit : uploads = pre ++ upload :: post) :
    ∃ (ids : List Int × List Int) (cache1 : repositoryCache) (w1 : World σ) (b : Bool),
      handleUploadsLoop e fuel policies patterns refDescriptions pre [] [] newRepositoryCache
        w = (.ok ids, cache1, w1) ∧
      (isUploadProtectedByPolicy e fuel policies patterns refDescriptions cache1 upload
        w1).1 = .ok b ∧
      ∀ w0 : World σ,
        (isUploadProtectedByPolicy e fuel policies patterns refDescriptions newRepositoryCache
          upload w0).1 = .ok b := by
  subst hsplit
  have hmemU : upload ∈ pre ++ upload :: post := by simp
  have hmemPre : ∀ u ∈ pre, u ∈ pre ++ upload :: post := fun u hu => by simp [hu]
  obtain ⟨f, hf⟩ := hfin upload hmemU
  obtain ⟨pages, hserve, hlen⟩ := hpages upload hmemU
  have hrepoU := hrepo upload hmemU
  have hsortedPre : pre.Pairwise (fun u1 u2 =>
      ∀ f1 f2, u1.FinishedAt = some f1 → u2.FinishedAt = some f2 → f1 ≤ f2) :=
    (List.pairwise_append.mp hsorted).1
  have hbefore : ∀ u ∈ pre, ∃ f1, u.FinishedAt = some f1 ∧ f1 ≤ f := by
    intro u hu
    obtain ⟨f1, hf1⟩ := hfin u (hmemPre u hu)
    exact ⟨f1, hf1, (List.pairwise_append.mp hsorted).2.2 u hu upload
      (List.mem_cons_self _ _) f1 f hf1 hf⟩
  obtain ⟨ids, cache1, w1, hloop, hlru1, hinv1⟩ := handleUploadsLoop_inv e fuel policies
    patterns refDescriptions now repositoryID visible containing hc hnow hvisible hcontaining
    pre f [] [] newRepositoryCache w (fun u hu => hrepo u (hmemPre u hu)) hbefore
    (fun u hu => hpages u (hmemPre u hu)) hsortedPre
    (by intro k v h; simp [newRepositoryCache] at h) (by simp [newRepositoryCache])
  obtain ⟨cache2, w2, hshared, _, _⟩ := isUploadProtectedByPolicyFrom_eq e policies patterns
    refDescriptions upload now f (visible upload.ID) containing hc hnow hf
    (fun s offset => hvisible s upload.ID offset)
    (fun s commit => by rw [hrepoU]; exact hcontaining s commit)
    pages fuel 0 cache1 w1 hinv1 hlru1 hserve hlen
  refine ⟨ids, cache1, w1, _, hloop, by rw [isUploadProtectedByPolicy, hshared], ?_⟩
  intro w0
  obtain ⟨cache3, w3, halone, _, _⟩ := isUploadProtectedByPolicyFrom_eq e policies patterns
    refDescriptions upload now f (visible upload.ID) containing hc hnow hf
    (fun s offset => hvisible s upload.ID offset)
    (fun s commit => by rw [hrepoU]; exact hcontaining s commit)
    pages fuel 0 newRepositoryCache w0 (by simp [newRepositoryCache])
    (by intro k v h; simp [newRepositoryCache] at h) hserve hlen
  rw [isUploadProtectedByPolicy, halone]

/-- C7, at a concrete input: upload 1 (completed at 10, visible from `c1`) and then
upload 2 (completed at 20, visible from `c2` and `c1`) are evaluated at time 100 under
the branch policy `*` of duration 90 that retains intermediate commits. -/
theorem isUploadProtectedByPolicy_shared_cache_witness :
    ∃ (ids : List Int × List Int) (cache1 : repositoryCache) (w1 : World Unit) (b : Bool),
      handleUploadsLoop exampleExpirer 5 [treePolicy] [("*", globAny)] (fun _ => [])
        [upload1] [] [] newRepositoryCache world0 = (.ok ids, cache1, w1) ∧
      (isUploadProtectedByPolicy exampleExpirer 5 [treePolicy] [("*", globAny)] (fun _ => [])
        cache1 upload2 w1).1 = .ok b ∧
      ∀ w0 : World Unit,
        (isUploadProtectedByPolicy exampleExpirer 5 [treePolicy] [("*", globAny)]
          (fun _ => []) newRepositoryCache upload2 w0).1 = .ok b :=
  isUploadProtectedByPolicy_shared_cache exampleExpirer 5 [treePolicy] [("*", globAny)]
    (fun _ => []) 100 50 examplePages exampleContaining [upload1, upload2] world0
    (by
      intro policy hp
      rw [List.mem_singleton] at hp
      subst hp
      exact ⟨globAny, rfl⟩)
    (fun _ => rfl) (fun _ _ _ => rfl) (fun _ _ => rfl)
    (by decide)
    (by
      intro u hu
      simp only [List.mem_cons, List.mem_singleton, List.not_mem_nil, or_false] at hu
      rcases hu with rfl | rfl
      · exact ⟨10, rfl⟩
      · exact ⟨20, rfl⟩)
    (by
      intro u hu
      simp only [List.mem_cons, List.mem_singleton, List.not_mem_nil, or_false] at hu
      rcases hu with rfl | rfl
      · exact ⟨[["c1"]], ⟨by decide, rfl, rfl⟩, by decide⟩
      · exact ⟨[["c2"], ["c1"]], ⟨by decide, rfl, by decide, rfl, rfl⟩, by decide⟩)
    (by
      refine List.pairwise_cons.mpr ⟨?_, List.pairwise_singleton _ _⟩
      intro u hu f1 f2 h1 h2
      rw [List.mem_singleton] at hu
      subst hu
      simp only [upload1, upload2, Option.some.injEq] at h1 h2
      omega)
    [upload1] upload2 [] rfl

/-! ## Evaluation on a cache hit (C8) -/

set_option maxRecDepth 100000 in
/-- C8 as stated fails: upload 3 is visible from a first page of 100 commits, `d00` to
`d99`, and a second page holding `c1`, and `c1` is in the protected commits after upload 1
has been evaluated. The evaluation of upload 3 returns true, but before it reaches the
page of `c1` the slow path asks the gitserver for the branches containing `d00`. -/
theorem cache_hit_on_later_page_queries_gitserver :
    "c1" ∈ cacheAfterUpload1.protectedCommits ∧
    "c1" ∈ examplePages 3 100 ∧
    (isUploadProtectedByPolicy exampleExpirer 5 [developPolicy]
      [("develop", globExact "develop")] (fun _ => []) cacheAfterUpload1 upload3 world0).1 =
      .ok true ∧
    Call.BranchesContaining 50 "d00" ∈
      (isUploadProtectedByPolicy exampleExpirer 5 [developPolicy]
        [("develop", globExact "develop")] (fun _ => []) cacheAfterUpload1 upload3
        world0).2.2.trace :=
  ⟨by decide, by decide, rfl, by decide⟩

/-- C8, amended: for an upload with a completion time, compiled patterns, a store that
serves the pages of visible commits of the upload and a gitserver whose
`BranchesContaining` calls succeed, if a commit of some page is already in
`protectedCommits` then `isUploadProtectedByPolicy` returns true, and every
`BranchesContaining` query it makes is for a commit of a page served before that page;
when the commit is in the first page it makes no `BranchesContaining` query. -/
theorem isUploadProtectedByPolicy_cache_hit {σ : Type} (e : uploadExpirer σ) (fuel : Nat)
    (policies : List ConfigurationPolicy) (patterns : Patterns)
    (refDescriptions : String → List RefDescription) (upload : Upload) (finishedAt : Int)
    (visible : Int → List String) (cache : repositoryCache) (w : World σ)
    (pre : List (List String)) (page : List String) (post : List (List String))
    (commit : String)
    (hc : AllCompiled patterns policies) (hf : upload.FinishedAt = some finishedAt)
    (hvisible : ∀ s offset,
      (e.dbStore.CommitsVisibleToUpload s upload.ID 100 offset).1 = .ok (visible offset))
    (hbranches : ∀ s commit, ∃ branches,
      (e.gitserverClient.BranchesContaining s upload.RepositoryID commit).1 = .ok branches)
    (hserve : ServesPages visible 0 (pre ++ page :: post))
    (hpage : commit ∈ page) (hcached : commit ∈ cache.protectedCommits)
    (hfuel : pre.length < fuel) :
    ∃ (cache1 : repositoryCache) (w1 : World σ) (calls : List Call),
      isUploadProtectedByPolicy e fuel policies patterns refDescriptions cache upload w =
        (.ok true, cache1, w1) ∧
      w1.trace = w.trace ++ calls ∧
      (∀ c ∈ calls, c.isBranchesContaining = true →
        ∃ p ∈ pre, ∃ c0 ∈ p, c = Call.BranchesContaining upload.RepositoryID c0) ∧
      (pre = [] → ∀ c ∈ calls, c.isBranchesContaining = false) := by
  obtain ⟨cache1, w1, heq, calls, hcalls, hall⟩ := isUploadProtectedByPolicyFrom_cache_hit e
    policies patterns refDescriptions upload finishedAt visible hc hf hvisible hbranches pre
    page post commit hpage fuel 0 cache w hserve hcached hfuel
  have hquery : ∀ c ∈ calls, c.isBranchesContaining = true →
      ∃ p ∈ pre, ∃ c0 ∈ p, c = Call.BranchesContaining upload.RepositoryID c0 := by
    intro c hcm hbc
    rcases hall c hcm with h | h
    · cases c <;> simp_all [Call.isBranchesContaining, Call.isCommitsVisibleToUpload]
    · exact h
  refine ⟨cache1, w1, calls, heq, hcalls, hquery, ?_⟩
  rintro rfl c hcm
  cases hbc : c.isBranchesContaining with
  | false => rfl
  | true =>
    obtain ⟨p, hp, _⟩ := hquery c hcm hbc
    exact absurd hp (List.not_mem_nil _)

/-- C8 amended, at a concrete input: in the evaluation of upload 3 on the cache left by
upload 1 every `BranchesContaining` query is for a commit of the first page. -/
theorem isUploadProtectedByPolicy_cache_hit_witness :
    ∃ (cache1 : repositoryCache) (w1 : World Unit) (calls : List Call),
      isUploadProtectedByPolicy exampleExpirer 5 [developPolicy]
        [("develop", globExact "develop")] (fun _ => []) cacheAfterUpload1 upload3 world0 =
        (.ok true, cache1, w1) ∧
      w1.trace = world0.trace ++ calls ∧
      (∀ c ∈ calls, c.isBranchesContaining = true →
        ∃ p ∈ [fullPage], ∃ c0 ∈ p,
          c = Call.BranchesContaining upload3.RepositoryID c0) ∧
      ([fullPage] = [] → ∀ c ∈ calls, c.isBranchesContaining = false) :=
  isUploadProtectedByPolicy_cache_hit exampleExpirer 5 [developPolicy]
    [("develop", globExact "develop")] (fun _ => []) upload3 20 (examplePages 3)
    cacheAfterUpload1 world0 [fullPage] ["c1"] [] "c1"
    (by
      intro policy hp
      rw [List.mem_singleton] at hp
      subst hp
      exact ⟨globExact "develop", rfl⟩)
    rfl (fun _ _ => rfl) (fun _ c => ⟨exampleContaining c, rfl⟩)
    ⟨by decide, rfl, by decide, rfl, rfl⟩
    (List.mem_singleton.mpr rfl) (by decide) (by decide)

/-! ## Termination of the batch loop (C9) -/

/-- C9: the store is read through its expired flags and last-scan times. Suppose that
`GetUploads`, called with the options of the batch loop, returns each upload once and
only uploads of a finite universe that are not expired and whose last-scan time, if any,
precedes the boundary; that `UpdateUploadRetention` flags every expired ID and sets the
last-scan time of every protected ID to a time not before the boundary; that no call
unsettles an upload; and that the store serves finitely many pages of visible commits
for each upload. Then with more fuel than the universe has uploads the batch loop of
`handleRepository` ends, and among the calls it makes there is at most one request for
the first page of visible commits of any upload: no upload is evaluated twice. For a
non-negative delay the boundary `handleRepository` computes is not after the clock
reading it is computed from. -/
theorem handleRepositoryLoop_terminates {σ : Type} (e : uploadExpirer σ) (pageFuel : Nat)
    (repositoryID : Int) (policies : List ConfigurationPolicy) (patterns : Patterns)
    (refDescriptions : String → List RefDescription) (boundary : Int)
    (view : RetentionView σ) (all : List Int) (visible : Int → Int → List String)
    (fuel : Nat) (cache : repositoryCache) (w : World σ)
    (hget : ∀ s uploads,
      (e.dbStore.GetUploads s (getUploadsOptions e repositoryID boundary)).1 = .ok uploads →
        (uploads.map (·.ID)).Nodup ∧
        ∀ u ∈ uploads, u.ID ∈ all ∧ view.expired s u.ID = false ∧
          ∀ t, view.lastScan s u.ID = some t → t < boundary)
    (hupdate : ∀ s protectedIDs expiredIDs,
      (∀ uploadID ∈ expiredIDs,
        view.expired (e.dbStore.UpdateUploadRetention s protectedIDs expiredIDs).2 uploadID =
          true) ∧
      (∀ uploadID ∈ protectedIDs, ∃ t,
        view.lastScan (e.dbStore.UpdateUploadRetention s protectedIDs expiredIDs).2 uploadID =
          some t ∧ boundary ≤ t))
    (hkeep : ∀ s s1, StoreStep e s s1 → ∀ uploadID,
      view.settled boundary s uploadID = true → view.settled boundary s1 uploadID = true)
    (hvisible : ∀ s uploadID offset commits,
      (e.dbStore.CommitsVisibleToUpload s uploadID 100 offset).1 = .ok commits →
        commits = visible uploadID offset)
    (hpages : ∀ uploadID ∈ all, ∃ pages,
      ServesPages (visible uploadID) 0 pages ∧ pages.length < pageFuel)
    (hfuel : all.length < fuel) :
    (∃ added,
      timedOut (handleRepositoryLoop e pageFuel repositoryID policies patterns refDescriptions
        boundary fuel cache w).1 = false ∧
      (handleRepositoryLoop e pageFuel repositoryID policies patterns refDescriptions
        boundary fuel cache w).2.2.trace = w.trace ++ added ∧
      ∀ uploadID, evaluations uploadID added ≤ 1) ∧
    (0 ≤ e.uploadProcessDelay → e.uploadProcessDelay ≤ maxDuration →
      ∀ now, timeAdd now (negDuration e.uploadProcessDelay) ≤ now) := by
  constructor
  · obtain ⟨added, h1, h2, h3⟩ := handleRepositoryLoop_bounded e pageFuel repositoryID
      policies patterns refDescriptions boundary view all visible hget hupdate hkeep hvisible
      hpages all.length fuel cache w (List.length_filter_le _ _) hfuel
    exact ⟨added, h1, h2, fun uploadID => (h3 uploadID).1⟩
  · intro h0 hmax now
    unfold maxDuration at hmax
    unfold timeAdd negDuration
    omega

/-- C9, at a concrete input: the example store holds the uploads 1 and 2, the boundary is
the clock reading 100 and there is no policy, so one batch expires both uploads and the
next fetch is empty. -/
theorem handleRepositoryLoop_terminates_witness :
    (∃ added,
      timedOut (handleRepositoryLoop scanExpirer 5 50 [] [] (fun _ => []) 100 3
        newRepositoryCache { state := { expired := [], scanned := [] }, trace := [] }).1 =
        false ∧
      (handleRepositoryLoop scanExpirer 5 50 [] [] (fun _ => []) 100 3
        newRepositoryCache { state := { expired := [], scanned := [] }, trace := [] }).2.2.trace =
        [] ++ added ∧
      ∀ uploadID, evaluations uploadID added ≤ 1) ∧
    (0 ≤ scanExpirer.uploadProcessDelay → scanExpirer.uploadProcessDelay ≤ maxDuration →
      ∀ now, timeAdd now (negDuration scanExpirer.uploadProcessDelay) ≤ now) :=
  handleRepositoryLoop_terminates scanExpirer 5 50 [] [] (fun _ => []) 100 scanView [1, 2]
    examplePages 3 newRepositoryCache
    { state := { expired := [], scanned := [] }, trace := [] }
    (by
      intro s uploads h
      simp only [scanExpirer, scanStore, getUploadsOptions, Except.ok.injEq] at h
      subst h
      constructor
      · have hsub : List.Sublist
            (List.take (100 : Int).toNat ([upload1, upload2].filter (fun u =>
              decide (u.RepositoryID = 50) && !decide (u.ID ∈ s.expired) &&
              !(decide (u.ID ∈ s.scanned) &&
                !decide ((100 : Int) < (some (100 : Int)).getD 0)))))
            [upload1, upload2] :=
          (List.take_sublist _ _).trans (List.filter_sublist _)
        exact List.Nodup.sublist (hsub.map _) (by decide)
      · intro u hu
        have hmem := List.mem_filter.mp (List.mem_of_mem_take hu)
        obtain ⟨hin, hf⟩ := hmem
        simp only [Option.getD_some, lt_self_iff_false, decide_False, Bool.not_false,
          Bool.and_true, Bool.and_eq_true, decide_eq_true_eq, Bool.not_eq_true',
          decide_eq_false_iff_not] at hf
        refine ⟨?_, ?_, ?_⟩
        · simp only [List.mem_cons, List.mem_singleton, List.not_mem_nil, or_false] at hin
          rcases hin with rfl | rfl <;> decide
        · simp [scanView, hf.1.2]
        · intro t ht
          simp [scanView, hf.2] at ht)
    (by
      intro s protectedIDs expiredIDs
      constructor
      · intro uploadID h
        simp [scanView, scanExpirer, scanStore, h]
      · intro uploadID h
        exact ⟨100, by simp [scanView, scanExpirer, scanStore, h], le_refl _⟩)
    (by
      rintro s s1 (rfl | ⟨_, _, _, rfl⟩ | ⟨_, _, rfl⟩ | ⟨_, rfl⟩ | ⟨p, x, rfl⟩) uploadID h
      · exact h
      · exact h
      · exact h
      · exact h
      · simp only [RetentionView.settled, scanView, scanExpirer, scanStore, List.mem_append,
          Bool.or_eq_true, decide_eq_true_eq] at h ⊢
        rcases h with h | h
        · exact Or.inl (Or.inr h)
        · right
          by_cases hs : uploadID ∈ s.scanned
          · simp [hs]
          · simp [hs] at h)
    (by
      intro s uploadID offset commits h
      simp only [scanExpirer, scanStore, Except.ok.injEq] at h
      exact h.symm)
    (by
      intro uploadID h
      simp only [List.mem_cons, List.mem_singleton, List.not_mem_nil, or_false] at h
      rcases h with rfl | rfl
      · exact ⟨[["c1"]], ⟨by decide, rfl, rfl⟩, by decide⟩
      · exact ⟨[["c2"], ["c1"]], ⟨by decide, rfl, by decide, rfl, rfl⟩, by decide⟩)
    (by decide)

/-! ## The handler: no repository, every repository (C18, C11) -/

/-- C18: if `RepositoryIDsForRetentionScan` returns an empty list, `Handle` returns nil,
the only collaborator call it makes is that `RepositoryIDsForRetentionScan` call, and the
state of the collaborators is the one that call left: no policy is loaded, no reference
is fetched and no upload is fetched or updated. -/
theorem Handle_no_repository {σ : Type} (e : uploadExpirer σ) (fuel : Nat) (w : World σ)
    (hempty : (e.dbStore.RepositoryIDsForRetentionScan w.state e.repositoryProcessDelay
      e.repositoryBatchSize).1 = .ok []) :
    (Handle e fuel w).1 = .ok () ∧
    (Handle e fuel w).2.trace = w.trace ++
      [Call.RepositoryIDsForRetentionScan e.repositoryProcessDelay e.repositoryBatchSize] ∧
    (Handle e fuel w).2.state = (e.dbStore.RepositoryIDsForRetentionScan w.state
      e.repositoryProcessDelay e.repositoryBatchSize).2 := by
  simp only [Handle, World.call, hempty, List.length_nil, if_true, and_self]

/-- C18, at a concrete input: the store selects no repository, and `Handle` returns nil
after the one `RepositoryIDsForRetentionScan` call. -/
theorem Handle_no_repository_witness :
    (Handle expirerNoRepository 1 world0).1 = .ok () ∧
    (Handle expirerNoRepository 1 world0).2.trace =
      world0.trace ++ [Call.RepositoryIDsForRetentionScan 0 100] ∧
    (Handle expirerNoRepository 1 world0).2.state = () :=
  Handle_no_repository expirerNoRepository 1 world0 rfl

/-- C11: if `RepositoryIDsForRetentionScan` returns a non-empty list of IDs, the global
policies load, and every call of `handleRepository` for an ID of the list returns, with a
result or with an error, then `Handle` returns, and after the load of the global policies
the policy loads it makes are exactly those that open the calls of `handleRepository`:
one for each ID of the list, in list order. A returned error of one repository does not
keep the later ones from being scanned. -/
theorem Handle_scans_every_repository {σ : Type} (e : uploadExpirer σ) (fuel : Nat)
    (w : World σ) (repositoryIDs : List Int) (globalPolicies : List ConfigurationPolicy)
    (hids : (e.dbStore.RepositoryIDsForRetentionScan w.state e.repositoryProcessDelay
      e.repositoryBatchSize).1 = .ok repositoryIDs)
    (hne : repositoryIDs ≠ [])
    (hglobal : (e.dbStore.GetConfigurationPolicies
      (e.dbStore.RepositoryIDsForRetentionScan w.state e.repositoryProcessDelay
        e.repositoryBatchSize).2 { RepositoryID := 0, ForDataRetention := true }).1 =
      .ok globalPolicies)
    (hreturns : ∀ id ∈ repositoryIDs, ∀ w1,
      returned (handleRepository e fuel id globalPolicies w1).1 = true) :
    (Handle e fuel w).1 = .ok () ∧
    ∃ added,
      (Handle e fuel w).2.trace = w.trace ++
        [Call.RepositoryIDsForRetentionScan e.repositoryProcessDelay e.repositoryBatchSize,
         Call.GetConfigurationPolicies { RepositoryID := 0, ForDataRetention := true }] ++
        added ∧
      added.filter Call.isGetConfigurationPolicies =
        repositoryIDs.map (fun id => Call.GetConfigurationPolicies
          { RepositoryID := id, ForDataRetention := true }) := by
  have hlen : repositoryIDs.length ≠ 0 := fun h => hne (List.length_eq_zero.mp h)
  simp only [Handle, World.call, hids, hlen, if_false, hglobal]
  obtain ⟨added, err1, h1, h2, h3⟩ := handleLoop_policy_calls e fuel globalPolicies
    repositoryIDs none
    { state := (e.dbStore.GetConfigurationPolicies
        (e.dbStore.RepositoryIDsForRetentionScan w.state e.repositoryProcessDelay
          e.repositoryBatchSize).2 { RepositoryID := 0, ForDataRetention := true }).2,
      trace := w.trace ++
        [Call.RepositoryIDsForRetentionScan e.repositoryProcessDelay e.repositoryBatchSize] ++
        [Call.GetConfigurationPolicies { RepositoryID := 0, ForDataRetention := true }] }
    hreturns
  rcases hl : handleLoop e fuel globalPolicies repositoryIDs none
    { state := (e.dbStore.GetConfigurationPolicies
        (e.dbStore.RepositoryIDsForRetentionScan w.state e.repositoryProcessDelay
          e.repositoryBatchSize).2 { RepositoryID := 0, ForDataRetention := true }).2,
      trace := w.trace ++
        [Call.RepositoryIDsForRetentionScan e.repositoryProcessDelay e.repositoryBatchSize] ++
        [Call.GetConfigurationPolicies { RepositoryID := 0, ForDataRetention := true }] }
    with ⟨r, w3⟩
  rw [hl] at h1 h2
  simp only at h1 h2
  subst h1
  refine ⟨rfl, added, ?_, h3⟩
  simp only [h2, List.append_assoc, List.singleton_append]

/-- C11, at a concrete input: the store selects the repositories 50 and 51 and fails to
load the policies of repository 50. The scan of repository 50 returns that error, and
repository 51 is scanned after it. -/
theorem Handle_scans_every_repository_witness :
    (handleRepository expirerTwoRepositories 1 50 [] world0).1 =
      .error (.err (.msg "policies unavailable")) ∧
    (Handle expirerTwoRepositories 1 world0).1 = .ok () ∧
    ∃ added,
      (Handle expirerTwoRepositories 1 world0).2.trace = world0.trace ++
        [Call.RepositoryIDsForRetentionScan 0 100,
         Call.GetConfigurationPolicies { RepositoryID := 0, ForDataRetention := true }] ++
        added ∧
      added.filter Call.isGetConfigurationPolicies =
        [50, 51].map (fun id => Call.GetConfigurationPolicies
          { RepositoryID := id, ForDataRetention := true }) :=
  ⟨rfl, Handle_scans_every_repository expirerTwoRepositories 1 world0 [50, 51] [] rfl
    (by simp) rfl
    (by
      intro id hid w1
      simp only [List.mem_cons, List.mem_singleton, List.not_mem_nil, or_false] at hid
      rcases hid with rfl | rfl <;> rfl)⟩

/-! ## The boundary of a repository scan (C17) -/

/-- C17: within one `handleRepository` call there is one clock reading such that every
`GetUploads` call made during the call carries State `completed`, the repository ID,
OldestFirst true, Limit `uploadBatchSize` and, as LastRetentionScanBefore, that one
reading plus the negated `uploadProcessDelay`: the boundary is not recomputed between
batches. The negation is that of a 64-bit duration, so the boundary is the reading minus
the delay for every delay but the smallest duration. -/
theorem handleRepository_boundary {σ : Type} (e : uploadExpirer σ) (fuel : Nat)
    (repositoryID : Int) (globalPolicies : List ConfigurationPolicy) (w : World σ) :
    ∃ s added,
      (handleRepository e fuel repositoryID globalPolicies w).2.trace = w.trace ++ added ∧
      (∀ c ∈ added, c.isGetUploads = true →
        c = Call.GetUploads
          { State := "completed",
            RepositoryID := repositoryID,
            OldestFirst := true,
            Limit := e.uploadBatchSize,
            LastRetentionScanBefore :=
              some (timeAdd (e.timeNow s).1 (negDuration e.uploadProcessDelay)) }) ∧
      (minDuration < e.uploadProcessDelay → e.uploadProcessDelay ≤ maxDuration →
        timeAdd (e.timeNow s).1 (negDuration e.uploadProcessDelay) =
          (e.timeNow s).1 - e.uploadProcessDelay) := by
  obtain ⟨boundary, rest, ⟨s, hs⟩, htr, hall⟩ :=
    handleRepository_trace e fuel repositoryID globalPolicies w
  subst hs
  refine ⟨s, _, htr, ?_, ?_⟩
  · intro c hc hget
    rw [List.mem_cons] at hc
    rcases hc with rfl | hc
    · simp [Call.isGetUploads] at hget
    · have := hall c hc
      rcases this with h | h | h | h | h
      · cases c <;> simp_all [Call.isGetUploads, Call.isGlobCompile]
      · subst h; simp [Call.isGetUploads] at hget
      · rw [h]; rfl
      · cases c <;> simp_all [Call.isGetUploads, Call.isEvaluation,
          Call.isCommitsVisibleToUpload, Call.isBranchesContaining]
      · cases c <;> simp_all [Call.isGetUploads, Call.isUpdateUploadRetention]
  · intro hmin hmax
    unfold minDuration at hmin
    unfold maxDuration at hmax
    unfold timeAdd negDuration
    omega

/-- C17, at a concrete input: the example store holds the uploads 1 and 2 and the clock
reads 100 with no delay; the scan of repository 50 fetches one batch of two uploads and
then an empty one, both with the boundary 100. -/
theorem handleRepository_boundary_witness :
    (handleRepository scanExpirer 5 50 []
      { state := { expired := [], scanned := [] }, trace := [] }).2.trace =
      [Call.GetConfigurationPolicies { RepositoryID := 50, ForDataRetention := true },
       Call.RefDescriptions 50,
       Call.GetUploads
         { State := "completed", RepositoryID := 50, OldestFirst := true, Limit := 100,
           LastRetentionScanBefore := some 100 },
       Call.CommitsVisibleToUpload 1 100 0, Call.CommitsVisibleToUpload 1 100 1,
       Call.CommitsVisibleToUpload 2 100 0, Call.CommitsVisibleToUpload 2 100 1,
       Call.CommitsVisibleToUpload 2 100 2,
       Call.UpdateUploadRetention [] [1, 2],
       Call.GetUploads
         { State := "completed", RepositoryID := 50, OldestFirst := true, Limit := 100,
           LastRetentionScanBefore := some 100 }] ∧
    ∃ s added,
      (handleRepository scanExpirer 5 50 []
        { state := { expired := [], scanned := [] }, trace := [] }).2.trace = [] ++ added ∧
      (∀ c ∈ added, c.isGetUploads = true →
        c = Call.GetUploads
          { State := "completed",
            RepositoryID := 50,
            OldestFirst := true,
            Limit := scanExpirer.uploadBatchSize,
            LastRetentionScanBefore :=
              some (timeAdd (scanExpirer.timeNow s).1
                (negDuration scanExpirer.uploadProcessDelay)) }) ∧
      (minDuration < scanExpirer.uploadProcessDelay →
        scanExpirer.uploadProcessDelay ≤ maxDuration →
        timeAdd (scanExpirer.timeNow s).1 (negDuration scanExpirer.uploadProcessDelay) =
          (scanExpirer.timeNow s).1 - scanExpirer.uploadProcessDelay) :=
  ⟨by decide, handleRepository_boundary scanExpirer 5 50 []
    { state := { expired := [], scanned := [] }, trace := [] }⟩

/-! ## The partition of a batch (C16) -/

/-- C16: if every evaluation of the batch returns a boolean, the loop of `handleUploads`
ends with the IDs of the uploads that evaluated to true as the protected list and the
IDs of the others as the expired list, both in batch order; `handleUploads` then makes
its one `UpdateUploadRetention` call, with these two lists, after calls that are all
`CommitsVisibleToUpload` or `BranchesContaining` calls. The two lists together hold as
many IDs as the batch has uploads, and they are disjoint when the uploads of the batch
have distinct IDs. -/
theorem handleUploads_partition {σ : Type} (e : uploadExpirer σ) (fuel : Nat)
    (policies : List ConfigurationPolicy) (patterns : Patterns)
    (refDescriptions : String → List RefDescription) (cache : repositoryCache)
    (uploads : List Upload) (w : World σ) (outcomes : List Bool)
    (hok : batchOutcomes e fuel policies patterns refDescriptions uploads cache w =
      outcomes.map Except.ok) :
    (handleUploadsLoop e fuel policies patterns refDescriptions uploads [] [] cache w).1 =
      .ok (idsWithOutcome true uploads outcomes, idsWithOutcome false uploads outcomes) ∧
    (∃ calls,
      (handleUploads e fuel policies patterns refDescriptions cache uploads w).2.2.trace =
        w.trace ++ calls ++
          [Call.UpdateUploadRetention (idsWithOutcome true uploads outcomes)
            (idsWithOutcome false uploads outcomes)] ∧
      ∀ c ∈ calls, c.isEvaluation = true ∧ c.isUpdateUploadRetention = false) ∧
    (idsWithOutcome true uploads outcomes).length +
      (idsWithOutcome false uploads outcomes).length = uploads.length ∧
    ((uploads.map (fun u => u.ID)).Nodup →
      List.Disjoint (idsWithOutcome true uploads outcomes)
        (idsWithOutcome false uploads outcomes)) := by
  have hloop := handleUploadsLoop_partition e fuel policies patterns refDescriptions uploads
    [] [] cache w outcomes hok
  simp only [List.nil_append] at hloop
  refine ⟨hloop, ?_, idsWithOutcome_length uploads outcomes
    (batchOutcomes_length e fuel policies patterns refDescriptions uploads cache w outcomes
      hok), idsWithOutcome_disjoint uploads outcomes⟩
  have htrace := handleUploadsLoop_trace e fuel policies patterns refDescriptions uploads [] []
    cache w
  rcases hl : handleUploadsLoop e fuel policies patterns refDescriptions uploads [] [] cache w
    with ⟨r, cache1, w1⟩
  rw [hl] at hloop htrace
  simp only at hloop htrace
  subst hloop
  obtain ⟨calls, hcalls, hall⟩ := htrace
  refine ⟨calls, ?_, ?_⟩
  · rw [handleUploads_trace_of_loop _ _ _ _ _ _ _ _ _ _ _ hl, hcalls]
  · intro c hc
    have := hall c hc
    refine ⟨this, ?_⟩
    cases c <;> simp_all [Call.isEvaluation, Call.isUpdateUploadRetention,
      Call.isCommitsVisibleToUpload, Call.isBranchesContaining]

/-- C16, at a concrete input: under the branch policy `develop`, upload 4 is visible from
no commit and evaluates to false, upload 1 is visible from `c1`, which `develop`
contains, and evaluates to true; the one `UpdateUploadRetention` call lists upload 1 as
protected and upload 4 as expired. -/
theorem handleUploads_partition_witness :
    (handleUploads exampleExpirer 5 [developPolicy] [("develop", globExact "develop")]
      (fun _ => []) newRepositoryCache [upload4, upload1] world0).2.2.trace =
      [Call.CommitsVisibleToUpload 4 100 0, Call.CommitsVisibleToUpload 1 100 0,
       Call.BranchesContaining 50 "c1", Call.UpdateUploadRetention [1] [4]] ∧
    (handleUploadsLoop exampleExpirer 5 [developPolicy] [("develop", globExact "develop")]
      (fun _ => []) [upload4, upload1] [] [] newRepositoryCache world0).1 =
      .ok (idsWithOutcome true [upload4, upload1] [false, true],
        idsWithOutcome false [upload4, upload1] [false, true]) :=
  ⟨by decide,
    (handleUploads_partition exampleExpirer 5 [developPolicy]
      [("develop", globExact "develop")] (fun _ => []) newRepositoryCache [upload4, upload1]
      world0 [false, true] rfl).1⟩

/-! ## Evaluations that find no match (C13, C14) -/

/-- C13: with an empty policy list, a store that serves finitely many pages of visible
commits for each upload of the batch, and the cache in its empty start, every evaluation
of the batch returns false, the cache is still the empty one after the batch, the calls
before the `UpdateUploadRetention` call are all `CommitsVisibleToUpload` requests, none a
`BranchesContaining` query, and the `UpdateUploadRetention` call has an empty protected
list and every upload ID of the batch, in order, in the expired list. -/
theorem handleUploads_no_policy {σ : Type} (e : uploadExpirer σ) (fuel : Nat)
    (patterns : Patterns) (refDescriptions : String → List RefDescription)
    (uploads : List Upload) (w : World σ) (visible : Int → Int → List String)
    (hvisible : ∀ upload ∈ uploads, ∀ s offset,
      (e.dbStore.CommitsVisibleToUpload s upload.ID 100 offset).1 =
        .ok (visible upload.ID offset))
    (hpages : ∀ upload ∈ uploads, ∃ pages,
      ServesPages (visible upload.ID) 0 pages ∧ pages.length < fuel) :
    batchOutcomes e fuel [] patterns refDescriptions uploads newRepositoryCache w =
      uploads.map (fun _ => .ok false) ∧
    ∃ calls w1,
      handleUploadsLoop e fuel [] patterns refDescriptions uploads [] [] newRepositoryCache w =
        (.ok ([], uploads.map (fun u => u.ID)), newRepositoryCache, w1) ∧
      (handleUploads e fuel [] patterns refDescriptions newRepositoryCache uploads w).2.2.trace =
        w.trace ++ calls ++ [Call.UpdateUploadRetention [] (uploads.map (fun u => u.ID))] ∧
      ∀ c ∈ calls, c.isCommitsVisibleToUpload = true ∧ c.isBranchesContaining = false := by
  have heval : ∀ upload ∈ uploads, ∀ w, ∃ w1 : World σ,
      isUploadProtectedByPolicy e fuel [] patterns refDescriptions newRepositoryCache upload
        w = (.ok false, newRepositoryCache, w1) ∧
      TraceExt (fun c => c.isCommitsVisibleToUpload = true) w w1 := by
    intro upload hu w
    obtain ⟨pages, hserve, hfuel⟩ := hpages upload hu
    exact isUploadProtectedByPolicyFrom_no_match e [] patterns refDescriptions upload
      (visible upload.ID) (hvisible upload hu) newRepositoryCache rfl pages
      (fun page _ w => ⟨w, rfl, by
        simp only [isUploadProtectedByPolicyFastPath, filterPolicies, List.length_nil,
          if_true]⟩)
      (fun page _ w => slowPath_no_retain e [] patterns newRepositoryCache upload page w
        (fun p hp => by simp at hp))
      fuel 0 w hserve hfuel
  obtain ⟨w1, hloop, hout, calls, hcalls, hall⟩ := handleUploadsLoop_no_match e fuel []
    patterns refDescriptions newRepositoryCache uploads heval [] [] w
  simp only [List.nil_append] at hloop
  refine ⟨hout, calls, w1, hloop, ?_, ?_⟩
  · rw [handleUploads_trace_of_loop _ _ _ _ _ _ _ _ _ _ _ hloop, hcalls]
  · intro c hc
    have := hall c hc
    refine ⟨this, ?_⟩
    cases c <;> simp_all [Call.isCommitsVisibleToUpload, Call.isBranchesContaining]

/-- C13, at a concrete input: without a policy the uploads 1 and 2 of the example store
are both expired, after the requests for their pages of visible commits. -/
theorem handleUploads_no_policy_witness :
    batchOutcomes exampleExpirer 5 [] [] (fun _ => []) [upload1, upload2]
      newRepositoryCache world0 = [.ok false, .ok false] ∧
    (handleUploads exampleExpirer 5 [] [] (fun _ => []) newRepositoryCache [upload1, upload2]
      world0).2.2.trace =
      [Call.CommitsVisibleToUpload 1 100 0, Call.CommitsVisibleToUpload 1 100 1,
       Call.CommitsVisibleToUpload 2 100 0, Call.CommitsVisibleToUpload 2 100 1,
       Call.CommitsVisibleToUpload 2 100 2, Call.UpdateUploadRetention [] [1, 2]] :=
  ⟨(handleUploads_no_policy exampleExpirer 5 [] (fun _ => []) [upload1, upload2] world0
      examplePages (fun _ _ _ _ => rfl)
      (by
        intro upload hu
        simp only [List.mem_cons, List.mem_singleton, List.not_mem_nil, or_false] at hu
        rcases hu with rfl | rfl
        · exact ⟨[["c1"]], ⟨by decide, rfl, rfl⟩, by decide⟩
        · exact ⟨[["c2"], ["c1"]], ⟨by decide, rfl, by decide, rfl, rfl⟩, by decide⟩)).1,
    by decide⟩

/-- C14: for an upload with a completion time, a store that serves finitely many pages of
visible commits, none of them the tip of a branch or of a tag, and a policy list in which
no policy retains intermediate commits and no policy is of type `GIT_COMMIT`,
`isUploadProtectedByPolicy` started on the empty cache returns false and leaves the cache
empty, and every call it makes is a `CommitsVisibleToUpload` request: the branches that
contain the visible commits are not asked for, whatever they are. -/
theorem isUploadProtectedByPolicy_no_tip {σ : Type} (e : uploadExpirer σ) (fuel : Nat)
    (policies : List ConfigurationPolicy) (patterns : Patterns)
    (refDescriptions : String → List RefDescription) (upload : Upload) (w : World σ)
    (finishedAt : Int) (visible : Int → List String) (pages : List (List String))
    (hf : upload.FinishedAt = some finishedAt)
    (hvisible : ∀ s offset,
      (e.dbStore.CommitsVisibleToUpload s upload.ID 100 offset).1 = .ok (visible offset))
    (hpages : ServesPages visible 0 pages) (hfuel : pages.length < fuel)
    (htips : ∀ page ∈ pages, ∀ commit ∈ page,
      refNamesByType (refDescriptions commit) = ([], []))
    (hretain : ∀ p ∈ policies, p.RetainIntermediateCommits = false)
    (hcommit : ∀ p ∈ policies, p.Type_ ≠ "GIT_COMMIT") :
    ∃ calls w1,
      isUploadProtectedByPolicy e fuel policies patterns refDescriptions newRepositoryCache
        upload w = (.ok false, newRepositoryCache, w1) ∧
      w1.trace = w.trace ++ calls ∧
      ∀ c ∈ calls, c.isCommitsVisibleToUpload = true ∧ c.isBranchesContaining = false := by
  obtain ⟨w1, h1, calls, hcalls, hall⟩ := isUploadProtectedByPolicyFrom_no_match e policies
    patterns refDescriptions upload visible hvisible newRepositoryCache rfl pages
    (fun page hp w => fastPath_no_tip e policies patterns refDescriptions newRepositoryCache
      upload page w finishedAt hf (htips page hp) hcommit)
    (fun page _ w => slowPath_no_retain e policies patterns newRepositoryCache upload page w
      hretain)
    fuel 0 w hpages hfuel
  refine ⟨calls, w1, h1, hcalls, ?_⟩
  intro c hc
  have := hall c hc
  refine ⟨this, ?_⟩
  cases c <;> simp_all [Call.isCommitsVisibleToUpload, Call.isBranchesContaining]

/-- C14, at a concrete input: upload 1 is visible from `c1`, which is the tip of no ref
and is contained in `develop`; the branch policy `*` without intermediate commits
matches the name `develop` and covers the upload, yet the upload is not protected. -/
theorem isUploadProtectedByPolicy_no_tip_witness :
    exampleContaining "c1" = ["develop"] ∧ globAny.Match "develop" = true ∧
    covers 100 10 branchTipPolicy = true ∧
    ∃ calls w1,
      isUploadProtectedByPolicy exampleExpirer 2 [branchTipPolicy] [("*", globAny)]
        (fun _ => []) newRepositoryCache upload1 world0 = (.ok false, newRepositoryCache, w1) ∧
      w1.trace = world0.trace ++ calls ∧
      ∀ c ∈ calls, c.isCommitsVisibleToUpload = true ∧ c.isBranchesContaining = false :=
  ⟨by decide, rfl, rfl,
    isUploadProtectedByPolicy_no_tip exampleExpirer 2 [branchTipPolicy] [("*", globAny)]
      (fun _ => []) upload1 world0 10 (examplePages 1) [["c1"]] rfl (fun _ _ => rfl)
      ⟨by decide, rfl, rfl⟩ (by decide) (fun _ _ _ _ => rfl)
      (by intro p hp; rw [List.mem_singleton] at hp; subst hp; rfl)
      (by intro p hp; rw [List.mem_singleton] at hp; subst hp; decide)⟩

/-! ## Protection through the slow path only (C15) -/

/-- C15, as stated, fails: `c1` is the tip of no ref and is contained in `develop`, whose
name the branch policy `*` matches; that policy covers upload 1 and retains intermediate
commits. The policy list also holds a commit policy whose pattern matches the hash `c1`,
and the fast path returns true. -/
theorem fast_path_protects_by_commit_policy :
    refNamesByType ((fun _ => ([] : List RefDescription)) "c1") = ([], []) ∧
    exampleContaining "c1" = ["develop"] ∧
    treePolicy.RetainIntermediateCommits = true ∧
    (policyCoversUpload exampleExpirer.timeutilNow treePolicy upload1 world0).1 = .ok true ∧
    newContainsPolicyMatcher [("*", globAny), ("c1", globExact "c1")] "c1" ["develop"]
      [treePolicy] = .ok true ∧
    (isUploadProtectedByPolicyFastPath exampleExpirer [treePolicy, commitPolicy]
      [("*", globAny), ("c1", globExact "c1")] (fun _ => []) newRepositoryCache upload1
      ["c1"] world0).1 = .ok true :=
  ⟨rfl, by decide, rfl, rfl, rfl, rfl⟩

/-- C15, amended: for an upload with a completion time, compiled patterns, a clock that
reads `now`, a gitserver that answers `containing` and a branches cache consistent with
it, take a page of visible commits that are the tip of no branch and no tag, such that no
covering policy of type `GIT_COMMIT` matches the hash of a commit of the page, and such
that some commit of the page is contained in a branch whose name is matched by a policy
that covers the upload and retains intermediate commits. Then the fast path returns false
and leaves the cache as it was, and the slow path, run after it, returns true. -/
theorem isUploadProtectedByPolicy_slow_path_only {σ : Type} (e : uploadExpirer σ)
    (policies : List ConfigurationPolicy) (patterns : Patterns)
    (refDescriptions : String → List RefDescription) (cache : repositoryCache)
    (upload : Upload) (commits : List String) (w : World σ) (now finishedAt : Int)
    (containing : String → List String)
    (hc : AllCompiled patterns policies)
    (hnow : ∀ s, (e.timeutilNow s).1 = now) (hf : upload.FinishedAt = some finishedAt)
    (hcontaining : ∀ s commit,
      (e.gitserverClient.BranchesContaining s upload.RepositoryID commit).1 =
        .ok (containing commit))
    (hlru : LRUConsistent containing cache.branchesContaining)
    (htips : ∀ commit ∈ commits, refNamesByType (refDescriptions commit) = ([], []))
    (hhash : ∀ policy ∈ policies, policy.Type_ = "GIT_COMMIT" →
      (policyCoversUpload e.timeutilNow policy upload w).1 = .ok true →
      ∀ commit ∈ commits, globMatch (patterns.lookup policy.Pattern) commit = .ok false)
    (hbranch : ∃ commit ∈ commits, ∃ policy ∈ policies,
      policy.RetainIntermediateCommits = true ∧
      (policyCoversUpload e.timeutilNow policy upload w).1 = .ok true ∧
      newContainsPolicyMatcher patterns commit (containing commit) [policy] = .ok true) :
    ∃ (w1 : World σ) (cache2 : repositoryCache) (w2 : World σ),
      isUploadProtectedByPolicyFastPath e policies patterns refDescriptions cache upload
        commits w = (.ok false, cache, w1) ∧
      isUploadProtectedByPolicySlowPath e policies patterns cache upload commits w1 =
        (.ok true, cache2, w2) := by
  have hcov : ∀ policy, (policyCoversUpload e.timeutilNow policy upload w).1 = .ok true ↔
      covers now finishedAt policy = true := by
    intro policy
    rw [policyCoversUpload_eq _ _ _ _ _ _ hnow hf, Except.ok.injEq]
  have htipF : ∀ commit ∈ commits,
      tipProtected patterns refDescriptions (policies.filter (covers now finishedAt)) commit =
        false := by
    intro commit hcm
    rw [← Bool.not_eq_true]
    intro htrue
    obtain ⟨policy, hp, hk, hm⟩ := (tipProtected_filter_iff _ _ _ _ _ hc).mp htrue
    obtain ⟨ht, hg⟩ := newTipPolicyMatcher_no_names patterns commit (refDescriptions commit)
      policy (htips commit hcm) hm
    have := hhash policy hp ht ((hcov policy).mpr hk) commit hcm
    rw [this] at hg
    simp at hg
  obtain ⟨w1, _, hfast⟩ := fastPath_eq e policies patterns refDescriptions cache upload
    commits w now finishedAt hc hnow hf
  have hany : commits.any
      (tipProtected patterns refDescriptions (policies.filter (covers now finishedAt))) =
      false := by
    rw [List.any_eq_false]
    intro c hcm
    simp [htipF c hcm]
  have hfind : commits.find?
      (tipProtected patterns refDescriptions (policies.filter (covers now finishedAt))) =
      none := by
    rw [List.find?_eq_none]
    intro c hcm
    simp [htipF c hcm]
  rw [hany, hfind] at hfast
  obtain ⟨lru, w2, _, hslow⟩ := slowPath_eq e policies patterns cache upload commits w1 now
    finishedAt containing hc hnow hf hcontaining hlru
  obtain ⟨commit, hcm, policy, hp, hr, hk, hm⟩ := hbranch
  have hcon : commits.any (containsProtected patterns containing
      (policies.filter (fun policy =>
        policy.RetainIntermediateCommits && covers now finishedAt policy))) = true := by
    rw [List.any_eq_true]
    refine ⟨commit, hcm, (containsProtected_filter_iff _ _ _ _ _ hc).mpr
      ⟨policy, hp, ?_, hm⟩⟩
    simp [hr, (hcov policy).mp hk]
  rw [hcon] at hslow
  exact ⟨w1, _, w2, hfast, hslow⟩

/-- C15, amended, at a concrete input: under the branch policy `*` alone, the page `c1`
of upload 1 finds no match on the fast path and is protected by the slow path. -/
theorem isUploadProtectedByPolicy_slow_path_only_witness :
    (isUploadProtectedByPolicyFastPath exampleExpirer [treePolicy] [("*", globAny)]
      (fun _ => []) newRepositoryCache upload1 ["c1"] world0).1 = .ok false ∧
    ∃ (w1 : World Unit) (cache2 : repositoryCache) (w2 : World Unit),
      isUploadProtectedByPolicyFastPath exampleExpirer [treePolicy] [("*", globAny)]
        (fun _ => []) newRepositoryCache upload1 ["c1"] world0 =
        (.ok false, newRepositoryCache, w1) ∧
      isUploadProtectedByPolicySlowPath exampleExpirer [treePolicy] [("*", globAny)]
        newRepositoryCache upload1 ["c1"] w1 = (.ok true, cache2, w2) :=
  ⟨rfl,
    isUploadProtectedByPolicy_slow_path_only exampleExpirer [treePolicy] [("*", globAny)]
      (fun _ => []) newRepositoryCache upload1 ["c1"] world0 100 10 exampleContaining
      (by
        intro policy hp
        rw [List.mem_singleton] at hp
        subst hp
        exact ⟨globAny, rfl⟩)
      (fun _ => rfl) rfl (fun _ _ => rfl)
      (by intro k v h; simp [newRepositoryCache] at h)
      (fun _ _ => rfl)
      (by
        intro policy hp ht
        rw [List.mem_singleton] at hp
        subst hp
        exact absurd ht (by decide))
      ⟨"c1", List.mem_singleton.mpr rfl, treePolicy, List.mem_singleton.mpr rfl, rfl,
        rfl, rfl⟩⟩

/-! ## The branches cache does not change the decision (C19) -/

/-- C19: for a gitserver whose `BranchesContaining` calls return, in every state, the
branches `containing` gives for the commit, and a branches cache in which every entry
holds the branches `containing` gives for its commit, the slow path returns the same
outcome as it returns on a cache without entries; on both caches the calls it makes are
`BranchesContaining` queries only. With compiled patterns and a completion time that
outcome is a boolean. -/
theorem isUploadProtectedByPolicySlowPath_cache_independent {σ : Type} (e : uploadExpirer σ)
    (policies : List ConfigurationPolicy) (patterns : Patterns) (cache empty : repositoryCache)
    (upload : Upload) (commits : List String) (w : World σ)
    (containing : String → List String)
    (hcontaining : ∀ s commit,
      (e.gitserverClient.BranchesContaining s upload.RepositoryID commit).1 =
        .ok (containing commit))
    (hlru : LRUConsistent containing cache.branchesContaining)
    (hempty : empty.branchesContaining.items = []) :
    (isUploadProtectedByPolicySlowPath e policies patterns cache upload commits w).1 =
      (isUploadProtectedByPolicySlowPath e policies patterns empty upload commits w).1 ∧
    TraceExt (fun c => c.isBranchesContaining = true) w
      (isUploadProtectedByPolicySlowPath e policies patterns cache upload commits w).2.2 ∧
    TraceExt (fun c => c.isBranchesContaining = true) w
      (isUploadProtectedByPolicySlowPath e policies patterns empty upload commits w).2.2 ∧
    (AllCompiled patterns policies → upload.FinishedAt ≠ none →
      ∃ b : Bool,
        (isUploadProtectedByPolicySlowPath e policies patterns cache upload commits w).1 =
          .ok b) := by
  have hlru0 : LRUConsistent containing empty.branchesContaining := by
    intro key value h
    rw [hempty] at h
    simp at h
  refine ⟨?_, slowPath_trace _ _ _ _ _ _ _, slowPath_trace _ _ _ _ _ _ _, ?_⟩
  · simp only [isUploadProtectedByPolicySlowPath]
    rcases filterPolicies
      (fun policy (w : World σ) =>
        if policy.RetainIntermediateCommits then
          policyCoversUpload e.timeutilNow policy upload w
        else (.ok false, w)) policies w with ⟨r, w1⟩
    cases r with
    | error f => rfl
    | ok kept =>
      simp only
      split
      · rfl
      · exact slowPathLoop_cache_independent e patterns kept upload containing hcontaining
          commits cache empty w1 w1 hlru hlru0
  · intro hc hf
    cases hfin : upload.FinishedAt with
    | none => exact absurd hfin hf
    | some finishedAt =>
      obtain ⟨b, cache1, w1, h, _⟩ := slowPath_ok e policies patterns cache upload commits w
        finishedAt hc hfin (fun s commit => ⟨_, hcontaining s commit⟩)
      exact ⟨b, by rw [h]⟩

/-- C19, at a concrete input: the cache holds the branches that contain `c1`, and the slow
path protects upload 1 under the policy `develop` without a gitserver query; on the empty
cache it returns the same after one query. -/
theorem isUploadProtectedByPolicySlowPath_cache_independent_witness :
    (isUploadProtectedByPolicySlowPath exampleExpirer [developPolicy]
      [("develop", globExact "develop")] cacheWithBranches upload1 ["c1"] world0).2.2.trace =
      [] ∧
    (isUploadProtectedByPolicySlowPath exampleExpirer [developPolicy]
      [("develop", globExact "develop")] newRepositoryCache upload1 ["c1"] world0).2.2.trace =
      [Call.BranchesContaining 50 "c1"] ∧
    (isUploadProtectedByPolicySlowPath exampleExpirer [developPolicy]
      [("develop", globExact "develop")] newRepositoryCache upload1 ["c1"] world0).1 =
      .ok true ∧
    (isUploadProtectedByPolicySlowPath exampleExpirer [developPolicy]
      [("develop", globExact "develop")] cacheWithBranches upload1 ["c1"] world0).1 =
      (isUploadProtectedByPolicySlowPath exampleExpirer [developPolicy]
        [("develop", globExact "develop")] newRepositoryCache upload1 ["c1"] world0).1 :=
  ⟨by decide, by decide, rfl,
    (isUploadProtectedByPolicySlowPath_cache_independent exampleExpirer [developPolicy]
      [("develop", globExact "develop")] cacheWithBranches newRepositoryCache upload1 ["c1"]
      world0 exampleContaining (fun _ _ => rfl)
      (by
        intro key value h
        simp only [cacheWithBranches, List.mem_singleton, Prod.mk.injEq] at h
        obtain ⟨rfl, rfl⟩ := h
        rfl)
      rfl).1⟩

/-! ## The retention flag of a policy (C12) -/

/-- C12, as stated, fails: the tag policy and the branch policy below have the flag
`RetentionEnabled` false. With the tag policy alone the fast path and
`isUploadProtectedByPolicy` return true for upload 1, whose visible commit `c1` is the
tip of the tag `v1`; with the branch policy alone the slow path returns true, `c1` being
contained in `develop`. With the empty policy list all three return false. -/
theorem disabled_policy_protects :
    disabledTagPolicy.RetentionEnabled = false ∧
    disabledDevelopPolicy.RetentionEnabled = false ∧
    (isUploadProtectedByPolicyFastPath exampleExpirer [disabledTagPolicy] [("*", globAny)]
      exampleTags newRepositoryCache upload1 ["c1"] world0).1 = .ok true ∧
    (isUploadProtectedByPolicyFastPath exampleExpirer [] [("*", globAny)]
      exampleTags newRepositoryCache upload1 ["c1"] world0).1 = .ok false ∧
    (isUploadProtectedByPolicySlowPath exampleExpirer [disabledDevelopPolicy]
      [("develop", globExact "develop")] newRepositoryCache upload1 ["c1"] world0).1 =
      .ok true ∧
    (isUploadProtectedByPolicySlowPath exampleExpirer []
      [("develop", globExact "develop")] newRepositoryCache upload1 ["c1"] world0).1 =
      .ok false ∧
    (isUploadProtectedByPolicy exampleExpirer 2 [disabledTagPolicy] [("*", globAny)]
      exampleTags newRepositoryCache upload1 world0).1 = .ok true ∧
    (isUploadProtectedByPolicy exampleExpirer 2 [] [("*", globAny)]
      exampleTags newRepositoryCache upload1 world0).1 = .ok false :=
  ⟨rfl, rfl, rfl, rfl, rfl, rfl, rfl, rfl⟩

/-- C12, amended: the fast path, the slow path and `isUploadProtectedByPolicy` do not read
the flag `RetentionEnabled`: for every policy list, upload, page of commits, cache and
state of the collaborators, their outcome, cache and calls are the same when the flags of
the policies are replaced in any way. Policies without retention are left out by the
store alone: every `GetConfigurationPolicies` call that `Handle` makes, for the global
policies and for each repository, asks with `ForDataRetention` true. -/
theorem RetentionEnabled_not_read {σ : Type} (e : uploadExpirer σ) (fuel : Nat)
    (policies : List ConfigurationPolicy) (patterns : Patterns)
    (refDescriptions : String → List RefDescription) (cache : repositoryCache)
    (upload : Upload) (commits : List String) (w : World σ)
    (flags : ConfigurationPolicy → Bool) :
    isUploadProtectedByPolicyFastPath e (policies.map (withRetentionEnabled flags)) patterns
        refDescriptions cache upload commits w =
      isUploadProtectedByPolicyFastPath e policies patterns refDescriptions cache upload
        commits w ∧
    isUploadProtectedByPolicySlowPath e (policies.map (withRetentionEnabled flags)) patterns
        cache upload commits w =
      isUploadProtectedByPolicySlowPath e policies patterns cache upload commits w ∧
    isUploadProtectedByPolicy e fuel (policies.map (withRetentionEnabled flags)) patterns
        refDescriptions cache upload w =
      isUploadProtectedByPolicy e fuel policies patterns refDescriptions cache upload w ∧
    ∃ added, (Handle e fuel w).2.trace = w.trace ++ added ∧
      ∀ c ∈ added, c.isGetConfigurationPolicies = true →
        ∃ id, c = Call.GetConfigurationPolicies
          { RepositoryID := id, ForDataRetention := true } :=
  ⟨fastPath_map e (withRetentionEnabled flags) (fun _ => rfl) (fun _ => rfl) (fun _ => rfl)
      policies patterns refDescriptions cache upload commits w,
    slowPath_map e (withRetentionEnabled flags) (fun _ => rfl) (fun _ => rfl) (fun _ => rfl)
      policies patterns cache upload commits w,
    isUploadProtectedByPolicyFrom_map e (withRetentionEnabled flags) (fun _ => rfl)
      (fun _ => rfl) (fun _ => rfl) (fun _ => rfl) policies patterns refDescriptions upload
      fuel 0 cache w,
    Handle_policy_options e fuel w⟩

/-- C12, amended, at a concrete input: the tag policy with the flag false protects upload
1 exactly as it does with the flag set. -/
theorem RetentionEnabled_not_read_witness :
    [disabledTagPolicy].map (withRetentionEnabled (fun _ => true)) =
      [{ disabledTagPolicy with RetentionEnabled := true }] ∧
    isUploadProtectedByPolicy exampleExpirer 2
        ([disabledTagPolicy].map (withRetentionEnabled (fun _ => true))) [("*", globAny)]
        exampleTags newRepositoryCache upload1 world0 =
      isUploadProtectedByPolicy exampleExpirer 2 [disabledTagPolicy] [("*", globAny)]
        exampleTags newRepositoryCache upload1 world0 :=
  ⟨rfl, (RetentionEnabled_not_read exampleExpirer 2 [disabledTagPolicy] [("*", globAny)]
    exampleTags newRepositoryCache upload1 ["c1"] world0 (fun _ => true)).2.2.1⟩

/-! ## Running a scan again (C20) -/

/-- C20: take two runs of the evaluation of the same sequence of uploads, with the same
policies, patterns and reference descriptions, each from the same cache, the fresh one in
particular, in two states of the collaborators in which the clock, `CommitsVisibleToUpload`
and `BranchesContaining` give the same answers. Both runs end with the same outcome, so
with the same protected and expired ID lists when they produce lists, and with the same
cache, so that the runs of a next batch agree as well; and the `UpdateUploadRetention`
calls that `handleUploads` then makes carry the same two lists. -/
theorem handleUploads_rerun {σ : Type} (e : uploadExpirer σ) (fuel : Nat)
    (policies : List ConfigurationPolicy) (patterns : Patterns)
    (refDescriptions : String → List RefDescription) (uploads : List Upload)
    (cache : repositoryCache) (w1 w2 : World σ)
    (hnow : ∀ s1 s2, (e.timeutilNow s1).1 = (e.timeutilNow s2).1)
    (hvisible : ∀ s1 s2 uploadID offset,
      (e.dbStore.CommitsVisibleToUpload s1 uploadID 100 offset).1 =
        (e.dbStore.CommitsVisibleToUpload s2 uploadID 100 offset).1)
    (hcontaining : ∀ s1 s2 repositoryID commit,
      (e.gitserverClient.BranchesContaining s1 repositoryID commit).1 =
        (e.gitserverClient.BranchesContaining s2 repositoryID commit).1) :
    (handleUploadsLoop e fuel policies patterns refDescriptions uploads [] []
        newRepositoryCache w1).1 =
      (handleUploadsLoop e fuel policies patterns refDescriptions uploads [] []
        newRepositoryCache w2).1 ∧
    (handleUploadsLoop e fuel policies patterns refDescriptions uploads [] [] cache w1).1 =
      (handleUploadsLoop e fuel policies patterns refDescriptions uploads [] [] cache w2).1 ∧
    (handleUploadsLoop e fuel policies patterns refDescriptions uploads [] [] cache w1).2.1 =
      (handleUploadsLoop e fuel policies patterns refDescriptions uploads [] [] cache w2).2.1 ∧
    ∀ ids,
      (handleUploadsLoop e fuel policies patterns refDescriptions uploads [] [] cache w1).1 =
        .ok ids →
      (∃ calls,
        (handleUploads e fuel policies patterns refDescriptions cache uploads w1).2.2.trace =
          w1.trace ++ calls ++ [Call.UpdateUploadRetention ids.1 ids.2]) ∧
      (∃ calls,
        (handleUploads e fuel policies patterns refDescriptions cache uploads w2).2.2.trace =
          w2.trace ++ calls ++ [Call.UpdateUploadRetention ids.1 ids.2]) := by
  have hfresh := handleUploadsLoop_agree e hnow hvisible hcontaining fuel policies patterns
    refDescriptions uploads [] [] newRepositoryCache w1 w2
  have h := handleUploadsLoop_agree e hnow hvisible hcontaining fuel policies patterns
    refDescriptions uploads [] [] cache w1 w2
  refine ⟨hfresh.1, h.1, h.2, ?_⟩
  intro ids hids
  have hids2 := hids
  rw [h.1] at hids2
  have key : ∀ w : World σ,
      (handleUploadsLoop e fuel policies patterns refDescriptions uploads [] [] cache w).1 =
        .ok ids →
      ∃ calls,
        (handleUploads e fuel policies patterns refDescriptions cache uploads w).2.2.trace =
          w.trace ++ calls ++ [Call.UpdateUploadRetention ids.1 ids.2] := by
    intro w hw
    have htrace := handleUploadsLoop_trace e fuel policies patterns refDescriptions uploads []
      [] cache w
    rcases hl : handleUploadsLoop e fuel policies patterns refDescriptions uploads [] [] cache
      w with ⟨r, cache1, v⟩
    rw [hl] at hw htrace
    simp only at hw htrace
    subst hw
    obtain ⟨calls, hcalls, _⟩ := htrace
    exact ⟨calls, by rw [handleUploads_trace_of_loop _ _ _ _ _ _ _ _ _ _ _ hl, hcalls]⟩
  exact ⟨key w1 hids, key w2 hids2⟩

/-- C20, at a concrete input: the example store with retention scans answers the requests
for visible commits and containing branches in the same way in every state; from the
state without scans and from a state in which upload 1 has been scanned and upload 4
expired, the evaluation of the uploads 1 and 4 under the branch policy `develop` lists
upload 1 as protected and upload 4 as expired. -/
theorem handleUploads_rerun_witness :
    (handleUploadsLoop scanExpirer 5 [developPolicy] [("develop", globExact "develop")]
      (fun _ => []) [upload1, upload4] [] [] newRepositoryCache
      { state := { expired := [], scanned := [] }, trace := [] }).1 = .ok ([1], [4]) ∧
    (handleUploadsLoop scanExpirer 5 [developPolicy] [("develop", globExact "develop")]
      (fun _ => []) [upload1, upload4] [] [] newRepositoryCache
      { state := { expired := [], scanned := [] }, trace := [] }).1 =
    (handleUploadsLoop scanExpirer 5 [developPolicy] [("develop", globExact "develop")]
      (fun _ => []) [upload1, upload4] [] [] newRepositoryCache
      { state := { expired := [4], scanned := [1] },
        trace := [Call.UpdateUploadRetention [1] [4]] }).1 :=
  ⟨rfl,
    (handleUploads_rerun scanExpirer 5 [developPolicy] [("develop", globExact "develop")]
      (fun _ => []) [upload1, upload4] newRepositoryCache
      { state := { expired := [], scanned := [] }, trace := [] }
      { state := { expired := [4], scanned := [1] },
        trace := [Call.UpdateUploadRetention [1] [4]] }
      (fun _ _ => rfl) (fun _ _ _ _ => rfl) (fun _ _ _ _ => rfl)).1⟩

/-! ## The compile loop (C22, C23) -/

/-- C22: if the policies of the repository load and the pattern of every policy of the
merged list compiles, then among the calls of `handleRepository` there is exactly one call
of the glob compiler for each pattern string that occurs in the merged list, and none for
any other string, however many policies share a pattern. -/
theorem handleRepository_compiles_once {σ : Type} (e : uploadExpirer σ) (fuel : Nat)
    (repositoryID : Int) (globalPolicies repositoryPolicies : List ConfigurationPolicy)
    (w : World σ)
    (hload : (e.dbStore.GetConfigurationPolicies w.state
      { RepositoryID := repositoryID, ForDataRetention := true }).1 = .ok repositoryPolicies)
    (hcompile : ∀ policy ∈ globalPolicies ++ repositoryPolicies,
      ∃ g, e.globCompile policy.Pattern = .ok g) :
    ∃ added,
      (handleRepository e fuel repositoryID globalPolicies w).2.trace = w.trace ++ added ∧
      ∀ pattern, added.count (Call.globCompile pattern) =
        if pattern ∈ (globalPolicies ++ repositoryPolicies).map (fun p => p.Pattern) then 1
        else 0 := by
  obtain ⟨patterns1, compiled, hcp, hnodup, hsub, hall⟩ := compilePatterns_calls e
    (globalPolicies ++ repositoryPolicies) []
    (w.call (.GetConfigurationPolicies
        { RepositoryID := repositoryID, ForDataRetention := true })
      (fun s => e.dbStore.GetConfigurationPolicies s
        { RepositoryID := repositoryID, ForDataRetention := true })).2 hcompile
  have hmem : ∀ pattern, pattern ∈ compiled ↔
      pattern ∈ (globalPolicies ++ repositoryPolicies).map (fun p => p.Pattern) := by
    intro pattern
    constructor
    · exact fun h => (hsub pattern h).2
    · intro h
      obtain ⟨p, hp, rfl⟩ := List.mem_map.mp h
      exact hall p hp rfl
  have hafter : ∀ (calls : List Call),
      (∀ c ∈ calls, c = Call.RefDescriptions repositoryID ∨ c.isGetUploads = true ∨
        c.isEvaluation = true ∨ c.isUpdateUploadRetention = true) →
      ∀ pattern, calls.count (Call.globCompile pattern) = 0 := by
    intro calls hcalls pattern
    rw [List.count_eq_zero]
    intro hin
    have := hcalls _ hin
    simp [Call.isGetUploads, Call.isEvaluation, Call.isCommitsVisibleToUpload,
      Call.isBranchesContaining, Call.isUpdateUploadRetention] at this
  have hfinal : ∀ calls : List Call,
      (∀ c ∈ calls, c = Call.RefDescriptions repositoryID ∨ c.isGetUploads = true ∨
        c.isEvaluation = true ∨ c.isUpdateUploadRetention = true) →
      ∀ pattern,
        (Call.GetConfigurationPolicies
            { RepositoryID := repositoryID, ForDataRetention := true } ::
          (compiled.map Call.globCompile ++ calls)).count (Call.globCompile pattern) =
        if pattern ∈ (globalPolicies ++ repositoryPolicies).map (fun p => p.Pattern) then 1
        else 0 := by
    intro calls hcalls pattern
    rw [List.count_cons_of_ne (by simp), List.count_append, hafter calls hcalls pattern,
      count_globCompile_map pattern compiled hnodup, Nat.add_zero]
    by_cases h : pattern ∈ compiled
    · rw [if_pos h, if_pos ((hmem pattern).mp h)]
    · rw [if_neg h, if_neg (fun h2 => h ((hmem pattern).mpr h2))]
  simp only [World.call, hload] at hcp
  simp only [handleRepository, World.call, hload, hcp]
  rcases href : e.gitserverClient.RefDescriptions
    (e.dbStore.GetConfigurationPolicies w.state
      { RepositoryID := repositoryID, ForDataRetention := true }).2 repositoryID
    with ⟨r3, s3⟩
  cases r3 with
  | error err =>
    refine ⟨_ :: (compiled.map Call.globCompile ++ [Call.RefDescriptions repositoryID]),
      by simp, hfinal _ ?_⟩
    intro c hc
    rw [List.mem_singleton] at hc
    exact Or.inl hc
  | ok refDescriptions =>
    simp only
    obtain ⟨calls, hcalls, hallc⟩ := handleRepositoryLoop_trace e fuel repositoryID
      (globalPolicies ++ repositoryPolicies) patterns1 refDescriptions
      (timeAdd (e.timeNow s3).1 (negDuration e.uploadProcessDelay)) fuel newRepositoryCache
      { state := (e.timeNow s3).2,
        trace := w.trace ++ [Call.GetConfigurationPolicies
            { RepositoryID := repositoryID, ForDataRetention := true }] ++
          compiled.map Call.globCompile ++ [Call.RefDescriptions repositoryID] }
    refine ⟨_ :: (compiled.map Call.globCompile ++
      (Call.RefDescriptions repositoryID :: calls)), ?_, hfinal _ ?_⟩
    · rw [hcalls]
      simp
    · intro c hc
      rw [List.mem_cons] at hc
      rcases hc with rfl | hc
      · exact Or.inl rfl
      · rcases hallc c hc with h | h | h
        · exact Or.inr (Or.inl (by rw [h]; rfl))
        · exact Or.inr (Or.inr (Or.inl h))
        · exact Or.inr (Or.inr (Or.inr h))

/-- C22, at a concrete input: the global tag policy and the repository's branch policy
share the pattern `*`, and the scan of repository 50 compiles it once. -/
theorem handleRepository_compiles_once_witness :
    (handleRepository exampleExpirer 1 50 [tagPolicy, treePolicy] world0).2.trace =
      [Call.GetConfigurationPolicies { RepositoryID := 50, ForDataRetention := true },
       Call.globCompile "*", Call.RefDescriptions 50,
       Call.GetUploads
         { State := "completed", RepositoryID := 50, OldestFirst := true, Limit := 100,
           LastRetentionScanBefore := some 100 }] ∧
    ∃ added,
      (handleRepository exampleExpirer 1 50 [tagPolicy, treePolicy] world0).2.trace =
        world0.trace ++ added ∧
      ∀ pattern, added.count (Call.globCompile pattern) =
        if pattern ∈ ([tagPolicy, treePolicy] ++ []).map
            (fun (p : ConfigurationPolicy) => p.Pattern) then 1
        else 0 :=
  ⟨by decide, handleRepository_compiles_once exampleExpirer 1 50 [tagPolicy, treePolicy] []
    world0 rfl (by
      intro policy hp
      simp only [List.append_nil, List.mem_cons, List.mem_singleton, List.not_mem_nil,
        or_false] at hp
      rcases hp with rfl | rfl <;> exact ⟨globAny, rfl⟩)⟩

/-- C23: when the compile loop of `handleRepository` ends without error, the patterns map
it returns has an entry for the pattern of every policy of the merged list, hence of every
sub-list, the filtered ones in particular; on any such sub-list, any commit, reference
descriptions and branches, the tip matcher and the containment matcher return a boolean:
no lookup hits a missing entry. -/
theorem compilePatterns_complete {σ : Type} (e : uploadExpirer σ)
    (policies : List ConfigurationPolicy) (w : World σ) (patterns : Patterns)
    (hok : (compilePatterns e policies [] w).1 = .ok patterns) :
    AllCompiled patterns policies ∧
    (∀ keep : ConfigurationPolicy → Bool, AllCompiled patterns (policies.filter keep)) ∧
    ∀ sub : List ConfigurationPolicy, (∀ p ∈ sub, p ∈ policies) →
      (∀ commit refDescriptions, ∃ b : Bool,
        newTipPolicyMatcher patterns commit refDescriptions sub = .ok b) ∧
      (∀ commit branches, ∃ b : Bool,
        newContainsPolicyMatcher patterns commit branches sub = .ok b) := by
  have hc := (compilePatterns_entries e policies [] w patterns hok).2
  refine ⟨hc, fun keep => AllCompiled_filter _ _ _ hc, ?_⟩
  intro sub hsub
  have hs := AllCompiled_of_subset patterns policies sub hc hsub
  constructor
  · intro commit refDescriptions
    simp only [newTipPolicyMatcher, tipPolicyMatcherLoop_eq _ _ _ _ _ hs]
    exact ⟨_, rfl⟩
  · intro commit branches
    simp only [newContainsPolicyMatcher, containsPolicyMatcherLoop_eq _ _ _ hs]
    exact ⟨_, rfl⟩

/-- C23, at a concrete input: the compile loop on the tag policy and the branch policy
`develop` gives a map with the patterns `*` and `develop`. -/
theorem compilePatterns_complete_witness :
    AllCompiled [("develop", globAny), ("*", globAny)] [tagPolicy, developPolicy] :=
  (compilePatterns_complete exampleExpirer [tagPolicy, developPolicy] world0
    [("develop", globAny), ("*", globAny)] rfl).1

/-! ## The processing order (C21) and the fast path before the slow path (C30) -/

/-- C21: there are a policy list and two uploads that share a visible commit for which
the order of evaluation changes the decision. The clock reads 100 and the branch policy
`develop` has a duration of 85, so it covers the younger upload 2, completed at 20, and
not the older upload 1, completed at 10; both are visible from `c1`, which `develop`
contains. Evaluated against one shared cache, younger first, both uploads are protected,
the older one by the commit the younger one left in the cache; evaluated oldest first,
the older upload is expired. -/
theorem decision_depends_on_order :
    ∃ (policies : List ConfigurationPolicy) (patterns : Patterns) (older younger : Upload)
      (finishedOlder finishedYounger : Int) (commit : String),
      older.FinishedAt = some finishedOlder ∧ younger.FinishedAt = some finishedYounger ∧
      finishedOlder < finishedYounger ∧
      commit ∈ examplePages older.ID 0 ∧ commit ∈ examplePages younger.ID 1 ∧
      (handleUploadsLoop exampleExpirer 5 policies patterns (fun _ => []) [younger, older]
        [] [] newRepositoryCache world0).1 = .ok ([younger.ID, older.ID], []) ∧
      (handleUploadsLoop exampleExpirer 5 policies patterns (fun _ => []) [older, younger]
        [] [] newRepositoryCache world0).1 = .ok ([younger.ID], [older.ID]) :=
  ⟨[shortDevelopPolicy], [("develop", globExact "develop")], upload1, upload2, 10, 20, "c1",
    rfl, rfl, by decide, by decide, by decide, rfl, rfl⟩

/-- C30: on a page of visible commits on which the fast path returns true,
`isUploadProtectedByPolicy` returns true in the state the fast path left, and the only
call it has made for that page is the `CommitsVisibleToUpload` request: the slow path is
not run and no `BranchesContaining` query is made. The same holds on every page of the
loop, at whatever offset it is served. -/
theorem isUploadProtectedByPolicy_fast_path_true {σ : Type} (e : uploadExpirer σ)
    (policies : List ConfigurationPolicy) (patterns : Patterns)
    (refDescriptions : String → List RefDescription) (upload : Upload) (fuel : Nat)
    (offset : Int) (cache : repositoryCache) (w : World σ) (commits : List String)
    (cache2 : repositoryCache) (w2 : World σ)
    (hpage : (e.dbStore.CommitsVisibleToUpload w.state upload.ID 100 offset).1 = .ok commits)
    (hne : commits ≠ [])
    (hmiss : ∀ commit ∈ commits, commit ∉ cache.protectedCommits)
    (hfast : isUploadProtectedByPolicyFastPath e policies patterns refDescriptions cache
      upload commits
      (w.call (.CommitsVisibleToUpload upload.ID 100 offset)
        (fun s => e.dbStore.CommitsVisibleToUpload s upload.ID 100 offset)).2 =
      (.ok true, cache2, w2)) :
    isUploadProtectedByPolicyFrom e policies patterns refDescriptions upload (fuel + 1) offset
      cache w = (.ok true, cache2, w2) ∧
    w2.trace = w.trace ++ [Call.CommitsVisibleToUpload upload.ID 100 offset] := by
  have htr := fastPath_trace e policies patterns refDescriptions cache upload commits
    (w.call (.CommitsVisibleToUpload upload.ID 100 offset)
      (fun s => e.dbStore.CommitsVisibleToUpload s upload.ID 100 offset)).2
  rw [hfast] at htr
  have hlen : commits.length ≠ 0 := fun h => hne (List.length_eq_zero.mp h)
  have hhit : commits.any (fun commit => decide (commit ∈ cache.protectedCommits)) = false := by
    rw [List.any_eq_false]
    intro c hc
    simpa using hmiss c hc
  refine ⟨?_, htr⟩
  simp only [World.call] at hfast
  simp only [isUploadProtectedByPolicyFrom, World.call, hpage, hlen, if_false, hhit,
    Bool.false_eq_true, hfast]

/-- C30, at a concrete input: `c1` is the tip of the tag `v1`, the tag policy `*` covers
upload 1, and the evaluation ends after the request for the page. -/
theorem isUploadProtectedByPolicy_fast_path_true_witness :
    isUploadProtectedByPolicyFrom exampleExpirer [tagPolicy] [("*", globAny)] exampleTags
      upload1 (1 + 1) 0 newRepositoryCache world0 =
      (.ok true, { newRepositoryCache with protectedCommits := ["c1"] },
        { state := (), trace := [Call.CommitsVisibleToUpload 1 100 0] }) :=
  (isUploadProtectedByPolicy_fast_path_true exampleExpirer [tagPolicy] [("*", globAny)]
    exampleTags upload1 1 0 newRepositoryCache world0 ["c1"]
    { newRepositoryCache with protectedCommits := ["c1"] }
    { state := (), trace := [Call.CommitsVisibleToUpload 1 100 0] } rfl (by decide)
    (by intro commit _; simp [newRepositoryCache]) rfl).1

/-! ## The bound of the branches cache (C26) -/

/-- C26: the branches cache of a fresh repository cache has the capacity
`repositoryCacheBranchesMaxKeys`, which is 10000, and no entry. `Get` and `Add`, the only
operations the scan makes on it, keep the number of entries within the capacity, and so
does every step of a repository's scan, from any cache within the bound: the slow path on
a page of any length, the evaluation of an upload, the handling of a batch and the batch
loop. In particular the cache that the batch loop ends with, started on the fresh cache,
holds at most 10000 entries. -/
theorem branchesContaining_bounded {σ : Type} (e : uploadExpirer σ) (fuel pageFuel : Nat)
    (repositoryID : Int) (policies : List ConfigurationPolicy) (patterns : Patterns)
    (refDescriptions : String → List RefDescription) (boundary : Int) (w : World σ) :
    repositoryCacheBranchesMaxKeys = 10000 ∧
    cacheBounded newRepositoryCache ∧
    (∀ (cache : repositoryCache) (key : String) (value : List String), cacheBounded cache →
      cacheBounded { cache with branchesContaining := (cache.branchesContaining.Get key).2 } ∧
      cacheBounded { cache with branchesContaining := cache.branchesContaining.Add key value }) ∧
    (∀ (cache : repositoryCache) (upload : Upload) (commits : List String) (w1 : World σ),
      cacheBounded cache →
      cacheBounded
        (isUploadProtectedByPolicySlowPath e policies patterns cache upload commits w1).2.1 ∧
      cacheBounded
        (isUploadProtectedByPolicy e pageFuel policies patterns refDescriptions cache upload
          w1).2.1) ∧
    (∀ (cache : repositoryCache) (uploads : List Upload) (w1 : World σ), cacheBounded cache →
      cacheBounded
        (handleUploads e pageFuel policies patterns refDescriptions cache uploads w1).2.1) ∧
    (handleRepositoryLoop e pageFuel repositoryID policies patterns refDescriptions boundary
      fuel newRepositoryCache w).2.1.branchesContaining.items.length ≤ 10000 := by
  have hnew : cacheBounded newRepositoryCache := ⟨rfl, Nat.zero_le _⟩
  refine ⟨rfl, hnew, ?_, ?_, ?_, ?_⟩
  · intro cache key value h
    exact ⟨cacheBounded_Get cache key h, cacheBounded_Add cache cache.branchesContaining key
      value h⟩
  · intro cache upload commits w1 h
    exact ⟨slowPath_bounded e policies patterns cache upload commits w1 h,
      isUploadProtectedByPolicyFrom_bounded e policies patterns refDescriptions upload pageFuel
        0 cache w1 h⟩
  · intro cache uploads w1 h
    exact handleUploads_bounded e pageFuel policies patterns refDescriptions cache uploads w1 h
  · exact (handleRepositoryLoop_cache_bounded e pageFuel repositoryID policies patterns
      refDescriptions boundary fuel newRepositoryCache w hnew).2

/-- C26, at a concrete input: on a cache of capacity 2 that holds the branches of two
commits, adding the branches of a third commit evicts the least recently used entry. -/
theorem branchesContaining_bounded_witness :
    (LRU.Add { size := 2, items := [("c2", ["feature"]), ("c1", ["develop"])] } "c3"
      []).items = [("c3", []), ("c2", ["feature"])] ∧
    (handleRepositoryLoop scanExpirer 5 50 [developPolicy] [("develop", globExact "develop")]
      (fun _ => []) 100 3 newRepositoryCache
      { state := { expired := [], scanned := [] }, trace := [] }).2.1.branchesContaining.items.length
      ≤ 10000 :=
  ⟨by decide,
    (branchesContaining_bounded scanExpirer 3 5 50 [developPolicy]
      [("develop", globExact "develop")] (fun _ => []) 100
      { state := { expired := [], scanned := [] }, trace := [] }).2.2.2.2.2⟩

/-! ## The policy lists of an invocation (C25) -/

/-- C25: if `RepositoryIDsForRetentionScan` returns a non-empty list of IDs and the global
policies load, then `Handle` makes the global `GetConfigurationPolicies` call once, as its
second call, and every later `GetConfigurationPolicies` call carries the ID of a selected
repository, with `ForDataRetention` true. `Handle` ends as the loop over the repositories
run with the list the global call returned, and that loop scans each repository it
reaches with that same list. In a scan whose policy load, compile loop and
`RefDescriptions` call succeed, the policy list the batch loop runs with is the global
list followed by the list the load returned, with the patterns compiled from that list. -/
theorem Handle_global_policies {σ : Type} (e : uploadExpirer σ) (fuel : Nat) (w : World σ)
    (repositoryIDs : List Int) (globalPolicies : List ConfigurationPolicy)
    (hids : (e.dbStore.RepositoryIDsForRetentionScan w.state e.repositoryProcessDelay
      e.repositoryBatchSize).1 = .ok repositoryIDs)
    (hne : repositoryIDs ≠ [])
    (hglobal : (e.dbStore.GetConfigurationPolicies
      (e.dbStore.RepositoryIDsForRetentionScan w.state e.repositoryProcessDelay
        e.repositoryBatchSize).2 { RepositoryID := 0, ForDataRetention := true }).1 =
      .ok globalPolicies) :
    (∃ added,
      (Handle e fuel w).2.trace = w.trace ++
        [Call.RepositoryIDsForRetentionScan e.repositoryProcessDelay e.repositoryBatchSize,
         Call.GetConfigurationPolicies { RepositoryID := 0, ForDataRetention := true }] ++
        added ∧
      ∀ c ∈ added, c.isGetConfigurationPolicies = true →
        ∃ id ∈ repositoryIDs, c = Call.GetConfigurationPolicies
          { RepositoryID := id, ForDataRetention := true }) ∧
    (∃ w2 : World σ,
      (Handle e fuel w).2 = (handleLoop e fuel globalPolicies repositoryIDs none w2).2 ∧
      ∀ pre id post err1 w1, repositoryIDs = pre ++ id :: post →
        handleLoop e fuel globalPolicies pre none w2 = (.ok err1, w1) →
        returned (handleRepository e fuel id globalPolicies w1).1 = true →
        ∃ err2, (Handle e fuel w).2 =
          (handleLoop e fuel globalPolicies post err2
            (handleRepository e fuel id globalPolicies w1).2).2) ∧
    ∀ (id : Int) (w1 : World σ) (repositoryPolicies : List ConfigurationPolicy)
      (patterns : Patterns) (w3 : World σ) (refDescriptions : String → List RefDescription),
      (e.dbStore.GetConfigurationPolicies w1.state
        { RepositoryID := id, ForDataRetention := true }).1 = .ok repositoryPolicies →
      compilePatterns e (globalPolicies ++ repositoryPolicies) []
        (w1.call (.GetConfigurationPolicies { RepositoryID := id, ForDataRetention := true })
          (fun s => e.dbStore.GetConfigurationPolicies s
            { RepositoryID := id, ForDataRetention := true })).2 = (.ok patterns, w3) →
      (e.gitserverClient.RefDescriptions w3.state id).1 = .ok refDescriptions →
      (handleRepository e fuel id globalPolicies w1).1 =
        (handleRepositoryLoop e fuel id (globalPolicies ++ repositoryPolicies) patterns
          refDescriptions
          (timeAdd (e.timeNow (e.gitserverClient.RefDescriptions w3.state id).2).1
            (negDuration e.uploadProcessDelay))
          fuel newRepositoryCache
          { state := (e.timeNow (e.gitserverClient.RefDescriptions w3.state id).2).2,
            trace := w3.trace ++ [Call.RefDescriptions id] }).1 := by
  have hlen : repositoryIDs.length ≠ 0 := fun h => hne (List.length_eq_zero.mp h)
  have hHandle : (Handle e fuel w).2 =
      (handleLoop e fuel globalPolicies repositoryIDs none
        { state := (e.dbStore.GetConfigurationPolicies
            (e.dbStore.RepositoryIDsForRetentionScan w.state e.repositoryProcessDelay
              e.repositoryBatchSize).2 { RepositoryID := 0, ForDataRetention := true }).2,
          trace := w.trace ++
            [Call.RepositoryIDsForRetentionScan e.repositoryProcessDelay
              e.repositoryBatchSize] ++
            [Call.GetConfigurationPolicies
              { RepositoryID := 0, ForDataRetention := true }] }).2 := by
    simp only [Handle, World.call, hids, hlen, if_false, hglobal]
    split <;> next heq => rw [heq]
  refine ⟨?_, ⟨_, hHandle, ?_⟩, ?_⟩
  · obtain ⟨added, h1, h2⟩ := handleLoop_repository_calls e fuel globalPolicies repositoryIDs
      none
      { state := (e.dbStore.GetConfigurationPolicies
          (e.dbStore.RepositoryIDsForRetentionScan w.state e.repositoryProcessDelay
            e.repositoryBatchSize).2 { RepositoryID := 0, ForDataRetention := true }).2,
        trace := w.trace ++
          [Call.RepositoryIDsForRetentionScan e.repositoryProcessDelay
            e.repositoryBatchSize] ++
          [Call.GetConfigurationPolicies { RepositoryID := 0, ForDataRetention := true }] }
    refine ⟨added, ?_, h2⟩
    rw [hHandle, h1]
    simp only [List.append_assoc, List.singleton_append]
  · intro pre id post err1 w1 hsplit hpre hret
    obtain ⟨err2, h2⟩ := handleLoop_cons_returned e fuel globalPolicies id post err1 w1 hret
    refine ⟨err2, ?_⟩
    rw [hHandle, hsplit, handleLoop_append, hpre]
    simp only [h2]
  · intro id w1 repositoryPolicies patterns w3 refDescriptions hload hcp href
    simp only [World.call, hload] at hcp
    simp only [handleRepository, World.call, hload, hcp, href]

/-- C25, at a concrete input: the store selects the repositories 50 and 51; `Handle`
loads the global policies once and then the policies of each repository. -/
theorem Handle_global_policies_witness :
    (Handle expirerTwoRepositories 1 world0).2.trace =
      [Call.RepositoryIDsForRetentionScan 0 100,
       Call.GetConfigurationPolicies { RepositoryID := 0, ForDataRetention := true },
       Call.GetConfigurationPolicies { RepositoryID := 50, ForDataRetention := true },
       Call.GetConfigurationPolicies { RepositoryID := 51, ForDataRetention := true },
       Call.RefDescriptions 51,
       Call.GetUploads
         { State := "completed", RepositoryID := 51, OldestFirst := true, Limit := 100,
           LastRetentionScanBefore := some 100 }] ∧
    ∃ added,
      (Handle expirerTwoRepositories 1 world0).2.trace = world0.trace ++
        [Call.RepositoryIDsForRetentionScan expirerTwoRepositories.repositoryProcessDelay
          expirerTwoRepositories.repositoryBatchSize,
         Call.GetConfigurationPolicies { RepositoryID := 0, ForDataRetention := true }] ++
        added ∧
      ∀ c ∈ added, c.isGetConfigurationPolicies = true →
        ∃ id ∈ [50, 51], c = Call.GetConfigurationPolicies
          { RepositoryID := id, ForDataRetention := true } :=
  ⟨by decide,
    (Handle_global_policies expirerTwoRepositories 1 world0 [50, 51] [] rfl (by simp) rfl).1⟩

/-! ## Errors of the collaborators during a repository scan (C24) -/

/-- C24: let the state of the collaborators keep a record of the calls made to the store
and to the gitserver, each with the error it returned. If, during `handleRepository`, a
`GetConfigurationPolicies`, `RefDescriptions`, `GetUploads`, `CommitsVisibleToUpload`,
`BranchesContaining` or `UpdateUploadRetention` call returns an error, then that call is
the last call of the record, so that no further batch is fetched and no call is made
again, and `handleRepository` returns that error. -/
theorem handleRepository_stops_at_error {σ : Type} (e : uploadExpirer σ) (log : σ → CallLog)
    (hlog : Logged e log) (fuel : Nat) (repositoryID : Int)
    (globalPolicies : List ConfigurationPolicy) (w : World σ) :
    ∃ added,
      log (handleRepository e fuel repositoryID globalPolicies w).2.state =
        log w.state ++ added ∧
      ∀ pre c err post, added = pre ++ (c, some err) :: post →
        post = [] ∧
        (handleRepository e fuel repositoryID globalPolicies w).1 = .error (.err err) := by
  obtain ⟨added, h1, h2⟩ := handleRepository_log e log hlog fuel repositoryID globalPolicies w
  refine ⟨added, h1, ?_⟩
  intro pre c err post hsplit
  obtain ⟨hpost, hf⟩ := stopsAtFailure_last _ added h2 pre c err post hsplit
  refine ⟨hpost, ?_⟩
  cases hr : (handleRepository e fuel repositoryID globalPolicies w).1 with
  | ok done => rw [hr] at hf; simp [failureOf] at hf
  | error f =>
    rw [hr] at hf
    simp only [failureOf, Option.some.injEq] at hf
    rw [hf]

/-- C24, at a concrete input: the store holds the uploads 1 and 2 and fails to list the
commits of upload 2. The scan of repository 50 loads the policies, fetches the
references and a batch, evaluates upload 1, and ends with the error of the request for
the commits of upload 2, which is the last call of the record. -/
theorem handleRepository_stops_at_error_witness :
    (handleRepository (recordingExpirer expirerSecondUploadFails) 5 50 []
      { state := ((), []), trace := [] }).2.state.2 =
      [(Call.GetConfigurationPolicies { RepositoryID := 50, ForDataRetention := true }, none),
       (Call.RefDescriptions 50, none),
       (Call.GetUploads
         { State := "completed", RepositoryID := 50, OldestFirst := true, Limit := 100,
           LastRetentionScanBefore := some 100 }, none),
       (Call.CommitsVisibleToUpload 1 100 0, none),
       (Call.CommitsVisibleToUpload 1 100 1, none),
       (Call.CommitsVisibleToUpload 2 100 0, some (.msg "commits unavailable"))] ∧
    (handleRepository (recordingExpirer expirerSecondUploadFails) 5 50 []
      { state := ((), []), trace := [] }).1 = .error (.err (.msg "commits unavailable")) ∧
    ∃ added,
      (handleRepository (recordingExpirer expirerSecondUploadFails) 5 50 []
        { state := ((), []), trace := [] }).2.state.2 = [] ++ added ∧
      ∀ pre c err post, added = pre ++ (c, some err) :: post →
        post = [] ∧
        (handleRepository (recordingExpirer expirerSecondUploadFails) 5 50 []
          { state := ((), []), trace := [] }).1 = .error (.err err) :=
  ⟨rfl, rfl,
    handleRepository_stops_at_error (recordingExpirer expirerSecondUploadFails)
      (fun s => s.2) (recordingExpirer_logged expirerSecondUploadFails) 5 50 []
      { state := ((), []), trace := [] }⟩

/-! ## The working set of policies grows with the completion time (C31) -/

/-- C31: with a clock that reads `now` and two uploads completed at `f1` and at `f2`, where
`f1` is not later than `f2`: every policy for which `policyCoversUpload` returns true on
the first upload returns true on the second; the list that `filterPolicies` keeps for the
first upload with the filter of the fast path is a sublist of the list it keeps for the
second, which is a sublist of the policies, so the order is kept; and the same holds with
the filter of the slow path. -/
theorem filterPolicies_grows {σ : Type} (e : uploadExpirer σ) (now f1 f2 : Int)
    (u1 u2 : Upload) (policies : List ConfigurationPolicy) (w1 w2 : World σ)
    (hnow : ∀ s, (e.timeutilNow s).1 = now)
    (h1 : u1.FinishedAt = some f1) (h2 : u2.FinishedAt = some f2) (hle : f1 ≤ f2) :
    (∀ policy (wa wb : World σ),
      (policyCoversUpload e.timeutilNow policy u1 wa).1 = .ok true →
      (policyCoversUpload e.timeutilNow policy u2 wb).1 = .ok true) ∧
    (∃ kept1 kept2,
      (filterPolicies (fun policy => policyCoversUpload e.timeutilNow policy u1)
        policies w1).1 = .ok kept1 ∧
      (filterPolicies (fun policy => policyCoversUpload e.timeutilNow policy u2)
        policies w2).1 = .ok kept2 ∧
      kept1.Sublist kept2 ∧ kept2.Sublist policies) ∧
    (∃ kept1 kept2,
      (filterPolicies
        (fun policy w =>
          if policy.RetainIntermediateCommits then
            policyCoversUpload e.timeutilNow policy u1 w
          else (.ok false, w)) policies w1).1 = .ok kept1 ∧
      (filterPolicies
        (fun policy w =>
          if policy.RetainIntermediateCommits then
            policyCoversUpload e.timeutilNow policy u2 w
          else (.ok false, w)) policies w2).1 = .ok kept2 ∧
      kept1.Sublist kept2 ∧ kept2.Sublist policies) := by
  have hfast : ∀ (u : Upload) (f : Int), u.FinishedAt = some f → ∀ (w : World σ),
      (filterPolicies (fun policy => policyCoversUpload e.timeutilNow policy u)
        policies w).1 = .ok (policies.filter (covers now f)) :=
    fun u f hu w => filterPolicies_eq _ (covers now f)
      (fun policy w => policyCoversUpload_eq _ _ _ _ _ _ hnow hu) policies w
  have hslow : ∀ (u : Upload) (f : Int), u.FinishedAt = some f → ∀ (w : World σ),
      (filterPolicies
        (fun policy (w : World σ) =>
          if policy.RetainIntermediateCommits then
            policyCoversUpload e.timeutilNow policy u w
          else (.ok false, w)) policies w).1 =
        .ok (policies.filter
          (fun policy => policy.RetainIntermediateCommits && covers now f policy)) :=
    fun u f hu w => filterPolicies_eq _
      (fun policy => policy.RetainIntermediateCommits && covers now f policy)
      (fun policy w => by
        rcases Bool.eq_false_or_eq_true policy.RetainIntermediateCommits with hr | hr
        · simp only [hr, if_true, Bool.true_and]
          exact policyCoversUpload_eq _ _ _ _ _ _ hnow hu
        · simp [hr]) policies w
  refine ⟨?_, ?_, ?_⟩
  · intro policy wa wb hcov
    rw [policyCoversUpload_eq _ _ _ _ _ _ hnow h1, Except.ok.injEq] at hcov
    rw [policyCoversUpload_eq _ _ _ _ _ _ hnow h2, Except.ok.injEq]
    exact covers_mono now f1 f2 policy hle hcov
  · refine ⟨_, _, hfast u1 f1 h1 w1, hfast u2 f2 h2 w2, ?_, List.filter_sublist _⟩
    exact List.monotone_filter_right policies
      (fun policy hcov => covers_mono now f1 f2 policy hle hcov)
  · refine ⟨_, _, hslow u1 f1 h1 w1, hslow u2 f2 h2 w2, ?_, List.filter_sublist _⟩
    apply List.monotone_filter_right policies
    intro policy hcov
    simp only [Bool.and_eq_true] at hcov ⊢
    exact ⟨hcov.1, covers_mono now f1 f2 policy hle hcov.2⟩

/-- C31, at a concrete input: with the clock at 100, a branch policy with a duration of 85
covers the upload completed at 20 and not the upload completed at 10, and a policy without
duration covers both, so the list kept for the older upload is a sublist of the list kept
for the younger one. -/
theorem filterPolicies_grows_witness :
    (filterPolicies (fun policy => policyCoversUpload exampleExpirer.timeutilNow policy upload1)
      [shortDevelopPolicy, developPolicy] world0).1 = .ok [developPolicy] ∧
    (filterPolicies (fun policy => policyCoversUpload exampleExpirer.timeutilNow policy upload2)
      [shortDevelopPolicy, developPolicy] world0).1 =
        .ok [shortDevelopPolicy, developPolicy] ∧
    ∃ kept1 kept2,
      (filterPolicies (fun policy => policyCoversUpload exampleExpirer.timeutilNow policy upload1)
        [shortDevelopPolicy, developPolicy] world0).1 = .ok kept1 ∧
      (filterPolicies (fun policy => policyCoversUpload exampleExpirer.timeutilNow policy upload2)
        [shortDevelopPolicy, developPolicy] world0).1 = .ok kept2 ∧
      kept1.Sublist kept2 ∧ kept2.Sublist [shortDevelopPolicy, developPolicy] :=
  ⟨rfl, rfl,
    (filterPolicies_grows exampleExpirer 100 10 20 upload1 upload2
      [shortDevelopPolicy, developPolicy] world0 world0 (fun _ => rfl) rfl rfl
      (by decide)).2.1⟩

/-! ## The protected commits are only added to (C32) -/

/-- C32: for the fast path and the slow path on a page `commits`, and for
`isUploadProtectedByPolicy`, all from the same cache:

* every commit of the protected commits is still in them after the call;
* the fast path that returns true has added the first commit of the page, in page order,
  that the tip matcher accepts under the policies kept for the upload, and changed
  nothing else; with any other outcome it leaves the cache as it was;
* the slow path that returns true has added one commit of the page, and with any other
  outcome it leaves the protected commits as they were;
* `isUploadProtectedByPolicy` with an outcome other than true (false, an error, a panic)
  leaves the protected commits as they were, and when it returns true it has either left
  them as they were or added exactly one commit that was not among them;
* with compiled patterns, an upload with a completion time, a clock that reads `now`, a
  store that serves the pages `pages` and a gitserver that answers `containing`: the slow
  path adds the first commit of the page that the containment matcher accepts, if any;
  `isUploadProtectedByPolicy` returns whether some page decides and adds the commit that
  `addedCommit` names, if any. That commit lies on the first page that decides, which
  holds no protected commit (on a cache hit nothing is added), and it is the first commit
  of that page that the tip matcher accepts or, if the tip matcher accepts none of the
  page, the first that the containment matcher accepts. -/
theorem protectedCommits_append_only {σ : Type} (e : uploadExpirer σ) (fuel : Nat)
    (policies : List ConfigurationPolicy) (patterns : Patterns)
    (refDescriptions : String → List RefDescription) (cache : repositoryCache)
    (upload : Upload) (commits : List String) (w : World σ) :
    (∀ c ∈ cache.protectedCommits,
      c ∈ (isUploadProtectedByPolicyFastPath e policies patterns refDescriptions cache upload
        commits w).2.1.protectedCommits ∧
      c ∈ (isUploadProtectedByPolicySlowPath e policies patterns cache upload commits
        w).2.1.protectedCommits ∧
      c ∈ (isUploadProtectedByPolicy e fuel policies patterns refDescriptions cache upload
        w).2.1.protectedCommits) ∧
    ((isUploadProtectedByPolicyFastPath e policies patterns refDescriptions cache upload
        commits w).1 ≠ .ok true →
      (isUploadProtectedByPolicyFastPath e policies patterns refDescriptions cache upload
        commits w).2.1 = cache) ∧
    ((isUploadProtectedByPolicyFastPath e policies patterns refDescriptions cache upload
        commits w).1 = .ok true →
      ∃ kept pre c post,
        (filterPolicies (fun policy => policyCoversUpload e.timeutilNow policy upload)
          policies w).1 = .ok kept ∧
        commits = pre ++ c :: post ∧
        (∀ x ∈ pre, newTipPolicyMatcher patterns x (refDescriptions x) kept = .ok false) ∧
        newTipPolicyMatcher patterns c (refDescriptions c) kept = .ok true ∧
        (isUploadProtectedByPolicyFastPath e policies patterns refDescriptions cache upload
          commits w).2.1 =
            { cache with protectedCommits := cache.protectedCommits.insert c }) ∧
    ((isUploadProtectedByPolicySlowPath e policies patterns cache upload commits w).1 ≠
        .ok true →
      (isUploadProtectedByPolicySlowPath e policies patterns cache upload commits
        w).2.1.protectedCommits = cache.protectedCommits) ∧
    ((isUploadProtectedByPolicySlowPath e policies patterns cache upload commits w).1 =
        .ok true →
      ∃ c ∈ commits,
        (isUploadProtectedByPolicySlowPath e policies patterns cache upload commits
          w).2.1.protectedCommits = cache.protectedCommits.insert c) ∧
    ((isUploadProtectedByPolicy e fuel policies patterns refDescriptions cache upload w).1 ≠
        .ok true →
      (isUploadProtectedByPolicy e fuel policies patterns refDescriptions cache upload
        w).2.1.protectedCommits = cache.protectedCommits) ∧
    ((isUploadProtectedByPolicy e fuel policies patterns refDescriptions cache upload w).1 =
        .ok true →
      (isUploadProtectedByPolicy e fuel policies patterns refDescriptions cache upload
          w).2.1.protectedCommits = cache.protectedCommits ∨
        ∃ c, c ∉ cache.protectedCommits ∧
          (isUploadProtectedByPolicy e fuel policies patterns refDescriptions cache upload
            w).2.1.protectedCommits = c :: cache.protectedCommits) ∧
    (∀ (now finishedAt : Int) (visible : Int → List String)
        (containing : String → List String) (pages : List (List String)),
      AllCompiled patterns policies →
      (∀ s, (e.timeutilNow s).1 = now) →
      upload.FinishedAt = some finishedAt →
      (∀ s offset,
        (e.dbStore.CommitsVisibleToUpload s upload.ID 100 offset).1 = .ok (visible offset)) →
      (∀ s commit,
        (e.gitserverClient.BranchesContaining s upload.RepositoryID commit).1 =
          .ok (containing commit)) →
      LRUConsistent containing cache.branchesContaining →
      ServesPages visible 0 pages → pages.length < fuel →
      (isUploadProtectedByPolicySlowPath e policies patterns cache upload commits
          w).2.1.protectedCommits =
        (match commits.find? (containsProtected patterns containing
            (policies.filter (fun policy =>
              policy.RetainIntermediateCommits && covers now finishedAt policy))) with
          | some c => cache.protectedCommits.insert c
          | none => cache.protectedCommits) ∧
      (isUploadProtectedByPolicy e fuel policies patterns refDescriptions cache upload w).1 =
        .ok (pages.any (pageDecides patterns refDescriptions containing policies now
          finishedAt cache.protectedCommits)) ∧
      (isUploadProtectedByPolicy e fuel policies patterns refDescriptions cache upload
          w).2.1.protectedCommits =
        (match addedCommit patterns refDescriptions containing policies now finishedAt
            cache.protectedCommits pages with
          | some c => c :: cache.protectedCommits
          | none => cache.protectedCommits) ∧
      ∀ c, addedCommit patterns refDescriptions containing policies now finishedAt
          cache.protectedCommits pages = some c →
        ∃ before page after pre post,
          pages = before ++ page :: after ∧ page = pre ++ c :: post ∧
          (∀ p ∈ before, pageDecides patterns refDescriptions containing policies now
            finishedAt cache.protectedCommits p = false) ∧
          (∀ x ∈ page, x ∉ cache.protectedCommits) ∧
          ((tipProtected patterns refDescriptions (policies.filter (covers now finishedAt))
                c = true ∧
              ∀ x ∈ pre, tipProtected patterns refDescriptions
                (policies.filter (covers now finishedAt)) x = false) ∨
            ((∀ x ∈ page, tipProtected patterns refDescriptions
                (policies.filter (covers now finishedAt)) x = false) ∧
              containsProtected patterns containing
                (policies.filter (fun policy =>
                  policy.RetainIntermediateCommits && covers now finishedAt policy)) c =
                true ∧
              ∀ x ∈ pre, containsProtected patterns containing
                (policies.filter (fun policy =>
                  policy.RetainIntermediateCommits && covers now finishedAt policy)) x =
                  false))) := by
  have hfast := fastPath_first e policies patterns refDescriptions cache upload commits w
  have hslow := slowPath_frame e policies patterns cache upload commits w
  have heval := isUploadProtectedByPolicyFrom_frame e policies patterns refDescriptions upload
    fuel 0 cache w
  refine ⟨?_, ?_, ?_, ?_, ?_, ?_, ?_, ?_⟩
  · intro c hc
    refine ⟨?_, ?_, ?_⟩
    · rcases hfast with ⟨_, h⟩ | ⟨_, kept, pre, c1, post, _, _, _, _, h⟩
      · rw [h]; exact hc
      · rw [h]; exact List.mem_insert_of_mem hc
    · rcases hslow with ⟨_, h⟩ | ⟨_, c1, _, h⟩
      · rw [h]; exact hc
      · rw [h]; exact List.mem_insert_of_mem hc
    · rcases heval with h | ⟨_, c1, _, h⟩
      · rw [isUploadProtectedByPolicy, h]; exact hc
      · rw [isUploadProtectedByPolicy, h]; exact List.mem_cons_of_mem _ hc
  · intro hne
    rcases hfast with ⟨_, h⟩ | ⟨h, _⟩
    · exact h
    · exact absurd h hne
  · intro htrue
    rcases hfast with ⟨h, _⟩ | ⟨_, h⟩
    · exact absurd htrue h
    · exact h
  · intro hne
    rcases hslow with ⟨_, h⟩ | ⟨h, _⟩
    · exact h
    · exact absurd h hne
  · intro htrue
    rcases hslow with ⟨h, _⟩ | ⟨_, h⟩
    · exact absurd htrue h
    · exact h
  · intro hne
    rcases heval with h | ⟨h, _⟩
    · exact h
    · exact absurd h hne
  · intro _
    rcases heval with h | ⟨_, c, hc, h⟩
    · exact Or.inl h
    · exact Or.inr ⟨c, hc, h⟩
  · intro now finishedAt visible containing pages hc hnow hf hvisible hcontaining hlru hpages
      hfuel
    obtain ⟨lru, w1, _, hs⟩ := slowPath_eq e policies patterns cache upload commits w now
      finishedAt containing hc hnow hf hcontaining hlru
    obtain ⟨cache1, w2, he, _, hpc⟩ := isUploadProtectedByPolicyFrom_added e policies patterns
      refDescriptions upload now finishedAt visible containing hc hnow hf hvisible hcontaining
      pages fuel 0 cache w hlru hpages hfuel
    refine ⟨?_, ?_, ?_, ?_⟩
    · rw [hs]
    · rw [isUploadProtectedByPolicy, he]
    · rw [isUploadProtectedByPolicy, he]
      exact hpc
    · intro c hadd
      exact addedCommit_some patterns refDescriptions containing policies now finishedAt
        cache.protectedCommits pages c hadd

/-- C32, at a concrete input: upload 2 is visible from `c2` on its first page and from
`c1` on its second; under the branch policy `develop` that retains intermediate commits,
the first page does not decide and the evaluation adds `c1`, which `develop` contains, in
front of the protected commit `c9` that the cache held. -/
theorem protectedCommits_append_only_witness :
    (isUploadProtectedByPolicy exampleExpirer 5 [developPolicy]
      [("develop", globExact "develop")] (fun _ => [])
      { protectedCommits := ["c9"],
        branchesContaining := { size := repositoryCacheBranchesMaxKeys, items := [] } }
      upload2 world0).1 = .ok true ∧
    (isUploadProtectedByPolicy exampleExpirer 5 [developPolicy]
      [("develop", globExact "develop")] (fun _ => [])
      { protectedCommits := ["c9"],
        branchesContaining := { size := repositoryCacheBranchesMaxKeys, items := [] } }
      upload2 world0).2.1.protectedCommits = ["c1", "c9"] := by
  have hc : AllCompiled [("develop", globExact "develop")] [developPolicy] := by
    intro policy hp
    rw [List.mem_singleton] at hp
    subst hp
    exact ⟨globExact "develop", rfl⟩
  have h := (protectedCommits_append_only exampleExpirer 5 [developPolicy]
    [("develop", globExact "develop")] (fun _ => [])
    { protectedCommits := ["c9"],
      branchesContaining := { size := repositoryCacheBranchesMaxKeys, items := [] } }
    upload2 [] world0).2.2.2.2.2.2.2 100 20 (examplePages 2) exampleContaining
    [["c2"], ["c1"]] hc (fun _ => rfl) rfl (fun _ _ => rfl) (fun _ _ => rfl)
    (fun key value hm => by simp at hm)
    ⟨by decide, rfl, by decide, rfl, rfl⟩ (by decide)
  refine ⟨?_, ?_⟩
  · rw [h.2.1]
    rfl
  · rw [h.2.2.1]
    decide

/-! ## The origin of the protected commits (C34) -/

/-- C34: `Justified` says of a cache and a list of uploads that every protected commit of
the cache was accepted for an upload of the list (some policy of the list covers that
upload, at a reading of the clock, and either the tip matcher accepts the commit under it
or the policy retains intermediate commits and its pattern matches a branch with which the
gitserver has answered for the commit) and that the branches cache holds answers of the
gitserver. `handleUploads` keeps this, with the uploads it evaluates added to the list;
so does the batch loop of a repository scan, with the uploads the scan evaluates added;
and on the cache of `newRepositoryCache`, with which `handleRepository` starts the loop,
every protected commit the loop leaves, after any number of batches, was accepted for an
upload the scan evaluated. -/
theorem protectedCommits_justified {σ : Type} (e : uploadExpirer σ) (pageFuel fuel : Nat)
    (repositoryID : Int) (policies : List ConfigurationPolicy) (patterns : Patterns)
    (refDescriptions : String → List RefDescription) (lastRetentionScanBefore : Int)
    (w : World σ) :
    (∀ (earlier uploads : List Upload) (cache : repositoryCache),
      Justified e policies patterns refDescriptions earlier cache →
      Justified e policies patterns refDescriptions
        (earlier ++ evaluatedUploads e pageFuel policies patterns refDescriptions uploads
          cache w)
        (handleUploads e pageFuel policies patterns refDescriptions cache uploads w).2.1) ∧
    (∀ (earlier : List Upload) (cache : repositoryCache),
      Justified e policies patterns refDescriptions earlier cache →
      Justified e policies patterns refDescriptions
        (earlier ++ scannedUploads e pageFuel repositoryID policies patterns refDescriptions
          lastRetentionScanBefore fuel cache w)
        (handleRepositoryLoop e pageFuel repositoryID policies patterns refDescriptions
          lastRetentionScanBefore fuel cache w).2.1) ∧
    (∀ c ∈ (handleRepositoryLoop e pageFuel repositoryID policies patterns refDescriptions
        lastRetentionScanBefore fuel newRepositoryCache w).2.1.protectedCommits,
      ∃ u ∈ scannedUploads e pageFuel repositoryID policies patterns refDescriptions
          lastRetentionScanBefore fuel newRepositoryCache w,
        ∃ policy ∈ policies,
          (∃ w1 : World σ, (policyCoversUpload e.timeutilNow policy u w1).1 = .ok true) ∧
          ((∃ g, patterns.lookup policy.Pattern = some g ∧
              tipMatches g c (refNamesByType (refDescriptions c)).1
                (refNamesByType (refDescriptions c)).2 policy = true) ∨
            (policy.RetainIntermediateCommits = true ∧
              ∃ branches g,
                (∃ s repository,
                  (e.gitserverClient.BranchesContaining s repository c).1 = .ok branches) ∧
                patterns.lookup policy.Pattern = some g ∧
                branches.any g.Match = true))) := by
  have hnew : Justified e policies patterns refDescriptions [] newRepositoryCache :=
    ⟨fun c hc => by simp [newRepositoryCache] at hc,
      fun key value hm => by simp [newRepositoryCache] at hm⟩
  refine ⟨?_, ?_, ?_⟩
  · intro earlier uploads cache hj
    exact handleUploads_justified e pageFuel policies patterns refDescriptions earlier cache
      uploads w hj
  · intro earlier cache hj
    exact handleRepositoryLoop_justified e pageFuel repositoryID policies patterns
      refDescriptions lastRetentionScanBefore fuel earlier cache w hj
  · intro c hc
    have h := handleRepositoryLoop_justified e pageFuel repositoryID policies patterns
      refDescriptions lastRetentionScanBefore fuel [] newRepositoryCache w hnew
    obtain ⟨u, hu, policy, hp, hcov, hacc⟩ := h.1 c hc
    exact ⟨u, by simpa using hu, policy, hp, hcov, hacc⟩

/-- C34, at a concrete input: the scan of repository 50 over the example store, with the
branch policy `develop` that retains intermediate commits, leaves the commit `c1`
protected, and `c1` was accepted for an upload the scan evaluated. -/
theorem protectedCommits_justified_witness :
    (handleRepositoryLoop scanExpirer 5 50 [developPolicy] [("develop", globExact "develop")]
      (fun _ => []) 100 3 newRepositoryCache
      { state := { expired := [], scanned := [] }, trace := [] }).2.1.protectedCommits =
      ["c1"] ∧
    ∃ u ∈ scannedUploads scanExpirer 5 50 [developPolicy] [("develop", globExact "develop")]
        (fun _ => []) 100 3 newRepositoryCache
        { state := { expired := [], scanned := [] }, trace := [] },
      ∃ policy ∈ [developPolicy],
        (∃ w1 : World ScanState,
          (policyCoversUpload scanExpirer.timeutilNow policy u w1).1 = .ok true) ∧
        ((∃ g, List.lookup policy.Pattern [("develop", globExact "develop")] = some g ∧
            tipMatches g "c1" (refNamesByType []).1 (refNamesByType []).2 policy = true) ∨
          (policy.RetainIntermediateCommits = true ∧
            ∃ branches g,
              (∃ s repository,
                (scanExpirer.gitserverClient.BranchesContaining s repository "c1").1 =
                  .ok branches) ∧
              List.lookup policy.Pattern [("develop", globExact "develop")] = some g ∧
              branches.any g.Match = true)) :=
  ⟨by decide,
    (protectedCommits_justified scanExpirer 5 3 50 [developPolicy]
      [("develop", globExact "develop")] (fun _ => []) 100
      { state := { expired := [], scanned := [] }, trace := [] }).2.2 "c1" (by decide)⟩

/-! ## The pages of visible commits (C33) -/

/-- C33: for a store that answers every request for the visible commits of the upload,
with limit 100, with the slice of the list `all` at the requested offset, and with fuel
for the pages of the list, `isUploadProtectedByPolicy` returns (the fuel is not used up).
Besides `BranchesContaining` queries its calls are requests for the visible commits of
the upload with limit 100; the first is made at offset 0 and each one at the offset that
is the total number of commits of the pages returned before it. The requests are those
for the first `k + 1` pages of the list cut into pages of 100, for some `k`; the pages
returned, put together in order, are an initial part of the list, so no commit is
examined twice. The evaluation returns false exactly when it has requested every page of
the list and the empty page after them, and then the pages returned are the whole list;
it stops at an earlier page only with an outcome other than false (true, or an error of
the gitserver or a panic of a matcher). -/
theorem isUploadProtectedByPolicy_pages {σ : Type} (e : uploadExpirer σ) (fuel : Nat)
    (policies : List ConfigurationPolicy) (patterns : Patterns)
    (refDescriptions : String → List RefDescription) (cache : repositoryCache)
    (upload : Upload) (w : World σ) (all : List String)
    (hslice : ∀ s offset,
      (e.dbStore.CommitsVisibleToUpload s upload.ID 100 offset).1 = .ok (pageAt all offset))
    (hfuel : all.length / 100 + 1 < fuel) :
    (pagesOf all.length all).flatten = all ∧
    timedOut (isUploadProtectedByPolicy e fuel policies patterns refDescriptions cache upload
      w).1 = false ∧
    ∃ added k,
      (isUploadProtectedByPolicy e fuel policies patterns refDescriptions cache upload
        w).2.2.trace = w.trace ++ added ∧
      (∀ c ∈ added, c.isBranchesContaining = true ∨
        ∃ off, c = Call.CommitsVisibleToUpload upload.ID 100 off) ∧
      (pageRequests upload.ID added)[0]? = some 0 ∧
      (∀ i off, (pageRequests upload.ID added)[i]? = some off →
        off = ((((pageRequests upload.ID added).take i).map
          (fun o => ((pageAt all o).length : Int))).sum)) ∧
      k ≤ (pagesOf all.length all).length ∧
      pageRequests upload.ID added = (pageOffsets 0 (pagesOf all.length all)).take (k + 1) ∧
      (∃ rest, all = ((pageRequests upload.ID added).map (pageAt all)).flatten ++ rest) ∧
      ((isUploadProtectedByPolicy e fuel policies patterns refDescriptions cache upload w).1 =
        .ok false ↔ k = (pagesOf all.length all).length) ∧
      ((isUploadProtectedByPolicy e fuel policies patterns refDescriptions cache upload w).1 =
        .ok false → ((pageRequests upload.ID added).map (pageAt all)).flatten = all) := by
  have hjoin := pagesOf_join all.length all (le_refl _)
  have hserves : ServesPages (pageAt all) 0 (pagesOf all.length all) :=
    ServesPages_pagesOf all all.length all 0 (le_refl _) (le_refl _) (by simp)
  have hlen : (pagesOf all.length all).length < fuel :=
    lt_of_le_of_lt (pagesOf_length all.length all) hfuel
  obtain ⟨added, k, h1, h2, h3, h4, h5, h6⟩ := isUploadProtectedByPolicyFrom_requests e
    policies patterns refDescriptions upload (pageAt all) hslice (pagesOf all.length all) fuel 0
    cache w hserves hlen
  have hmap : (pageRequests upload.ID added).map (pageAt all) =
      (pagesOf all.length all ++ [[]]).take (k + 1) := by
    rw [h4, List.map_take, ServesPages_map _ _ _ hserves]
  have hall : all =
      ((pagesOf all.length all ++ [[]]).take (k + 1)).flatten ++
        ((pagesOf all.length all ++ [[]]).drop (k + 1)).flatten := by
    rw [← List.flatten_append, List.take_append_drop]
    simp [hjoin]
  refine ⟨hjoin, h5, added, k, h1, h2, ?_, ?_, h3, h4, ?_, h6, ?_⟩
  · rw [h4]
    cases hp : pagesOf all.length all <;> simp [pageOffsets]
  · intro i off hi
    rw [h4] at hi ⊢
    have := pageOffsets_take_sum (pageAt all) 0 (pagesOf all.length all) hserves (k + 1) i off hi
    simpa using this
  · exact ⟨_, by rw [hmap]; exact hall⟩
  · intro hfalse
    have hk := h6.mp hfalse
    rw [hmap, hk, List.take_of_length_le (by simp)]
    simp [hjoin]

/-- C33, at a concrete input: the upload is visible from the commits `c2` and `c1` and no
policy is given; the evaluation requests the page at offset 0, which holds both commits,
then the page at offset 2, which is empty, and returns false. -/
theorem isUploadProtectedByPolicy_pages_witness :
    (isUploadProtectedByPolicy (sliceExpirer ["c2", "c1"]) 5 [] [] (fun _ => [])
      newRepositoryCache upload1 world0).2.2.trace =
      [Call.CommitsVisibleToUpload 1 100 0, Call.CommitsVisibleToUpload 1 100 2] ∧
    timedOut (isUploadProtectedByPolicy (sliceExpirer ["c2", "c1"]) 5 [] [] (fun _ => [])
      newRepositoryCache upload1 world0).1 = false :=
  ⟨by decide,
    (isUploadProtectedByPolicy_pages (sliceExpirer ["c2", "c1"]) 5 [] [] (fun _ => [])
      newRepositoryCache upload1 world0 ["c2", "c1"] (fun _ _ => rfl) (by decide)).2.1⟩

/-! ## The containment matcher does not read the type of a policy (C35) -/

/-- C35: replacing the `Type` of every policy of the list by any other string changes
neither the result of the containment matcher nor the outcome, the cache and the calls of
the slow path. With compiled patterns, an upload with a completion time, a clock that
reads `now`, a gitserver that answers `containing` and a branches cache consistent with
it: a policy of the list, of whatever type, that covers the upload and retains
intermediate commits, and whose pattern matches a branch that contains a commit of the
page, makes the slow path return true; and if the store serves that page among the pages
of visible commits of the upload, `isUploadProtectedByPolicy` returns true. -/
theorem containsPolicyMatcher_ignores_type {σ : Type} (e : uploadExpirer σ) (fuel : Nat)
    (types : ConfigurationPolicy → String) (policies : List ConfigurationPolicy)
    (patterns : Patterns) (refDescriptions : String → List RefDescription)
    (cache : repositoryCache) (upload : Upload) (commits : List String) (commit : String)
    (branches : List String) (w : World σ) :
    newContainsPolicyMatcher patterns commit branches (policies.map (withType types)) =
      newContainsPolicyMatcher patterns commit branches policies ∧
    isUploadProtectedByPolicySlowPath e (policies.map (withType types)) patterns cache upload
        commits w =
      isUploadProtectedByPolicySlowPath e policies patterns cache upload commits w ∧
    (∀ (now finishedAt : Int) (containing : String → List String)
        (policy : ConfigurationPolicy) (g : Glob) (c : String),
      AllCompiled patterns policies →
      (∀ s, (e.timeutilNow s).1 = now) →
      upload.FinishedAt = some finishedAt →
      (∀ s commit,
        (e.gitserverClient.BranchesContaining s upload.RepositoryID commit).1 =
          .ok (containing commit)) →
      LRUConsistent containing cache.branchesContaining →
      policy ∈ policies → policy.RetainIntermediateCommits = true →
      covers now finishedAt policy = true →
      patterns.lookup policy.Pattern = some g →
      c ∈ commits → (containing c).any g.Match = true →
      (isUploadProtectedByPolicySlowPath e policies patterns cache upload commits w).1 =
          .ok true ∧
        ∀ (visible : Int → List String) (pages : List (List String)),
          (∀ s offset,
            (e.dbStore.CommitsVisibleToUpload s upload.ID 100 offset).1 =
              .ok (visible offset)) →
          ServesPages visible 0 pages → pages.length < fuel → commits ∈ pages →
          (isUploadProtectedByPolicy e fuel policies patterns refDescriptions cache upload
            w).1 = .ok true) := by
  refine ⟨?_, ?_, ?_⟩
  · exact containsPolicyMatcherLoop_map (withType types) (fun _ => rfl) patterns branches
      policies
  · exact slowPath_map e (withType types) (fun _ => rfl) (fun _ => rfl) (fun _ => rfl)
      policies patterns cache upload commits w
  · intro now finishedAt containing policy g c hc hnow hf hcontaining hlru hp hretain hcov hg
      hcm hmatch
    have hkept : policy ∈ policies.filter (fun policy =>
        policy.RetainIntermediateCommits && covers now finishedAt policy) := by
      rw [List.mem_filter]
      exact ⟨hp, by simp [hretain, hcov]⟩
    have hprot : containsProtected patterns containing
        (policies.filter (fun policy =>
          policy.RetainIntermediateCommits && covers now finishedAt policy)) c = true := by
      unfold containsProtected
      rw [List.any_eq_true]
      exact ⟨policy, hkept, by rw [hg]; exact hmatch⟩
    have hany : commits.any (containsProtected patterns containing
        (policies.filter (fun policy =>
          policy.RetainIntermediateCommits && covers now finishedAt policy))) = true :=
      List.any_eq_true.mpr ⟨c, hcm, hprot⟩
    refine ⟨?_, ?_⟩
    · obtain ⟨lru, w1, _, hs⟩ := slowPath_eq e policies patterns cache upload commits w now
        finishedAt containing hc hnow hf hcontaining hlru
      rw [hs, hany]
    · intro visible pages hvisible hpages hfuel hpage
      obtain ⟨cache1, w1, he, _, _⟩ := isUploadProtectedByPolicyFrom_added e policies patterns
        refDescriptions upload now finishedAt visible containing hc hnow hf hvisible
        hcontaining pages fuel 0 cache w hlru hpages hfuel
      rw [isUploadProtectedByPolicy, he]
      have hdec : pages.any (pageDecides patterns refDescriptions containing policies now
          finishedAt cache.protectedCommits) = true := by
        rw [List.any_eq_true]
        refine ⟨commits, hpage, ?_⟩
        simp only [pageDecides, hany, Bool.or_true]
      rw [hdec]

/-- C35, at a concrete input: the policy `develop` that retains intermediate commits,
turned into a policy of type `GIT_TAG`, protects upload 1, whose visible commit `c1` is
contained in the branch `develop` and is the tip of no tag. -/
theorem containsPolicyMatcher_ignores_type_witness :
    (withType (fun _ => "GIT_TAG") developPolicy).Type_ = "GIT_TAG" ∧
    (isUploadProtectedByPolicySlowPath exampleExpirer
      [withType (fun _ => "GIT_TAG") developPolicy] [("develop", globExact "develop")]
      newRepositoryCache upload1 ["c1"] world0).1 = .ok true ∧
    (isUploadProtectedByPolicy exampleExpirer 5
      [withType (fun _ => "GIT_TAG") developPolicy] [("develop", globExact "develop")]
      (fun _ => []) newRepositoryCache upload1 world0).1 = .ok true := by
  have hc : AllCompiled [("develop", globExact "develop")]
      [withType (fun _ => "GIT_TAG") developPolicy] := by
    intro policy hp
    rw [List.mem_singleton] at hp
    subst hp
    exact ⟨globExact "develop", rfl⟩
  have h := (containsPolicyMatcher_ignores_type exampleExpirer 5 (fun p => p.Type_)
    [withType (fun _ => "GIT_TAG") developPolicy] [("develop", globExact "develop")]
    (fun _ => []) newRepositoryCache upload1 ["c1"] "c1" [] world0).2.2 100 10
    exampleContaining (withType (fun _ => "GIT_TAG") developPolicy) (globExact "develop") "c1"
    hc (fun _ => rfl) rfl (fun _ _ => rfl) (fun key value hm => by simp [newRepositoryCache] at hm)
    (List.mem_singleton.mpr rfl) rfl rfl rfl (List.mem_singleton.mpr rfl) (by decide)
  exact ⟨rfl, h.1, h.2 (examplePages 1) [["c1"]] (fun _ _ => rfl) ⟨by decide, rfl, rfl⟩
    (by decide) (List.mem_singleton.mpr rfl)⟩

/-! ## Uploads that are visible from no commit (C36) -/

/-- C36: for an upload for which the store answers every request for the first page of
visible commits with the empty page: `isUploadProtectedByPolicy` returns false, leaves the
cache as it was and makes that one request and no other call, whatever the policies, the
patterns, the reference descriptions and the cache are; no clock is read. `handleUploads`
on the batch made of the upload alone then calls `UpdateUploadRetention` with no protected
ID and the upload as the one expired ID; and on every batch that holds the upload, when
every evaluation of the batch returns, `handleUploads` ends with an
`UpdateUploadRetention` call that has the ID of the upload in the expired list and not in
the protected list. -/
theorem isUploadProtectedByPolicy_empty_first_page {σ : Type} (e : uploadExpirer σ)
    (fuel : Nat) (policies : List ConfigurationPolicy) (patterns : Patterns)
    (refDescriptions : String → List RefDescription) (cache : repositoryCache)
    (upload : Upload) (w : World σ)
    (hempty : ∀ s, (e.dbStore.CommitsVisibleToUpload s upload.ID 100 0).1 = .ok []) :
    isUploadProtectedByPolicy e (fuel + 1) policies patterns refDescriptions cache upload w =
      (.ok false, cache,
        { state := (e.dbStore.CommitsVisibleToUpload w.state upload.ID 100 0).2,
          trace := w.trace ++ [Call.CommitsVisibleToUpload upload.ID 100 0] }) ∧
    (handleUploads e (fuel + 1) policies patterns refDescriptions cache [upload] w).2.2.trace =
      w.trace ++ [Call.CommitsVisibleToUpload upload.ID 100 0,
        Call.UpdateUploadRetention [] [upload.ID]] ∧
    (∀ (uploads : List Upload) (ids : List Int × List Int) (cache1 : repositoryCache)
        (w1 : World σ),
      upload ∈ uploads →
      handleUploadsLoop e (fuel + 1) policies patterns refDescriptions uploads [] [] cache w =
        (.ok ids, cache1, w1) →
      (handleUploads e (fuel + 1) policies patterns refDescriptions cache uploads
          w).2.2.trace = w1.trace ++ [Call.UpdateUploadRetention ids.1 ids.2] ∧
        upload.ID ∈ ids.2 ∧ upload.ID ∉ ids.1) := by
  have heval := isUploadProtectedByPolicy_of_empty e fuel policies patterns refDescriptions
    cache upload w (hempty w.state)
  refine ⟨heval, ?_, ?_⟩
  · have hloop : handleUploadsLoop e (fuel + 1) policies patterns refDescriptions [upload] []
        [] cache w =
        (.ok ([], [upload.ID]), cache,
          { state := (e.dbStore.CommitsVisibleToUpload w.state upload.ID 100 0).2,
            trace := w.trace ++ [Call.CommitsVisibleToUpload upload.ID 100 0] }) := by
      simp only [handleUploadsLoop, heval, List.nil_append]
    rw [handleUploads_trace_of_loop _ _ _ _ _ _ _ _ _ _ _ hloop]
    simp
  · intro uploads ids cache1 w1 hmem hloop
    obtain ⟨h1, h2⟩ := handleUploadsLoop_of_empty e fuel policies patterns refDescriptions
      upload.ID hempty uploads [] [] cache w ids cache1 w1 hloop
    exact ⟨handleUploads_trace_of_loop _ _ _ _ _ _ _ _ _ _ _ hloop,
      h1 (Or.inl (List.mem_map.mpr ⟨upload, hmem, rfl⟩)), h2 (by simp)⟩

/-- C36, at a concrete input: upload 4 is visible from no commit; under the tag policy `*`
and the branch policy `*`, which cover it, its evaluation returns false after one request,
and `handleUploads` lists it as expired. -/
theorem isUploadProtectedByPolicy_empty_first_page_witness :
    isUploadProtectedByPolicy exampleExpirer 1 [tagPolicy, treePolicy] [("*", globAny)]
      (fun _ => []) newRepositoryCache upload4 world0 =
      (.ok false, newRepositoryCache,
        { state := (), trace := [Call.CommitsVisibleToUpload 4 100 0] }) ∧
    (handleUploads exampleExpirer 1 [tagPolicy, treePolicy] [("*", globAny)] (fun _ => [])
      newRepositoryCache [upload4] world0).2.2.trace =
      [Call.CommitsVisibleToUpload 4 100 0, Call.UpdateUploadRetention [] [4]] :=
  ⟨(isUploadProtectedByPolicy_empty_first_page exampleExpirer 0 [tagPolicy, treePolicy]
      [("*", globAny)] (fun _ => []) newRepositoryCache upload4 world0 (fun _ => rfl)).1,
    (isUploadProtectedByPolicy_empty_first_page exampleExpirer 0 [tagPolicy, treePolicy]
      [("*", globAny)] (fun _ => []) newRepositoryCache upload4 world0 (fun _ => rfl)).2.1⟩

/-! ## The slow path with no policy for the upload (C37) -/

/-- C37: if for every policy of the list that retains intermediate commits
`policyCoversUpload` returns false on the upload, whatever the clock reads, then the slow
path returns false, adds no call to the trace, so it makes no `BranchesContaining` query,
and leaves the whole cache, the protected commits and the branches cache, as it was. -/
theorem isUploadProtectedByPolicySlowPath_no_covering_policy {σ : Type}
    (e : uploadExpirer σ) (policies : List ConfigurationPolicy) (patterns : Patterns)
    (cache : repositoryCache) (upload : Upload) (commits : List String) (w : World σ)
    (hno : ∀ p ∈ policies, p.RetainIntermediateCommits = true →
      ∀ w1 : World σ, (policyCoversUpload e.timeutilNow p upload w1).1 = .ok false) :
    (isUploadProtectedByPolicySlowPath e policies patterns cache upload commits w).1 =
      .ok false ∧
    (isUploadProtectedByPolicySlowPath e policies patterns cache upload commits w).2.1 =
      cache ∧
    (isUploadProtectedByPolicySlowPath e policies patterns cache upload commits w).2.2.trace =
      w.trace := by
  have hkeep : ∀ (ps : List ConfigurationPolicy) (w : World σ),
      (∀ p ∈ ps, p.RetainIntermediateCommits = true →
        ∀ w1 : World σ, (policyCoversUpload e.timeutilNow p upload w1).1 = .ok false) →
      ∃ w2 : World σ, w2.trace = w.trace ∧
        filterPolicies
          (fun policy (w : World σ) =>
            if policy.RetainIntermediateCommits then
              policyCoversUpload e.timeutilNow policy upload w
            else (.ok false, w)) ps w = (.ok [], w2) := by
    intro ps
    induction ps with
    | nil => intro w _; exact ⟨w, rfl, rfl⟩
    | cons p rest ih =>
      intro w h
      have hrest := fun w2 => ih w2 (fun q hq => h q (List.mem_cons_of_mem _ hq))
      rcases Bool.eq_false_or_eq_true p.RetainIntermediateCommits with hr | hr
      · have hp := h p (List.mem_cons_self _ _) hr w
        have htr := policyCoversUpload_trace e.timeutilNow p upload w
        rcases hcov : policyCoversUpload e.timeutilNow p upload w with ⟨r, w2⟩
        rw [hcov] at hp htr
        simp only at hp htr
        subst hp
        obtain ⟨w3, ht3, h3⟩ := hrest w2
        refine ⟨w3, ht3.trans htr, ?_⟩
        simp only [filterPolicies, hr, if_true, hcov, h3, Bool.false_eq_true, if_false]
      · obtain ⟨w3, ht3, h3⟩ := hrest w
        refine ⟨w3, ht3, ?_⟩
        simp only [filterPolicies, hr, Bool.false_eq_true, if_false, h3]
  obtain ⟨w2, ht, hk⟩ := hkeep policies w hno
  simp only [isUploadProtectedByPolicySlowPath, hk, List.length_nil, if_true]
  exact ⟨trivial, trivial, ht⟩

/-- C37, at a concrete input: with the clock at 100 the branch policy `develop` of
duration 85 that retains intermediate commits does not cover upload 1, completed at 10,
and the tag policy `*` does not retain intermediate commits, so the slow path returns
false on the page that holds `c1`, which `develop` contains, and makes no call. -/
theorem isUploadProtectedByPolicySlowPath_no_covering_policy_witness :
    (isUploadProtectedByPolicySlowPath exampleExpirer [shortDevelopPolicy, tagPolicy]
      [("develop", globExact "develop"), ("*", globAny)] newRepositoryCache upload1 ["c1"]
      world0).1 = .ok false ∧
    (isUploadProtectedByPolicySlowPath exampleExpirer [shortDevelopPolicy, tagPolicy]
      [("develop", globExact "develop"), ("*", globAny)] newRepositoryCache upload1 ["c1"]
      world0).2.1 = newRepositoryCache ∧
    (isUploadProtectedByPolicySlowPath exampleExpirer [shortDevelopPolicy, tagPolicy]
      [("develop", globExact "develop"), ("*", globAny)] newRepositoryCache upload1 ["c1"]
      world0).2.2.trace = world0.trace :=
  isUploadProtectedByPolicySlowPath_no_covering_policy exampleExpirer
    [shortDevelopPolicy, tagPolicy] [("develop", globExact "develop"), ("*", globAny)]
    newRepositoryCache upload1 ["c1"] world0
    (fun p hp hr w1 => by
      simp only [List.mem_cons, List.mem_singleton, List.not_mem_nil, or_false] at hp
      rcases hp with rfl | rfl
      · rfl
      · exact absurd hr (by decide))

end Janitor

namespace StreamHTTP

/-! ## Lemmas on `bytes.Index` -/

theorem Index_nil_pair : Index [] [10, 10] = none := by decide

theorem Index_cons_of_ne (b : Nat) (s : Bytes) (hb : b ≠ 10) :
    Index (b :: s) [10, 10] = (Index s [10, 10]).map (fun i => i + 1) := by
  simp [Index, List.isPrefixOf, Ne.symm hb]

theorem Index_append_no_newline (p s : Bytes) (hp : 10 ∉ p) :
    Index (p ++ s) [10, 10] = (Index s [10, 10]).map (fun i => i + p.length) := by
  induction p with
  | nil => simp
  | cons b rest ih =>
    have hb : b ≠ 10 := fun h => hp (by simp [h])
    have hrest : 10 ∉ rest := fun h => hp (List.mem_cons_of_mem _ h)
    rw [List.cons_append, Index_cons_of_ne _ _ hb, ih hrest]
    cases Index s [10, 10] with
    | none => rfl
    | some i => simp only [Option.map_some', List.length_cons, Nat.add_assoc]

theorem Index_no_newline (p : Bytes) (hp : 10 ∉ p) : Index p [10, 10] = none := by
  have := Index_append_no_newline p [] hp
  rw [List.append_nil, Index_nil_pair] at this
  exact this

theorem Index_newline_then (c : Nat) (t : Bytes) (hc : c ≠ 10) :
    Index (10 :: c :: t) [10, 10] = (Index (c :: t) [10, 10]).map (fun i => i + 1) := by
  have h1 : List.isPrefixOf [10, 10] (10 :: c :: t) = false := by
    simp [List.isPrefixOf, Ne.symm hc]
  rw [Index, h1]
  rfl

/-- The first two consecutive newlines of bytes that hold none and do not end in a
newline, followed by two newlines, are those two. -/
theorem Index_terminator (d : Bytes) (hnone : Index d [10, 10] = none)
    (hend : ∀ init, d ≠ init ++ [10]) :
    Index (d ++ [10, 10]) [10, 10] = some d.length := by
  induction d with
  | nil => decide
  | cons b rest ih =>
    have hrest_end : ∀ init, rest ≠ init ++ [10] := by
      intro init h
      exact hend (b :: init) (by rw [h]; rfl)
    by_cases hb : b = 10
    · subst hb
      cases rest with
      | nil => exact absurd rfl (hend [])
      | cons c t =>
        have hc : c ≠ 10 := by
          intro h
          subst h
          simp [Index, List.isPrefixOf] at hnone
        rw [Index_newline_then _ _ hc] at hnone
        have hnone2 : Index (c :: t) [10, 10] = none := by
          cases h : Index (c :: t) [10, 10] with
          | none => rfl
          | some i => rw [h] at hnone; simp at hnone
        have := ih hnone2 hrest_end
        rw [List.cons_append, List.cons_append, Index_newline_then _ _ hc]
        rw [List.cons_append] at this
        rw [this]
        rfl
    · rw [Index_cons_of_ne _ _ hb] at hnone
      have hnone2 : Index rest [10, 10] = none := by
        cases h : Index rest [10, 10] with
        | none => rfl
        | some i => rw [h] at hnone; simp at hnone
      rw [List.cons_append, Index_cons_of_ne _ _ hb, ih hnone2 hrest_end]
      rfl

theorem Index_single (x : Nat) (p s : Bytes) (hp : x ∉ p) :
    Index (p ++ x :: s) [x] = some p.length := by
  induction p with
  | nil => simp [Index, List.isPrefixOf]
  | cons b rest ih =>
    have hb : b ≠ x := fun h => hp (by simp [h])
    have hrest : x ∉ rest := fun h => hp (List.mem_cons_of_mem _ h)
    have hbx : (x == b) = false := by simpa using fun h : x = b => hb h.symm
    have h1 : List.isPrefixOf [x] (b :: (rest ++ x :: s)) = false := by
      simp [List.isPrefixOf, hbx]
    rw [List.cons_append, Index, h1, if_neg (by simp), ih hrest]
    rfl

/-- A window that ends before the first two consecutive newlines end holds no two
consecutive newlines. -/
theorem Index_take (s : Bytes) (i n : Nat) (h : Index s [10, 10] = some i)
    (hn : n < i + 2) : Index (s.take n) [10, 10] = none := by
  induction s generalizing i n with
  | nil => simp [Index_nil_pair] at h
  | cons b rest ih =>
    cases n with
    | zero => exact Index_nil_pair
    | succ n =>
      rw [List.take_succ_cons]
      by_cases hpre : List.isPrefixOf [10, 10] (b :: rest) = true
      · have hi : i = 0 := by
          simp only [Index, hpre, if_true, Option.some.injEq] at h
          exact h.symm
        subst hi
        have hn0 : n = 0 := by omega
        subst hn0
        simp only [List.isPrefixOf, Bool.and_eq_true, beq_iff_eq] at hpre
        rw [List.take_zero]
        simp [Index, List.isPrefixOf]
      · simp only [Index, hpre, Bool.false_eq_true, if_false] at h
        cases hr : Index rest [10, 10] with
        | none => rw [hr] at h; simp at h
        | some j =>
          rw [hr] at h
          simp only [Option.map_some', Option.some.injEq] at h
          have hrec := ih j n hr (by omega)
          have hpre2 : List.isPrefixOf [10, 10] (b :: rest.take n) = false := by
            cases hb : List.isPrefixOf [10, 10] (b :: rest.take n) with
            | false => rfl
            | true =>
              exfalso
              apply hpre
              cases rest with
              | nil => cases n <;> simp [List.isPrefixOf] at hb
              | cons c t =>
                cases n with
                | zero => simp [List.isPrefixOf] at hb
                | succ n =>
                  simp only [List.take_succ_cons, List.isPrefixOf, Bool.and_eq_true,
                    beq_iff_eq] at hb
                  obtain ⟨h1, h2, _⟩ := hb
                  subst h1
                  subst h2
                  simp [List.isPrefixOf]
          simp only [Index, hpre2, Bool.false_eq_true, if_false, hrec, Option.map_none']

/-! ## Lemmas on `bytes.TrimSpace` -/

theorem trimLoop_drop (width : Bytes → Nat) (n : Nat) (s : Bytes) :
    ∃ k, trimLoop width n s = s.drop k := by
  induction n generalizing s with
  | zero => exact ⟨0, rfl⟩
  | succ n ih =>
    simp only [trimLoop]
    split
    · exact ⟨0, rfl⟩
    · obtain ⟨k, hk⟩ := ih (s.drop (width s))
      exact ⟨width s + k, by rw [hk, List.drop_drop, Nat.add_comm]⟩

theorem trimLeft_length (s : Bytes) : (trimLeft s).length ≤ s.length := by
  obtain ⟨k, hk⟩ := trimLoop_drop spaceWidth s.length s
  rw [trimLeft, hk, List.length_drop]
  omega

theorem trimRight_length (s : Bytes) : (trimRight s).length ≤ s.length := by
  obtain ⟨k, hk⟩ := trimLoop_drop spaceWidthEnd s.length s.reverse
  rw [trimRight, List.length_reverse, hk, List.length_drop, List.length_reverse]
  omega

theorem trimLeft_eq_of_length (s : Bytes) (h : (trimLeft s).length = s.length) :
    trimLeft s = s := by
  obtain ⟨k, hk⟩ := trimLoop_drop spaceWidth s.length s
  rw [trimLeft, hk] at h ⊢
  rw [List.length_drop] at h
  by_cases hs : s.length = 0
  · rw [List.length_eq_zero.mp hs, List.drop_nil]
  · have : k = 0 := by omega
    rw [this, List.drop_zero]

theorem spaceWidth_ascii (b : Nat) (s : Bytes)
    (hb : b = 9 ∨ b = 10 ∨ b = 11 ∨ b = 12 ∨ b = 13 ∨ b = 32) : spaceWidth (b :: s) = 1 := by
  simp only [spaceWidth, hb, if_true]

theorem spaceWidthEnd_ascii (b : Nat) (s : Bytes)
    (hb : b = 9 ∨ b = 10 ∨ b = 11 ∨ b = 12 ∨ b = 13 ∨ b = 32) :
    spaceWidthEnd (b :: s) = 1 := by
  simp only [spaceWidthEnd, hb, if_true]

theorem trimLeft_cons_space (b : Nat) (s : Bytes)
    (hb : b = 9 ∨ b = 10 ∨ b = 11 ∨ b = 12 ∨ b = 13 ∨ b = 32) :
    trimLeft (b :: s) = trimLeft s := by
  simp only [trimLeft, List.length_cons, trimLoop, spaceWidth_ascii b s hb, one_ne_zero,
    if_false, List.drop_succ_cons, List.drop_zero]

theorem trimRight_append_space (b : Nat) (s : Bytes)
    (hb : b = 9 ∨ b = 10 ∨ b = 11 ∨ b = 12 ∨ b = 13 ∨ b = 32) :
    trimRight (s ++ [b]) = trimRight s := by
  simp only [trimRight, List.length_append, List.length_singleton, List.reverse_append,
    List.reverse_singleton, List.singleton_append, trimLoop,
    spaceWidthEnd_ascii b s.reverse hb, one_ne_zero, if_false, List.drop_succ_cons,
    List.drop_zero, List.length_reverse]

theorem TrimSpace_cons_space (b : Nat) (s : Bytes)
    (hb : b = 9 ∨ b = 10 ∨ b = 11 ∨ b = 12 ∨ b = 13 ∨ b = 32) :
    TrimSpace (b :: s) = TrimSpace s := by
  simp only [TrimSpace, trimLeft_cons_space b s hb]

/-- Bytes that trimming leaves as they are do not start with an ASCII space. -/
theorem not_cons_space_of_TrimSpace (d : Bytes) (h : TrimSpace d = d) (b : Nat)
    (rest : Bytes) (hb : b = 9 ∨ b = 10 ∨ b = 11 ∨ b = 12 ∨ b = 13 ∨ b = 32) :
    d ≠ b :: rest := by
  intro hd
  subst hd
  have h1 := congrArg List.length h
  rw [TrimSpace_cons_space b rest hb] at h1
  have h2 := trimRight_length (trimLeft rest)
  have h3 := trimLeft_length rest
  simp only [TrimSpace, List.length_cons] at h1
  omega

/-- Bytes that trimming leaves as they are do not end with an ASCII space. -/
theorem not_append_space_of_TrimSpace (d : Bytes) (h : TrimSpace d = d) (b : Nat)
    (init : Bytes) (hb : b = 9 ∨ b = 10 ∨ b = 11 ∨ b = 12 ∨ b = 13 ∨ b = 32) :
    d ≠ init ++ [b] := by
  intro hd
  have h1 := congrArg List.length h
  have h2 := trimRight_length (trimLeft d)
  have h3 := trimLeft_length d
  simp only [TrimSpace] at h1
  have hleft : trimLeft d = d := trimLeft_eq_of_length d (by omega)
  rw [hleft, hd, trimRight_append_space b init hb] at h1
  have h4 := trimRight_length init
  simp only [List.length_append, List.length_singleton] at h1
  omega

/-! ## Lemmas on the stream of one event -/

theorem ascii_pair : ascii "\n\n" = [10, 10] := by decide

theorem ascii_newline : ascii "\n" = [10] := by decide

theorem ascii_colon : ascii ":" = [58] := by decide

theorem ascii_event : ascii "event" = [101, 118, 101, 110, 116] := by decide

theorem ascii_data : ascii "data" = [100, 97, 116, 97] := by decide

theorem eventStream_eq (e d : Bytes) :
    eventStream e d =
      ([101, 118, 101, 110, 116, 58, 32] ++ e) ++
        10 :: ([100, 97, 116, 97, 58, 32] ++ d) ++ [10, 10] := by
  have h1 : ascii "event: " = [101, 118, 101, 110, 116, 58, 32] := by decide
  have h2 : ascii "\ndata: " = [10, 100, 97, 116, 97, 58, 32] := by decide
  simp only [eventStream, h1, h2, ascii_pair, List.append_assoc, List.cons_append,
    List.nil_append]

theorem eventStream_length (e d : Bytes) :
    (eventStream e d).length = 16 + e.length + d.length := by
  rw [eventStream_eq]
  simp only [List.length_append, List.length_cons, List.length_nil]
  omega

theorem Index_bound (s : Bytes) (i : Nat) (h : Index s [10, 10] = some i) :
    i + 2 ≤ s.length := by
  induction s generalizing i with
  | nil => simp [Index_nil_pair] at h
  | cons b rest ih =>
    by_cases hpre : List.isPrefixOf [10, 10] (b :: rest) = true
    · simp only [Index, hpre, if_true, Option.some.injEq] at h
      subst h
      cases rest with
      | nil => simp [List.isPrefixOf] at hpre
      | cons c t => simp
    · simp only [Index, hpre, Bool.false_eq_true, if_false] at h
      cases hr : Index rest [10, 10] with
      | none => rw [hr] at h; simp at h
      | some j =>
        rw [hr] at h
        simp only [Option.map_some', Option.some.injEq] at h
        have := ih j hr
        simp only [List.length_cons]
        omega

/-- In the stream of one event whose name holds no newline and whose payload holds no two
consecutive newlines and is left as it is by trimming, the first two consecutive newlines
are the two at the end. -/
theorem Index_eventStream (e d : Bytes) (he : 10 ∉ e) (hd : Index d [10, 10] = none)
    (hdt : TrimSpace d = d) :
    Index (eventStream e d) [10, 10] = some (14 + e.length + d.length) := by
  have hp : (10 : Nat) ∉ [101, 118, 101, 110, 116, 58, 32] ++ e := by
    intro h
    rcases List.mem_append.mp h with h | h
    · revert h; decide
    · exact he h
  have hq : (10 : Nat) ∉ [100, 97, 116, 97, 58, 32] := by decide
  have hend : ∀ init, d ≠ init ++ [10] := fun init =>
    not_append_space_of_TrimSpace d hdt 10 init (by decide)
  rw [eventStream_eq, List.append_assoc, Index_append_no_newline _ _ hp]
  have h1 : (10 :: ([100, 97, 116, 97, 58, 32] ++ d) ++ [10, 10] : Bytes) =
      10 :: 100 :: ([97, 116, 97, 58, 32] ++ (d ++ [10, 10])) := by simp
  have h2 : (100 :: ([97, 116, 97, 58, 32] ++ (d ++ [10, 10])) : Bytes) =
      [100, 97, 116, 97, 58, 32] ++ (d ++ [10, 10]) := by simp
  rw [h1, Index_newline_then _ _ (by decide), h2, Index_append_no_newline _ _ hq,
    Index_terminator d hd hend]
  simp only [Option.map_some', List.length_append, List.length_cons, List.length_nil,
    Option.some.injEq]
  omega

theorem splitColon_field (key value : Bytes) (hk : 58 ∉ key) :
    splitColon (key ++ 58 :: 32 :: value) = (TrimSpace key, TrimSpace value) := by
  have h0 : List.take key.length (key ++ 58 :: 32 :: value) = key := List.take_left' rfl
  have h1 : List.drop (key.length + 1) (key ++ 58 :: 32 :: value) = 32 :: value := by
    have h2 : key ++ 58 :: 32 :: value = (key ++ [58]) ++ 32 :: value := by simp
    rw [h2]
    exact List.drop_left' (by simp)
  simp only [splitColon, ascii_colon, Index_single 58 key (32 :: value) hk, h0, h1,
    TrimSpace_cons_space 32 value (by decide)]

/-- The scanner on the stream of one event that fits the buffer: the first `Scan` returns
the event block as its token and consumes the whole stream. -/
theorem Scanner_Scan_eventStream (maxPayloadSize : Nat) (e d : Bytes) (he : 10 ∉ e)
    (hd : Index d [10, 10] = none) (hdt : TrimSpace d = d)
    (hfit : 16 + e.length + d.length ≤ max 4096 maxPayloadSize) :
    Scanner.Scan
        { input := eventStream e d, maxTokenSize := maxPayloadSize, err := none, token := [] } =
      (true,
        { input := [], maxTokenSize := maxPayloadSize, err := none,
          token := ([101, 118, 101, 110, 116, 58, 32] ++ e) ++
            10 :: ([100, 97, 116, 97, 58, 32] ++ d) }) := by
  have hidx := Index_eventStream e d he hd hdt
  have hlen := eventStream_length e d
  have htake : (eventStream e d).take (max 4096 maxPayloadSize) = eventStream e d :=
    List.take_of_length_le (by omega)
  have hdrop : (eventStream e d).drop (14 + e.length + d.length + 2) = [] :=
    List.drop_eq_nil_of_le (by omega)
  have hblock : (eventStream e d).take (14 + e.length + d.length) =
      ([101, 118, 101, 110, 116, 58, 32] ++ e) ++ 10 :: ([100, 97, 116, 97, 58, 32] ++ d) := by
    rw [eventStream_eq]
    apply List.take_left'
    simp only [List.length_append, List.length_cons, List.length_nil]
    omega
  simp only [Scanner.Scan, Scanner.capacity, htake, split, Bool.false_and, Bool.false_eq_true,
    if_false, ascii_pair, hidx, hdrop, hblock]

/-- The scanner on an input whose first token does not fit the buffer with the two
newlines that end it: `Scan` stops with `ErrTooLong`. -/
theorem Scanner_Scan_too_long (s : Scanner) (i : Nat) (herr : s.err = none)
    (hidx : Index s.input [10, 10] = some i) (hbig : s.capacity < i + 2) :
    s.Scan =
      (false, { s with input := s.input.take s.capacity, err := some Error.ErrTooLong }) := by
  have hwin := Index_take s.input i s.capacity hidx hbig
  have hlen := Index_bound s.input i hidx
  have hnot : ¬ s.input.length < s.capacity := by omega
  simp only [Scanner.Scan, herr, split, Bool.false_and, Bool.false_eq_true, if_false,
    ascii_pair, hwin, hnot]

theorem spaceWidth_letter (rest : Bytes) : spaceWidth (97 :: rest) = 0 := by
  cases rest with
  | nil => decide
  | cons b1 r1 => cases r1 <;> simp [spaceWidth]

theorem spaceWidthEnd_letter (rest : Bytes) : spaceWidthEnd (97 :: rest) = 0 := by
  cases rest with
  | nil => decide
  | cons b1 r1 => cases r1 <;> simp [spaceWidthEnd]

theorem TrimSpace_replicate (k : Nat) :
    TrimSpace (List.replicate k 97) = List.replicate k 97 := by
  cases k with
  | zero => decide
  | succ k =>
    have hleft : trimLeft (List.replicate (k + 1) 97) = List.replicate (k + 1) 97 := by
      simp only [trimLeft, List.length_replicate, List.replicate_succ, trimLoop,
        spaceWidth_letter, if_true]
    have hright : trimRight (List.replicate (k + 1) 97) = List.replicate (k + 1) 97 := by
      simp only [trimRight, List.length_replicate, List.reverse_replicate]
      simp only [List.replicate_succ, trimLoop, spaceWidthEnd_letter, if_true]
      rw [← List.replicate_succ, List.reverse_replicate]
    rw [TrimSpace, hleft, hright]

/-! ## Decoding one well-formed event (C27) -/

/-- C27, counterexample: whatever the value of `maxPayloadSize`, there is a payload of the
letter `a` alone (no white space, no colon, no newline) with which the stream
`"event: done\ndata: " ++ payload ++ "\n\n"` is longer than the buffer of the scanner.
The first `Scan` of the decoder then returns false and `Err` is `bufio.ErrTooLong`. -/
theorem Scan_payload_too_long :
    ∃ payload : Nat → Bytes, ∀ maxPayloadSize : Nat,
      TrimSpace (ascii "done") = ascii "done" ∧
      TrimSpace (payload maxPayloadSize) = payload maxPayloadSize ∧
      58 ∉ ascii "done" ∧ 10 ∉ ascii "done" ∧
      Index (payload maxPayloadSize) (ascii "\n\n") = none ∧
      ((NewDecoder maxPayloadSize
        (eventStream (ascii "done") (payload maxPayloadSize))).Scan).1 = false ∧
      ((NewDecoder maxPayloadSize
        (eventStream (ascii "done") (payload maxPayloadSize))).Scan).2.Err =
          some Error.ErrTooLong := by
  refine ⟨fun m => List.replicate (max 4096 m) 97, fun m => ?_⟩
  have hdone : (10 : Nat) ∉ ascii "done" := by decide
  have htrim := TrimSpace_replicate (max 4096 m)
  have hnone : Index (List.replicate (max 4096 m) 97) [10, 10] = none :=
    Index_no_newline _ (fun h => by simp [List.mem_replicate] at h)
  have hidx := Index_eventStream (ascii "done") (List.replicate (max 4096 m) 97) hdone hnone
    htrim
  have hscan := Scanner_Scan_too_long
    { input := eventStream (ascii "done") (List.replicate (max 4096 m) 97),
      maxTokenSize := m, err := none, token := [] }
    (14 + (ascii "done").length + (List.replicate (max 4096 m) 97).length) rfl hidx
    (by simp only [Scanner.capacity, List.length_replicate]; omega)
  refine ⟨by decide, htrim, by decide, hdone, by rw [ascii_pair]; exact hnone, ?_, ?_⟩
  · simp only [Decoder.Scan, NewDecoder, hscan]
  · simp only [Decoder.Scan, NewDecoder, hscan, Decoder.Err, Scanner.Err]

/-- C27, as amended: for every value of `maxPayloadSize`, every event name `e` and every
payload `d` that trimming leaves as they are, where `e` holds no newline, `d` holds no two
consecutive newlines and the stream `"event: e\ndata: d\n\n"` is no longer than the buffer
of the scanner (`max 4096 maxPayloadSize` bytes), the first `Scan` returns true with
`Event` equal to `e` and `Data` equal to `d`, and the next `Scan` returns false with `Err`
nil. Colons in `d` are kept; a colon in `e` would be kept as well. -/
theorem Scan_event_stream (maxPayloadSize : Nat) (e d : Bytes)
    (he : TrimSpace e = e) (hd : TrimSpace d = d) (hnl : 10 ∉ e)
    (hpair : Index d (ascii "\n\n") = none)
    (hfit : (eventStream e d).length ≤ max 4096 maxPayloadSize) :
    ((NewDecoder maxPayloadSize (eventStream e d)).Scan).1 = true ∧
    ((NewDecoder maxPayloadSize (eventStream e d)).Scan).2.Event = e ∧
    ((NewDecoder maxPayloadSize (eventStream e d)).Scan).2.Data = d ∧
    (((NewDecoder maxPayloadSize (eventStream e d)).Scan).2.Scan).1 = false ∧
    (((NewDecoder maxPayloadSize (eventStream e d)).Scan).2.Scan).2.Err = none := by
  rw [ascii_pair] at hpair
  rw [eventStream_length] at hfit
  have hscan := Scanner_Scan_eventStream maxPayloadSize e d hnl hpair hd hfit
  have hp : (10 : Nat) ∉ [101, 118, 101, 110, 116, 58, 32] ++ e := by
    intro h
    rcases List.mem_append.mp h with h | h
    · revert h; decide
    · exact hnl h
  have hnlidx := Index_single 10 ([101, 118, 101, 110, 116, 58, 32] ++ e)
    ([100, 97, 116, 97, 58, 32] ++ d) hp
  have htake : List.take ([101, 118, 101, 110, 116, 58, 32] ++ e).length
      (([101, 118, 101, 110, 116, 58, 32] ++ e) ++ 10 :: ([100, 97, 116, 97, 58, 32] ++ d)) =
      [101, 118, 101, 110, 116, 58, 32] ++ e := List.take_left' rfl
  have hdrop : List.drop (([101, 118, 101, 110, 116, 58, 32] ++ e).length + 1)
      (([101, 118, 101, 110, 116, 58, 32] ++ e) ++ 10 :: ([100, 97, 116, 97, 58, 32] ++ d)) =
      [100, 97, 116, 97, 58, 32] ++ d := by
    have h2 : ([101, 118, 101, 110, 116, 58, 32] ++ e) ++
        10 :: ([100, 97, 116, 97, 58, 32] ++ d) =
        (([101, 118, 101, 110, 116, 58, 32] ++ e) ++ [10]) ++
          ([100, 97, 116, 97, 58, 32] ++ d) := by simp
    rw [h2]
    exact List.drop_left' (by simp)
  have hevent : splitColon ([101, 118, 101, 110, 116, 58, 32] ++ e) = (ascii "event", e) := by
    have h := splitColon_field [101, 118, 101, 110, 116] e (by decide)
    rw [he] at h
    exact h
  have hdata : splitColon ([100, 97, 116, 97, 58, 32] ++ d) = (ascii "data", d) := by
    have h := splitColon_field [100, 97, 116, 97] d (by decide)
    rw [hd] at h
    exact h
  have hfirst : (NewDecoder maxPayloadSize (eventStream e d)).Scan =
      (true,
        { scanner :=
            { input := [], maxTokenSize := maxPayloadSize, err := none,
              token := ([101, 118, 101, 110, 116, 58, 32] ++ e) ++
                10 :: ([100, 97, 116, 97, 58, 32] ++ d) },
          event := e, data := d, err := none }) := by
    simp only [Decoder.Scan, NewDecoder, hscan, Scanner.Bytes, ascii_newline, hnlidx, htake,
      hdrop, hevent, hdata, ne_eq, not_true_eq_false, if_false]
  rw [hfirst]
  refine ⟨rfl, rfl, rfl, ?_, ?_⟩
  · simp [Decoder.Scan, Scanner.Scan, Scanner.capacity, split, Index_nil_pair, ascii_pair]
  · simp [Decoder.Scan, Scanner.Scan, Scanner.capacity, split, Index_nil_pair, ascii_pair,
      Decoder.Err, Scanner.Err]

/-- C27, as amended, at a concrete input: the stream `"event: done\ndata: id: 7\n\n"`,
whose payload holds a colon, with `maxPayloadSize` zero. -/
theorem Scan_event_stream_witness :
    (TrimSpace (ascii "done") = ascii "done" ∧
      TrimSpace (ascii "id: 7") = ascii "id: 7" ∧
      10 ∉ ascii "done" ∧
      Index (ascii "id: 7") (ascii "\n\n") = none ∧
      (eventStream (ascii "done") (ascii "id: 7")).length ≤ max 4096 0) ∧
    ((NewDecoder 0 (eventStream (ascii "done") (ascii "id: 7"))).Scan).1 = true ∧
    ((NewDecoder 0 (eventStream (ascii "done") (ascii "id: 7"))).Scan).2.Event =
      ascii "done" ∧
    ((NewDecoder 0 (eventStream (ascii "done") (ascii "id: 7"))).Scan).2.Data =
      ascii "id: 7" ∧
    (((NewDecoder 0 (eventStream (ascii "done") (ascii "id: 7"))).Scan).2.Scan).1 =
      false ∧
    (((NewDecoder 0 (eventStream (ascii "done") (ascii "id: 7"))).Scan).2.Scan).2.Err =
      none :=
  ⟨⟨by decide, by decide, by decide, by decide, by decide⟩,
    Scan_event_stream 0 (ascii "done") (ascii "id: 7") (by decide) (by decide)
      (by decide) (by decide) (by decide)⟩

end StreamHTTP

namespace BatchesService

/-! ## Lemmas on the loops of `findWorkspaces` -/

theorem toBool_ok {ε α : Type} (x : Except ε α) (h : x.toBool = true) : ∃ a, x = .ok a := by
  cases x with
  | error e => simp [Except.toBool] at h
  | ok a => exact ⟨a, rfl⟩

/-- When every glob compiles, the compile loop adds no error, gives every configuration
of the list its compiled glob, and keeps the compiled globs the map already has. -/
theorem compileGlobs_ok (compile : String → Except String Glob)
    (confs : List WorkspaceConfiguration) (m : Matchers) (errs : List Error)
    (hall : allCompile compile confs = true) :
    (compileGlobs compile confs m errs).2 = errs ∧
    (∀ c ∈ confs, ∃ g, compile c.In = .ok g ∧
      (compileGlobs compile confs m errs).1.lookup c = some (some g)) ∧
    (∀ c g, compile c.In = .ok g → m.lookup c = some (some g) →
      (compileGlobs compile confs m errs).1.lookup c = some (some g)) := by
  induction confs generalizing m with
  | nil => exact ⟨rfl, fun c hc => absurd hc (List.not_mem_nil c), fun _ _ _ h => h⟩
  | cons conf rest ih =>
    simp only [allCompile, List.all_cons, Bool.and_eq_true] at hall
    obtain ⟨g, hg⟩ := toBool_ok _ hall.1
    have hstep : compileGlobs compile (conf :: rest) m errs =
        compileGlobs compile rest ((conf, some g) :: m) errs := by
      simp only [compileGlobs, hg]
    have hkeep : ∀ c g1, compile c.In = .ok g1 → m.lookup c = some (some g1) →
        List.lookup c ((conf, some g) :: m) = some (some g1) := by
      intro c g1 hc hl
      by_cases hcc : c = conf
      · subst hcc
        rw [hg] at hc
        cases hc
        simp [List.lookup]
      · have hne : (c == conf) = false := by simpa using hcc
        simp only [List.lookup, hne]
        exact hl
    obtain ⟨h1, h2, h3⟩ := ih ((conf, some g) :: m) hall.2
    rw [hstep]
    refine ⟨h1, ?_, ?_⟩
    · intro c hc
      rcases List.mem_cons.mp hc with hc | hc
      · subst hc
        exact ⟨g, hg, h3 c g hg (by simp [List.lookup])⟩
      · exact h2 c hc
    · intro c g1 hc hl
      exact h3 c g1 hc (hkeep c g1 hc hl)

theorem matchCount_cons (compile : String → Except String Glob) (conf : WorkspaceConfiguration)
    (rest : List WorkspaceConfiguration) (repoRev : RepoRevision) :
    matchCount compile (conf :: rest) repoRev =
      (if matchesIn compile conf repoRev = true then 1 else 0) +
        matchCount compile rest repoRev := by
  by_cases h : matchesIn compile conf repoRev = true
  · simp only [matchCount, List.filter_cons, h, if_true, List.length_cons]
    omega
  · simp only [matchCount, List.filter_cons, h, if_false, Bool.false_eq_true]
    omega

/-- The inner loop on configurations whose globs are in the map: with at most one match,
counting a match found before, it ends and reports whether there is one; with two or
more it stops with the validation error at a configuration that matches. -/
theorem matchConfigurations_spec (compile : String → Except String Glob) (m : Matchers)
    (repoRev : RepoRevision) (l : List WorkspaceConfiguration)
    (hm : ∀ c ∈ l, ∃ g, compile c.In = .ok g ∧ m.lookup c = some (some g))
    (idx : Nat) (found : Bool) (matched : Matched) :
    ((if found = true then 1 else 0) + matchCount compile l repoRev ≤ 1 →
      ∃ matched1, matchConfigurations m repoRev l idx found matched =
        .ok (decide ((if found = true then 1 else 0) + matchCount compile l repoRev = 1),
          matched1)) ∧
    (2 ≤ (if found = true then 1 else 0) + matchCount compile l repoRev →
      ∃ conf ∈ l, matchesIn compile conf repoRev = true ∧
        matchConfigurations m repoRev l idx found matched =
          .error (.err (.ValidationError (.Errorf
            "repository %s matches multiple workspaces.in globs in the batch spec. glob: %q"
            [repoRev.Repo.Name, conf.In])))) := by
  induction l generalizing idx found matched with
  | nil =>
    constructor
    · intro _
      refine ⟨matched, ?_⟩
      cases found <;> simp [matchConfigurations, matchCount]
    · intro h
      cases found <;> simp [matchCount] at h
  | cons conf rest ih =>
    obtain ⟨g, hg, hlook⟩ := hm conf (List.mem_cons_self _ _)
    have hrest : ∀ c ∈ rest, ∃ g, compile c.In = .ok g ∧ m.lookup c = some (some g) :=
      fun c hc => hm c (List.mem_cons_of_mem _ hc)
    have hmatch : matchesIn compile conf repoRev = g.Match repoRev.Repo.Name := by
      simp only [matchesIn, hg]
    rw [matchCount_cons]
    by_cases hyes : g.Match repoRev.Repo.Name = true
    · have hmyes : matchesIn compile conf repoRev = true := by rw [hmatch, hyes]
      rw [hmyes]
      cases found with
      | true =>
        constructor
        · intro h
          simp at h
        · intro _
          refine ⟨conf, List.mem_cons_self _ _, hmyes, ?_⟩
          simp only [matchConfigurations, hlook, hyes, Bool.not_true, Bool.false_eq_true,
            if_false, if_true]
      | false =>
        have hstep : matchConfigurations m repoRev (conf :: rest) idx false matched =
            matchConfigurations m repoRev rest (idx + 1) true
              (appendMatched matched idx repoRev) := by
          simp only [matchConfigurations, hlook, hyes, Bool.not_true, Bool.false_eq_true,
            if_false]
        obtain ⟨h1, h2⟩ := ih hrest (idx + 1) true (appendMatched matched idx repoRev)
        simp only [if_true, Bool.false_eq_true, if_false, Nat.zero_add] at h1 h2 ⊢
        rw [hstep]
        constructor
        · intro h
          exact h1 h
        · intro h
          obtain ⟨c, hc, hcm, hres⟩ := h2 h
          exact ⟨c, List.mem_cons_of_mem _ hc, hcm, hres⟩
    · have hno : g.Match repoRev.Repo.Name = false := by simpa using hyes
      have hmno : matchesIn compile conf repoRev = false := by rw [hmatch, hno]
      rw [hmno]
      have hstep : matchConfigurations m repoRev (conf :: rest) idx found matched =
          matchConfigurations m repoRev rest (idx + 1) found matched := by
        simp only [matchConfigurations, hlook, hno, Bool.not_false, if_true]
      obtain ⟨h1, h2⟩ := ih hrest (idx + 1) found matched
      simp only [Bool.false_eq_true, if_false, Nat.zero_add] at h1 h2 ⊢
      rw [hstep]
      constructor
      · intro h
        exact h1 h
      · intro h
        obtain ⟨c, hc, hcm, hres⟩ := h2 h
        exact ⟨c, List.mem_cons_of_mem _ hc, hcm, hres⟩

/-- The matching loop on configurations whose globs are in the map: if no repository
matches more than one configuration, it ends with the repositories that match none added
to `root`; otherwise it stops with the validation error for a repository that matches
two or more. -/
theorem matchRepositories_spec (compile : String → Except String Glob) (m : Matchers)
    (workspaces : List WorkspaceConfiguration)
    (hm : ∀ c ∈ workspaces, ∃ g, compile c.In = .ok g ∧ m.lookup c = some (some g))
    (repoRevs root : List RepoRevision) (matched : Matched) :
    ((∀ r ∈ repoRevs, matchCount compile workspaces r ≤ 1) →
      ∃ matched1, matchRepositories m workspaces repoRevs root matched =
        .ok (root ++ repoRevs.filter (fun r => decide (matchCount compile workspaces r = 0)),
          matched1)) ∧
    ((∃ r ∈ repoRevs, 2 ≤ matchCount compile workspaces r) →
      ∃ r ∈ repoRevs, ∃ conf ∈ workspaces, 2 ≤ matchCount compile workspaces r ∧
        matchesIn compile conf r = true ∧
        matchRepositories m workspaces repoRevs root matched =
          .error (.err (.ValidationError (.Errorf
            "repository %s matches multiple workspaces.in globs in the batch spec. glob: %q"
            [r.Repo.Name, conf.In])))) := by
  induction repoRevs generalizing root matched with
  | nil =>
    constructor
    · intro _
      exact ⟨matched, by simp [matchRepositories]⟩
    · rintro ⟨r, hr, _⟩
      exact absurd hr (List.not_mem_nil r)
  | cons repoRev rest ih =>
    obtain ⟨h1, h2⟩ := matchConfigurations_spec compile m repoRev workspaces hm 0 false matched
    simp only [Bool.false_eq_true, if_false, Nat.zero_add] at h1 h2
    by_cases hle : matchCount compile workspaces repoRev ≤ 1
    · obtain ⟨matched1, hinner⟩ := h1 hle
      have hstep : matchRepositories m workspaces (repoRev :: rest) root matched =
          matchRepositories m workspaces rest
            (if matchCount compile workspaces repoRev = 0 then root ++ [repoRev] else root)
            matched1 := by
        simp only [matchRepositories, hinner]
        by_cases h0 : matchCount compile workspaces repoRev = 0
        · simp [h0]
        · have h1 : matchCount compile workspaces repoRev = 1 := by omega
          simp [h1]
      obtain ⟨i1, i2⟩ := ih
        (if matchCount compile workspaces repoRev = 0 then root ++ [repoRev] else root) matched1
      rw [hstep]
      constructor
      · intro hall
        obtain ⟨matched2, hres⟩ := i1 (fun r hr => hall r (List.mem_cons_of_mem _ hr))
        refine ⟨matched2, ?_⟩
        rw [hres]
        by_cases h0 : matchCount compile workspaces repoRev = 0
        · simp [List.filter_cons, h0]
        · simp [List.filter_cons, h0]
      · rintro ⟨r, hr, hr2⟩
        rcases List.mem_cons.mp hr with hr | hr
        · subst hr
          omega
        · obtain ⟨r1, hr1, conf, hconf, hc2, hcm, hres⟩ := i2 ⟨r, hr, hr2⟩
          exact ⟨r1, List.mem_cons_of_mem _ hr1, conf, hconf, hc2, hcm, hres⟩
    · have hge : 2 ≤ matchCount compile workspaces repoRev := by omega
      obtain ⟨conf, hconf, hcm, hinner⟩ := h2 hge
      constructor
      · intro hall
        exact absurd (hall repoRev (List.mem_cons_self _ _)) hle
      · intro _
        refine ⟨repoRev, List.mem_cons_self _ _, conf, hconf, hge, hcm, ?_⟩
        simp only [matchRepositories, hinner]

/-! ## Repositories that match more than one workspace configuration (C29) -/

/-- C29: for every batch spec whose workspace globs all compile and every list of
repository revisions: if the name of some repository matches the globs of two or more
workspace configurations, `findWorkspaces` returns the validation error, which names a
repository of the list that matches two or more configurations and the glob of a
configuration that matches it, and it returns no workspaces; if no repository matches
more than one configuration, `findWorkspaces` goes on to the search for the directories
with the repositories that match no configuration as `root`, in their order in the list,
so a repository that matches none is not rejected. -/
theorem findWorkspaces_multiple_matches {ω : Type} (compile : String → Except String Glob)
    (locate : List RepoRevision → Matched → Result ω) (spec : BatchSpec)
    (repoRevs : List RepoRevision) (hall : allCompile compile spec.Workspaces = true) :
    ((∃ r ∈ repoRevs, 2 ≤ matchCount compile spec.Workspaces r) →
      ∃ r ∈ repoRevs, ∃ conf ∈ spec.Workspaces,
        2 ≤ matchCount compile spec.Workspaces r ∧ matchesIn compile conf r = true ∧
        findWorkspaces compile locate spec repoRevs =
          .error (.err (.ValidationError (.Errorf
            "repository %s matches multiple workspaces.in globs in the batch spec. glob: %q"
            [r.Repo.Name, conf.In])))) ∧
    ((∀ r ∈ repoRevs, matchCount compile spec.Workspaces r ≤ 1) →
      ∃ matched, findWorkspaces compile locate spec repoRevs =
        locate (repoRevs.filter (fun r => decide (matchCount compile spec.Workspaces r = 0)))
          matched) := by
  obtain ⟨herrs, hm, _⟩ := compileGlobs_ok compile spec.Workspaces [] [] hall
  obtain ⟨h1, h2⟩ := matchRepositories_spec compile
    (compileGlobs compile spec.Workspaces [] []).1 spec.Workspaces hm repoRevs [] []
  have hunfold : findWorkspaces compile locate spec repoRevs =
      (match matchRepositories (compileGlobs compile spec.Workspaces [] []).1
          spec.Workspaces repoRevs [] [] with
        | .error failure => .error failure
        | .ok (root, matched) => locate root matched) := by
    rcases hc : compileGlobs compile spec.Workspaces [] [] with ⟨m, errs⟩
    rw [hc] at herrs
    simp only at herrs
    subst herrs
    simp only [findWorkspaces, hc, List.isEmpty_nil, Bool.not_true, Bool.false_eq_true,
      if_false]
  constructor
  · intro hsome
    obtain ⟨r, hr, conf, hconf, hc2, hcm, hres⟩ := h2 hsome
    exact ⟨r, hr, conf, hconf, hc2, hcm, by rw [hunfold, hres]⟩
  · intro hle
    obtain ⟨matched, hres⟩ := h1 hle
    exact ⟨matched, by rw [hunfold, hres]; simp⟩

/-- C29, at a concrete input: with the globs `github.com/a/*` and `github.com/*`, the
repository `github.com/a/x` matches both, and `findWorkspaces` returns the validation
error for it although the repository `gitlab.com/b/y` before it matches neither. -/
theorem findWorkspaces_multiple_matches_witness :
    allCompile exampleCompile exampleSpec.Workspaces = true ∧
    matchCount exampleCompile exampleSpec.Workspaces (exampleRepoRev 1 "gitlab.com/b/y") = 0 ∧
    matchCount exampleCompile exampleSpec.Workspaces (exampleRepoRev 2 "github.com/a/x") = 2 ∧
    ∃ r ∈ [exampleRepoRev 1 "gitlab.com/b/y", exampleRepoRev 2 "github.com/a/x"],
      ∃ conf ∈ exampleSpec.Workspaces,
        2 ≤ matchCount exampleCompile exampleSpec.Workspaces r ∧
        matchesIn exampleCompile conf r = true ∧
        findWorkspaces exampleCompile
            (fun root matched => (Except.ok (root, matched) :
              Result (List RepoRevision × Matched)))
            exampleSpec
            [exampleRepoRev 1 "gitlab.com/b/y", exampleRepoRev 2 "github.com/a/x"] =
          .error (.err (.ValidationError (.Errorf
            "repository %s matches multiple workspaces.in globs in the batch spec. glob: %q"
            [r.Repo.Name, conf.In]))) :=
  ⟨by decide, by decide, by decide,
    (findWorkspaces_multiple_matches exampleCompile
      (fun root matched => (Except.ok (root, matched) : Result (List RepoRevision × Matched)))
      exampleSpec [exampleRepoRev 1 "gitlab.com/b/y", exampleRepoRev 2 "github.com/a/x"]
      (by decide)).1
      ⟨exampleRepoRev 2 "github.com/a/x", by simp, by decide⟩⟩

end BatchesService
